import Mathlib

/-!
FINGER / PECOS-HNSW: graph index and 4-bit product quantizer.

A shallow embedding of `ann/search_struct_impl/hnsw.hpp` (struct `HNSW`) and of
`ann/quantizer_impl/lec.hpp`, `x86_legacy.hpp` (struct `ProductQuantizer4Bits`).

Conventions of the embedding.

* Node ids, levels, degrees and sizes (`index_type`, an unsigned 32-bit integer) are natural
  numbers; the one product the source computes on them, `2 * M`, is reduced modulo `2 ^ 32`.
* `feat_vec_t::distance` is a capability of the feature type, which the index never inspects:
  `dist a b` stands for `distance(get_node_feat(a), get_node_feat(b))` and `qd n` for
  `distance(query, get_node_feat(n))`. The distance type `D` is any linear order.
* The two graphs are one function `g level node`, the neighbor list of `node` at `level`
  (`graph_l0` at level 0, `graph_l1` above).
* `while` loops take a `fuel` bound and fail with `Err.out_of_fuel` when it is used up;
  the theorems show which fuel is enough.
* The node loops of `train` are serial in the source (the OpenMP pragmas are commented out),
  so the per-node and global mutexes never change a result and are left out.
* The scalar type of the quantizer stands for `float`: an ordered ring for `encode`, an ordered
  field with a floor function for `setup_lut`. The arithmetic is exact; the rounding error of
  machine arithmetic is not part of the embedding.
-/

set_option autoImplicit false

namespace HNSW

/-- Ways in which a call can fail to return a value. -/
inductive Err where
  /-- The exception "Bad value of size of neighbors for this src node" of `add_link`. -/
  | bad_neighbor_size
  /-- The exception "Trying to connect an element to itself" of `add_link`. -/
  | self_connect
  /-- The exception "Should be not be more than M_ candidates returned by the heuristic". -/
  | too_many_candidates
  /-- The call `selected_neighbors.back()` on an empty vector (undefined behaviour). -/
  | back_of_empty
  /-- The dereference of `std::max_element` over an empty `node2level` (undefined behaviour). -/
  | max_element_of_empty
  /-- The fuel of a `while` loop of the embedding is used up. -/
  | out_of_fuel
deriving DecidableEq, Repr

/-- The `Pair<dist_t, index_type>` of the source: a distance and a node id. -/
structure Pair (D : Type) where
  dist : D
  node_id : Nat
deriving DecidableEq, Repr

/-- Modelled from the spec: the adjacency of `GraphL0` and `GraphL1` (the two classes are not
among the sources), "adjacency arrays with per-node out-degree header": `g level node` is what
`get_neighborhood(node, level)` lists, and its length is the stored degree. -/
abbrev Graph := Nat → Nat → List Nat

/-- Replaces the neighbor list of `node` at `level` (`clear` and `push_back` on a neighborhood). -/
def set_neighborhood (g : Graph) (level node : Nat) (l : List Nat) : Graph :=
  fun lv n => if lv = level ∧ n = node then l else g lv n

section Heaps

variable {D : Type} [LinearOrder D]

/-- Modelled from the spec: the order of `Pair` (its `operator<` is not among the sources),
"max-ordered by distance (tie-broken by ascending id)": pairs compare by distance, and pairs of
equal distance by node id. `Pair.le a b` is "not `b < a`". -/
def Pair.le (a b : Pair D) : Prop :=
  a.dist < b.dist ∨ (a.dist = b.dist ∧ a.node_id ≤ b.node_id)

/-- The mirrored order, used by the max-heap. -/
def Pair.ge (a b : Pair D) : Prop := Pair.le b a

instance Pair.decidable_le : DecidableRel (@Pair.le D _) :=
  fun a b => inferInstanceAs (Decidable (a.dist < b.dist ∨ (a.dist = b.dist ∧ a.node_id ≤ b.node_id)))

instance Pair.decidable_ge : DecidableRel (@Pair.ge D _) :=
  fun a b => inferInstanceAs (Decidable (Pair.le b a))

/-- Modelled from the spec: `heap_t<pair_t, std::less<pair_t>>` (the class is not among the
sources), "bounded max-heap over (distance, node) pairs". A max-heap is represented by its
entries in descending order, so that `top` is the head and `pop` removes the head. -/
def max_heap_emplace (x : Pair D) (h : List (Pair D)) : List (Pair D) :=
  h.orderedInsert Pair.ge x

/-- Modelled from the spec: `heap_t<pair_t, std::greater<pair_t>>`, the min-heap, represented
by its entries in ascending order. -/
def min_heap_emplace (x : Pair D) (h : List (Pair D)) : List (Pair D) :=
  h.orderedInsert Pair.le x

/-- Modelled from the spec: `std::sort_heap` on a max-heap leaves the entries in ascending order. -/
def sort_heap (h : List (Pair D)) : List (Pair D) := h.reverse

/-- Modelled from the spec: `std::sort` over a vector of pairs (ascending in the order of `Pair`). -/
def std_sort (v : List (Pair D)) : List (Pair D) := v.insertionSort Pair.le

end Heaps

section Search

variable {D : Type} [LinearOrder D]

/-- Modelled from the spec: the visited set of a searcher (`SetOfVistedNodes` is not among the
sources), "a cheap reusable visited-in-this-query marker", is the list `visited` of the nodes
marked since the last `reset`. The other fields are the two heaps of `Searcher` and the local
`topk_ub_dist` of `search_level`. -/
structure SearchState (D : Type) where
  topk_queue : List (Pair D)
  cand_queue : List (Pair D)
  visited : List Nat
  topk_ub_dist : D

/-- The body of the loop over the neighbors of the popped candidate in `search_level`. -/
def visit_neighbor (qd : Nat → D) (efS : Nat) (s : SearchState D) (next_node : Nat) :
    SearchState D :=
  if next_node ∈ s.visited then s
  else
    let visited := next_node :: s.visited
    let next_lb_dist := qd next_node
    if s.topk_queue.length < efS ∨ next_lb_dist < s.topk_ub_dist then
      let cand_queue := min_heap_emplace ⟨next_lb_dist, next_node⟩ s.cand_queue
      let topk_queue := max_heap_emplace ⟨next_lb_dist, next_node⟩ s.topk_queue
      let topk_queue := if topk_queue.length > efS then topk_queue.tail else topk_queue
      let topk_ub_dist :=
        match topk_queue with
        | [] => s.topk_ub_dist
        | t :: _ => t.dist
      ⟨topk_queue, cand_queue, visited, topk_ub_dist⟩
    else
      ⟨s.topk_queue, s.cand_queue, visited, s.topk_ub_dist⟩

/-- The best-first `while (!cand_queue.empty())` loop of `search_level`, over the neighbor lists
`nb` of one level. -/
def search_loop (qd : Nat → D) (nb : Nat → List Nat) (efS : Nat) :
    Nat → SearchState D → Except Err (SearchState D)
  | 0, _ => .error .out_of_fuel
  | fuel + 1, s =>
    match s.cand_queue with
    | [] => .ok s
    | cand_pair :: rest =>
      if s.topk_ub_dist < cand_pair.dist then .ok s
      else
        search_loop qd nb efS fuel
          ((nb cand_pair.node_id).foldl (visit_neighbor qd efS)
            ⟨s.topk_queue, rest, s.visited, s.topk_ub_dist⟩)

/-- The state of `search_level` when it enters its loop. -/
def search_init (qd : Nat → D) (init_node : Nat) : SearchState D :=
  ⟨max_heap_emplace ⟨qd init_node, init_node⟩ [], min_heap_emplace ⟨qd init_node, init_node⟩ [],
    [init_node], qd init_node⟩

/-- The method `HNSW::search_level` (Algorithm 2): the result heap, farthest entry first. -/
def search_level (qd : Nat → D) (g : Graph) (init_node efS level fuel : Nat) :
    Except Err (List (Pair D)) :=
  match search_loop qd (g level) efS fuel (search_init qd init_node) with
  | .ok s => .ok s.topk_queue
  | .error e => .error e

/-- The loop over the neighbors of the current node in the greedy descent: the state is
`(curr_node, curr_dist, changed)`. -/
def scan_neighbors (qd : Nat → D) (neighbors : List Nat) (st : Nat × D × Bool) : Nat × D × Bool :=
  neighbors.foldl
    (fun st next_node => if qd next_node < st.2.1 then (next_node, qd next_node, true) else st) st

/-- The `while (changed)` loop of the greedy descent at one level. -/
def greedy_level (qd : Nat → D) (nb : Nat → List Nat) : Nat → Nat × D → Except Err (Nat × D)
  | 0, _ => .error .out_of_fuel
  | fuel + 1, (curr_node, curr_dist) =>
    let r := scan_neighbors qd (nb curr_node) (curr_node, curr_dist, false)
    if r.2.2 then greedy_level qd nb fuel (r.1, r.2.1) else .ok (r.1, r.2.1)

/-- The greedy descent through the levels `lo + count, ..., lo + 1`, highest first. -/
def greedy_descent (qd : Nat → D) (g : Graph) (fuel lo : Nat) :
    Nat → Nat × D → Except Err (Nat × D)
  | 0, st => .ok st
  | count + 1, st =>
    match greedy_level qd (g (lo + count + 1)) fuel st with
    | .ok st1 => greedy_descent qd g fuel lo count st1
    | .error e => .error e

/-- The loop `while (topk_queue.size() > topk) topk_queue.pop()` of `predict_single`. -/
def pop_down_to (topk : Nat) : List (Pair D) → List (Pair D)
  | [] => []
  | p :: t => if (p :: t).length > topk then pop_down_to topk t else p :: t

end Search

/-- The index: the scalar fields of `HNSW` and its two graphs. -/
structure Index where
  num_node : Nat
  maxM : Nat
  maxM0 : Nat
  efC : Nat
  max_level : Nat
  init_node : Nat
  graph : Graph

section Build

variable {D : Type} [LinearOrder D]

/-- The method `HNSW::predict_single` (Algorithm 5): the pairs in the order of the returned sequence. -/
def predict_single (qd : Nat → D) (h : Index) (efS topk fuel : Nat) :
    Except Err (List (Pair D)) :=
  match greedy_descent qd h.graph fuel 0 h.max_level (h.init_node, qd h.init_node) with
  | .error e => .error e
  | .ok (curr_node, _) =>
    match search_level qd h.graph curr_node (max efS topk) 0 fuel with
    | .error e => .error e
    | .ok topk_queue =>
      .ok (sort_heap (if topk < efS then pop_down_to topk topk_queue else topk_queue))

/-- Moves every entry of a max-heap into the min-heap `queue_closest`. -/
def drain_to_min_heap : List (Pair D) → List (Pair D) → List (Pair D)
  | [], queue_closest => queue_closest
  | t :: rest, queue_closest => drain_to_min_heap rest (min_heap_emplace t queue_closest)

/-- The selection loop of `get_neighbors_heuristic` over `queue_closest`, closest first. -/
def heuristic_loop (dist : Nat → Nat → D) (M : Nat) :
    List (Pair D) → List (Pair D) → List (Pair D)
  | [], return_list => return_list
  | curent_pair :: rest, return_list =>
    if return_list.length ≥ M then return_list
    else
      let good := !(return_list.any
        (fun second_pair => decide (dist second_pair.node_id curent_pair.node_id < curent_pair.dist)))
      heuristic_loop dist M rest (if good then return_list ++ [curent_pair] else return_list)

/-- The method `HNSW::get_neighbors_heuristic` (Algorithm 4): the heap it leaves in `top_candidates`. -/
def get_neighbors_heuristic (dist : Nat → Nat → D) (top_candidates : List (Pair D)) (M : Nat) :
    List (Pair D) :=
  if top_candidates.length < M then top_candidates
  else
    (heuristic_loop dist M (drain_to_min_heap top_candidates []) []).foldl
      (fun h p => max_heap_emplace p h) []

/-- The lambda `add_link` of `mutually_connect`, at `level` with capacity `Mcurmax`. -/
def add_link (dist : Nat → Nat → D) (Mcurmax level : Nat) (g : Graph) (src dst : Nat) :
    Except Err Graph :=
  let neighbors := g level src
  if neighbors.length > Mcurmax then .error .bad_neighbor_size
  else if src = dst then .error .self_connect
  else if neighbors.length < Mcurmax then
    .ok (set_neighborhood g level src (neighbors ++ [dst]))
  else
    let candidates := neighbors.foldl (fun h n => max_heap_emplace ⟨dist src n, n⟩ h)
      (max_heap_emplace ⟨dist src dst, dst⟩ [])
    let candidates := get_neighbors_heuristic dist candidates Mcurmax
    .ok (set_neighborhood g level src (candidates.map Pair.node_id))

/-- The loop `for (auto& dst : selected_neighbors)` of `mutually_connect`. -/
def connect_selected (dist : Nat → Nat → D) (Mcurmax level src_node_id : Nat) :
    List Nat → Graph → Except Err Graph
  | [], g => .ok g
  | dst :: rest, g =>
    match add_link dist Mcurmax level g src_node_id dst with
    | .error e => .error e
    | .ok g1 =>
      match add_link dist Mcurmax level g1 dst src_node_id with
      | .error e => .error e
      | .ok g2 => connect_selected dist Mcurmax level src_node_id rest g2

/-- The method `HNSW::mutually_connect`: the graph after the call and the entry point it returns. -/
def mutually_connect (dist : Nat → Nat → D) (maxM maxM0 : Nat) (g : Graph) (src_node_id : Nat)
    (top_candidates : List (Pair D)) (level : Nat) : Except Err (Graph × Nat) :=
  let Mcurmax := if level ≠ 0 then maxM else maxM0
  let top_candidates := get_neighbors_heuristic dist top_candidates maxM
  if top_candidates.length > maxM then .error .too_many_candidates
  else
    let selected_neighbors := top_candidates.map Pair.node_id
    match connect_selected dist Mcurmax level src_node_id selected_neighbors g with
    | .error e => .error e
    | .ok g1 =>
      match selected_neighbors.getLast? with
      | none => .error .back_of_empty
      | some next_closest_entry_point => .ok (g1, next_closest_entry_point)

/-- The loop of `add_point` over the levels `level, level - 1, ..., 0`: `search_level` with
`efC`, then `mutually_connect`, whose result is the next entry point. -/
def connect_levels (dist : Nat → Nat → D) (maxM maxM0 efC fuel query_id : Nat) :
    Nat → Graph → Nat → Except Err (Graph × Nat)
  | 0, g, curr_node =>
    match search_level (dist query_id) g curr_node efC 0 fuel with
    | .error e => .error e
    | .ok top_candidates => mutually_connect dist maxM maxM0 g query_id top_candidates 0
  | level + 1, g, curr_node =>
    match search_level (dist query_id) g curr_node efC (level + 1) fuel with
    | .error e => .error e
    | .ok top_candidates =>
      match mutually_connect dist maxM maxM0 g query_id top_candidates (level + 1) with
      | .error e => .error e
      | .ok (g1, next) => connect_levels dist maxM maxM0 efC fuel query_id level g1 next

/-- The functor `add_point` of `train`. -/
def add_point (dist : Nat → Nat → D) (node2level : Nat → Nat) (fuel : Nat) (h : Index)
    (query_id : Nat) : Except Err Index :=
  let query_level := node2level query_id
  let max_level := h.max_level
  let curr_node := h.init_node
  if query_id = 0 then
    .ok { h with init_node := query_id, max_level := query_level }
  else
    let entry : Except Err Nat :=
      if query_level < max_level then
        match greedy_descent (dist query_id) h.graph fuel query_level (max_level - query_level)
            (curr_node, dist query_id curr_node) with
        | .error e => .error e
        | .ok st => .ok st.1
      else .ok curr_node
    match entry with
    | .error e => .error e
    | .ok curr_node =>
      match connect_levels dist h.maxM h.maxM0 h.efC fuel query_id (min query_level max_level)
          h.graph curr_node with
      | .error e => .error e
      | .ok (g1, _) =>
        if query_level > h.max_level then
          .ok { h with graph := g1, max_level := query_level, init_node := query_id }
        else .ok { h with graph := g1 }

/-- The loop `for (node_id = 0; node_id < num_node; node_id++) add_point(node_id, ...)`,
over the node ids `node_id, node_id + 1, ...`, `count` of them. -/
def add_points (dist : Nat → Nat → D) (node2level : Nat → Nat) (fuel : Nat) :
    Nat → Nat → Index → Except Err Index
  | 0, _, h => .ok h
  | count + 1, node_id, h =>
    match add_point dist node2level fuel h node_id with
    | .error e => .error e
    | .ok h1 => add_points dist node2level fuel count (node_id + 1) h1

/-- The loop over the levels `level, level + 1, ...` (`count` of them) of
`sort_neighbors_for_node`; an empty neighborhood makes the lambda return. -/
def sort_levels (dist : Nat → Nat → D) (node_id : Nat) : Nat → Nat → Graph → Graph
  | 0, _, g => g
  | count + 1, level, g =>
    let neighbors := g level node_id
    if neighbors.length = 0 then g
    else
      let queue := std_sort (neighbors.map (fun n => (⟨dist node_id n, n⟩ : Pair D)))
      sort_levels dist node_id count (level + 1)
        (set_neighborhood g level node_id (queue.map Pair.node_id))

/-- The lambda `sort_neighbors_for_node` of `train`. -/
def sort_neighbors_for_node (dist : Nat → Nat → D) (node2level : Nat → Nat) (g : Graph)
    (node_id : Nat) : Graph :=
  sort_levels dist node_id (node2level node_id + 1) 0 g

/-- The levels `train` uses: the sampled level, capped when `max_level_upper_bound >= 0`. -/
def node2level (sampled : Nat → Nat) (max_level_upper_bound : Int) (node_id : Nat) : Nat :=
  if 0 ≤ max_level_upper_bound then min (sampled node_id) max_level_upper_bound.toNat
  else sampled node_id

/-- The method `HNSW::train` (Algorithm 1) on a matrix of `rows` rows. `sampled node_id` is the value
`(index_type)(-log(rng.uniform(0.0, 1.0)) * mult_l)` drawn for the node. -/
def train (dist : Nat → Nat → D) (rows M efC : Nat) (sampled : Nat → Nat)
    (max_level_upper_bound : Int) (fuel : Nat) : Except Err Index :=
  let lv := node2level sampled max_level_upper_bound
  if rows = 0 then .error .max_element_of_empty
  else
    match add_points dist lv fuel rows 0
        ⟨rows, M, (2 * M) % 2 ^ 32, efC, 0, 0, fun _ _ => []⟩ with
    | .error e => .error e
    | .ok h =>
      .ok { h with graph := (List.range rows).foldl (sort_neighbors_for_node dist lv) h.graph }

end Build

end HNSW

namespace HNSW

section OrderFacts

variable {D : Type} [LinearOrder D]

instance Pair.le_isTotal : IsTotal (Pair D) Pair.le := ⟨by
  intro a b
  unfold Pair.le
  rcases lt_trichotomy a.dist b.dist with h | h | h
  · exact Or.inl (Or.inl h)
  · rcases Nat.le_total a.node_id b.node_id with h1 | h1
    · exact Or.inl (Or.inr ⟨h, h1⟩)
    · exact Or.inr (Or.inr ⟨h.symm, h1⟩)
  · exact Or.inr (Or.inl h)⟩

instance Pair.le_isTrans : IsTrans (Pair D) Pair.le := ⟨by
  intro a b c h1 h2
  unfold Pair.le at *
  rcases h1 with h1 | ⟨h1, h1'⟩ <;> rcases h2 with h2 | ⟨h2, h2'⟩
  · exact Or.inl (lt_trans h1 h2)
  · exact Or.inl (h2 ▸ h1)
  · exact Or.inl (h1 ▸ h2)
  · exact Or.inr ⟨h1.trans h2, Nat.le_trans h1' h2'⟩⟩

instance Pair.le_isAntisymm : IsAntisymm (Pair D) Pair.le := ⟨by
  intro a b h1 h2
  unfold Pair.le at *
  cases a; cases b
  simp only at h1 h2
  rcases h1 with h1 | ⟨h1, h1'⟩ <;> rcases h2 with h2 | ⟨h2, h2'⟩
  · exact absurd h1 (lt_asymm h2)
  · exact absurd h1 (h2 ▸ lt_irrefl _)
  · exact absurd h2 (h1 ▸ lt_irrefl _)
  · rw [h1, Nat.le_antisymm h1' h2']⟩

instance Pair.ge_isTotal : IsTotal (Pair D) Pair.ge := ⟨fun a b => Pair.le_isTotal.total b a⟩

instance Pair.ge_isTrans : IsTrans (Pair D) Pair.ge :=
  ⟨fun a b c h1 h2 => Pair.le_isTrans.trans c b a h2 h1⟩

instance Pair.ge_isAntisymm : IsAntisymm (Pair D) Pair.ge :=
  ⟨fun a b h1 h2 => Pair.le_isAntisymm.antisymm a b h2 h1⟩

/-- The invariant of the loop of `search_level`. -/
structure SearchInv (qd : Nat → D) (efS : Nat) (s : SearchState D) : Prop where
  topk_sorted : s.topk_queue.Sorted Pair.ge
  cand_sorted : s.cand_queue.Sorted Pair.le
  topk_ne : s.topk_queue ≠ []
  topk_len : s.topk_queue.length ≤ max efS 1
  topk_dist : ∀ p ∈ s.topk_queue, p.dist = qd p.node_id
  cand_dist : ∀ p ∈ s.cand_queue, p.dist = qd p.node_id
  topk_vis : ∀ p ∈ s.topk_queue, p.node_id ∈ s.visited
  cand_vis : ∀ p ∈ s.cand_queue, p.node_id ∈ s.visited
  vis_nodup : s.visited.Nodup
  topk_nodup : (s.topk_queue.map Pair.node_id).Nodup
  cand_nodup : (s.cand_queue.map Pair.node_id).Nodup
  ub_eq : ∀ t rest, s.topk_queue = t :: rest → s.topk_ub_dist = t.dist

/-- What the loop of `search_level` still has to do: the queued candidates and the nodes of
`[0, n)` not yet visited. -/
def search_measure (n : Nat) (s : SearchState D) : Nat :=
  s.cand_queue.length + (n - s.visited.length)

/-- The nodes of `[0, n)` strictly closer to the query than `d`. -/
def closer_count (qd : Nat → D) (n : Nat) (d : D) : Nat :=
  ((Finset.range n).filter (fun x => qd x < d)).card

/-- The regime in which the beam never overflows: every visited node is below `q`, `q` is at
most the beam width, and every visited node is in the result heap. -/
structure NoEviction (qd : Nat → D) (efS q : Nat) (s : SearchState D) : Prop where
  inv : SearchInv qd efS s
  vis_lt : ∀ x ∈ s.visited, x < q
  vis_topk : ∀ x ∈ s.visited, x ∈ s.topk_queue.map Pair.node_id

end OrderFacts

/-- Every neighbor id and the entry point are nodes of the index. -/
def Index.well_formed (h : Index) : Prop :=
  h.init_node < h.num_node ∧ ∀ l y x, x ∈ h.graph l y → x < h.num_node

/-- Every neighbor list holds at most its capacity: `maxM0` at level 0, `maxM` above. -/
def degree_bounded (maxM maxM0 : Nat) (g : Graph) : Prop :=
  ∀ lv n, (g lv n).length ≤ if lv ≠ 0 then maxM else maxM0

/-- No neighbor list contains its own node. -/
def no_self_loop (g : Graph) : Prop := ∀ lv n, n ∉ g lv n

/-- The index of the small examples: three nodes on one level, entry point 0. -/
def example_index : Index :=
  ⟨3, 2, 4, 3, 0, 0, fun l n => if l = 0 then [[1, 2], [0, 2], [0, 1]].getD n [] else []⟩

/-- The query of the small examples, at distances 4, 1 and 9 of the nodes 0, 1 and 2. -/
def example_qd : Nat → Nat := fun n => [4, 1, 9].getD n 0

/-- Four points on a line, at 0, 3, 4 and 10. -/
def example_dist : Nat → Nat → Nat := fun a b =>
  ([0, 3, 4, 10].getD a 0 - [0, 3, 4, 10].getD b 0) ^ 2 + ([0, 3, 4, 10].getD b 0 - [0, 3, 4, 10].getD a 0) ^ 2

end HNSW

namespace HNSW

/-- The state of a build in which no list ever fills up, when the nodes below `q` are in:
the lists hold only nodes below `q`, at most `q` of them, and level 0 links every two nodes. -/
structure SmallInv (M efC q : Nat) (h : Index) : Prop where
  maxM_eq : h.maxM = M
  maxM0_eq : h.maxM0 = 2 * M
  efC_eq : h.efC = efC
  ids : ∀ l y x, x ∈ h.graph l y → x < q ∧ y < q
  len : ∀ l y, (h.graph l y).length ≤ q
  complete : ∀ x y, x < q → y < q → x ≠ y → y ∈ h.graph 0 x
  init_lt : q ≠ 0 → h.init_node < q

/-- The state of such a build while node `q` is being inserted, before `level` is processed:
`q` is linked at the levels above `level` only. -/
structure SmallLevelInv (q level : Nat) (g : Graph) (curr : Nat) : Prop where
  curr_lt : curr < q
  ids : ∀ l y x, x ∈ g l y → x ≤ q ∧ y ≤ q
  ids_low : ∀ l y x, l ≤ level → x ∈ g l y → x < q ∧ y < q
  len : ∀ l y, (g l y).length ≤ q + 1
  len_low : ∀ l y, l ≤ level → (g l y).length ≤ q
  complete : ∀ x y, x < q → y < q → x ≠ y → y ∈ g 0 x

/-- The graph part of `SmallInv`. -/
structure SmallGraph (q : Nat) (g : Graph) : Prop where
  ids : ∀ l y x, x ∈ g l y → x < q ∧ y < q
  len : ∀ l y, (g l y).length ≤ q
  complete : ∀ x y, x < q → y < q → x ≠ y → y ∈ g 0 x

section
variable {D : Type} [LinearOrder D]

/-- The brute-force answer: every stored point with its distance to the query, in ascending
order (ties by ascending id), truncated to `k`. -/
def brute_force_top_k (qd : Nat → D) (rows k : Nat) : List (Pair D) :=
  (std_sort ((List.range rows).map (fun i => (⟨qd i, i⟩ : Pair D)))).take k

end

/-- Node `b` can be reached from node `a` by following level-0 out-edges. -/
def reachable (g : Graph) (a b : Nat) : Prop :=
  Relation.ReflTransGen (fun x y => y ∈ g 0 x) a b

end HNSW
/-- A `float`: the sign bit, the 8 exponent bits and the 23 fraction bits of an IEEE 754
binary32 value. -/
structure Float32 where
  sign : Bool
  exponent : Fin 256
  fraction : Fin 8388608
deriving DecidableEq

namespace Float32

/-- Not-a-number: all exponent bits set and a fraction that is not zero. -/
def is_nan (x : Float32) : Bool := x.exponent.val = 255 && x.fraction.val != 0

/-- An infinity: all exponent bits set and the fraction zero. -/
def is_inf (x : Float32) : Bool := x.exponent.val = 255 && x.fraction.val = 0

/-- A zero, of either sign. -/
def is_zero (x : Float32) : Bool := x.exponent.val = 0 && x.fraction.val = 0

/-- The magnitude of a finite value as a multiple of `2 ^ (-149)`, the smallest positive
`float`: the fraction alone for a subnormal value, the fraction with its leading bit shifted by
the exponent otherwise. -/
def units (x : Float32) : Nat :=
  if x.exponent.val = 0 then x.fraction.val
  else (8388608 + x.fraction.val) * 2 ^ (x.exponent.val - 1)

/-- The finite value as a signed multiple of `2 ^ (-149)`. -/
def signed_units (x : Float32) : Int := if x.sign then -(x.units : Int) else (x.units : Int)

/-- The zero of the given sign. -/
def zero (sign : Bool) : Float32 := ⟨sign, 0, 0⟩

/-- The infinity of the given sign. -/
def inf (sign : Bool) : Float32 := ⟨sign, 255, 0⟩

/-- The not-a-number that an operation returns. It stands for every not-a-number: no comparison
and no conversion reads the sign or the fraction of one. -/
def nan : Float32 := ⟨false, 255, 4194304⟩

/-- The number of binary digits of `n`, counted by halving; `fuel` bounds the number of
steps. -/
def bit_length_loop : Nat → Nat → Nat → Nat
  | 0, _, acc => acc
  | fuel + 1, n, acc => if n = 0 then acc else bit_length_loop fuel (n / 2) (acc + 1)

/-- The number of binary digits of `n`: 0 for 0, and `k + 1` when `2 ^ k <= n < 2 ^ (k + 1)`. -/
def bit_length (n : Nat) : Nat := bit_length_loop n n 0

/-- The integer nearest to `n / d`, the even one when two are as near. -/
def round_half_even (n d : Nat) : Nat :=
  if 2 * (n % d) < d then n / d
  else if d < 2 * (n % d) then n / d + 1
  else if n / d % 2 = 0 then n / d else n / d + 1

/-- The `float` of magnitude `u * 2 ^ (-149)`, for a `u` that a `float` can hold (`u` has at
most 24 significant bits); the infinity when the exponent is too large. -/
def of_units (sign : Bool) (u : Nat) : Float32 :=
  if u < 8388608 then ⟨sign, 0, Fin.ofNat u⟩
  else
    let e := bit_length u - 24
    if 254 ≤ e then inf sign
    else ⟨sign, Fin.ofNat (e + 1), Fin.ofNat (u / 2 ^ e - 8388608)⟩

/-- Rounding to nearest, ties to even: the `float` nearest to the real number
`num / den * 2 ^ (-149)`, of the given sign. The quotient is cut to 24 significant bits, or at
the bit `2 ^ (-149)` when it is smaller than `2 ^ (-126)` (gradual underflow), and a quotient
that rounds to `2 ^ 128` or more gives the infinity. -/
def round (sign : Bool) (num den : Nat) : Float32 :=
  let e := bit_length (num / den) - 24
  of_units sign (round_half_even num (den * 2 ^ e) * 2 ^ e)

/-- The sum of two `float`, rounded once. -/
def add (a b : Float32) : Float32 :=
  if a.is_nan || b.is_nan then nan
  else if a.is_inf then (if b.is_inf && (a.sign != b.sign) then nan else a)
  else if b.is_inf then b
  else
    let s := a.signed_units + b.signed_units
    if s = 0 then zero (a.sign && b.sign)
    else round (decide (s < 0)) s.natAbs 1

/-- The opposite: the sign bit is flipped. -/
def neg (a : Float32) : Float32 := ⟨!a.sign, a.exponent, a.fraction⟩

/-- The difference of two `float`, rounded once. -/
def sub (a b : Float32) : Float32 := add a (neg b)

/-- The product of two `float`, rounded once. -/
def mul (a b : Float32) : Float32 :=
  if a.is_nan || b.is_nan then nan
  else if a.is_inf || b.is_inf then
    (if a.is_zero || b.is_zero then nan else inf (a.sign != b.sign))
  else round (a.sign != b.sign) (a.units * b.units) (2 ^ 149)

/-- The quotient of two `float`, rounded once. -/
def div (a b : Float32) : Float32 :=
  if a.is_nan || b.is_nan then nan
  else if a.is_inf then (if b.is_inf then nan else inf (a.sign != b.sign))
  else if b.is_inf then zero (a.sign != b.sign)
  else if b.is_zero then (if a.is_zero then nan else inf (a.sign != b.sign))
  else round (a.sign != b.sign) (a.units * 2 ^ 149) b.units

/-- The `double` nearest to `num / den`, as a fraction: the quotient cut to 53 significant
bits, ties to even. The quotients it is used for are far inside the range of `double`. -/
def round_double (num den : Nat) : Nat × Nat :=
  if num = 0 then (0, 1)
  else
    let k := 53 + bit_length den
    let s := bit_length (num * 2 ^ k / den) - 53
    (round_half_even (num * 2 ^ k) (den * 2 ^ s) * 2 ^ s, 2 ^ k)

/-- The expression `a / c` for a `float a` and a positive `double` constant `c` that is an
integer, assigned to a `float`: `a` is converted to `double`, the division is done in `double`
and the quotient is converted to `float`. -/
def div_double (a : Float32) (c : Nat) : Float32 :=
  if a.is_nan then nan
  else if a.is_inf then a
  else round a.sign (round_double a.units c).1 (round_double a.units c).2

/-- The order key of a value that is not not-a-number: the exponent and the fraction read as
one integer, with the sign. Both zeros have the key 0. -/
def key (x : Float32) : Int :=
  if x.sign then -((x.exponent.val * 8388608 + x.fraction.val : Nat) : Int)
  else ((x.exponent.val * 8388608 + x.fraction.val : Nat) : Int)

/-- The comparison `a < b` of two `float`: false when one of them is not-a-number. -/
def lt (a b : Float32) : Bool := !a.is_nan && !b.is_nan && decide (a.key < b.key)

/-- The conversion of an unsigned integer to `float`, rounded to nearest. -/
def of_nat (n : Nat) : Float32 := round false (n * 2 ^ 149) 1

/-- The conversion of a signed integer to `float`, rounded to nearest. -/
def of_int : Int → Float32
  | .ofNat n => of_nat n
  | .negSucc n => neg (of_nat (n + 1))

/-- The integer that `std::round` returns (as a `float`): the nearest integer, halves away
from zero. There is none for an infinity or not-a-number, which `std::round` returns
unchanged. -/
def std_round (x : Float32) : Option Int :=
  if x.is_nan || x.is_inf then none
  else if x.sign then some (-(((x.units + 2 ^ 148) / 2 ^ 149 : Nat) : Int))
  else some (((x.units + 2 ^ 148) / 2 ^ 149 : Nat) : Int)

/-- The integer that `_mm512_roundscale_ps` with `_MM_FROUND_TO_NEAREST_INT` returns (as a
`float`) in a lane: the nearest integer, halves to the even one. There is none for an infinity
or not-a-number. -/
def round_nearest_even (x : Float32) : Option Int :=
  if x.is_nan || x.is_inf then none
  else if x.sign then some (-((round_half_even x.units (2 ^ 149) : Nat) : Int))
  else some ((round_half_even x.units (2 ^ 149) : Nat) : Int)

instance instZero : Zero Float32 := ⟨zero false⟩

instance instAdd : Add Float32 := ⟨add⟩

instance instSub : Sub Float32 := ⟨sub⟩

instance instMul : Mul Float32 := ⟨mul⟩

instance instDiv : Div Float32 := ⟨div⟩

instance instNeg : Neg Float32 := ⟨neg⟩

instance instLT : LT Float32 := ⟨fun a b => lt a b = true⟩

instance instDecidableLT (a b : Float32) : Decidable (a < b) :=
  inferInstanceAs (Decidable (lt a b = true))

instance instNatCast : NatCast Float32 := ⟨of_nat⟩

instance instIntCast : IntCast Float32 := ⟨of_int⟩

end Float32

/-- The constant `std::numeric_limits<float>::max()`, `(2 ^ 24 - 1) * 2 ^ 104`. -/
def FLT_MAX : Float32 := ⟨false, 254, 8388607⟩

/-- The constant `std::numeric_limits<float>::min()`, the smallest positive normal `float`,
`2 ^ (-126)`. -/
def FLT_MIN : Float32 := ⟨false, 1, 0⟩
namespace ProductQuantizer4Bits

/-- The fields of `ProductQuantizer4Bits`, over a scalar type `R` that stands for `float`
(`Float32` with its rounded operations; the integers in examples that need no rounding);
`num_of_local_centroids` is the constant 16. -/
structure Quantizer (R : Type) where
  num_local_codebooks : Nat
  local_dimension : Nat
  global_centroid : List R
  local_codebooks : List R
  original_local_codebooks : List R

/-- The loop of `std::min_element` after the first element: `res` is the position of the
smallest element so far, `best` its value, `i` the position of the next element. -/
def min_element_loop {R : Type} [LT R] [DecidableRel (fun a b : R => a < b)] :
    List R → Nat → Nat → R → Nat
  | [], _, res, _ => res
  | x :: xs, i, res, best =>
    if x < best then min_element_loop xs (i + 1) i x else min_element_loop xs (i + 1) res best

/-- The value of `std::distance(results.begin(), std::min_element(results.begin(), results.end()))`. -/
def min_element {R : Type} [LT R] [DecidableRel (fun a b : R => a < b)] : List R → Nat
  | [] => 0
  | x :: xs => min_element_loop xs 1 0 x

/-- The function `std::max`: `(a < b) ? b : a`. -/
def std_max {R : Type} [LT R] [DecidableRel (fun a b : R => a < b)] (a b : R) : R :=
  if a < b then b else a

/-- The function `std::min`: `(b < a) ? b : a`. -/
def std_min {R : Type} [LT R] [DecidableRel (fun a b : R => a < b)] (a b : R) : R :=
  if b < a then b else a

/-- The values `f 0, ..., f (n - 1)` in this order, when they all exist. -/
def gather {α : Type} (f : Nat → Option α) : Nat → Option (List α)
  | 0 => some []
  | n + 1 => (gather f n).bind (fun l => (f n).map (fun a => l ++ [a]))

section Encode

variable {R : Type} [Zero R] [Add R] [Sub R] [Mul R]

/-- The value `v` that `encode` pushes for sub-space `d` and centroid `k`. `query` is the
array of the caller; there is no value when a subscript is outside its vector or outside
`query`. -/
def encode_distance (pq : Quantizer R) (query : List R) (d k : Nat) : Option R :=
  (List.range pq.local_dimension).foldlM
    (fun v j =>
      (pq.original_local_codebooks[d * 16 * pq.local_dimension + k * pq.local_dimension + j]?).bind
        (fun c => (query[d * pq.local_dimension + j]?).bind
          (fun q => (pq.global_centroid[d * pq.local_dimension + j]?).map
            (fun g =>
              let tmp_v := c - (q - g)
              v + tmp_v * tmp_v))))
    0

/-- The vector `results` of `encode` for sub-space `d`: the 16 values `v`. -/
def encode_results (pq : Quantizer R) (query : List R) (d : Nat) : Option (List R) :=
  gather (encode_distance pq query d) 16

/-- The method `ProductQuantizer4Bits::encode`: the bytes
`codes[0], ..., codes[num_local_codebooks - 1]`. -/
def encode [LT R] [DecidableRel (fun a b : R => a < b)] (pq : Quantizer R) (query : List R) :
    Option (List Nat) :=
  gather (fun d => (encode_results pq query d).map (fun results => min_element results % 256))
    pq.num_local_codebooks

/-- The value `tmp_v` that the scalar `setup_lut` stores in `raw_dist[d * 16 + k]`; there is no
value when a subscript is outside its vector or outside `query`. -/
def lut_distance (pq : Quantizer R) (query : List R) (d k : Nat) : Option R :=
  (List.range pq.local_dimension).foldlM
    (fun tmp_v j =>
      (query[d * pq.local_dimension + j]?).bind
        (fun q => (pq.global_centroid[d * pq.local_dimension + j]?).bind
          (fun g =>
            (pq.local_codebooks[d * 16 * pq.local_dimension + k * pq.local_dimension + j]?).map
              (fun c =>
                let v := (q - g) - c
                tmp_v + v * v))))
    0

/-- The table `raw_dist` of the scalar `setup_lut`, position `d * 16 + k` by position. -/
def raw_dist (pq : Quantizer R) (query : List R) : Option (List R) :=
  gather (fun p => lut_distance pq query (p / 16) (p % 16)) (pq.num_local_codebooks * 16)

end Encode

/-- The byte stored for a raw distance by the scalar `setup_lut`:
`std::round((raw - bias) / scale)`, computed in `float`, converted to `uint8_t`. There is no
byte when the rounded value is not a number of `[0, 255]`: the conversion is then undefined. -/
def lut_entry (scale bias raw : Float32) : Option Nat :=
  match Float32.std_round ((raw - bias) / scale) with
  | none => none
  | some v => if 0 ≤ v ∧ v ≤ 255 then some v.toNat else none

/-- The scalar `ProductQuantizer4Bits::setup_lut` (`lec.hpp` and the default target of
`x86_legacy.hpp`): the bytes written to `lut`, then `scale` and `bias`. The quotient
`(max - min) / 255.0` is taken in `double` and stored in a `float`. There is no result when a
subscript is outside its vector or outside `query`. -/
def setup_lut (pq : Quantizer Float32) (query : List Float32) :
    Option (List (Option Nat) × Float32 × Float32) :=
  (raw_dist pq query).map (fun raw =>
    let max := raw.foldl (fun max tmp_v => std_max max tmp_v) FLT_MIN
    let min := raw.foldl (fun min tmp_v => std_min min tmp_v) FLT_MAX
    let bias := min
    let scale := Float32.div_double (max - min) 255
    (raw.map (lut_entry scale bias), scale, bias))

/-- One sub-codebook of dimension one over the integers, with the centroids 0, 1, ..., 15. -/
def example_quantizer_int : Quantizer Int :=
  ⟨1, 1, [0], [0, 1, 2, 3, 4, 5, 6, 7, 8, 9, 10, 11, 12, 13, 14, 15],
    [0, 1, 2, 3, 4, 5, 6, 7, 8, 9, 10, 11, 12, 13, 14, 15]⟩

end ProductQuantizer4Bits
namespace ProductQuantizer4Bits

section Values

variable {R : Type} [Zero R] [Add R] [Sub R] [Mul R]

/-- The value `v` of `encode` for sub-space `d` and centroid `k`, when every subscript is
inside its vector: the sum, in the order of the loop, of the squares of
`original_local_codebooks[d, k, j] - (query[d, j] - global_centroid[d, j])`. -/
def encode_value (pq : Quantizer R) (query : List R) (d k : Nat) : R :=
  (List.range pq.local_dimension).foldl
    (fun v j =>
      v + (pq.original_local_codebooks.getD
            (d * 16 * pq.local_dimension + k * pq.local_dimension + j) 0
          - (query.getD (d * pq.local_dimension + j) 0
            - pq.global_centroid.getD (d * pq.local_dimension + j) 0))
        * (pq.original_local_codebooks.getD
            (d * 16 * pq.local_dimension + k * pq.local_dimension + j) 0
          - (query.getD (d * pq.local_dimension + j) 0
            - pq.global_centroid.getD (d * pq.local_dimension + j) 0)))
    0

/-- The value `tmp_v` of the scalar `setup_lut` for sub-space `d` and centroid `k`, when every
subscript is inside its vector: the sum, in the order of the loop, of the squares of
`(query[d, j] - global_centroid[d, j]) - local_codebooks[d, k, j]`. -/
def lut_value (pq : Quantizer R) (query : List R) (d k : Nat) : R :=
  (List.range pq.local_dimension).foldl
    (fun tmp_v j =>
      tmp_v + ((query.getD (d * pq.local_dimension + j) 0
            - pq.global_centroid.getD (d * pq.local_dimension + j) 0)
          - pq.local_codebooks.getD
            (d * 16 * pq.local_dimension + k * pq.local_dimension + j) 0)
        * ((query.getD (d * pq.local_dimension + j) 0
            - pq.global_centroid.getD (d * pq.local_dimension + j) 0)
          - pq.local_codebooks.getD
            (d * 16 * pq.local_dimension + k * pq.local_dimension + j) 0))
    0

end Values

/-- The squared L2 distance of the specification between centroid `c` of sub-space `m` and the
slice of `x` minus the slice of `global_centroid`, in exact arithmetic on the values that the
`float` hold: an integer multiple of `2 ^ (-298)`. -/
def squared_l2_distance (pq : Quantizer Float32) (x : List Float32) (m c : Nat) : Int :=
  ((List.range pq.local_dimension).map (fun j =>
    ((pq.original_local_codebooks.getD
          (m * 16 * pq.local_dimension + c * pq.local_dimension + j) 0).signed_units
      - ((x.getD (m * pq.local_dimension + j) 0).signed_units
        - (pq.global_centroid.getD (m * pq.local_dimension + j) 0).signed_units)) ^ 2)).sum

end ProductQuantizer4Bits

namespace HNSW

/-- Squared Euclidean distance between two points of the plane. -/
def l2_sq (a b : ℚ × ℚ) : ℚ := (a.1 - b.1) * (a.1 - b.1) + (a.2 - b.2) * (a.2 - b.2)

/-- The four points of the `Tiny L2` scenario. -/
def tiny_points : Nat → ℚ × ℚ := fun i => [(0, 0), (1, 0), (0, 1), (10, 10)].getD i (0, 0)

/-- Distances between the stored points of the `Tiny L2` scenario. -/
def tiny_dist : Nat → Nat → ℚ := fun a b => l2_sq (tiny_points a) (tiny_points b)

/-- Distances from the query `(0.1, 0.1)` of the `Tiny L2` scenario. -/
def tiny_qd : Nat → ℚ := fun i => l2_sq (1 / 10, 1 / 10) (tiny_points i)

/-- Two points at distance 1 of each other. -/
def pair_dist : Nat → Nat → Nat := fun a b => if a = b then 0 else 1

/-- Six points on a line, at 8, 5, 0, 7, 6 and 4. -/
def line_dist : Nat → Nat → Nat := fun a b =>
  ([8, 5, 0, 7, 6, 4].getD a 0 - [8, 5, 0, 7, 6, 4].getD b 0) ^ 2
    + ([8, 5, 0, 7, 6, 4].getD b 0 - [8, 5, 0, 7, 6, 4].getD a 0) ^ 2

/-- Three points on a line, at 0, 10 and 1. -/
def three_dist : Nat → Nat → Nat := fun a b =>
  ([0, 10, 1].getD a 0 - [0, 10, 1].getD b 0) ^ 2 + ([0, 10, 1].getD b 0 - [0, 10, 1].getD a 0) ^ 2

end HNSW

namespace HNSW

section
variable {D : Type} [LinearOrder D]

/-- The list `l` of neighbors of node `x` is in non-decreasing order of distance from `x`. -/
def neighbors_sorted (dist : Nat → Nat → D) (x : Nat) (l : List Nat) : Prop :=
  l.Sorted (fun a b => dist x a ≤ dist x b)

end

/-- The state of a build when the nodes below `q` are in: edges join distinct inserted nodes
that both have the level of the edge, the entry point is the first node of the largest level,
and a node whose list at one of its levels is empty is the only node with that level. -/
structure BuildInv (lv : Nat → Nat) (q : Nat) (h : Index) : Prop where
  caps : h.maxM0 = 2 * h.maxM
  edges : ∀ l y x, x ∈ h.graph l y → x < q ∧ y < q ∧ l ≤ lv x ∧ l ≤ lv y ∧ x ≠ y
  entry : q ≠ 0 → h.init_node < q ∧ lv h.init_node = h.max_level ∧
    ∀ i, i < q → lv i ≤ h.max_level
  alone : ∀ x l, x < q → l ≤ lv x → h.graph l x = [] → ∀ y, y < q → l ≤ lv y → y = x

/-- The state of a build while node `q` is being inserted from `top_level` downwards, before
`level` is processed. -/
structure BuildLevelInv (lv : Nat → Nat) (q top_level level : Nat) (g : Graph) (curr : Nat) :
    Prop where
  level_le : level ≤ top_level
  edges : ∀ l y x, x ∈ g l y → x ≤ q ∧ y ≤ q ∧ l ≤ lv x ∧ l ≤ lv y ∧ x ≠ y
  edges_low : ∀ l y x, l ≤ level → x ∈ g l y → x < q ∧ y < q
  curr_ok : curr < q ∧ level ≤ lv curr
  alone : ∀ x l, x < q → l ≤ lv x → g l x = [] →
    (∀ y, y < q → l ≤ lv y → y = x) ∧ (level < l → top_level < l)
  linked : ∀ l, level < l → l ≤ top_level → g l q ≠ []

/-- The state of a build when node `q` has been linked at the levels `top_level, ..., 0`. -/
structure BuildDone (lv : Nat → Nat) (q top_level : Nat) (g : Graph) : Prop where
  edges : ∀ l y x, x ∈ g l y → x ≤ q ∧ y ≤ q ∧ l ≤ lv x ∧ l ≤ lv y ∧ x ≠ y
  alone : ∀ x l, x < q → l ≤ lv x → g l x = [] →
    (∀ y, y < q → l ≤ lv y → y = x) ∧ top_level < l
  linked : ∀ l, l ≤ top_level → g l q ≠ []

end HNSW

namespace HNSW

/-- What keeps a build from failing, when the nodes below `q` are in: the lists hold only
nodes below `q` and are within their capacities, and the entry point is a node. -/
structure TotalInv (M q : Nat) (h : Index) : Prop where
  maxM_eq : h.maxM = M
  ids : ∀ l y x, x ∈ h.graph l y → x < q ∧ y < q
  bounded : degree_bounded h.maxM h.maxM0 h.graph
  init_lt : q ≠ 0 → h.init_node < q

/-- The same while node `q` is being inserted, before `level` is processed. -/
structure TotalLevelInv (maxM maxM0 q level : Nat) (g : Graph) (curr : Nat) : Prop where
  curr_lt : curr < q
  ids : ∀ l y x, x ∈ g l y → x ≤ q ∧ y ≤ q
  ids_low : ∀ l y x, l ≤ level → x ∈ g l y → x < q
  bounded : degree_bounded maxM maxM0 g

/-- The same when node `q` has been linked at every level. -/
structure TotalDone (maxM maxM0 q : Nat) (g : Graph) : Prop where
  ids : ∀ l y x, x ∈ g l y → x ≤ q ∧ y ≤ q
  bounded : degree_bounded maxM maxM0 g

end HNSW

namespace HNSW

/-- The state of a build in which no level-0 list can fill up, when the nodes below `q` are
in: level-0 lists hold fewer entries than there are nodes, and every node is linked with node 0
through level-0 edges, both ways. -/
structure SparseInv (M rows q : Nat) (h : Index) : Prop where
  num_node_eq : h.num_node = rows
  maxM_eq : h.maxM = M
  caps : h.maxM0 = 2 * h.maxM
  ids : ∀ l y x, x ∈ h.graph l y → x < q ∧ y < q
  len0 : ∀ x, (h.graph 0 x).length ≤ q - 1
  conn : ∀ x, x < q → reachable h.graph 0 x ∧ reachable h.graph x 0
  init_lt : q ≠ 0 → h.init_node < q

/-- The same while node `q` is being inserted, before `level` is processed. -/
structure SparseLevelInv (q level : Nat) (g : Graph) (curr : Nat) : Prop where
  curr_lt : curr < q
  ids : ∀ l y x, x ∈ g l y → x ≤ q ∧ y ≤ q
  ids_low : ∀ l y x, l ≤ level → x ∈ g l y → x < q ∧ y < q
  len0 : ∀ x, (g 0 x).length ≤ q - 1
  conn : ∀ x, x < q → reachable g 0 x ∧ reachable g x 0

/-- The same when node `q` has been linked at every level. -/
structure SparseDone (q : Nat) (g : Graph) : Prop where
  ids : ∀ l y x, x ∈ g l y → x ≤ q ∧ y ≤ q
  len0 : ∀ x, (g 0 x).length ≤ q
  conn : ∀ x, x < q + 1 → reachable g 0 x ∧ reachable g x 0

end HNSW
namespace ProductQuantizer4Bits

/-- The `avx512f` target of `pad_parameters`, in `index_type` (32-bit unsigned) arithmetic:
the new `(max_degree, code_dimension)`. -/
def pad_parameters_avx512f (max_degree code_dimension : Nat) : Nat × Nat :=
  let code_dimension :=
    if code_dimension % 4 = 0 then code_dimension else (code_dimension / 4 + 1) * 4 % 2 ^ 32
  let max_degree :=
    if max_degree % 16 = 0 then max_degree else (max_degree / 16 + 1) * 16 % 2 ^ 32
  (max_degree, code_dimension)

/-- The `default` target of `pad_parameters` in `x86_legacy.hpp`: an empty body. -/
def pad_parameters_default (max_degree code_dimension : Nat) : Nat × Nat :=
  (max_degree, code_dimension)

/-- The method `pad_parameters` of `lec.hpp`: an empty body. -/
def pad_parameters (max_degree code_dimension : Nat) : Nat × Nat :=
  (max_degree, code_dimension)

/-- The call `v.resize(n, val)` of `std::vector`. -/
def resize {R : Type} (v : List R) (n : Nat) (val : R) : List R :=
  v.take n ++ List.replicate (n - v.length) val

/-- The `default` target of `pack_codebook_for_inference` (and the method of `lec.hpp`). -/
def pack_codebook_for_inference_default {R : Type} (pq : Quantizer R) : Quantizer R :=
  { pq with local_codebooks := pq.original_local_codebooks }

/-- The assignment in the innermost loop of the `avx512f` `pack_codebook_for_inference`;
there is no result when a subscript is outside its vector. -/
def pack_assign {R : Type} (pq : Quantizer R) (i j : Nat) (local_codebooks : List R) (k : Nat) :
    Option (List R) :=
  match pq.original_local_codebooks[i * 16 * pq.local_dimension + j * pq.local_dimension + k]? with
  | none => none
  | some v =>
    if i * 16 * pq.local_dimension + k * 16 + j < local_codebooks.length then
      some (local_codebooks.set (i * 16 * pq.local_dimension + k * 16 + j) v)
    else none

/-- The `avx512f` target of `pack_codebook_for_inference`. -/
def pack_codebook_for_inference_avx512f {R : Type} [Zero R] (pq : Quantizer R) :
    Option (Quantizer R) :=
  let local_codebooks := resize pq.local_codebooks pq.original_local_codebooks.length 0
  ((List.range pq.num_local_codebooks).foldlM
    (fun local_codebooks i =>
      (List.range 16).foldlM
        (fun local_codebooks j =>
          (List.range pq.local_dimension).foldlM (pack_assign pq i j) local_codebooks)
        local_codebooks)
    local_codebooks).map (fun local_codebooks => { pq with local_codebooks := local_codebooks })

/-- The triples `(i', j', k')` that the loops of `pack_codebook_for_inference` have been
through when they are at `(i, j, k)`. -/
def pack_done (i j k i' j' k' : Nat) : Prop :=
  i' < i ∨ (i' = i ∧ (j' < j ∨ (j' = j ∧ k' < k)))

/-- The state of the transposed codebook while the loops are at `(i, j, k)`. -/
def PackInv {R : Type} (pq : Quantizer R) (i j k : Nat) (lc : List R) : Prop :=
  lc.length = pq.original_local_codebooks.length ∧
  ∀ i' j' k', j' < 16 → k' < pq.local_dimension → pack_done i j k i' j' k' →
    i' * 16 * pq.local_dimension + k' * 16 + j' < lc.length ∧
    lc[i' * 16 * pq.local_dimension + k' * 16 + j']?
      = pq.original_local_codebooks[i' * 16 * pq.local_dimension + j' * pq.local_dimension + k']?

/-- One sub-codebook of dimension two: centroid `j` is `(j, 100 + j)`. -/
def example_codebook : Quantizer Int :=
  ⟨1, 2, [0, 0], [], (List.range 16).flatMap (fun j => [(j : Int), 100 + j])⟩

/-- The body of the loop over `k` of the scalar `approximate_neighbor_group_distance`, on the
accumulators `d` and the offset of `localID` in `neighbor_codes`. -/
def lane_step (neighbor_codes lut_ptr : Nat → Nat) (local_lut_ptr : Nat)
    (st : (Nat → Nat) × Nat) (k : Nat) : (Nat → Nat) × Nat :=
  let d := st.1
  let localID := st.2
  let obj := neighbor_codes localID % 256
  if k % 2 = 0 then
    let obj := obj &&& 0x0f
    (Function.update d k ((d k + lut_ptr (local_lut_ptr + obj) % 256) % 2 ^ 32), localID)
  else
    let obj := obj >>> 4
    (Function.update d k ((d k + lut_ptr (local_lut_ptr + obj) % 256) % 2 ^ 32), localID + 1)

/-- One iteration of the loop over groups of the scalar `approximate_neighbor_group_distance`,
up to the 32-bit accumulators `d`: they start at zero (`memset`), `local_lut_ptr` starts at
`lut_ptr` and moves by 16 for each sub-codebook. -/
def group_accumulators_default (num_local_codebooks : Nat) (neighbor_codes lut_ptr : Nat → Nat)
    (localID : Nat) : (Nat → Nat) × Nat :=
  (List.range num_local_codebooks).foldl
    (fun st i => (List.range 16).foldl (lane_step neighbor_codes lut_ptr (16 * i)) st)
    (fun _ => 0, localID)

/-- The scalar `approximate_neighbor_group_distance` (`lec.hpp` and the `default` target of
`x86_legacy.hpp`): the values written to `ds[0], ds[1], ...`, in this order. `num_groups` is an
`index_type` (32 bits); `ptr` is an `int`, and there is no result when it overflows. -/
def approximate_neighbor_group_distance_default {R : Type} [NatCast R] [Mul R] [Add R]
    (pq : Quantizer R)
    (neighbor_size : Nat) (neighbor_codes lut_ptr : Nat → Nat) (scale bias : R) :
    Option (List R) :=
  let num_groups :=
    (if neighbor_size % 16 = 0 then neighbor_size / 16 else neighbor_size / 16 + 1) % 2 ^ 32
  if 2 ^ 31 ≤ 16 * num_groups then none
  else
    some ((List.range num_groups).foldl
      (fun (st : List R × Nat) _ =>
        let r := group_accumulators_default pq.num_local_codebooks neighbor_codes lut_ptr st.2
        (st.1 ++ (List.range 16).map (fun k => (r.1 k : R) * scale + bias), r.2))
      ([], 0)).1

/-- A vector register, lane by lane; the instruction that reads it fixes the width and the
number of its lanes. -/
abbrev Reg := Nat → Nat

def _mm512_setzero_si512 : Reg := fun _ => 0

/-- Loads 64 bytes from `mem` at offset `p`. -/
def _mm512_loadu_si512 (mem : Nat → Nat) (p : Nat) : Reg :=
  fun t => if t < 64 then mem (p + t) % 256 else 0

/-- Loads 32 bytes from `mem` at offset `p`. -/
def _mm256_loadu_si256 (mem : Nat → Nat) (p : Nat) : Reg :=
  fun t => if t < 32 then mem (p + t) % 256 else 0

/-- Zero-extends 32 bytes to 32 lanes of 16 bits. -/
def _mm512_cvtepu8_epi16 (a : Reg) : Reg := fun t => if t < 32 then a t % 256 else 0

def _mm512_set1_epi16 (a : Nat) : Reg := fun t => if t < 32 then a % 2 ^ 16 else 0

def _mm512_and_si512 (a b : Reg) : Reg := fun t => a t &&& b t

def _mm512_or_si512 (a b : Reg) : Reg := fun t => a t ||| b t

def _mm512_slli_epi16 (a : Reg) (imm8 : Nat) : Reg := fun t => (a t <<< imm8) % 2 ^ 16

/-- The bytes of a register of 16-bit lanes: lane `t` is the bytes `2 * t` (low) and
`2 * t + 1` (high). -/
def epi16_bytes (a : Reg) : Reg :=
  fun p => if p % 2 = 0 then a (p / 2) % 256 else a (p / 2) / 256 % 256

/-- Shuffles the bytes of `a` within each 128-bit lane by the bytes of `b`: a byte of `b` with
its top bit set gives 0, otherwise its low four bits select a byte of the same lane of `a`. -/
def _mm512_shuffle_epi8 (a b : Reg) : Reg :=
  fun p => if p < 64 then (if b p &&& 0x80 ≠ 0 then 0 else a (16 * (p / 16) + b p % 16)) else 0

/-- The 256-bit half `imm8` of a register, of `lanes` lanes. -/
def _mm512_extracti64x4_epi64 (lanes : Nat) (a : Reg) (imm8 : Nat) : Reg :=
  fun t => if t < lanes then a (lanes * (imm8 % 2) + t) else 0

/-- Adds 16-bit lanes with unsigned saturation. -/
def _mm512_adds_epu16 (a b : Reg) : Reg := fun t => min (a t + b t) 65535

/-- Zero-extends 16 lanes of 16 bits to 16 lanes of 32 bits. -/
def _mm512_cvtepu16_epi32 (a : Reg) : Reg := fun t => if t < 16 then a t % 2 ^ 16 else 0

def _mm512_add_epi32 (a b : Reg) : Reg := fun t => (a t + b t) % 2 ^ 32

/-- Converts signed 32-bit lanes to `float`. -/
def _mm512_cvtepi32_ps {R : Type} [IntCast R] (a : Reg) : Nat → R :=
  fun t => (((if a t < 2 ^ 31 then (a t : Int) else (a t : Int) - 2 ^ 32) : Int) : R)

/-- The body of the loop over `r` of the `avx512f` `approximate_neighbor_group_distance`, on
`sum_result` (32 lanes of 16 bits) and the offset of `localID`; `local_lut_ptr` is at
`lut_ptr + 64 * r`. -/
def block_step (neighbor_codes lut_ptr : Nat → Nat) (st : Reg × Nat) (r : Nat) : Reg × Nat :=
  let sum_result := st.1
  let localID := st.2
  let lookup_table := _mm512_loadu_si512 lut_ptr (64 * r)
  let packedobj := _mm512_cvtepu8_epi16 (_mm256_loadu_si256 neighbor_codes localID)
  let mask512x0F := _mm512_set1_epi16 0x000f
  let mask512xF0 := _mm512_set1_epi16 0x00f0
  let lo := _mm512_and_si512 packedobj mask512x0F
  let hi := _mm512_slli_epi16 (_mm512_and_si512 packedobj mask512xF0) 4
  let obj := _mm512_or_si512 lo hi
  let vtmp := _mm512_shuffle_epi8 lookup_table (epi16_bytes obj)
  let sum_result := _mm512_adds_epu16 sum_result
    (_mm512_cvtepu8_epi16 (_mm512_extracti64x4_epi64 32 vtmp 0))
  let sum_result := _mm512_adds_epu16 sum_result
    (_mm512_cvtepu8_epi16 (_mm512_extracti64x4_epi64 32 vtmp 1))
  (sum_result, localID + 32)

/-- One iteration of the loop over groups of the `avx512f` `approximate_neighbor_group_distance`,
up to the sixteen 32-bit sums `_mm512_add_epi32(lo, hi)`. -/
def group_accumulators_avx512f (num_local_codebooks : Nat) (neighbor_codes lut_ptr : Nat → Nat)
    (localID : Nat) : Reg × Nat :=
  let num_dimension_block :=
    if num_local_codebooks % 4 = 0 then num_local_codebooks / 4 else num_local_codebooks / 4 + 1
  let st := (List.range num_dimension_block).foldl (block_step neighbor_codes lut_ptr)
    (_mm512_setzero_si512, localID)
  let lo := _mm512_cvtepu16_epi32 (_mm512_extracti64x4_epi64 16 st.1 0)
  let hi := _mm512_cvtepu16_epi32 (_mm512_extracti64x4_epi64 16 st.1 1)
  (_mm512_add_epi32 lo hi, st.2)

/-- The `avx512f` target of `approximate_neighbor_group_distance`: the values stored through
`d`, sixteen for each group. -/
def approximate_neighbor_group_distance_avx512f {R : Type} [IntCast R] [Mul R] [Add R]
    (pq : Quantizer R)
    (neighbor_size : Nat) (neighbor_codes lut_ptr : Nat → Nat) (scale bias : R) : List R :=
  let num_groups :=
    (if neighbor_size % 16 = 0 then neighbor_size / 16 else neighbor_size / 16 + 1) % 2 ^ 32
  ((List.range num_groups).foldl
    (fun (st : List R × Nat) _ =>
      let r := group_accumulators_avx512f pq.num_local_codebooks neighbor_codes lut_ptr st.2
      let distance : Nat → R := _mm512_cvtepi32_ps r.1
      (st.1 ++ (List.range 16).map (fun k => distance k * scale + bias), r.2))
    ([], 0)).1

/-- The 4-bit code at position `p` of a code block: the low half of byte `p / 2` when `p` is
even, the high half when `p` is odd. -/
def nibble (neighbor_codes : Nat → Nat) (p : Nat) : Nat :=
  if p % 2 = 0 then neighbor_codes (p / 2) % 256 % 16 else neighbor_codes (p / 2) % 256 / 16

/-- The table entry that the code of neighbor `k` selects in sub-codebook `i`, when the codes
of the group start at byte `localID`: entry `16 * i + code`. -/
def selected_entry (neighbor_codes lut_ptr : Nat → Nat) (localID k i : Nat) : Nat :=
  lut_ptr (16 * i + nibble neighbor_codes (2 * localID + 16 * i + k)) % 256

/-- The sum of the table entries that the codes of neighbor `k` select. -/
def selected_sum (num_local_codebooks : Nat) (neighbor_codes lut_ptr : Nat → Nat)
    (localID k : Nat) : Nat :=
  ∑ i in Finset.range num_local_codebooks, selected_entry neighbor_codes lut_ptr localID k i

/-- What block `r` adds to lane `t` of `sum_result`: two table entries. -/
def block_terms (neighbor_codes lut_ptr : Nat → Nat) (l r t : Nat) : Nat :=
  if t < 32 then
    lut_ptr (64 * r + 16 * (t / 16) + nibble neighbor_codes (2 * l + t)) % 256
      + lut_ptr (64 * r + 16 * ((32 + t) / 16) + nibble neighbor_codes (2 * l + (32 + t))) % 256
  else 0

end ProductQuantizer4Bits
namespace ProductQuantizer4Bits

/-- The byte that `_mm512_cvtepi32_epi8(_mm512_cvtps_epi32(v))` stores for a lane that holds
the integer `v` after `_mm512_roundscale_ps` (none for an infinity or not-a-number): the low
8 bits of the 32-bit integer, which is `0x80000000` when the lane is out of range. -/
def cvtps_epi32_epi8 (v : Option Int) : Nat :=
  match v with
  | none => 0
  | some v => if -2 ^ 31 ≤ v ∧ v < 2 ^ 31 then (v % 256).toNat else 0

/-- A lane of `_mm512_max_ps`: the first operand when it is greater, the second otherwise. -/
def max_ps (a b : Float32) : Float32 := if b < a then a else b

/-- A lane of `_mm512_min_ps`: the first operand when it is smaller, the second otherwise. -/
def min_ps (a b : Float32) : Float32 := if a < b then a else b

/-- The intrinsic `_mm512_reduce_max_ps`, as the header of GCC defines it: the upper eight
lanes are combined with the lower eight by `_mm256_max_ps`, then the upper four of the result
with its lower four by `_mm_max_ps`, then lanes 0 and 1 with lanes 2 and 3, then lane 0 with
lane 1. -/
def _mm512_reduce_max_ps (v : Nat → Float32) : Float32 :=
  let t3 : Nat → Float32 := fun i => max_ps (v (8 + i)) (v i)
  let t6 : Nat → Float32 := fun i => max_ps (t3 (4 + i)) (t3 i)
  let t8 : Nat → Float32 := fun i => max_ps (t6 i) (t6 (2 + i))
  max_ps (t8 0) (t8 1)

/-- The intrinsic `_mm512_reduce_min_ps`, as the header of GCC defines it: the same
combination by `_mm256_min_ps` and `_mm_min_ps`. -/
def _mm512_reduce_min_ps (v : Nat → Float32) : Float32 :=
  let t3 : Nat → Float32 := fun i => min_ps (v (8 + i)) (v i)
  let t6 : Nat → Float32 := fun i => min_ps (t3 (4 + i)) (t3 i)
  let t8 : Nat → Float32 := fun i => min_ps (t6 i) (t6 (2 + i))
  min_ps (t8 0) (t8 1)

/-- Loads the 16 `float` at `mem[p], ..., mem[p + 15]` into the lanes of a register; there is
no value when they are not all inside `mem`. -/
def _mm512_loadu_ps (mem : List Float32) (p : Nat) : Option (Nat → Float32) :=
  if p + 16 ≤ mem.length then some (fun t => mem.getD (p + t) 0) else none

/-- The vector `centered_query` after the centering loop of the `avx512f` `setup_lut`: block
`i` holds the 16 differences of `query[16 * i ..]` and `global_centroid[16 * i ..]`, which are
loaded 16 at a time. -/
def centered_query_avx512f (pq : Quantizer Float32) (query : List Float32)
    (global_blocks : Nat) : Option (List Float32) :=
  (List.range global_blocks).foldlM
    (fun centered_query i =>
      (_mm512_loadu_ps query (16 * i)).bind
        (fun q => (_mm512_loadu_ps pq.global_centroid (16 * i)).map
          (fun g => centered_query ++ (List.range 16).map (fun t => q t - g t))))
    []

/-- The register `tmp_v` after the loop over `j` of the `avx512f` `setup_lut`, for
sub-codebook `d`: `query_ptr` is at `centered_query[d * local_dimension + j]` and `localID` at
`local_codebooks[16 * (d * local_dimension + j)]`. -/
def lut_distance_avx512f (pq : Quantizer Float32) (centered_query : List Float32) (d : Nat) :
    Option (Nat → Float32) :=
  (List.range pq.local_dimension).foldlM
    (fun tmp_v j =>
      (centered_query[d * pq.local_dimension + j]?).bind
        (fun q => (_mm512_loadu_ps pq.local_codebooks (16 * (d * pq.local_dimension + j))).map
          (fun l => fun t =>
            let v := q - l t
            let v := v * v
            tmp_v t + v)))
    (fun _ => 0)

/-- The `avx512f` target of `setup_lut`: the bytes written through `lut_ptr`, then `scale` and
`bias`. `original_dimension` and `extend_dimension` are `int`: there is no result when
`num_local_codebooks * local_dimension` or its multiple of 16 does not fit, nor when a load is
not inside its vector or inside `query`. -/
def setup_lut_avx512f (pq : Quantizer Float32) (query : List Float32) :
    Option (List Nat × Float32 × Float32) :=
  let original_dimension := pq.num_local_codebooks * pq.local_dimension
  let global_blocks :=
    if original_dimension % 16 = 0 then original_dimension / 16 else original_dimension / 16 + 1
  if 2 ^ 31 ≤ original_dimension ∨ 2 ^ 31 ≤ global_blocks * 16 then none
  else
    (centered_query_avx512f pq query global_blocks).bind (fun centered_query =>
      (gather (lut_distance_avx512f pq centered_query) pq.num_local_codebooks).map (fun raw =>
        let mm := raw.foldl
          (fun (mm : Float32 × Float32) tmp_v =>
            (std_max mm.1 (_mm512_reduce_max_ps tmp_v), std_min mm.2 (_mm512_reduce_min_ps tmp_v)))
          (FLT_MIN, FLT_MAX)
        let bias := mm.2
        let scale := Float32.div_double (mm.1 - mm.2) 255
        (raw.flatMap (fun tmp_v => (List.range 16).map
          (fun c => cvtps_epi32_epi8
            (Float32.round_nearest_even ((tmp_v c - bias) / scale)))),
          scale, bias)))

end ProductQuantizer4Bits
namespace ProductQuantizer4Bits

/-- One sub-codebook of dimension one, with the centroids 0, 1, ..., 15. -/
def example_quantizer : Quantizer Float32 :=
  ⟨1, 1, [0], (List.range 16).map (fun c => (c : Float32)),
    (List.range 16).map (fun c => (c : Float32))⟩

/-- One sub-codebook of dimension one whose sixteen centroids are all 0. -/
def constant_quantizer : Quantizer Float32 :=
  ⟨1, 1, [0], List.replicate 16 0, List.replicate 16 0⟩

/-- The `float` 0.5. -/
def one_half : Float32 := ⟨false, 126, 0⟩

/-- One sub-codebook of dimension two: centroid 0 is `(4096, 1)`, centroid 1 is `(4096, 0.5)`
and the other centroids are `(8192, 0)`. For the query `(0, 0)` the squared distances are
`2 ^ 24 + 1` and `2 ^ 24 + 0.25` for the first two centroids, and both sums are rounded to
`2 ^ 24` in `float`. -/
def rounding_quantizer : Quantizer Float32 :=
  ⟨1, 2, [0, 0], [],
    (List.range 16).flatMap (fun k =>
      if k = 0 then [((4096 : Nat) : Float32), ((1 : Nat) : Float32)]
      else if k = 1 then [((4096 : Nat) : Float32), one_half]
      else [((8192 : Nat) : Float32), 0])⟩

/-- Four sub-codebooks of dimension four; in each, centroid 1 is `(0.5, 0.5, 0, 0)`, centroid 2
is `(15, 5, 2, 1)` and the other centroids are 0. For the query 0 the raw distances are 0.5, 255
and 0, all exact in `float`: `bias` is 0, `scale` is 1 and the quotient of centroid 1 is exactly
one half. -/
def parity_quantizer : Quantizer Float32 :=
  ⟨4, 4, List.replicate 16 0, [],
    (List.range 64).flatMap (fun p =>
      if p % 16 = 1 then [one_half, one_half, 0, 0]
      else if p % 16 = 2 then
        [((15 : Nat) : Float32), ((5 : Nat) : Float32), ((2 : Nat) : Float32),
          ((1 : Nat) : Float32)]
      else [0, 0, 0, 0])⟩

/-- The transposed codebook of `parity_quantizer`: in every sub-codebook, coordinate `k` of the
sixteen centroids is stored in the sixteen consecutive positions `16 * k + c`. -/
def parity_quantizer_avx512f : Quantizer Float32 :=
  ⟨4, 4, List.replicate 16 0,
    (List.range 256).map (fun p =>
      if p % 16 = 1 then (if p / 16 % 4 < 2 then one_half else 0)
      else if p % 16 = 2 then
        (if p / 16 % 4 = 0 then ((15 : Nat) : Float32)
          else if p / 16 % 4 = 1 then ((5 : Nat) : Float32)
          else if p / 16 % 4 = 2 then ((2 : Nat) : Float32) else ((1 : Nat) : Float32))
      else 0),
    parity_quantizer.original_local_codebooks⟩

/-- The table of `parity_quantizer` for the query 0 with halves rounded away from zero: 1 for
centroid 1, 255 for centroid 2 and 0 elsewhere. -/
def parity_lut_default : List (Option Nat) :=
  (List.range 64).map (fun p => if p % 16 = 1 then some 1 else if p % 16 = 2 then some 255
    else some 0)

/-- The table of `parity_quantizer` for the query 0 with halves rounded to even: 255 for
centroid 2 and 0 elsewhere. -/
def parity_lut_avx512f : List Nat :=
  (List.range 64).map (fun p => if p % 16 = 2 then 255 else 0)

/-- One sub-codebook of dimension one: centroid 0 is `2 ^ (-63)` and the other centroids are
`2 ^ (-63) * (1 + 2 ^ (-23))`. For the query 0 the raw distances are `2 ^ (-126)`, which is
`FLT_MIN`, and `2 ^ (-126) * (1 + 2 ^ (-22))`: they differ by `2 ^ (-148)`, and the quotient of
this difference by 255 is rounded to 0 in `float`. -/
def underflow_quantizer : Quantizer Float32 :=
  ⟨1, 1, [0], ⟨false, 64, 0⟩ :: List.replicate 15 ⟨false, 64, 1⟩,
    ⟨false, 64, 0⟩ :: List.replicate 15 ⟨false, 64, 1⟩⟩

end ProductQuantizer4Bits
namespace ProductQuantizer4Bits

/-- A dense row-major matrix, as `pecos::drm_t`: `rows`, `cols` and the values `val`. -/
structure drm_t (R : Type) where
  rows : Nat
  cols : Nat
  val : List R

/-- The collaborators of `ProductQuantizer4Bits::train` that the source files use and do not
define. `random_shuffle m indices` is the outcome of the `std::random_shuffle` call for
sub-space `m`; `run_clustering Xsub seed max_iter threads` is the assignment that
`hlt.run_clustering` writes, one cluster per row; `do_axpy x y` is `y` after
`pecos::do_axpy(1.0, x, y, dsub)`; `do_scale count y` is `y` after
`pecos::do_scale(1.0 / count, y, dsub)`. -/
structure Collaborators (R : Type) where
  random_shuffle : Nat → List Nat → List Nat
  run_clustering : drm_t R → Int → Nat → Int → List Nat
  do_axpy : List R → List R → List R
  do_scale : Nat → List R → List R

/-- How `train` ends without a quantizer: the `std::runtime_error` it throws, or an operation
that has no defined behaviour (`out_of_bounds`): a read or a write outside a vector, or the
parallel region of `compute_centroids` entered with `threads <= 0`. -/
inductive TrainError where
  | runtime_error (what : String)
  | out_of_bounds
deriving DecidableEq

/-- The values `v[off], ..., v[off + len - 1]`, when they all exist. -/
def read_block {R : Type} (v : List R) (off len : Nat) : Option (List R) :=
  if off + len ≤ v.length then some ((v.drop off).take len) else none

/-- The vector `v` with `block` written at `off`, when it fits. -/
def write_block {R : Type} (v : List R) (off : Nat) (block : List R) : Option (List R) :=
  if off + block.length ≤ v.length then
    some (v.take off ++ block ++ v.drop (off + block.length))
  else none

/-- The loop over the rows in one thread of `compute_centroids`: the rows whose cluster is in
`[c_l, c_r)` are added to their centroid and counted. -/
def accumulate_rows {R : Type} (env : Collaborators R) (X : drm_t R) (dsub : Nat)
    (assign : List Nat) (c_l c_r : Nat) (st : List R × List Nat) : Option (List R × List Nat) :=
  (List.range X.rows).foldlM
    (fun (st : List R × List Nat) i =>
      match assign[i]? with
      | none => none
      | some ci =>
        if c_l ≤ ci ∧ ci < c_r then
          match read_block st.1 (ci * dsub) dsub, read_block X.val (i * X.cols) dsub,
            st.2[ci]? with
          | some y, some xi, some size =>
            (write_block st.1 (ci * dsub) (env.do_axpy xi y)).map
              (fun centroids => (centroids, st.2.set ci (size + 1)))
          | _, _, _ => none
        else some st)
    st

/-- The loop of one thread of `compute_centroids` that normalizes its centroids. -/
def normalize_centroids {R : Type} (env : Collaborators R) (dsub : Nat) (c_l c_r : Nat)
    (centroids_size : List Nat) (centroids : List R) : Option (List R) :=
  (List.range (c_r - c_l)).foldlM
    (fun centroids t =>
      match read_block centroids ((c_l + t) * dsub) dsub, centroids_size[c_l + t]? with
      | some y, some size => write_block centroids ((c_l + t) * dsub) (env.do_scale size y)
      | _, _ => none)
    centroids

/-- The method `compute_centroids`, on the `ksub * dsub` values at `centroids`: they are set
to zero, then each thread `rank` takes care of the clusters `[c_l, c_r)`. The threads write
disjoint parts, so they are run one after the other. `threads` is the `int` of the source when
it is positive and 0 otherwise: the clause `num_threads(threads)` needs a positive value and
the bounds `c_l`, `c_r` divide by `threads`, so there is no result without a thread. -/
def compute_centroids {R : Type} [Zero R] (env : Collaborators R) (X : drm_t R)
    (dsub ksub : Nat) (assign : List Nat) (threads : Nat) : Option (List R) :=
  if threads = 0 then none
  else
    ((List.range threads).foldlM
      (fun (st : List R × List Nat) rank =>
        let c_l := ksub * rank / threads
        let c_r := ksub * (rank + 1) / threads
        match accumulate_rows env X dsub assign c_l c_r st with
        | none => none
        | some st =>
          (normalize_centroids env dsub c_l c_r st.2 st.1).map
            (fun centroids => (centroids, st.2)))
      (List.replicate (ksub * dsub) (0 : R), List.replicate ksub 0)).map Prod.fst

/-- The copy of the sampled rows of sub-space `m` into `xslice`. -/
def copy_slices {R : Type} (X_trn : drm_t R) (dimension local_dimension m : Nat)
    (indices : List Nat) (sub_sample_points : Nat) (xslice : List R) : Option (List R) :=
  (List.range sub_sample_points).foldlM
    (fun xslice i =>
      match indices[i]? with
      | none => none
      | some index =>
        match read_block X_trn.val (index * dimension + m * local_dimension) local_dimension with
        | none => none
        | some row => write_block xslice (i * local_dimension) row)
    xslice

/-- The loop over the sub-spaces of `train`, on `original_local_codebooks`. -/
def train_codebooks {R : Type} [Zero R] (env : Collaborators R) (X_trn : drm_t R)
    (num_local_codebooks dimension local_dimension n_data sub_sample_points : Nat)
    (seed : Int) (max_iter : Nat) (threads : Int) (original_local_codebooks : List R) :
    Option (List R) :=
  (List.range num_local_codebooks).foldlM
    (fun (st : List R × List R) m =>
      let indices := env.random_shuffle m (List.range n_data)
      match copy_slices X_trn dimension local_dimension m indices sub_sample_points st.2 with
      | none => none
      | some xslice =>
        let Xsub : drm_t R := ⟨sub_sample_points, local_dimension, xslice⟩
        let assignments := env.run_clustering Xsub seed max_iter threads
        match compute_centroids env Xsub local_dimension 16 assignments threads.toNat with
        | none => none
        | some centroids =>
          (write_block st.1 (m * 16 * local_dimension) centroids).map
            (fun original_local_codebooks => (original_local_codebooks, xslice)))
    (original_local_codebooks, List.replicate (sub_sample_points * local_dimension) (0 : R))
  |>.map Prod.fst

/-- The function multiversioning targets of `x86_legacy.hpp`; `lec.hpp` has the code of the
`default` target alone. -/
inductive Target where
  | default
  | avx512f
deriving DecidableEq

/-- The method `pack_codebook_for_inference` that the target selects. -/
def pack_codebook_for_inference {R : Type} [Zero R] (target : Target) (pq : Quantizer R) :
    Option (Quantizer R) :=
  match target with
  | .default => some (pack_codebook_for_inference_default pq)
  | .avx512f => pack_codebook_for_inference_avx512f pq

/-- The method `ProductQuantizer4Bits::train`. `M` is an `int`: it is converted to `size_t` for
the remainder and to `index_type` for `num_local_codebooks`. The team of `compute_centroids`
has `threads` threads; with `threads <= 0` the first call of `compute_centroids` has no defined
behaviour. An error comes with the quantizer as it is when the error is raised. -/
def train {R : Type} [Zero R] (env : Collaborators R) (target : Target)
    (pq : Quantizer R) (X_trn : drm_t R) (M : Int) (sub_sample_points : Nat) (seed : Int)
    (max_iter : Nat) (threads : Int) : Except (TrainError × Quantizer R) (Quantizer R) :=
  let dimension := X_trn.cols
  if dimension % (M % 2 ^ 64).toNat ≠ 0 then
    .error (.runtime_error "Original dimension must be divided by subspace dimension", pq)
  else
    let pq := { pq with num_local_codebooks := (M % 2 ^ 32).toNat }
    let pq := { pq with local_dimension := dimension / pq.num_local_codebooks }
    let n_data := X_trn.rows
    let sub_sample_points := if sub_sample_points = 0 then n_data else sub_sample_points
    let original_local_codebooks :=
      resize pq.original_local_codebooks (pq.num_local_codebooks * 16 * dimension) (0 : R)
    let pq := { pq with original_local_codebooks := original_local_codebooks }
    let pq := { pq with global_centroid := resize pq.global_centroid dimension (0 : R) }
    match train_codebooks env X_trn pq.num_local_codebooks dimension pq.local_dimension n_data
        sub_sample_points seed max_iter threads pq.original_local_codebooks with
    | none => .error (.out_of_bounds, pq)
    | some original_local_codebooks =>
      let pq := { pq with original_local_codebooks := original_local_codebooks }
      match pack_codebook_for_inference target pq with
      | none => .error (.out_of_bounds, pq)
      | some pq => .ok pq

/-- Collaborators over the integers for examples: the shuffle keeps the order, row `i` goes to
cluster `i % 16`, `do_scale` divides by the count. -/
def example_collaborators : Collaborators Int :=
  ⟨fun _ indices => indices, fun X _ _ _ => (List.range X.rows).map (fun i => i % 16),
    fun x y => List.zipWith (fun a b => a + b) x y, fun count y => y.map (fun a => a / count)⟩

/-- Three rows of dimension two. -/
def example_matrix : drm_t Int := ⟨3, 2, [1, 2, 3, 4, 5, 6]⟩

end ProductQuantizer4Bits
namespace file_util

/-- The `width` bytes of the bit pattern `x`, the lowest first (little-endian). -/
def le_bytes : Nat → Nat → List Nat
  | 0, _ => []
  | width + 1, x => x % 256 :: le_bytes width (x / 256)

/-- The value of a little-endian sequence of bytes. -/
def le_value : List Nat → Nat
  | [] => 0
  | b :: bs => b % 256 + 256 * le_value bs

/-- The `num` values of `width` bytes each at the head of a stream. -/
def le_values (width : Nat) : Nat → List Nat → List Nat
  | 0, _ => []
  | num + 1, fp => le_value (fp.take width) :: le_values width num (fp.drop width)

/-- Modelled from the spec: `pecos::file_util::fput_multiple<T>(src, num, fp)` is not in the
source files. The formats of the spec are binary and little-endian: the call appends to the
stream the `sizeof(T) = width` bytes of each value of `src`, in order. -/
def fput_multiple (width : Nat) (src : List Nat) (fp : List Nat) : List Nat :=
  fp ++ src.flatMap (le_bytes width)

/-- Modelled from the spec: `pecos::file_util::fget_multiple<T>(dst, num, fp)` is not in the
source files. It reads `num` values of `sizeof(T) = width` bytes from the stream, and fails
(save and load fail on I/O error) when the stream ends before: the values read and the rest of
the stream. -/
def fget_multiple (width num : Nat) (fp : List Nat) : Except String (List Nat × List Nat) :=
  if fp.length < width * num then .error "Cannot read enough data from the stream"
  else .ok (le_values width num fp, fp.drop (width * num))

end file_util

namespace ProductQuantizer4Bits

/-- The method `ProductQuantizer4Bits::save`, on a quantizer whose `float`s and scalars are
given by their bit patterns: the stream after the call. `index_type` and `int` and `float` are
4 bytes wide, `size_t` 8. -/
def save (pq : Quantizer Nat) (fp : List Nat) : List Nat :=
  let fp := file_util.fput_multiple 4 [pq.num_local_codebooks] fp
  let fp := file_util.fput_multiple 4 [pq.local_dimension] fp
  let sz := pq.global_centroid.length
  let fp := file_util.fput_multiple 8 [sz] fp
  let fp := if sz ≠ 0 then file_util.fput_multiple 4 pq.global_centroid fp else fp
  let sz := pq.original_local_codebooks.length
  let fp := file_util.fput_multiple 8 [sz] fp
  let fp := if sz ≠ 0 then file_util.fput_multiple 4 pq.original_local_codebooks fp else fp
  let sz := pq.local_codebooks.length
  let fp := file_util.fput_multiple 8 [sz] fp
  let fp := if sz ≠ 0 then file_util.fput_multiple 4 pq.local_codebooks fp else fp
  fp

/-- One length-prefixed block of `load`: `sz` is read, the vector is resized to `sz` and, when
`sz` is not zero, filled from the stream. -/
def load_block (fp : List Nat) : Except String (List Nat × List Nat) := do
  let (sz, fp) ← file_util.fget_multiple 8 1 fp
  let sz := sz.headD 0
  if sz ≠ 0 then file_util.fget_multiple 4 sz fp else pure ([], fp)

/-- The method `ProductQuantizer4Bits::load`: the quantizer read and the rest of the stream. -/
def load (fp : List Nat) : Except String (Quantizer Nat × List Nat) := do
  let (num_local_codebooks, fp) ← file_util.fget_multiple 4 1 fp
  let (local_dimension, fp) ← file_util.fget_multiple 4 1 fp
  let (global_centroid, fp) ← load_block fp
  let (original_local_codebooks, fp) ← load_block fp
  let (local_codebooks, fp) ← load_block fp
  pure (⟨num_local_codebooks.headD 0, local_dimension.headD 0, global_centroid, local_codebooks,
    original_local_codebooks⟩, fp)

/-- A block of `float`s as the spec lays it out: the length as a `u64`, then the values. -/
def length_prefixed (v : List Nat) : List Nat :=
  file_util.le_bytes 8 v.length ++ v.flatMap (file_util.le_bytes 4)

/-- The fields of the quantizer fit their types: 32 bits for `num_local_codebooks`,
`local_dimension` and each `float`, 64 bits for the sizes. -/
def in_range (pq : Quantizer Nat) : Prop :=
  pq.num_local_codebooks < 2 ^ 32 ∧ pq.local_dimension < 2 ^ 32 ∧
  (pq.global_centroid.length < 2 ^ 64 ∧ ∀ x ∈ pq.global_centroid, x < 2 ^ 32) ∧
  (pq.original_local_codebooks.length < 2 ^ 64 ∧ ∀ x ∈ pq.original_local_codebooks, x < 2 ^ 32) ∧
  (pq.local_codebooks.length < 2 ^ 64 ∧ ∀ x ∈ pq.local_codebooks, x < 2 ^ 32)

end ProductQuantizer4Bits
namespace HNSW

/-- A JSON value, as far as `config.json` needs it. -/
inductive Json where
  | null
  | string (s : String)
  | number (n : Nat)
  | object (members : List (String × Json))

/-- The call `j.find(key)` of `nlohmann::json`: the member of an object, nothing otherwise. -/
def Json.find (j : Json) (key : String) : Option Json :=
  match j with
  | .object members => members.lookup key
  | _ => none

/-- The subscript `j[key]` of `nlohmann::json`: the member of an object, `null` when the object
has no such member or `j` is `null`; a type error for the other values. -/
def Json.subscript (j : Json) (key : String) : Except String Json :=
  match j with
  | .object members => .ok ((members.lookup key).getD .null)
  | .null => .ok .null
  | _ => .error "type_error: cannot use operator[] with a string argument"

/-- The conversion of a `nlohmann::json` value to `std::string`: a type error unless the value
is a string. -/
def Json.get_string (j : Json) : Except String String :=
  match j with
  | .string s => .ok s
  | _ => .error "type_error: type must be string"

/-- The file `config.json`: it cannot be opened, or its text is not JSON, or it holds a JSON
value. -/
inductive ConfigFile where
  | absent
  | invalid
  | json (j : Json)

/-- A model directory: `config.json` and the bytes of `index.bin`. -/
structure ModelDir where
  config : ConfigFile
  index : List Nat

/-- The members of `HNSW` that `save` writes and `load` reads; `GraphL0` and `GraphL1` are not
in the source files, their types are parameters. -/
structure Stored (G0 G1 : Type) where
  num_node : Nat
  maxM : Nat
  maxM0 : Nat
  efC : Nat
  max_level : Nat
  init_node : Nat
  graph_l0 : G0
  graph_l1 : G1

/-- The methods `save(fp)` and `load(fp)` of a graph, which the source files use and do not
define: the bytes that `save` appends to the stream; the graph that `load` leaves and the rest
of the stream, or an error with the graph as it is then. -/
structure GraphCodec (G : Type) where
  save : G → List Nat
  load : G → List Nat → Except (String × G) (G × List Nat)

/-- The function `load_config`; `hnsw_t_cur` is `pecos::type_util::full_name<HNSW>()`. -/
def load_config (hnsw_t_cur : String) (file : ConfigFile) : Except String Json :=
  match file with
  | .absent => .error "Unable to open config file"
  | .invalid => .error "parse_error"
  | .json j_param =>
    match j_param.subscript "hnsw_t" with
    | .error e => .error e
    | .ok v =>
      match v.get_string with
      | .error e => .error e
      | .ok hnsw_t_inp =>
        if hnsw_t_cur ≠ hnsw_t_inp then .error "Inconsistent HNSW_T" else .ok j_param

/-- The JSON value that `save_config` writes. -/
def save_config {G0 G1 : Type} (hnsw_t_cur : String) (self : Stored G0 G1) : Json :=
  .object [("hnsw_t", .string hnsw_t_cur), ("version", .string "v1.0"),
    ("train_params", .object [("num_node", .number self.num_node), ("maxM", .number self.maxM),
      ("maxM0", .number self.maxM0), ("efC", .number self.efC),
      ("max_level", .number self.max_level), ("init_node", .number self.init_node)])]

/-- The method `HNSW::save`, when the directory and its two files can be written. -/
def save {G0 G1 : Type} (hnsw_t_cur : String) (c0 : GraphCodec G0) (c1 : GraphCodec G1)
    (self : Stored G0 G1) : ModelDir :=
  let fp := file_util.fput_multiple 4 [self.num_node] []
  let fp := file_util.fput_multiple 4 [self.maxM] fp
  let fp := file_util.fput_multiple 4 [self.maxM0] fp
  let fp := file_util.fput_multiple 4 [self.efC] fp
  let fp := file_util.fput_multiple 4 [self.max_level] fp
  let fp := file_util.fput_multiple 4 [self.init_node] fp
  let fp := fp ++ c0.save self.graph_l0
  let fp := fp ++ c1.save self.graph_l1
  ⟨.json (save_config hnsw_t_cur self), fp⟩

/-- One call `fget_multiple<index_type>(&x, 1, fp)`. -/
def read_scalar (fp : List Nat) : Except String (Nat × List Nat) :=
  match file_util.fget_multiple 4 1 fp with
  | .error e => .error e
  | .ok (v, fp) => .ok (v.headD 0, fp)

/-- The method `HNSW::load`, when `index.bin` can be opened. An error comes with the index as
it is when the error is raised. -/
def load {G0 G1 : Type} (hnsw_t_cur : String) (c0 : GraphCodec G0) (c1 : GraphCodec G1)
    (self : Stored G0 G1) (model_dir : ModelDir) :
    Except (String × Stored G0 G1) (Stored G0 G1) :=
  match load_config hnsw_t_cur model_dir.config with
  | .error e => .error (e, self)
  | .ok config =>
    match (match config.find "version" with
        | some v => v.get_string
        | none => .ok "not found") with
    | .error e => .error (e, self)
    | .ok version =>
      if version = "v1.0" then
        match read_scalar model_dir.index with
        | .error e => .error (e, self)
        | .ok (x, fp) =>
        let self := { self with num_node := x }
        match read_scalar fp with
        | .error e => .error (e, self)
        | .ok (x, fp) =>
        let self := { self with maxM := x }
        match read_scalar fp with
        | .error e => .error (e, self)
        | .ok (x, fp) =>
        let self := { self with maxM0 := x }
        match read_scalar fp with
        | .error e => .error (e, self)
        | .ok (x, fp) =>
        let self := { self with efC := x }
        match read_scalar fp with
        | .error e => .error (e, self)
        | .ok (x, fp) =>
        let self := { self with max_level := x }
        match read_scalar fp with
        | .error e => .error (e, self)
        | .ok (x, fp) =>
        let self := { self with init_node := x }
        match c0.load self.graph_l0 fp with
        | .error (e, g) => .error (e, { self with graph_l0 := g })
        | .ok (g, fp) =>
        let self := { self with graph_l0 := g }
        match c1.load self.graph_l1 fp with
        | .error (e, g) => .error (e, { self with graph_l1 := g })
        | .ok (g, _) => .ok { self with graph_l1 := g }
      else .error ("Unable to load this binary with version = " ++ version, self)

/-- The six scalars of two indexes are the same. -/
def same_scalars {G0 G1 : Type} (a b : Stored G0 G1) : Prop :=
  a.num_node = b.num_node ∧ a.maxM = b.maxM ∧ a.maxM0 = b.maxM0 ∧ a.efC = b.efC ∧
  a.max_level = b.max_level ∧ a.init_node = b.init_node

/-- Graphs that write nothing and read nothing, for examples. -/
def empty_codec : GraphCodec Unit := ⟨fun _ => [], fun g fp => .ok (g, fp)⟩

end HNSW

namespace HNSW

/-- An index on two levels: the nodes 0 and 1 are linked at level 1, all three nodes at level
0; the entry point is node 0. -/
def descent_index : Index :=
  ⟨3, 2, 4, 3, 1, 0, fun l n =>
    if l = 0 then [[1, 2], [0, 2], [0, 1]].getD n []
    else if l = 1 then [[1], [0]].getD n [] else []⟩

/-- A query at the same distance 5 of every node. -/
def tie_qd : Nat → Nat := fun _ => 5

end HNSW

namespace ProductQuantizer4Bits

/-- Two sub-codebooks of dimension one over the integers, each with the centroids
0, 1, ..., 15. -/
def two_book_quantizer : Quantizer Int :=
  ⟨2, 1, [0, 0],
    [0, 1, 2, 3, 4, 5, 6, 7, 8, 9, 10, 11, 12, 13, 14, 15,
      0, 1, 2, 3, 4, 5, 6, 7, 8, 9, 10, 11, 12, 13, 14, 15],
    [0, 1, 2, 3, 4, 5, 6, 7, 8, 9, 10, 11, 12, 13, 14, 15,
      0, 1, 2, 3, 4, 5, 6, 7, 8, 9, 10, 11, 12, 13, 14, 15]⟩

/-- A `float` for examples: an integer value, an infinity with its sign, or not-a-number. -/
inductive ExampleFloat where
  | fin (x : Int)
  | inf (negative : Bool)
  | nan
deriving DecidableEq

instance ExampleFloat.instZero : Zero ExampleFloat := ⟨.fin 0⟩

/-- The sum of two such values, as IEEE 754 has it. -/
def ExampleFloat.add : ExampleFloat → ExampleFloat → ExampleFloat
  | .fin a, .fin b => .fin (a + b)
  | .nan, _ => .nan
  | _, .nan => .nan
  | .inf s, .fin _ => .inf s
  | .fin _, .inf s => .inf s
  | .inf s, .inf t => if s = t then .inf s else .nan

/-- The product `(1.0 / count) * v` that `do_scale(1.0 / count, ...)` stores: `1.0 / 0` is
`+inf`, the product of a finite non-zero value by it is an infinity, and `0 * inf` is
not-a-number. For a positive count the quotient is rounded to an integer. -/
def ExampleFloat.scale (count : Nat) : ExampleFloat → ExampleFloat
  | .fin v =>
    if count = 0 then (if v = 0 then .nan else .inf (decide (v < 0))) else .fin (v / count)
  | .inf s => .inf s
  | .nan => .nan

/-- Collaborators over `ExampleFloat`: the shuffle keeps the order, every row goes to cluster
0, `do_axpy` adds and `do_scale` multiplies by `1.0 / count`. -/
def ieee_collaborators : Collaborators ExampleFloat :=
  ⟨fun _ indices => indices, fun X _ _ _ => List.replicate X.rows 0,
    fun x y => List.zipWith ExampleFloat.add x y, fun count y => y.map (ExampleFloat.scale count)⟩

end ProductQuantizer4Bits

namespace ProductQuantizer4Bits

/-- The `dsub` values of cluster `c` in a vector of centroids: `centroids + c * dsub`. -/
def centroid_block {R : Type} (centroids : List R) (dsub c : Nat) : List R :=
  (centroids.drop (c * dsub)).take dsub

end ProductQuantizer4Bits

namespace HNSW

/-- A graph with duplicate edges, self-loops and cycles on three nodes, the same at every
level. -/
def duplicate_graph : Graph := fun _ n => [[1, 1, 0, 2], [0, 0, 1], [0, 1]].getD n []

/-- An index on one level in which node 2 is linked with no other node: the nodes 0 and 1 are
linked with each other, and the entry point is node 0. -/
def island_index : Index :=
  ⟨3, 2, 4, 3, 0, 0, fun l n => if l = 0 then [[1], [0], []].getD n [] else []⟩

end HNSW

namespace HNSW

/-- What the loop of `search_level` keeps about the visited nodes, while the neighbors of
`expanding` (if any) are being visited: they are reachable from the start node; a visited node
that is not in the result heap is at least as far as every entry of the heap; and as long as
the heap holds fewer than `efS` entries, every visited node is in it and has either still to be
popped from the candidate queue or has all its neighbors visited. -/
structure SearchReach {D : Type} [LinearOrder D] (qd : Nat → D) (nb : Nat → List Nat)
    (efS init_node : Nat) (expanding : Option Nat) (s : SearchState D) : Prop where
  init_vis : init_node ∈ s.visited
  vis_reach : ∀ v ∈ s.visited, Relation.ReflTransGen (fun x y => y ∈ nb x) init_node v
  absent_far : ∀ v ∈ s.visited, v ∉ s.topk_queue.map Pair.node_id →
    ∀ p ∈ s.topk_queue, p.dist ≤ qd v
  small_all : s.topk_queue.length < efS →
    ∀ v ∈ s.visited, v ∈ s.topk_queue.map Pair.node_id
  small_closed : s.topk_queue.length < efS →
    ∀ v ∈ s.visited, v ∉ s.cand_queue.map Pair.node_id → some v ≠ expanding →
      ∀ x ∈ nb v, x ∈ s.visited

end HNSW

namespace ProductQuantizer4Bits

/-- The vector `y` after `do_axpy` has added to it, in row order, the rows of `X` among the
first `n` that are assigned to cluster `c`. -/
def cluster_sum {R : Type} (env : Collaborators R) (X : drm_t R) (dsub : Nat)
    (assign : List Nat) (c n : Nat) (y : List R) : List R :=
  (List.range n).foldl
    (fun y i =>
      if assign[i]? = some c then env.do_axpy ((X.val.drop (i * X.cols)).take dsub) y else y)
    y

/-- How many of the first `n` rows are assigned to cluster `c`. -/
def cluster_count (assign : List Nat) (c n : Nat) : Nat :=
  ((List.range n).filter (fun i => assign[i]? = some c)).length

/-- Collaborators over the rationals for examples: the shuffle keeps the order, row `i` goes to
cluster `i % 16`, `do_axpy` adds `1.0 * x` to `y` and `do_scale` multiplies by `1.0 / count`. -/
def exact_collaborators : Collaborators ℚ :=
  ⟨fun _ indices => indices, fun X _ _ _ => (List.range X.rows).map (fun i => i % 16),
    fun x y => List.zipWith (fun yi xi => yi + 1 * xi) y x,
    fun count y => y.map (fun yi => yi * (1 / (count : ℚ)))⟩

end ProductQuantizer4Bits

namespace HNSW
section
variable {D : Type} [LinearOrder D]

theorem Pair.le_refl (a : Pair D) : Pair.le a a := Or.inr ⟨rfl, Nat.le_refl _⟩

theorem Pair.le_total (a b : Pair D) : Pair.le a b ∨ Pair.le b a := by
  unfold Pair.le
  rcases lt_trichotomy a.dist b.dist with h | h | h
  · exact Or.inl (Or.inl h)
  · rcases Nat.le_total a.node_id b.node_id with h1 | h1
    · exact Or.inl (Or.inr ⟨h, h1⟩)
    · exact Or.inr (Or.inr ⟨h.symm, h1⟩)
  · exact Or.inr (Or.inl h)

theorem Pair.le_trans {a b c : Pair D} (h1 : Pair.le a b) (h2 : Pair.le b c) : Pair.le a c := by
  unfold Pair.le at *
  rcases h1 with h1 | ⟨h1, h1'⟩ <;> rcases h2 with h2 | ⟨h2, h2'⟩
  · exact Or.inl (lt_trans h1 h2)
  · exact Or.inl (h2 ▸ h1)
  · exact Or.inl (h1 ▸ h2)
  · exact Or.inr ⟨h1.trans h2, Nat.le_trans h1' h2'⟩

theorem Pair.le_antisymm {a b : Pair D} (h1 : Pair.le a b) (h2 : Pair.le b a) : a = b := by
  unfold Pair.le at *
  cases a; cases b
  simp only at h1 h2
  rcases h1 with h1 | ⟨h1, h1'⟩ <;> rcases h2 with h2 | ⟨h2, h2'⟩
  · exact absurd h1 (lt_asymm h2)
  · exact absurd h1 (h2 ▸ lt_irrefl _)
  · exact absurd h2 (h1 ▸ lt_irrefl _)
  · rw [h1, Nat.le_antisymm h1' h2']

theorem Pair.dist_le_of_le {a b : Pair D} (h : Pair.le a b) : a.dist ≤ b.dist := by
  rcases h with h | ⟨h, _⟩
  · exact le_of_lt h
  · exact le_of_eq h

theorem max_heap_emplace_sorted (x : Pair D) {h : List (Pair D)} (hs : h.Sorted Pair.ge) :
    (max_heap_emplace x h).Sorted Pair.ge := hs.orderedInsert x h

theorem min_heap_emplace_sorted (x : Pair D) {h : List (Pair D)} (hs : h.Sorted Pair.le) :
    (min_heap_emplace x h).Sorted Pair.le := hs.orderedInsert x h

theorem max_heap_emplace_perm (x : Pair D) (h : List (Pair D)) :
    (max_heap_emplace x h).Perm (x :: h) := List.perm_orderedInsert _ x h

theorem min_heap_emplace_perm (x : Pair D) (h : List (Pair D)) :
    (min_heap_emplace x h).Perm (x :: h) := List.perm_orderedInsert _ x h

theorem max_heap_emplace_length (x : Pair D) (h : List (Pair D)) :
    (max_heap_emplace x h).length = h.length + 1 := List.orderedInsert_length _ h x

theorem min_heap_emplace_length (x : Pair D) (h : List (Pair D)) :
    (min_heap_emplace x h).length = h.length + 1 := List.orderedInsert_length _ h x

theorem mem_max_heap_emplace {x y : Pair D} {h : List (Pair D)} :
    y ∈ max_heap_emplace x h ↔ y = x ∨ y ∈ h := List.mem_orderedInsert _

theorem mem_min_heap_emplace {x y : Pair D} {h : List (Pair D)} :
    y ∈ min_heap_emplace x h ↔ y = x ∨ y ∈ h := List.mem_orderedInsert _

end
end HNSW

namespace HNSW
section
variable {D : Type} [LinearOrder D]

theorem foldl_invariant {α β : Type} (P : α → Prop) (f : α → β → α) (l : List β)
    (hstep : ∀ a b, b ∈ l → P a → P (f a b)) (a : α) (ha : P a) : P (l.foldl f a) := by
  induction l generalizing a with
  | nil => exact ha
  | cons b l ih =>
    simp only [List.foldl_cons]
    exact ih (fun a c hc => hstep a c (List.mem_cons_of_mem _ hc)) _
      (hstep a b (List.mem_cons_self _ _) ha)

theorem search_init_inv (qd : Nat → D) (efS init_node : Nat) :
    SearchInv qd efS (search_init qd init_node) := by
  constructor <;> simp [search_init, max_heap_emplace, min_heap_emplace]

theorem map_node_id_max_heap_emplace_perm (x : Pair D) (h : List (Pair D)) :
    ((max_heap_emplace x h).map Pair.node_id).Perm (x.node_id :: h.map Pair.node_id) :=
  (max_heap_emplace_perm x h).map Pair.node_id

theorem map_node_id_min_heap_emplace_perm (x : Pair D) (h : List (Pair D)) :
    ((min_heap_emplace x h).map Pair.node_id).Perm (x.node_id :: h.map Pair.node_id) :=
  (min_heap_emplace_perm x h).map Pair.node_id

theorem visit_neighbor_inv {qd : Nat → D} {efS : Nat} {s : SearchState D}
    (hs : SearchInv qd efS s) (x : Nat) : SearchInv qd efS (visit_neighbor qd efS s x) := by
  unfold visit_neighbor
  by_cases hv : x ∈ s.visited
  · simp only [hv, if_true]; exact hs
  · simp only [hv, if_false]
    have hxt : x ∉ s.topk_queue.map Pair.node_id := by
      intro h
      obtain ⟨p, hp, rfl⟩ := List.mem_map.1 h
      exact hv (hs.topk_vis p hp)
    have hxc : x ∉ s.cand_queue.map Pair.node_id := by
      intro h
      obtain ⟨p, hp, rfl⟩ := List.mem_map.1 h
      exact hv (hs.cand_vis p hp)
    split_ifs with hc hlen
    · -- pushed, then popped
      have hS := max_heap_emplace_sorted ⟨qd x, x⟩ hs.topk_sorted
      have hL := max_heap_emplace_length ⟨qd x, x⟩ s.topk_queue
      have hne : s.topk_queue.length ≠ 0 := fun h => hs.topk_ne (List.length_eq_zero.1 h)
      have hM : ∀ p ∈ (max_heap_emplace ⟨qd x, x⟩ s.topk_queue).tail,
          p = ⟨qd x, x⟩ ∨ p ∈ s.topk_queue :=
        fun p hp => mem_max_heap_emplace.1 (List.mem_of_mem_tail hp)
      have hN : ((max_heap_emplace ⟨qd x, x⟩ s.topk_queue).map Pair.node_id).Nodup :=
        (map_node_id_max_heap_emplace_perm _ _).nodup_iff.2 (List.nodup_cons.2 ⟨hxt, hs.topk_nodup⟩)
      refine ⟨hS.tail, min_heap_emplace_sorted _ hs.cand_sorted, ?_, ?_, ?_, ?_, ?_, ?_, ?_, ?_, ?_, ?_⟩
      · intro h
        have := congrArg List.length h
        simp only [List.length_tail, hL, List.length_nil] at this
        omega
      · simp only [List.length_tail, hL]
        have := hs.topk_len
        omega
      · intro p hp
        rcases hM p hp with rfl | h
        · rfl
        · exact hs.topk_dist p h
      · intro p hp
        rcases mem_min_heap_emplace.1 hp with rfl | h
        · rfl
        · exact hs.cand_dist p h
      · intro p hp
        rcases hM p hp with rfl | h
        · exact List.mem_cons_self _ _
        · exact List.mem_cons_of_mem _ (hs.topk_vis p h)
      · intro p hp
        rcases mem_min_heap_emplace.1 hp with rfl | h
        · exact List.mem_cons_self _ _
        · exact List.mem_cons_of_mem _ (hs.cand_vis p h)
      · exact List.nodup_cons.2 ⟨hv, hs.vis_nodup⟩
      · rw [List.map_tail]; exact hN.tail
      · exact (map_node_id_min_heap_emplace_perm _ _).nodup_iff.2
          (List.nodup_cons.2 ⟨hxc, hs.cand_nodup⟩)
      · intro t rest ht
        dsimp only at ht ⊢
        rw [ht]
    · -- pushed, not popped
      have hS := max_heap_emplace_sorted ⟨qd x, x⟩ hs.topk_sorted
      have hL := max_heap_emplace_length ⟨qd x, x⟩ s.topk_queue
      refine ⟨hS, min_heap_emplace_sorted _ hs.cand_sorted, ?_, ?_, ?_, ?_, ?_, ?_, ?_, ?_, ?_, ?_⟩
      · intro h
        have := congrArg List.length h
        simp only [hL, List.length_nil] at this
        omega
      · simp only [gt_iff_lt, not_lt] at hlen
        exact le_trans hlen (le_max_left _ _)
      · intro p hp
        rcases mem_max_heap_emplace.1 hp with rfl | h
        · rfl
        · exact hs.topk_dist p h
      · intro p hp
        rcases mem_min_heap_emplace.1 hp with rfl | h
        · rfl
        · exact hs.cand_dist p h
      · intro p hp
        rcases mem_max_heap_emplace.1 hp with rfl | h
        · exact List.mem_cons_self _ _
        · exact List.mem_cons_of_mem _ (hs.topk_vis p h)
      · intro p hp
        rcases mem_min_heap_emplace.1 hp with rfl | h
        · exact List.mem_cons_self _ _
        · exact List.mem_cons_of_mem _ (hs.cand_vis p h)
      · exact List.nodup_cons.2 ⟨hv, hs.vis_nodup⟩
      · exact (map_node_id_max_heap_emplace_perm _ _).nodup_iff.2
          (List.nodup_cons.2 ⟨hxt, hs.topk_nodup⟩)
      · exact (map_node_id_min_heap_emplace_perm _ _).nodup_iff.2
          (List.nodup_cons.2 ⟨hxc, hs.cand_nodup⟩)
      · intro t rest ht
        dsimp only at ht ⊢
        rw [ht]
    · exact ⟨hs.topk_sorted, hs.cand_sorted, hs.topk_ne, hs.topk_len, hs.topk_dist, hs.cand_dist,
        fun p hp => List.mem_cons_of_mem _ (hs.topk_vis p hp),
        fun p hp => List.mem_cons_of_mem _ (hs.cand_vis p hp),
        List.nodup_cons.2 ⟨hv, hs.vis_nodup⟩, hs.topk_nodup, hs.cand_nodup, hs.ub_eq⟩

theorem pop_cand_inv {qd : Nat → D} {efS : Nat} {s : SearchState D} {c : Pair D}
    {rest : List (Pair D)} (hs : SearchInv qd efS s) (hc : s.cand_queue = c :: rest) :
    SearchInv qd efS ⟨s.topk_queue, rest, s.visited, s.topk_ub_dist⟩ := by
  have h1 := hs.cand_sorted
  have h2 := hs.cand_dist
  have h3 := hs.cand_vis
  have h4 := hs.cand_nodup
  rw [hc] at h1 h2 h3 h4
  exact ⟨hs.topk_sorted, h1.of_cons, hs.topk_ne, hs.topk_len, hs.topk_dist,
    fun p hp => h2 p (List.mem_cons_of_mem _ hp), hs.topk_vis,
    fun p hp => h3 p (List.mem_cons_of_mem _ hp), hs.vis_nodup, hs.topk_nodup,
    (List.nodup_cons.1 h4).2, hs.ub_eq⟩

theorem search_loop_inv (qd : Nat → D) (nb : Nat → List Nat) (efS : Nat) :
    ∀ (fuel : Nat) (s s' : SearchState D), SearchInv qd efS s →
      search_loop qd nb efS fuel s = .ok s' → SearchInv qd efS s' := by
  intro fuel
  induction fuel with
  | zero => intro s s' _ h; simp [search_loop] at h
  | succ fuel ih =>
    intro s s' hs h
    unfold search_loop at h
    split at h
    · cases h; exact hs
    · rename_i c rest hc
      split_ifs at h with hlt
      · cases h; exact hs
      · exact ih _ _ (foldl_invariant (SearchInv qd efS) (visit_neighbor qd efS) _
          (fun a b _ ha => visit_neighbor_inv ha b) _ (pop_cand_inv hs hc)) h

theorem search_level_inv {qd : Nat → D} {g : Graph} {init_node efS level fuel : Nat}
    {r : List (Pair D)} (h : search_level qd g init_node efS level fuel = .ok r) :
    ∃ s, SearchInv qd efS s ∧ s.topk_queue = r := by
  unfold search_level at h
  split at h
  · rename_i s hs
    cases h
    exact ⟨s, search_loop_inv qd _ efS _ _ _ (search_init_inv qd efS init_node) hs, rfl⟩
  · cases h

end
end HNSW

namespace HNSW
section
variable {D : Type} [LinearOrder D]

theorem nodup_length_le_of_lt {l : List Nat} {n : Nat} (hn : l.Nodup) (hl : ∀ x ∈ l, x < n) :
    l.length ≤ n := by
  have h1 : l.toFinset ⊆ Finset.range n := by
    intro x hx
    exact Finset.mem_range.2 (hl x (List.mem_toFinset.1 hx))
  have h2 := Finset.card_le_card h1
  rw [List.toFinset_card_of_nodup hn, Finset.card_range] at h2
  exact h2

theorem visit_neighbor_visited {P : Nat → Prop} {qd : Nat → D} {efS : Nat} {s : SearchState D}
    {x : Nat} (hx : P x) (hs : ∀ y ∈ s.visited, P y) :
    ∀ y ∈ (visit_neighbor qd efS s x).visited, P y := by
  have hcons : ∀ y ∈ x :: s.visited, P y := by
    intro y hy
    rcases List.mem_cons.1 hy with rfl | h
    · exact hx
    · exact hs y h
  unfold visit_neighbor
  dsimp only
  split_ifs
  · exact hs
  · exact hcons
  · exact hcons
  · exact hcons

theorem search_loop_visited {P : Nat → Prop} {qd : Nat → D} {nb : Nat → List Nat} {efS : Nat}
    (hnb : ∀ y x, x ∈ nb y → P x) :
    ∀ (fuel : Nat) (s s' : SearchState D), (∀ y ∈ s.visited, P y) →
      search_loop qd nb efS fuel s = .ok s' → ∀ y ∈ s'.visited, P y := by
  intro fuel
  induction fuel with
  | zero => intro s s' _ h; simp [search_loop] at h
  | succ fuel ih =>
    intro s s' hs h
    unfold search_loop at h
    split at h
    · cases h; exact hs
    · rename_i c rest hc
      split_ifs at h with hlt
      · cases h; exact hs
      · refine ih _ _ ?_ h
        exact foldl_invariant (fun a : SearchState D => ∀ y ∈ a.visited, P y)
          (visit_neighbor qd efS) _
          (fun a b hb ha => visit_neighbor_visited (hnb _ _ hb) ha) _ hs

theorem visit_neighbor_measure {qd : Nat → D} {efS n : Nat} {s : SearchState D} {x : Nat}
    (hs : SearchInv qd efS s) (hvis : ∀ y ∈ s.visited, y < n) (hx : x < n) :
    search_measure n (visit_neighbor qd efS s x) ≤ search_measure n s := by
  by_cases hv : x ∈ s.visited
  · unfold visit_neighbor; simp only [hv, if_true]; exact le_refl _
  · have hlen : (x :: s.visited).length ≤ n := by
      apply nodup_length_le_of_lt (List.nodup_cons.2 ⟨hv, hs.vis_nodup⟩)
      intro y hy
      rcases List.mem_cons.1 hy with rfl | h
      · exact hx
      · exact hvis y h
    simp only [List.length_cons] at hlen
    unfold visit_neighbor search_measure
    simp only [hv, if_false]
    split_ifs
    all_goals simp only [List.length_cons, min_heap_emplace_length]
    all_goals omega

theorem search_loop_terminates {qd : Nat → D} {nb : Nat → List Nat} {efS n : Nat}
    (hnb : ∀ y x, x ∈ nb y → x < n) :
    ∀ (fuel : Nat) (s : SearchState D), SearchInv qd efS s → (∀ y ∈ s.visited, y < n) →
      search_measure n s < fuel → ∃ s', search_loop qd nb efS fuel s = .ok s' := by
  intro fuel
  induction fuel with
  | zero => intro s _ _ h; exact absurd h (Nat.not_lt_zero _)
  | succ fuel ih =>
    intro s hs hvis hm
    unfold search_loop
    split
    · exact ⟨s, rfl⟩
    · rename_i c rest hc
      split_ifs with hlt
      · exact ⟨s, rfl⟩
      · have hpop : search_measure n ⟨s.topk_queue, rest, s.visited, s.topk_ub_dist⟩ < fuel := by
          unfold search_measure at hm ⊢
          rw [hc] at hm
          simp only [List.length_cons] at hm ⊢
          omega
        have key := foldl_invariant
          (fun a : SearchState D => SearchInv qd efS a ∧ (∀ y ∈ a.visited, y < n) ∧
            search_measure n a < fuel)
          (visit_neighbor qd efS) (nb c.node_id)
          (fun a b hb ha => ⟨visit_neighbor_inv ha.1 b,
            visit_neighbor_visited (hnb _ _ hb) ha.2.1,
            lt_of_le_of_lt (visit_neighbor_measure ha.1 ha.2.1 (hnb _ _ hb)) ha.2.2⟩)
          _ ⟨pop_cand_inv hs hc, hvis, hpop⟩
        exact ih _ key.1 key.2.1 key.2.2

theorem search_level_terminates (qd : Nat → D) {g : Graph} (efS : Nat) {init_node level n fuel : Nat}
    (hnb : ∀ y x, x ∈ g level y → x < n) (hinit : init_node < n) (hf : n < fuel) :
    ∃ r, search_level qd g init_node efS level fuel = .ok r := by
  have hm : search_measure n (search_init qd init_node) < fuel := by
    unfold search_measure search_init
    simp only [min_heap_emplace, List.orderedInsert, List.length_cons, List.length_nil]
    omega
  obtain ⟨s', hs'⟩ := search_loop_terminates hnb fuel _ (search_init_inv qd efS init_node)
    (by intro y hy; simp [search_init] at hy; omega) hm
  exact ⟨s'.topk_queue, by unfold search_level; rw [hs']⟩

theorem search_level_mem {P : Nat → Prop} {qd : Nat → D} {g : Graph}
    {init_node efS level fuel : Nat} {r : List (Pair D)}
    (hnb : ∀ y x, x ∈ g level y → P x) (hinit : P init_node)
    (h : search_level qd g init_node efS level fuel = .ok r) : ∀ p ∈ r, P p.node_id := by
  unfold search_level at h
  split at h
  · rename_i s hs
    cases h
    have hI := search_loop_inv qd _ efS _ _ _ (search_init_inv qd efS init_node) hs
    have hV := search_loop_visited hnb _ _ _
      (by intro y hy; simp [search_init] at hy; rw [hy]; exact hinit) hs
    exact fun p hp => hV _ (hI.topk_vis p hp)
  · cases h

/-! ### Greedy descent -/

theorem scan_neighbors_cases (qd : Nat → D) (l : List Nat) :
    ∀ (st : Nat × D × Bool),
      scan_neighbors qd l st = st ∨
      ((scan_neighbors qd l st).2.2 = true ∧ (scan_neighbors qd l st).2.1 < st.2.1 ∧
        (scan_neighbors qd l st).2.1 = qd (scan_neighbors qd l st).1 ∧
        (scan_neighbors qd l st).1 ∈ l) := by
  induction l with
  | nil => intro st; exact Or.inl rfl
  | cons x l ih =>
    intro st
    have hstep : scan_neighbors qd (x :: l) st =
        scan_neighbors qd l (if qd x < st.2.1 then (x, qd x, true) else st) := rfl
    rw [hstep]
    by_cases hx : qd x < st.2.1
    · simp only [hx, if_true]
      rcases ih (x, qd x, true) with h | ⟨h1, h2, h3, h4⟩
      · right
        rw [h]
        exact ⟨rfl, hx, rfl, List.mem_cons_self _ _⟩
      · right
        exact ⟨h1, lt_trans h2 hx, h3, List.mem_cons_of_mem _ h4⟩
    · simp only [hx, if_false]
      rcases ih st with h | ⟨h1, h2, h3, h4⟩
      · exact Or.inl h
      · exact Or.inr ⟨h1, h2, h3, List.mem_cons_of_mem _ h4⟩

theorem scan_neighbors_le (qd : Nat → D) (l : List Nat) :
    ∀ (st : Nat × D × Bool), (scan_neighbors qd l st).2.1 ≤ st.2.1 := by
  intro st
  rcases scan_neighbors_cases qd l st with h | ⟨_, h, _⟩
  · rw [h]
  · exact le_of_lt h

theorem scan_neighbors_no_closer (qd : Nat → D) (l : List Nat) :
    ∀ (st : Nat × D × Bool), ∀ x ∈ l, ¬ qd x < (scan_neighbors qd l st).2.1 := by
  induction l with
  | nil => intro st x hx; cases hx
  | cons y l ih =>
    intro st x hx
    have hstep : scan_neighbors qd (y :: l) st =
        scan_neighbors qd l (if qd y < st.2.1 then (y, qd y, true) else st) := rfl
    rw [hstep]
    rcases List.mem_cons.1 hx with rfl | h
    · have hle := scan_neighbors_le qd l (if qd x < st.2.1 then (x, qd x, true) else st)
      by_cases hq : qd x < st.2.1
      · simp only [hq, if_true] at hle ⊢
        exact not_lt.2 hle
      · simp only [hq, if_false] at hle ⊢
        exact fun hlt => hq (lt_of_lt_of_le hlt hle)
    · exact ih _ x h

theorem closer_count_le (qd : Nat → D) (n : Nat) (d : D) : closer_count qd n d ≤ n := by
  unfold closer_count
  exact le_trans (Finset.card_filter_le _ _) (le_of_eq (Finset.card_range n))

theorem closer_count_lt {qd : Nat → D} {n y : Nat} {d : D} (hy : y < n) (hd : qd y < d) :
    closer_count qd n (qd y) < closer_count qd n d := by
  unfold closer_count
  apply Finset.card_lt_card
  rw [Finset.ssubset_iff_of_subset]
  · exact ⟨y, Finset.mem_filter.2 ⟨Finset.mem_range.2 hy, hd⟩,
      fun h => lt_irrefl _ (Finset.mem_filter.1 h).2⟩
  · intro x hx
    have := Finset.mem_filter.1 hx
    exact Finset.mem_filter.2 ⟨this.1, lt_trans this.2 hd⟩

theorem greedy_level_terminates (qd : Nat → D) {nb : Nat → List Nat} {n : Nat}
    (hnb : ∀ y x, x ∈ nb y → x < n) :
    ∀ (fuel : Nat) (st : Nat × D), closer_count qd n st.2 < fuel →
      ∃ r, greedy_level qd nb fuel st = .ok r := by
  intro fuel
  induction fuel with
  | zero => intro st h; exact absurd h (Nat.not_lt_zero _)
  | succ fuel ih =>
    intro st hm
    obtain ⟨cn, cd⟩ := st
    unfold greedy_level
    dsimp only
    split_ifs with hch
    · rcases scan_neighbors_cases qd (nb cn) (cn, cd, false) with h | ⟨_, h2, h3, h4⟩
      · rw [h] at hch; cases hch
      · apply ih
        dsimp only at h2 ⊢
        rw [h3]
        rw [h3] at h2
        have := closer_count_lt (n := n) (hnb _ _ h4) h2
        simp only at hm
        omega
    · exact ⟨_, rfl⟩

theorem greedy_level_mem {P : Nat → Prop} {qd : Nat → D} {nb : Nat → List Nat}
    (hnb : ∀ y x, x ∈ nb y → P x) :
    ∀ (fuel : Nat) (st r : Nat × D), P st.1 → greedy_level qd nb fuel st = .ok r → P r.1 := by
  intro fuel
  induction fuel with
  | zero => intro st r _ h; simp [greedy_level] at h
  | succ fuel ih =>
    intro st r hP h
    obtain ⟨cn, cd⟩ := st
    unfold greedy_level at h
    dsimp only at h
    have hscan : P (scan_neighbors qd (nb cn) (cn, cd, false)).1 := by
      rcases scan_neighbors_cases qd (nb cn) (cn, cd, false) with h' | ⟨_, _, _, h4⟩
      · rw [h']; exact hP
      · exact hnb _ _ h4
    split_ifs at h with hch
    · exact ih _ _ hscan h
    · cases h; exact hscan

theorem greedy_descent_terminates (qd : Nat → D) {g : Graph} {n fuel : Nat}
    (hnb : ∀ l y x, x ∈ g l y → x < n) (hf : n < fuel) (lo : Nat) :
    ∀ (count : Nat) (st : Nat × D), ∃ r, greedy_descent qd g fuel lo count st = .ok r := by
  intro count
  induction count with
  | zero => intro st; exact ⟨st, rfl⟩
  | succ count ih =>
    intro st
    obtain ⟨r1, h1⟩ := greedy_level_terminates qd (hnb (lo + count + 1)) fuel st
      (lt_of_le_of_lt (closer_count_le qd n st.2) hf)
    obtain ⟨r, hr⟩ := ih r1
    exact ⟨r, by unfold greedy_descent; rw [h1]; exact hr⟩

theorem greedy_descent_mem {P : Nat → Prop} {qd : Nat → D} {g : Graph} {fuel lo : Nat}
    (hnb : ∀ l y x, lo < l → x ∈ g l y → P x) :
    ∀ (count : Nat) (st r : Nat × D), P st.1 →
      greedy_descent qd g fuel lo count st = .ok r → P r.1 := by
  intro count
  induction count with
  | zero => intro st r hP h; cases h; exact hP
  | succ count ih =>
    intro st r hP h
    unfold greedy_descent at h
    split at h
    · rename_i st1 h1
      exact ih _ _ (greedy_level_mem (fun y x hx => hnb _ y x (by omega) hx) fuel st st1 hP h1) h
    · cases h

end
end HNSW

namespace HNSW
section
set_option linter.unusedSectionVars false
variable {D : Type} [LinearOrder D]

theorem pop_down_to_length (k : Nat) (l : List (Pair D)) :
    (pop_down_to k l).length ≤ max k 0 ∧ (pop_down_to k l).length ≤ l.length := by
  induction l with
  | nil => simp [pop_down_to]
  | cons p t ih =>
    unfold pop_down_to
    split_ifs with h
    · exact ⟨ih.1, le_trans ih.2 (Nat.le_succ _)⟩
    · simp only [gt_iff_lt, not_lt] at h
      exact ⟨le_trans h (le_max_left _ _), le_refl _⟩

theorem pop_down_to_suffix (k : Nat) (l : List (Pair D)) : pop_down_to k l <:+ l := by
  induction l with
  | nil => simp [pop_down_to]
  | cons p t ih =>
    unfold pop_down_to
    split_ifs with h
    · exact ih.trans (List.suffix_cons _ _)
    · exact List.suffix_refl _

theorem pop_down_to_eq_drop (k : Nat) (l : List (Pair D)) :
    pop_down_to k l = l.drop (l.length - k) := by
  induction l with
  | nil => simp [pop_down_to]
  | cons p t ih =>
    unfold pop_down_to
    split_ifs with h
    · rw [ih]
      simp only [List.length_cons, gt_iff_lt] at h ⊢
      have : t.length + 1 - k = (t.length - k) + 1 := by omega
      rw [this, List.drop_succ_cons]
    · simp only [List.length_cons, gt_iff_lt, not_lt] at h ⊢
      have : t.length + 1 - k = 0 := by omega
      rw [this, List.drop_zero]

theorem sort_heap_sorted {l : List (Pair D)} (hl : l.Sorted Pair.ge) :
    (sort_heap l).Sorted Pair.le := by
  unfold sort_heap List.Sorted
  rw [List.pairwise_reverse]
  exact hl

theorem predict_single_ok {qd : Nat → D} {h : Index} {efS topk fuel : Nat} {r : List (Pair D)}
    (hr : predict_single qd h efS topk fuel = .ok r) :
    ∃ (st : Nat × D) (q : List (Pair D)),
      greedy_descent qd h.graph fuel 0 h.max_level (h.init_node, qd h.init_node) = .ok st ∧
      search_level qd h.graph st.1 (max efS topk) 0 fuel = .ok q ∧
      r = sort_heap (if topk < efS then pop_down_to topk q else q) := by
  unfold predict_single at hr
  split at hr
  · cases hr
  · rename_i cn cd hst
    split at hr
    · cases hr
    · rename_i q hq
      cases hr
      exact ⟨(cn, cd), q, hst, hq, rfl⟩

theorem predict_single_total {qd : Nat → D} {h : Index} (efS topk : Nat) {fuel : Nat}
    (hwf : h.well_formed) (hf : h.num_node < fuel) :
    ∃ r, predict_single qd h efS topk fuel = .ok r := by
  obtain ⟨st, hst⟩ := greedy_descent_terminates qd hwf.2 hf 0 h.max_level
    (h.init_node, qd h.init_node)
  have hlt : st.1 < h.num_node :=
    greedy_descent_mem (P := fun x => x < h.num_node) (fun l y x _ hx => hwf.2 l y x hx)
      _ _ _ hwf.1 hst
  obtain ⟨q, hq⟩ := search_level_terminates qd (max efS topk) (hwf.2 0) hlt hf
  obtain ⟨cn, cd⟩ := st
  exact ⟨_, by unfold predict_single; rw [hst]; dsimp only; rw [hq]⟩

/-- C1. For every index, query, `efS` and `k`, the pairs returned by `predict_single` are in
non-decreasing order of distance; and on a well-formed index (entry point and neighbor ids below
`num_node`) the call does return, once the loops may run `num_node + 1` times. -/
theorem predict_single_ascending (qd : Nat → D) (h : Index) (efS topk fuel : Nat) :
    (∀ r, predict_single qd h efS topk fuel = .ok r →
      r.Sorted (fun a b => a.dist ≤ b.dist)) ∧
    (h.well_formed → h.num_node < fuel → ∃ r, predict_single qd h efS topk fuel = .ok r) := by
  refine ⟨?_, fun hwf hf => predict_single_total efS topk hwf hf⟩
  intro r hr
  obtain ⟨st, q, _, hq, rfl⟩ := predict_single_ok hr
  obtain ⟨s, hs, rfl⟩ := search_level_inv hq
  have hsorted : (if topk < efS then pop_down_to topk s.topk_queue else s.topk_queue).Sorted
      Pair.ge := by
    split_ifs
    · exact hs.topk_sorted.sublist (pop_down_to_suffix _ _).sublist
    · exact hs.topk_sorted
  exact (sort_heap_sorted hsorted).imp (fun hab => Pair.dist_le_of_le hab)

theorem predict_single_ascending_witness :
    predict_single example_qd example_index 3 2 4 = .ok [⟨1, 1⟩, ⟨4, 0⟩] ∧
    List.Sorted (fun a b : Pair Nat => a.dist ≤ b.dist) [⟨1, 1⟩, ⟨4, 0⟩] :=
  ⟨rfl, (predict_single_ascending example_qd example_index 3 2 4).1 _ rfl⟩

/-- C2, counterexample. With `efS = 0` and `k = 0` the search still seeds the result heap with
the entry point and nothing truncates it: one pair is returned, more than `k`. -/
theorem predict_single_length_counterexample :
    ¬ (∀ (qd : Nat → Nat) (h : Index) (efS topk fuel : Nat) (r : List (Pair Nat)),
      predict_single qd h efS topk fuel = .ok r → r.length ≤ topk) := by
  intro hall
  have h1 : predict_single example_qd example_index 0 0 4 = .ok [⟨1, 1⟩] := rfl
  exact absurd (hall _ _ _ _ _ _ h1) (by decide)

/-- C2, amended. For every index, query, `efS` and `k` of which at least one is positive,
`predict_single` returns at most `k` pairs. -/
theorem predict_single_length_le (qd : Nat → D) (h : Index) (efS topk fuel : Nat)
    (r : List (Pair D)) (hpos : 1 ≤ max efS topk)
    (hr : predict_single qd h efS topk fuel = .ok r) : r.length ≤ topk := by
  obtain ⟨st, q, _, hq, rfl⟩ := predict_single_ok hr
  obtain ⟨s, hs, rfl⟩ := search_level_inv hq
  unfold sort_heap
  rw [List.length_reverse]
  split_ifs with hk
  · have := (pop_down_to_length topk s.topk_queue).1
    simpa using this
  · have := hs.topk_len
    simp only [not_lt] at hk
    rw [max_eq_right hk] at this hpos
    rw [max_eq_left hpos] at this
    exact this

theorem predict_single_length_le_witness :
    predict_single example_qd example_index 3 2 4 = .ok [⟨1, 1⟩, ⟨4, 0⟩] ∧
    ([⟨1, 1⟩, ⟨4, 0⟩] : List (Pair Nat)).length ≤ 2 :=
  ⟨rfl, predict_single_length_le example_qd example_index 3 2 4 _ (by decide) rfl⟩

end
end HNSW
namespace HNSW
section
variable {D : Type} [LinearOrder D]

theorem drain_to_min_heap_perm (top q : List (Pair D)) :
    (drain_to_min_heap top q).Perm (top ++ q) := by
  induction top generalizing q with
  | nil => exact List.Perm.refl _
  | cons t rest ih =>
    unfold drain_to_min_heap
    refine (ih _).trans ?_
    refine (List.Perm.append_left rest (min_heap_emplace_perm t q)).trans ?_
    exact List.perm_middle

theorem drain_to_min_heap_sorted (top : List (Pair D)) {q : List (Pair D)}
    (hq : q.Sorted Pair.le) : (drain_to_min_heap top q).Sorted Pair.le := by
  induction top generalizing q with
  | nil => exact hq
  | cons t rest ih =>
    unfold drain_to_min_heap
    exact ih (min_heap_emplace_sorted t hq)

theorem heuristic_loop_spec (dist : Nat → Nat → D) (M : Nat) (q : List (Pair D)) :
    ∀ ret : List (Pair D), ∃ l, l.Sublist q ∧ heuristic_loop dist M q ret = ret ++ l ∧
      (ret.length ≤ M → (heuristic_loop dist M q ret).length ≤ M) := by
  induction q with
  | nil => intro ret; exact ⟨[], List.Sublist.refl _, by simp [heuristic_loop], fun h => h⟩
  | cons c rest ih =>
    intro ret
    unfold heuristic_loop
    split_ifs with hM
    · exact ⟨[], List.nil_sublist _, by simp, fun h => h⟩
    · dsimp only
      split_ifs with hgood
      · obtain ⟨l, hl, heq, hlen⟩ := ih (ret ++ [c])
        refine ⟨c :: l, hl.cons₂ c, by rw [heq]; simp, fun _ => hlen ?_⟩
        simp only [List.length_append, List.length_singleton]
        omega
      · obtain ⟨l, hl, heq, hlen⟩ := ih ret
        exact ⟨l, hl.cons c, heq, hlen⟩

theorem heuristic_loop_first (dist : Nat → Nat → D) {M : Nat} (hM : 1 ≤ M) (c : Pair D)
    (rest : List (Pair D)) : ∃ l, heuristic_loop dist M (c :: rest) [] = c :: l := by
  unfold heuristic_loop
  have : ¬ ([] : List (Pair D)).length ≥ M := by simp only [List.length_nil]; omega
  simp only [this, if_false, List.any_nil, Bool.not_false, if_true, List.nil_append]
  obtain ⟨l, _, heq, _⟩ := heuristic_loop_spec dist M rest [c]
  exact ⟨l, by rw [heq]; rfl⟩

theorem foldl_max_heap_emplace_perm (l h : List (Pair D)) :
    (l.foldl (fun h p => max_heap_emplace p h) h).Perm (l ++ h) := by
  induction l generalizing h with
  | nil => exact List.Perm.refl _
  | cons p l ih =>
    simp only [List.foldl_cons]
    refine (ih _).trans ?_
    refine (List.Perm.append_left l (max_heap_emplace_perm p h)).trans ?_
    exact List.perm_middle

theorem foldl_max_heap_emplace_sorted (l : List (Pair D)) {h : List (Pair D)}
    (hh : h.Sorted Pair.ge) : (l.foldl (fun h p => max_heap_emplace p h) h).Sorted Pair.ge := by
  induction l generalizing h with
  | nil => exact hh
  | cons p l ih =>
    simp only [List.foldl_cons]
    exact ih (max_heap_emplace_sorted p hh)

/-- The survivors of the heuristic are a selection of the candidates, with multiplicity. -/
theorem get_neighbors_heuristic_subperm (dist : Nat → Nat → D) (top : List (Pair D)) (M : Nat) :
    ∃ l q, (get_neighbors_heuristic dist top M).Perm l ∧ l.Sublist q ∧ q.Perm top := by
  unfold get_neighbors_heuristic
  split_ifs with h
  · exact ⟨top, top, List.Perm.refl _, List.Sublist.refl _, List.Perm.refl _⟩
  · obtain ⟨l, hl, heq, _⟩ := heuristic_loop_spec dist M (drain_to_min_heap top []) []
    refine ⟨l, drain_to_min_heap top [], ?_, hl, ?_⟩
    · rw [heq, List.nil_append]
      simpa using foldl_max_heap_emplace_perm l []
    · simpa using drain_to_min_heap_perm top []

theorem get_neighbors_heuristic_mem {dist : Nat → Nat → D} {top : List (Pair D)} {M : Nat}
    {p : Pair D} (hp : p ∈ get_neighbors_heuristic dist top M) : p ∈ top := by
  obtain ⟨l, q, h1, h2, h3⟩ := get_neighbors_heuristic_subperm dist top M
  exact h3.subset (h2.subset (h1.subset hp))

theorem get_neighbors_heuristic_nodup {dist : Nat → Nat → D} {top : List (Pair D)} {M : Nat}
    (hn : (top.map Pair.node_id).Nodup) :
    ((get_neighbors_heuristic dist top M).map Pair.node_id).Nodup := by
  obtain ⟨l, q, h1, h2, h3⟩ := get_neighbors_heuristic_subperm dist top M
  have hq : (q.map Pair.node_id).Nodup := (h3.map Pair.node_id).nodup_iff.2 hn
  have hl : (l.map Pair.node_id).Nodup := hq.sublist (h2.map Pair.node_id)
  exact (h1.map Pair.node_id).nodup_iff.2 hl

/-- The heuristic leaves at most `M` entries. -/
theorem get_neighbors_heuristic_length (dist : Nat → Nat → D) (top : List (Pair D)) (M : Nat) :
    (get_neighbors_heuristic dist top M).length ≤ M := by
  unfold get_neighbors_heuristic
  split_ifs with h
  · exact le_of_lt h
  · obtain ⟨l, _, _, hlen⟩ := heuristic_loop_spec dist M (drain_to_min_heap top []) []
    have h1 := (foldl_max_heap_emplace_perm (heuristic_loop dist M (drain_to_min_heap top []) [])
      []).length_eq
    rw [h1, List.append_nil]
    exact hlen (Nat.zero_le _)

theorem get_neighbors_heuristic_ne_nil (dist : Nat → Nat → D) {top : List (Pair D)} {M : Nat}
    (hM : 1 ≤ M) (htop : top ≠ []) : get_neighbors_heuristic dist top M ≠ [] := by
  unfold get_neighbors_heuristic
  split_ifs with h
  · exact htop
  · have hq : drain_to_min_heap top [] ≠ [] := by
      intro h0
      have := (drain_to_min_heap_perm top []).length_eq
      rw [h0] at this
      simp only [List.length_nil, List.append_nil] at this
      exact htop (List.length_eq_zero.1 this.symm)
    obtain ⟨c, rest, hc⟩ := List.exists_cons_of_ne_nil hq
    obtain ⟨l, hl⟩ := heuristic_loop_first dist hM c rest
    rw [hc, hl]
    intro h0
    have := (foldl_max_heap_emplace_perm (c :: l) []).length_eq
    rw [h0] at this
    simp at this

theorem get_neighbors_heuristic_sorted (dist : Nat → Nat → D) {top : List (Pair D)} (M : Nat)
    (htop : top.Sorted Pair.ge) : (get_neighbors_heuristic dist top M).Sorted Pair.ge := by
  unfold get_neighbors_heuristic
  split_ifs with h
  · exact htop
  · exact foldl_max_heap_emplace_sorted _ List.sorted_nil

end
end HNSW

namespace HNSW
section
variable {D : Type} [LinearOrder D]

theorem set_neighborhood_same (g : Graph) (level node : Nat) (l : List Nat) :
    set_neighborhood g level node l level node = l := by
  simp [set_neighborhood]

theorem set_neighborhood_other (g : Graph) {level node lv n : Nat} (l : List Nat)
    (h : ¬ (lv = level ∧ n = node)) : set_neighborhood g level node l lv n = g lv n := by
  simp [set_neighborhood, h]

theorem set_neighborhood_cases (g : Graph) (level node lv n : Nat) (l : List Nat) :
    (lv = level ∧ n = node ∧ set_neighborhood g level node l lv n = l) ∨
    (¬ (lv = level ∧ n = node) ∧ set_neighborhood g level node l lv n = g lv n) := by
  by_cases h : lv = level ∧ n = node
  · exact Or.inl ⟨h.1, h.2, by simp [set_neighborhood, h]⟩
  · exact Or.inr ⟨h, by simp [set_neighborhood, h]⟩

/-- What a call of `add_link` that returns has done. -/
theorem add_link_ok {dist : Nat → Nat → D} {Mcurmax level : Nat} {g g' : Graph} {src dst : Nat}
    (h : add_link dist Mcurmax level g src dst = .ok g') :
    src ≠ dst ∧ (g level src).length ≤ Mcurmax ∧
    ∃ l, g' = set_neighborhood g level src l ∧ l.length ≤ Mcurmax ∧
      (∀ x ∈ l, x ∈ g level src ∨ x = dst) ∧ (1 ≤ Mcurmax → l ≠ []) ∧
      ((g level src).length < Mcurmax → l = g level src ++ [dst]) := by
  unfold add_link at h
  dsimp only at h
  split_ifs at h with h1 h2 h3
  · cases h
    refine ⟨h2, Nat.le_of_lt h3, _, rfl, ?_, ?_, ?_, fun _ => rfl⟩
    · simp only [List.length_append, List.length_singleton]; omega
    · intro x hx
      rcases List.mem_append.1 hx with hx | hx
      · exact Or.inl hx
      · exact Or.inr (List.mem_singleton.1 hx)
    · intro _ h0
      have := congrArg List.length h0
      simp at this
  · cases h
    have hcand : (List.foldl (fun h n => max_heap_emplace (⟨dist src n, n⟩ : Pair D) h)
        (max_heap_emplace ⟨dist src dst, dst⟩ []) (g level src)).Perm
        ((g level src).map (fun n => (⟨dist src n, n⟩ : Pair D)) ++ [⟨dist src dst, dst⟩]) := by
      have := foldl_max_heap_emplace_perm
        ((g level src).map (fun n => (⟨dist src n, n⟩ : Pair D)))
        (max_heap_emplace ⟨dist src dst, dst⟩ [])
      rw [List.foldl_map] at this
      exact this
    refine ⟨h2, Nat.le_of_not_lt h1, _, rfl, ?_, ?_, ?_, fun hlt => absurd hlt h3⟩
    · rw [List.length_map]
      exact get_neighbors_heuristic_length _ _ _
    · intro x hx
      obtain ⟨p, hp, rfl⟩ := List.mem_map.1 hx
      have hp' := hcand.subset (get_neighbors_heuristic_mem hp)
      rcases List.mem_append.1 hp' with hp' | hp'
      · obtain ⟨n, hn, rfl⟩ := List.mem_map.1 hp'
        exact Or.inl hn
      · rw [List.mem_singleton.1 hp']
        exact Or.inr rfl
    · intro hM h0
      have hne : (List.foldl (fun h n => max_heap_emplace (⟨dist src n, n⟩ : Pair D) h)
          (max_heap_emplace ⟨dist src dst, dst⟩ []) (g level src)) ≠ [] := by
        intro h0
        have := hcand.length_eq
        rw [h0] at this
        simp at this
      exact get_neighbors_heuristic_ne_nil dist hM hne (List.map_eq_nil_iff.1 h0)

/-- An attempt to link a node to itself never returns a graph. -/
theorem add_link_self (dist : Nat → Nat → D) (Mcurmax level : Nat) (g : Graph) (src : Nat) :
    add_link dist Mcurmax level g src src = .error .self_connect ∨
    add_link dist Mcurmax level g src src = .error .bad_neighbor_size := by
  unfold add_link
  dsimp only
  by_cases h1 : (g level src).length > Mcurmax
  · exact Or.inr (by simp only [h1, if_true])
  · exact Or.inl (by simp only [h1, if_false, if_true])

/-- An invariant of the graph kept by every `add_link` between the new node and a selected
neighbor is kept by the loop over the selected neighbors. -/
theorem connect_selected_invariant {dist : Nat → Nat → D} {Mcurmax level q : Nat}
    (I : Graph → Prop) (sel : List Nat)
    (hstep : ∀ g g' a b, ((a = q ∧ b ∈ sel) ∨ (b = q ∧ a ∈ sel)) → I g →
      add_link dist Mcurmax level g a b = .ok g' → I g') :
    ∀ (g g' : Graph), I g → connect_selected dist Mcurmax level q sel g = .ok g' → I g' := by
  induction sel with
  | nil => intro g g' hI h; cases h; exact hI
  | cons dst rest ih =>
    intro g g' hI h
    unfold connect_selected at h
    split at h
    · cases h
    · rename_i g1 h1
      split at h
      · cases h
      · rename_i g2 h2
        have hI1 := hstep g g1 q dst (Or.inl ⟨rfl, List.mem_cons_self _ _⟩) hI h1
        have hI2 := hstep g1 g2 dst q (Or.inr ⟨rfl, List.mem_cons_self _ _⟩) hI1 h2
        refine ih (fun g g' a b hab => hstep g g' a b ?_) g2 g' hI2 h
        rcases hab with ⟨ha, hb⟩ | ⟨ha, hb⟩
        · exact Or.inl ⟨ha, List.mem_cons_of_mem _ hb⟩
        · exact Or.inr ⟨ha, List.mem_cons_of_mem _ hb⟩

/-- What a call of `mutually_connect` that returns has gone through. -/
theorem mutually_connect_ok {dist : Nat → Nat → D} {maxM maxM0 level q next : Nat}
    {g g' : Graph} {top : List (Pair D)}
    (h : mutually_connect dist maxM maxM0 g q top level = .ok (g', next)) :
    connect_selected dist (if level ≠ 0 then maxM else maxM0) level q
      ((get_neighbors_heuristic dist top maxM).map Pair.node_id) g = .ok g' ∧
    ((get_neighbors_heuristic dist top maxM).map Pair.node_id).getLast? = some next := by
  unfold mutually_connect at h
  dsimp only at h
  generalize (if level ≠ 0 then maxM else maxM0) = Mc at h ⊢
  split_ifs at h with h1
  split at h
  · cases h
  · rename_i g1 hg1
    split at h
    · cases h
    · rename_i n hn
      cases h
      exact ⟨hg1, hn⟩

theorem add_link_degree_bounded {dist : Nat → Nat → D} {maxM maxM0 level : Nat} {g g' : Graph}
    {src dst : Nat} (hb : degree_bounded maxM maxM0 g)
    (h : add_link dist (if level ≠ 0 then maxM else maxM0) level g src dst = .ok g') :
    degree_bounded maxM maxM0 g' := by
  obtain ⟨_, _, l, rfl, hl, _⟩ := add_link_ok h
  intro lv n
  rcases set_neighborhood_cases g level src lv n l with ⟨h1, _, h3⟩ | ⟨_, h3⟩
  · rw [h3, h1]; exact hl
  · rw [h3]; exact hb lv n

theorem mutually_connect_degree (dist : Nat → Nat → D) (maxM maxM0 : Nat) (g : Graph)
    (src_node_id : Nat) (top_candidates : List (Pair D)) (level : Nat) (g' : Graph) (next : Nat)
    (hb : degree_bounded maxM maxM0 g)
    (h : mutually_connect dist maxM maxM0 g src_node_id top_candidates level = .ok (g', next)) :
    degree_bounded maxM maxM0 g' :=
  connect_selected_invariant (degree_bounded maxM maxM0) _
    (fun _ _ _ _ _ hI hl => add_link_degree_bounded hI hl) g g' hb (mutually_connect_ok h).1

theorem add_link_no_self_loop {dist : Nat → Nat → D} {Mcurmax level : Nat} {g g' : Graph}
    {src dst : Nat} (hb : no_self_loop g)
    (h : add_link dist Mcurmax level g src dst = .ok g') : no_self_loop g' := by
  obtain ⟨hne, _, l, rfl, _, hl, _⟩ := add_link_ok h
  intro lv n hn
  rcases set_neighborhood_cases g level src lv n l with ⟨h1, h2, h3⟩ | ⟨_, h3⟩
  · rw [h3, h2] at hn
    rcases hl _ hn with h4 | h4
    · exact hb level src h4
    · exact hne h4
  · rw [h3] at hn; exact hb lv n hn

end
end HNSW
namespace HNSW
section
variable {D : Type} [LinearOrder D]

/-- Induction over the level loop of `add_point`: `J level g curr` holds before `level` is
processed, `F` of the graph after level 0. -/
theorem connect_levels_induct {dist : Nat → Nat → D} {maxM maxM0 efC fuel q : Nat}
    (J : Nat → Graph → Nat → Prop) (F : Graph → Prop)
    (hstep : ∀ level g curr top g1 next, J level g curr →
      search_level (dist q) g curr efC level fuel = .ok top →
      mutually_connect dist maxM maxM0 g q top level = .ok (g1, next) →
      (level = 0 → F g1) ∧ (∀ l, level = l + 1 → J l g1 next)) :
    ∀ (level : Nat) (g : Graph) (curr : Nat) (r : Graph × Nat), J level g curr →
      connect_levels dist maxM maxM0 efC fuel q level g curr = .ok r → F r.1 := by
  intro level
  induction level with
  | zero =>
    intro g curr r hJ h
    unfold connect_levels at h
    split at h
    · cases h
    · rename_i top htop
      obtain ⟨g1, next⟩ := r
      exact (hstep 0 g curr top g1 next hJ htop h).1 rfl
  | succ level ih =>
    intro g curr r hJ h
    unfold connect_levels at h
    split at h
    · cases h
    · rename_i top htop
      split at h
      · cases h
      · rename_i g1 next hmc
        exact ih g1 next r ((hstep (level + 1) g curr top g1 next hJ htop hmc).2 level rfl) h

/-- What a call of `add_point` that returns has gone through. -/
theorem add_point_ok {dist : Nat → Nat → D} {lv : Nat → Nat} {fuel q : Nat} {h h' : Index}
    (hq : add_point dist lv fuel h q = .ok h') :
    h'.num_node = h.num_node ∧ h'.maxM = h.maxM ∧ h'.maxM0 = h.maxM0 ∧ h'.efC = h.efC ∧
    ((q = 0 ∧ h'.graph = h.graph ∧ h'.init_node = 0 ∧ h'.max_level = lv 0) ∨
     (q ≠ 0 ∧
      (∃ curr r,
        ((lv q < h.max_level ∧ ∃ st, greedy_descent (dist q) h.graph fuel (lv q)
            (h.max_level - lv q) (h.init_node, dist q h.init_node) = .ok st ∧ curr = st.1) ∨
         (¬ lv q < h.max_level ∧ curr = h.init_node)) ∧
        connect_levels dist h.maxM h.maxM0 h.efC fuel q (min (lv q) h.max_level) h.graph curr
          = .ok r ∧ h'.graph = r.1) ∧
      ((h.max_level < lv q ∧ h'.max_level = lv q ∧ h'.init_node = q) ∨
       (¬ h.max_level < lv q ∧ h'.max_level = h.max_level ∧ h'.init_node = h.init_node)))) := by
  unfold add_point at hq
  dsimp only at hq
  by_cases h0 : q = 0
  · simp only [h0, if_true] at hq
    cases hq
    exact ⟨rfl, rfl, rfl, rfl, Or.inl ⟨h0, rfl, rfl, rfl⟩⟩
  · simp only [h0, if_false] at hq
    split at hq
    · cases hq
    · rename_i curr hentry
      split at hq
      · cases hq
      · rename_i g1 nx hcl
        have hent : (lv q < h.max_level ∧ ∃ st, greedy_descent (dist q) h.graph fuel (lv q)
            (h.max_level - lv q) (h.init_node, dist q h.init_node) = .ok st ∧ curr = st.1) ∨
            (¬ lv q < h.max_level ∧ curr = h.init_node) := by
          split_ifs at hentry with hlt
          · split at hentry
            · cases hentry
            · rename_i st hst
              cases hentry
              exact Or.inl ⟨hlt, st, hst, rfl⟩
          · cases hentry
            exact Or.inr ⟨hlt, rfl⟩
        split_ifs at hq with hgt
        · cases hq
          exact ⟨rfl, rfl, rfl, rfl, Or.inr ⟨h0, ⟨curr, (g1, nx), hent, hcl, rfl⟩,
            Or.inl ⟨hgt, rfl, rfl⟩⟩⟩
        · cases hq
          exact ⟨rfl, rfl, rfl, rfl, Or.inr ⟨h0, ⟨curr, (g1, nx), hent, hcl, rfl⟩,
            Or.inr ⟨hgt, rfl, rfl⟩⟩⟩

/-- Induction over the node loop of `train`: `Inv q h` holds when the nodes below `q` are in. -/
theorem add_points_induct {dist : Nat → Nat → D} {lv : Nat → Nat} {fuel : Nat}
    (Inv : Nat → Index → Prop)
    (hstep : ∀ q h h', Inv q h → add_point dist lv fuel h q = .ok h' → Inv (q + 1) h') :
    ∀ (count start : Nat) (h h' : Index), Inv start h →
      add_points dist lv fuel count start h = .ok h' → Inv (start + count) h' := by
  intro count
  induction count with
  | zero => intro start h h' hI hh; cases hh; exact hI
  | succ count ih =>
    intro start h h' hI hh
    unfold add_points at hh
    split at hh
    · cases hh
    · rename_i h1 hh1
      have := ih (start + 1) h1 h' (hstep start h h1 hI hh1) hh
      rw [show start + (count + 1) = start + 1 + count by omega]
      exact this

/-- What a call of `train` that returns has gone through. -/
theorem train_ok {dist : Nat → Nat → D} {rows M efC fuel : Nat} {sampled : Nat → Nat}
    {ub : Int} {idx : Index} (h : train dist rows M efC sampled ub fuel = .ok idx) :
    rows ≠ 0 ∧ ∃ h1, add_points dist (node2level sampled ub) fuel rows 0
        ⟨rows, M, (2 * M) % 2 ^ 32, efC, 0, 0, fun _ _ => []⟩ = .ok h1 ∧
      idx = { h1 with graph :=
        (List.range rows).foldl (sort_neighbors_for_node dist (node2level sampled ub)) h1.graph } := by
  unfold train at h
  dsimp only at h
  split_ifs at h with h0
  split at h
  · cases h
  · rename_i h1 hh1
    cases h
    exact ⟨h0, h1, hh1, rfl⟩

theorem std_sort_map_node_id_perm (f : Nat → D) (l : List Nat) :
    ((std_sort (l.map (fun n => (⟨f n, n⟩ : Pair D)))).map Pair.node_id).Perm l := by
  unfold std_sort
  have h1 := (List.perm_insertionSort Pair.le (l.map (fun n => (⟨f n, n⟩ : Pair D)))).map
    Pair.node_id
  refine h1.trans ?_
  rw [List.map_map]
  have : (Pair.node_id ∘ fun n => (⟨f n, n⟩ : Pair D)) = id := rfl
  rw [this, List.map_id]

/-- The sorting pass permutes each neighbor list and does nothing else. -/
theorem sort_levels_perm (dist : Nat → Nat → D) (node_id : Nat) :
    ∀ (count level : Nat) (g : Graph) (lv n : Nat),
      (sort_levels dist node_id count level g lv n).Perm (g lv n) := by
  intro count
  induction count with
  | zero => intro level g lv n; exact List.Perm.refl _
  | succ count ih =>
    intro level g lv n
    unfold sort_levels
    dsimp only
    split_ifs with h0
    · exact List.Perm.refl _
    · refine (ih _ _ lv n).trans ?_
      rcases set_neighborhood_cases g level node_id lv n
        ((std_sort ((g level node_id).map (fun n => (⟨dist node_id n, n⟩ : Pair D)))).map
          Pair.node_id) with ⟨h1, h2, h3⟩ | ⟨_, h3⟩
      · rw [h3, h1, h2]
        exact std_sort_map_node_id_perm _ _
      · rw [h3]

theorem sort_pass_perm (dist : Nat → Nat → D) (lvl : Nat → Nat) (nodes : List Nat) :
    ∀ (g : Graph) (lv n : Nat),
      ((nodes.foldl (sort_neighbors_for_node dist lvl) g) lv n).Perm (g lv n) := by
  induction nodes with
  | nil => intro g lv n; exact List.Perm.refl _
  | cons x rest ih =>
    intro g lv n
    simp only [List.foldl_cons]
    exact (ih _ lv n).trans (sort_levels_perm dist x _ 0 g lv n)

end
end HNSW

namespace HNSW
section
variable {D : Type} [LinearOrder D]

theorem connect_levels_graph_invariant {dist : Nat → Nat → D} {maxM maxM0 efC fuel q : Nat}
    (I : Graph → Prop)
    (hmc : ∀ g top level g1 next, I g →
      mutually_connect dist maxM maxM0 g q top level = .ok (g1, next) → I g1) :
    ∀ (level : Nat) (g : Graph) (curr : Nat) (r : Graph × Nat), I g →
      connect_levels dist maxM maxM0 efC fuel q level g curr = .ok r → I r.1 := by
  intro level g curr r hI h
  exact connect_levels_induct (fun _ g _ => I g) I
    (fun level g curr top g1 next hJ _ hm =>
      ⟨fun _ => hmc g top level g1 next hJ hm, fun _ _ => hmc g top level g1 next hJ hm⟩)
    level g curr r hI h

theorem add_point_degree_bounded {dist : Nat → Nat → D} {lv : Nat → Nat} {fuel q : Nat}
    {h h' : Index} (hb : degree_bounded h.maxM h.maxM0 h.graph)
    (hq : add_point dist lv fuel h q = .ok h') : degree_bounded h'.maxM h'.maxM0 h'.graph := by
  obtain ⟨_, h2, h3, _, h5⟩ := add_point_ok hq
  rw [h2, h3]
  rcases h5 with ⟨_, hg, _⟩ | ⟨_, ⟨curr, r, _, hcl, hg⟩, _⟩
  · rw [hg]; exact hb
  · rw [hg]
    exact connect_levels_graph_invariant (degree_bounded h.maxM h.maxM0)
      (fun g top level g1 next hI hm => mutually_connect_degree dist _ _ g q top level g1 next hI hm)
      _ _ _ r hb hcl

end
end HNSW
namespace HNSW
section
variable {D : Type} [LinearOrder D]

theorem connect_selected_self (dist : Nat → Nat → D) (Mcurmax level : Nat) {q : Nat} :
    ∀ (sel : List Nat) (g : Graph), q ∈ sel →
      ∃ e, connect_selected dist Mcurmax level q sel g = .error e := by
  intro sel
  induction sel with
  | nil => intro g hq; cases hq
  | cons dst rest ih =>
    intro g hq
    unfold connect_selected
    by_cases hd : dst = q
    · subst hd
      rcases add_link_self dist Mcurmax level g dst with h | h
      · exact ⟨_, by rw [h]⟩
      · exact ⟨_, by rw [h]⟩
    · have hrest : q ∈ rest := by
        rcases List.mem_cons.1 hq with h | h
        · exact absurd h.symm hd
        · exact h
      cases h1 : add_link dist Mcurmax level g q dst with
      | error e => exact ⟨e, rfl⟩
      | ok g1 =>
        dsimp only
        cases h2 : add_link dist Mcurmax level g1 dst q with
        | error e => exact ⟨e, rfl⟩
        | ok g2 => exact ih g2 hrest

theorem mutually_connect_self {dist : Nat → Nat → D} {maxM maxM0 level q : Nat} {g : Graph}
    {top : List (Pair D)}
    (hq : q ∈ (get_neighbors_heuristic dist top maxM).map Pair.node_id) :
    ∃ e, mutually_connect dist maxM maxM0 g q top level = .error e := by
  cases h : mutually_connect dist maxM maxM0 g q top level with
  | error e => exact ⟨e, rfl⟩
  | ok r =>
    obtain ⟨g', next⟩ := r
    obtain ⟨e, he⟩ := connect_selected_self dist
      (if level ≠ 0 then maxM else maxM0) level _ g hq
    rw [(mutually_connect_ok h).1] at he
    cases he

/-- C5. No self-loop is an invariant of construction: when no neighbor list contains its own
node before `mutually_connect`, none does when it has returned. An attempt to link a node to
itself raises an error and writes nothing (also when the node is one of the survivors that
`mutually_connect` links), and the list `add_link` leaves contains only former neighbors and the
new node. -/
theorem no_self_loop_invariant (dist : Nat → Nat → D) :
    (∀ (maxM maxM0 : Nat) (g : Graph) (src_node_id : Nat) (top_candidates : List (Pair D))
        (level : Nat) (g' : Graph) (next : Nat),
      no_self_loop g →
      mutually_connect dist maxM maxM0 g src_node_id top_candidates level = .ok (g', next) →
      no_self_loop g') ∧
    (∀ (Mcurmax level : Nat) (g : Graph) (src : Nat),
      ∃ e, add_link dist Mcurmax level g src src = .error e) ∧
    (∀ (maxM maxM0 : Nat) (g : Graph) (src_node_id : Nat) (top_candidates : List (Pair D))
        (level : Nat),
      src_node_id ∈ (get_neighbors_heuristic dist top_candidates maxM).map Pair.node_id →
      ∃ e, mutually_connect dist maxM maxM0 g src_node_id top_candidates level = .error e) ∧
    (∀ (Mcurmax level : Nat) (g g' : Graph) (src dst : Nat),
      add_link dist Mcurmax level g src dst = .ok g' →
      src ≠ dst ∧ (∀ x ∈ g' level src, x ∈ g level src ∨ x = dst) ∧
      ∀ lv n, ¬ (lv = level ∧ n = src) → g' lv n = g lv n) := by
  refine ⟨?_, ?_, ?_, ?_⟩
  · intro maxM maxM0 g q top level g' next hb h
    exact connect_selected_invariant no_self_loop _
      (fun _ _ _ _ _ hI hl => add_link_no_self_loop hI hl) g g' hb (mutually_connect_ok h).1
  · intro Mcurmax level g src
    rcases add_link_self dist Mcurmax level g src with h | h
    · exact ⟨_, h⟩
    · exact ⟨_, h⟩
  · intro maxM maxM0 g q top level hq
    exact mutually_connect_self hq
  · intro Mcurmax level g g' src dst h
    obtain ⟨hne, _, l, rfl, _, hl, _⟩ := add_link_ok h
    refine ⟨hne, ?_, fun lv n hn => set_neighborhood_other g l hn⟩
    rw [set_neighborhood_same]
    exact hl

theorem no_self_loop_invariant_witness :
    ∃ g' next, mutually_connect example_dist 2 4 example_index.graph 3
        [⟨36, 2⟩, ⟨49, 1⟩, ⟨100, 0⟩] 0 = .ok (g', next) ∧ no_self_loop g' := by
  cases h : mutually_connect example_dist 2 4 example_index.graph 3
      [⟨36, 2⟩, ⟨49, 1⟩, ⟨100, 0⟩] 0 with
  | error e =>
    have hok : (mutually_connect example_dist 2 4 example_index.graph 3
      [⟨36, 2⟩, ⟨49, 1⟩, ⟨100, 0⟩] 0).isOk = true := rfl
    rw [h] at hok
    cases hok
  | ok r =>
    obtain ⟨g', next⟩ := r
    refine ⟨g', next, rfl, (no_self_loop_invariant example_dist).1 _ _ _ _ _ _ g' next ?_ h⟩
    intro lv n
    unfold example_index
    dsimp only
    split_ifs
    · match n with
      | 0 => decide
      | 1 => decide
      | 2 => decide
      | n + 3 => simp
    · simp

end
end HNSW
namespace Float32

theorem lt_iff (a b : Float32) : a < b ↔ lt a b = true := Iff.rfl

/-- On values that are not not-a-number the comparison is the order of the keys. -/
theorem lt_iff_key {a b : Float32} (ha : a.is_nan = false) (hb : b.is_nan = false) :
    a < b ↔ a.key < b.key := by
  rw [lt_iff]
  unfold lt
  rw [ha, hb]
  simp

/-- Not-a-number is neither below nor above any value. -/
theorem not_lt_of_nan {a b : Float32} (h : a.is_nan = true ∨ b.is_nan = true) : ¬ a < b := by
  rw [lt_iff]
  unfold lt
  rcases h with h | h <;> rw [h] <;> simp

/-- Two values of positive sign with the same key are the same value. -/
theorem eq_of_key {a b : Float32} (ha : a.sign = false) (hb : b.sign = false)
    (h : a.key = b.key) : a = b := by
  obtain ⟨sa, ea, fa⟩ := a
  obtain ⟨sb, eb, fb⟩ := b
  simp only at ha hb
  subst ha hb
  unfold key at h
  simp only [Bool.false_eq_true, if_false] at h
  have hfa := fa.isLt
  have hfb := fb.isLt
  have h' : ea.val * 8388608 + fa.val = eb.val * 8388608 + fb.val := by exact_mod_cast h
  have he : ea.val = eb.val := by omega
  have hf : fa.val = fb.val := by omega
  rw [Fin.ext he, Fin.ext hf]

theorem of_units_sign (s : Bool) (u : Nat) : (of_units s u).sign = s := by
  unfold of_units
  by_cases h1 : u < 8388608
  · rw [if_pos h1]
  · rw [if_neg h1]
    dsimp only
    split_ifs <;> rfl

theorem round_sign (s : Bool) (num den : Nat) : (round s num den).sign = s := by
  unfold round
  exact of_units_sign _ _

/-- A square has the positive sign. -/
theorem mul_self_sign (a : Float32) : (a * a).sign = false := by
  show (mul a a).sign = false
  unfold mul
  split_ifs
  · rfl
  · rfl
  · simp [inf]
  · rw [round_sign]; simp

theorem signed_units_nonneg {a : Float32} (ha : a.sign = false) : 0 ≤ a.signed_units := by
  unfold signed_units
  rw [ha]
  simp

/-- The sum of two values of positive sign has the positive sign. -/
theorem add_sign {a b : Float32} (ha : a.sign = false) (hb : b.sign = false) :
    (a + b).sign = false := by
  show (add a b).sign = false
  unfold add
  have h1 := signed_units_nonneg ha
  have h2 := signed_units_nonneg hb
  dsimp only
  split_ifs
  · rfl
  · rfl
  · exact ha
  · exact hb
  · simp [zero, ha]
  · rw [round_sign]
    simp only [decide_eq_false_iff_not, not_lt]
    omega

theorem zero_sign : (0 : Float32).sign = false := rfl

theorem round_half_even_bounds (n d : Nat) :
    n / d ≤ round_half_even n d ∧ round_half_even n d ≤ n / d + 1 ∧
    (2 * (n % d) < d → round_half_even n d = n / d) ∧
    (d < 2 * (n % d) → round_half_even n d = n / d + 1) := by
  unfold round_half_even
  refine ⟨?_, ?_, ?_, ?_⟩
  · split_ifs <;> omega
  · split_ifs <;> omega
  · intro h; rw [if_pos h]
  · intro h; rw [if_neg (by omega), if_pos h]

/-- The two roundings to an integer differ by at most one, and the rounding to even is not
farther from zero than the rounding away from zero. -/
theorem round_half_even_le_away (u h : Nat) (hh : 0 < h) :
    round_half_even u (2 * h) ≤ (u + h) / (2 * h) ∧
    (u + h) / (2 * h) ≤ round_half_even u (2 * h) + 1 := by
  obtain ⟨b1, b2, b3, b4⟩ := round_half_even_bounds u (2 * h)
  have hdm := Nat.div_add_mod u (2 * h)
  have hmod := Nat.mod_lt u (show 0 < 2 * h by omega)
  have e1 : u / (2 * h) * (2 * h) = 2 * h * (u / (2 * h)) := Nat.mul_comm _ _
  have e2 : (u / (2 * h) + 1) * (2 * h) = 2 * h * (u / (2 * h)) + 2 * h := by ring
  have e3 : (u / (2 * h) + 1 + 1) * (2 * h) = 2 * h * (u / (2 * h)) + 2 * h + 2 * h := by ring
  by_cases hlt : 2 * (u % (2 * h)) < 2 * h
  · rw [b3 hlt]
    have : (u + h) / (2 * h) = u / (2 * h) :=
      Nat.div_eq_of_lt_le (by omega) (by omega)
    omega
  · have : (u + h) / (2 * h) = u / (2 * h) + 1 :=
      Nat.div_eq_of_lt_le (by omega) (by omega)
    omega

/-- When `std::round` gives an integer of `[0, 255]`, the rounding to even gives an integer of
`[0, 255]` that differs from it by at most one. -/
theorem round_nearest_even_near (x : Float32) (v : Int) (h : x.std_round = some v)
    (h0 : 0 ≤ v) (h255 : v ≤ 255) :
    ∃ w : Int, x.round_nearest_even = some w ∧ 0 ≤ w ∧ w ≤ 255 ∧ w ≤ v ∧ v ≤ w + 1 := by
  unfold std_round at h
  unfold round_nearest_even
  obtain ⟨r1, r2⟩ := round_half_even_le_away x.units (2 ^ 148) (by positivity)
  rw [show 2 * 2 ^ 148 = 2 ^ 149 by norm_num] at r1 r2
  by_cases hs : (x.is_nan || x.is_inf) = true
  · rw [if_pos hs] at h; cases h
  · rw [if_neg hs] at h ⊢
    by_cases hsign : x.sign = true
    · rw [if_pos hsign] at h ⊢
      simp only [Option.some.injEq] at h
      refine ⟨_, rfl, ?_⟩
      omega
    · rw [if_neg hsign] at h ⊢
      simp only [Option.some.injEq] at h
      refine ⟨_, rfl, ?_⟩
      omega

end Float32
namespace ProductQuantizer4Bits

theorem foldl_congr_range {α : Type} (f g : α → Nat → α) (n : Nat) (a : α)
    (h : ∀ v j, j < n → f v j = g v j) : (List.range n).foldl f a = (List.range n).foldl g a := by
  induction n with
  | zero => rfl
  | succ n ih =>
    rw [List.range_succ, List.foldl_append, List.foldl_append,
      ih (fun v j hj => h v j (Nat.lt_succ_of_lt hj))]
    simp only [List.foldl_cons, List.foldl_nil]
    exact h _ n (Nat.lt_succ_self n)

/-- A loop whose every step has a value has the value of the loop of these values. -/
theorem foldlM_range_some {β : Type} (f : β → Nat → Option β) (g : β → Nat → β) (n : Nat)
    (h : ∀ b j, j < n → f b j = some (g b j)) (b0 : β) :
    (List.range n).foldlM f b0 = some ((List.range n).foldl g b0) := by
  induction n with
  | zero => rfl
  | succ n ih =>
    rw [List.range_succ, List.foldlM_append, List.foldl_append,
      ih (fun b j hj => h b j (Nat.lt_succ_of_lt hj))]
    simp only [Option.bind_eq_bind, Option.some_bind, List.foldlM_cons, List.foldlM_nil,
      List.foldl_cons, List.foldl_nil, h _ n (Nat.lt_succ_self n)]
    rfl

theorem foldlM_congr_range {α : Type} (f g : α → Nat → Option α) (n : Nat) (a : α)
    (h : ∀ v j, j < n → f v j = g v j) :
    (List.range n).foldlM f a = (List.range n).foldlM g a := by
  induction n with
  | zero => rfl
  | succ n ih =>
    rw [List.range_succ, List.foldlM_append, List.foldlM_append,
      ih (fun v j hj => h v j (Nat.lt_succ_of_lt hj))]
    congr 1
    funext v
    simp only [List.foldlM_cons, List.foldlM_nil]
    rw [h v n (Nat.lt_succ_self n)]

/-- What `gather` returns: the `n` values, in order. -/
theorem gather_spec {α : Type} (f : Nat → Option α) :
    ∀ (n : Nat) (l : List α), gather f n = some l →
      l.length = n ∧ ∀ i, i < n → l[i]? = f i := by
  intro n
  induction n with
  | zero =>
    intro l h
    simp only [gather, Option.some.injEq] at h
    subst h
    exact ⟨rfl, fun i hi => absurd hi (Nat.not_lt_zero _)⟩
  | succ n ih =>
    intro l h
    simp only [gather, Option.bind_eq_some, Option.map_eq_some'] at h
    obtain ⟨l0, hl0, a, ha, rfl⟩ := h
    obtain ⟨h1, h2⟩ := ih l0 hl0
    refine ⟨by simp [h1], fun i hi => ?_⟩
    by_cases hin : i < n
    · rw [List.getElem?_append_left (by omega)]
      exact h2 i hin
    · have : i = n := by omega
      subst this
      rw [List.getElem?_append_right (by omega), h1, ha]
      simp

theorem gather_total {α : Type} (f : Nat → Option α) (n : Nat)
    (h : ∀ i, i < n → ∃ a, f i = some a) : ∃ l, gather f n = some l := by
  induction n with
  | zero => exact ⟨[], rfl⟩
  | succ n ih =>
    obtain ⟨l, hl⟩ := ih (fun i hi => h i (Nat.lt_succ_of_lt hi))
    obtain ⟨a, ha⟩ := h n (Nat.lt_succ_self n)
    exact ⟨l ++ [a], by simp only [gather, hl, ha, Option.some_bind, Option.map_some']⟩

theorem gather_congr {α : Type} (f g : Nat → Option α) (n : Nat)
    (h : ∀ i, i < n → f i = g i) : gather f n = gather g n := by
  induction n with
  | zero => rfl
  | succ n ih =>
    simp only [gather, ih (fun i hi => h i (Nat.lt_succ_of_lt hi)), h n (Nat.lt_succ_self n)]

section MinElement

variable {R : Type} [LT R] [DecidableRel (fun a b : R => a < b)]

theorem min_element_loop_lt : ∀ (xs : List R) (i res : Nat) (best : R), res < i →
    min_element_loop xs i res best < i + xs.length := by
  intro xs
  induction xs with
  | nil => intro i res best h; simpa [min_element_loop] using h
  | cons x xs ih =>
    intro i res best h
    simp only [min_element_loop, List.length_cons]
    split_ifs
    · have := ih (i + 1) i x (Nat.lt_succ_self i)
      omega
    · have := ih (i + 1) res best (by omega)
      omega

/-- The position that `std::min_element` finds is inside the range, whatever the comparison. -/
theorem min_element_lt (l : List R) (h : l ≠ []) : min_element l < l.length := by
  cases l with
  | nil => exact absurd rfl h
  | cons x xs =>
    simp only [min_element, List.length_cons]
    have := min_element_loop_lt xs 1 0 x Nat.zero_lt_one
    omega

/-- The loop of `std::min_element` on values that a key orders: it keeps the first position of
a smallest key. -/
theorem min_element_loop_key (key : R → Int) (l : List R)
    (hk : ∀ a ∈ l, ∀ b ∈ l, (a < b ↔ key a < key b)) :
    ∀ (xs pre : List R) (res : Nat) (best : R), l = pre ++ xs → l[res]? = some best →
      res < pre.length →
      (∀ j x, j < pre.length → l[j]? = some x → key best ≤ key x) →
      (∀ j x, j < res → l[j]? = some x → key best < key x) →
      ∃ v, l[min_element_loop xs pre.length res best]? = some v ∧
        (∀ x ∈ l, key v ≤ key x) ∧
        (∀ j x, j < min_element_loop xs pre.length res best → l[j]? = some x →
          key v < key x) := by
  intro xs
  induction xs with
  | nil =>
    intro pre res best hl hbest _ h1 h2
    simp only [min_element_loop]
    refine ⟨best, hbest, fun x hx => ?_, h2⟩
    obtain ⟨j, hj, hjx⟩ := List.getElem_of_mem hx
    refine h1 j x ?_ (by rw [List.getElem?_eq_getElem hj, hjx])
    rw [hl, List.append_nil] at hj
    exact hj
  | cons x xs ih =>
    intro pre res best hl hbest hres h1 h2
    have hx : l[pre.length]? = some x := by
      rw [hl, List.getElem?_append_right (Nat.le_refl _)]
      simp
    have hxmem : x ∈ l := List.getElem?_mem hx
    have hbmem : best ∈ l := List.getElem?_mem hbest
    have hl' : l = (pre ++ [x]) ++ xs := by rw [hl]; simp
    have hlen : (pre ++ [x]).length = pre.length + 1 := by simp
    simp only [min_element_loop]
    split_ifs with hlt
    · have hlt' := (hk x hxmem best hbmem).1 hlt
      have := ih (pre ++ [x]) pre.length x hl' hx (by rw [hlen]; omega)
        (fun j y hj hy => by
          rw [hlen] at hj
          rcases Nat.lt_succ_iff_lt_or_eq.1 hj with h | h
          · exact le_trans (le_of_lt hlt') (h1 j y h hy)
          · rw [h, hx] at hy
            cases hy
            exact le_refl _)
        (fun j y hj hy => lt_of_lt_of_le hlt' (h1 j y hj hy))
      rw [hlen] at this
      exact this
    · have hnlt : ¬ key x < key best := fun h => hlt ((hk x hxmem best hbmem).2 h)
      have := ih (pre ++ [x]) res best hl' hbest (by rw [hlen]; omega)
        (fun j y hj hy => by
          rw [hlen] at hj
          rcases Nat.lt_succ_iff_lt_or_eq.1 hj with h | h
          · exact h1 j y h hy
          · rw [h, hx] at hy
            cases hy
            exact not_lt.1 hnlt)
        h2
      rw [hlen] at this
      exact this

/-- On values that a key orders, `std::min_element` finds the first position of a smallest
key. -/
theorem min_element_key (key : R → Int) (l : List R) (hne : l ≠ [])
    (hk : ∀ a ∈ l, ∀ b ∈ l, (a < b ↔ key a < key b)) :
    ∃ v, l[min_element l]? = some v ∧ (∀ x ∈ l, key v ≤ key x) ∧
      (∀ j x, j < min_element l → l[j]? = some x → key v < key x) := by
  cases l with
  | nil => exact absurd rfl hne
  | cons x xs =>
    simp only [min_element]
    exact min_element_loop_key key (x :: xs) hk xs [x] 0 x rfl (by simp) Nat.zero_lt_one
      (fun j y hj hy => by
        have : j = 0 := by simpa using hj
        subst this
        simp only [List.getElem?_cons_zero, Option.some.injEq] at hy
        rw [hy])
      (fun j y hj _ => absurd hj (Nat.not_lt_zero _))

end MinElement

/-- On `float` values none of which is not-a-number, `std::min_element` finds the first
position of a smallest value. -/
theorem min_element_float (l : List Float32) (hne : l ≠ [])
    (hnan : ∀ v ∈ l, v.is_nan = false) :
    ∃ v, l[min_element l]? = some v ∧ (∀ x ∈ l, ¬ x < v) ∧
      (∀ j x, j < min_element l → l[j]? = some x → v < x) := by
  obtain ⟨v, h1, h2, h3⟩ := min_element_key Float32.key l hne
    (fun a ha b hb => Float32.lt_iff_key (hnan a ha) (hnan b hb))
  have hv := hnan v (List.getElem?_mem h1)
  refine ⟨v, h1, fun x hx hlt => ?_, fun j x hj hjx => ?_⟩
  · have := (Float32.lt_iff_key (hnan x hx) hv).1 hlt
    have := h2 x hx
    omega
  · exact (Float32.lt_iff_key hv (hnan x (List.getElem?_mem hjx))).2 (h3 j x hj hjx)

theorem codebook_index_lt {M ld d k j : Nat} (hd : d < M) (hk : k < 16) (hj : j < ld) :
    d * 16 * ld + k * ld + j < M * 16 * ld := by
  have h1 : (d + 1) * (16 * ld) ≤ M * (16 * ld) := Nat.mul_le_mul_right _ hd
  have h2 : (k + 1) * ld ≤ 16 * ld := Nat.mul_le_mul_right _ hk
  rw [Nat.add_mul, Nat.one_mul] at h1 h2
  rw [Nat.mul_assoc, Nat.mul_assoc]
  omega

theorem slice_index_lt {M ld d j : Nat} (hd : d < M) (hj : j < ld) : d * ld + j < M * ld := by
  have h1 : (d + 1) * ld ≤ M * ld := Nat.mul_le_mul_right _ hd
  rw [Nat.add_mul, Nat.one_mul] at h1
  omega

section
variable {R : Type} [Zero R] [Add R] [Sub R] [Mul R]

/-- With every subscript inside its vector, the value `v` of `encode` is the sum of squares
that the loop accumulates. -/
theorem encode_distance_eq (pq : Quantizer R) (x : List R) (d k : Nat)
    (hd : d < pq.num_local_codebooks) (hk : k < 16)
    (hcb : pq.num_local_codebooks * 16 * pq.local_dimension
      ≤ pq.original_local_codebooks.length)
    (hgc : pq.num_local_codebooks * pq.local_dimension ≤ pq.global_centroid.length)
    (hx : pq.num_local_codebooks * pq.local_dimension ≤ x.length) :
    encode_distance pq x d k = some (encode_value pq x d k) := by
  unfold encode_distance encode_value
  apply foldlM_range_some
  intro v j hj
  have h1 := codebook_index_lt hd hk hj
  have h2 := slice_index_lt hd hj
  rw [List.getElem?_eq_getElem (by omega : _ < pq.original_local_codebooks.length),
    List.getElem?_eq_getElem (by omega : _ < x.length),
    List.getElem?_eq_getElem (by omega : _ < pq.global_centroid.length)]
  simp only [Option.some_bind, Option.map_some', List.getD_eq_getElem?_getD,
    List.getElem?_eq_getElem (by omega : d * 16 * pq.local_dimension + k * pq.local_dimension + j
      < pq.original_local_codebooks.length),
    List.getElem?_eq_getElem (by omega : d * pq.local_dimension + j < x.length),
    List.getElem?_eq_getElem (by omega : d * pq.local_dimension + j < pq.global_centroid.length),
    Option.getD_some]

theorem encode_results_eq (pq : Quantizer R) (x : List R) (d : Nat)
    (hd : d < pq.num_local_codebooks)
    (hcb : pq.num_local_codebooks * 16 * pq.local_dimension
      ≤ pq.original_local_codebooks.length)
    (hgc : pq.num_local_codebooks * pq.local_dimension ≤ pq.global_centroid.length)
    (hx : pq.num_local_codebooks * pq.local_dimension ≤ x.length) :
    ∃ results, encode_results pq x d = some results ∧ results.length = 16 ∧
      ∀ k, k < 16 → results[k]? = some (encode_value pq x d k) := by
  obtain ⟨results, hr⟩ := gather_total (encode_distance pq x d) 16
    (fun k hk => ⟨_, encode_distance_eq pq x d k hd hk hcb hgc hx⟩)
  obtain ⟨h1, h2⟩ := gather_spec _ _ _ hr
  exact ⟨results, hr, h1, fun k hk => by
    rw [h2 k hk, encode_distance_eq pq x d k hd hk hcb hgc hx]⟩

theorem encode_distance_congr (pq : Quantizer R) (x y : List R) (d k : Nat)
    (hd : d < pq.num_local_codebooks)
    (hxy : ∀ i, i < pq.num_local_codebooks * pq.local_dimension → y[i]? = x[i]?) :
    encode_distance pq y d k = encode_distance pq x d k := by
  unfold encode_distance
  apply foldlM_congr_range
  intro v j hj
  rw [hxy _ (slice_index_lt hd hj)]

end

/-- C9, amended. For every vector `x` and every sub-space `m < M` (the vectors of the quantizer
and `x` holding the `M * 16 * local_dim` and `M * local_dim` values that are read), `encode`
returns `M` codes, and code `m` is an index `c < 16`, so it fits in 4 bits. When none of the 16
values `v` that the loop accumulates in `float` for sub-space `m` (the sum, in the order of `j`,
of the rounded squares of `original_local_codebooks[m, k, j] - (x[m, j] - global_centroid[m, j])`)
is not-a-number, `c` is the lowest index at which `v` is smallest: no `v` is below the one of
`c`, and the `v` of every lower index is above it. The codes depend on nothing but the first
`M * local_dim` coordinates of `x`, so encoding the same `x` twice yields the same codes. -/
theorem encode_argmin (pq : Quantizer Float32) (x : List Float32)
    (hcb : pq.num_local_codebooks * 16 * pq.local_dimension
      ≤ pq.original_local_codebooks.length)
    (hgc : pq.num_local_codebooks * pq.local_dimension ≤ pq.global_centroid.length)
    (hx : pq.num_local_codebooks * pq.local_dimension ≤ x.length) :
    ∃ codes, encode pq x = some codes ∧ codes.length = pq.num_local_codebooks ∧
      (∀ m, m < pq.num_local_codebooks → ∃ c, codes[m]? = some c ∧ c < 16 ∧
        (∀ k, k < 16 → encode_distance pq x m k = some (encode_value pq x m k)) ∧
        ((∀ k, k < 16 → (encode_value pq x m k).is_nan = false) →
          (∀ k, k < 16 → ¬ encode_value pq x m k < encode_value pq x m c) ∧
          ∀ k, k < c → encode_value pq x m c < encode_value pq x m k)) ∧
      ∀ y : List Float32,
        (∀ i, i < pq.num_local_codebooks * pq.local_dimension → y[i]? = x[i]?) →
        encode pq y = some codes := by
  obtain ⟨codes, hcodes⟩ := gather_total
    (fun d => (encode_results pq x d).map (fun results => min_element results % 256))
    pq.num_local_codebooks (fun d hd => by
      obtain ⟨results, hr, _⟩ := encode_results_eq pq x d hd hcb hgc hx
      exact ⟨min_element results % 256, by simp only [hr, Option.map_some']⟩)
  obtain ⟨hlen, hget⟩ := gather_spec _ _ _ hcodes
  refine ⟨codes, hcodes, hlen, fun m hm => ?_, fun y hy => ?_⟩
  · obtain ⟨results, hr, hrlen, hrk⟩ := encode_results_eq pq x m hm hcb hgc hx
    have hne : results ≠ [] := by
      intro h
      rw [h] at hrlen
      cases hrlen
    have hlt : min_element results < 16 := by
      have := min_element_lt results hne
      omega
    refine ⟨min_element results, ?_, hlt,
      fun k hk => encode_distance_eq pq x m k hm hk hcb hgc hx, fun hnan => ?_⟩
    · rw [hget m hm]
      simp only [hr, Option.map_some']
      rw [Nat.mod_eq_of_lt (by omega)]
    · have hmem : ∀ v ∈ results, ∃ k, k < 16 ∧ v = encode_value pq x m k := by
        intro v hv
        obtain ⟨k, hk, hkv⟩ := List.getElem_of_mem hv
        have h1 := hrk k (by omega)
        rw [List.getElem?_eq_getElem hk, hkv] at h1
        exact ⟨k, by omega, Option.some.inj h1⟩
      obtain ⟨v, h1, h2, h3⟩ := min_element_float results hne (fun v hv => by
        obtain ⟨k, hk, rfl⟩ := hmem v hv
        exact hnan k hk)
      rw [hrk _ hlt] at h1
      have hv : v = encode_value pq x m (min_element results) := (Option.some.inj h1).symm
      subst hv
      exact ⟨fun k hk => h2 _ (List.getElem?_mem (hrk k hk)),
        fun k hk => h3 k _ hk (hrk k (by omega))⟩
  · rw [← hcodes]
    unfold encode
    apply gather_congr
    intro d hd
    unfold encode_results
    rw [gather_congr (encode_distance pq y d) (encode_distance pq x d) 16
      (fun k _ => encode_distance_congr pq x y d k hd hy)]

/-- C9, counterexample. One sub-codebook of dimension two whose centroids 0 and 1 are
`(4096, 1)` and `(4096, 0.5)`, the other centroids `(8192, 0)`, and the vector `(0, 0)` with a
zero `global_centroid`: the squared distances are `2 ^ 24 + 1` and `2 ^ 24 + 0.25`, so centroid
1 is the nearest, but both sums are rounded to `2 ^ 24` in `float` and `encode` stores the
code 0. -/
theorem encode_argmin_counterexample :
    encode rounding_quantizer [0, 0] = some [0] ∧
    encode_value rounding_quantizer [0, 0] 0 0 = ((16777216 : Nat) : Float32) ∧
    encode_value rounding_quantizer [0, 0] 0 1 = ((16777216 : Nat) : Float32) ∧
    squared_l2_distance rounding_quantizer [0, 0] 0 0 = 16777217 * 2 ^ 298 ∧
    4 * squared_l2_distance rounding_quantizer [0, 0] 0 1 = 67108865 * 2 ^ 298 ∧
    ¬ (∀ (pq : Quantizer Float32) (x : List Float32) (codes : List Nat) (m c k : Nat),
      encode pq x = some codes → codes[m]? = some c → k < 16 →
      squared_l2_distance pq x m c ≤ squared_l2_distance pq x m k) := by
  have h1 : encode rounding_quantizer [0, 0] = some [0] := by
    set_option maxRecDepth 100000 in decide
  have h2 : squared_l2_distance rounding_quantizer [0, 0] 0 0 = 16777217 * 2 ^ 298 := by
    set_option maxRecDepth 100000 in decide
  have h3 : 4 * squared_l2_distance rounding_quantizer [0, 0] 0 1 = 67108865 * 2 ^ 298 := by
    set_option maxRecDepth 100000 in decide
  refine ⟨h1, by set_option maxRecDepth 100000 in decide,
    by set_option maxRecDepth 100000 in decide, h2, h3, fun hall => ?_⟩
  have h := hall rounding_quantizer [0, 0] [0] 0 0 1 h1 rfl (by decide)
  rw [h2] at h
  omega

theorem encode_argmin_witness :
    rounding_quantizer.num_local_codebooks * 16 * rounding_quantizer.local_dimension
      ≤ rounding_quantizer.original_local_codebooks.length ∧
    rounding_quantizer.num_local_codebooks * rounding_quantizer.local_dimension
      ≤ rounding_quantizer.global_centroid.length ∧
    rounding_quantizer.num_local_codebooks * rounding_quantizer.local_dimension
      ≤ ([0, 0] : List Float32).length ∧
    ∃ codes, encode rounding_quantizer [0, 0] = some codes ∧
      codes.length = rounding_quantizer.num_local_codebooks ∧
      (∀ m, m < rounding_quantizer.num_local_codebooks → ∃ c, codes[m]? = some c ∧ c < 16 ∧
        (∀ k, k < 16 → encode_distance rounding_quantizer [0, 0] m k
          = some (encode_value rounding_quantizer [0, 0] m k)) ∧
        ((∀ k, k < 16 → (encode_value rounding_quantizer [0, 0] m k).is_nan = false) →
          (∀ k, k < 16 → ¬ encode_value rounding_quantizer [0, 0] m k
            < encode_value rounding_quantizer [0, 0] m c) ∧
          ∀ k, k < c → encode_value rounding_quantizer [0, 0] m c
            < encode_value rounding_quantizer [0, 0] m k)) ∧
      ∀ y : List Float32,
        (∀ i, i < rounding_quantizer.num_local_codebooks * rounding_quantizer.local_dimension →
          y[i]? = ([0, 0] : List Float32)[i]?) →
        encode rounding_quantizer y = some codes :=
  ⟨by decide, by decide, by decide,
    encode_argmin rounding_quantizer [0, 0] (by decide) (by decide) (by decide)⟩

end ProductQuantizer4Bits
namespace ProductQuantizer4Bits

section StdMinMax

variable {R : Type} [LT R] [DecidableRel (fun a b : R => a < b)]

theorem std_max_choice (a b : R) : std_max a b = a ∨ std_max a b = b := by
  unfold std_max
  split_ifs
  · exact Or.inr rfl
  · exact Or.inl rfl

theorem std_min_choice (a b : R) : std_min a b = a ∨ std_min a b = b := by
  unfold std_min
  split_ifs
  · exact Or.inr rfl
  · exact Or.inl rfl

/-- The loop of `std::max` over values that a key orders ends with a value of the largest
key, the start value or one of the list. -/
theorem foldl_std_max_key (key : R → Int) (l : List R) :
    ∀ a : R, (∀ x ∈ a :: l, ∀ y ∈ a :: l, (x < y ↔ key x < key y)) →
      (l.foldl (fun max tmp_v => std_max max tmp_v) a = a ∨
        l.foldl (fun max tmp_v => std_max max tmp_v) a ∈ l) ∧
      key a ≤ key (l.foldl (fun max tmp_v => std_max max tmp_v) a) ∧
      ∀ r ∈ l, key r ≤ key (l.foldl (fun max tmp_v => std_max max tmp_v) a) := by
  induction l with
  | nil =>
    intro a _
    exact ⟨Or.inl rfl, le_refl _, fun r hr => absurd hr (List.not_mem_nil _)⟩
  | cons x l ih =>
    intro a hk
    simp only [List.foldl_cons]
    have hmem : std_max a x ∈ a :: x :: l := by
      rcases std_max_choice a x with h | h <;> rw [h] <;> simp
    obtain ⟨h1, h2, h3⟩ := ih (std_max a x) (fun u hu v hv => by
      apply hk
      · rcases List.mem_cons.1 hu with h | h
        · rw [h]; exact hmem
        · exact List.mem_cons_of_mem _ (List.mem_cons_of_mem _ h)
      · rcases List.mem_cons.1 hv with h | h
        · rw [h]; exact hmem
        · exact List.mem_cons_of_mem _ (List.mem_cons_of_mem _ h))
    have hax := hk a (List.mem_cons_self _ _) x (List.mem_cons_of_mem _ (List.mem_cons_self _ _))
    have hkey : key a ≤ key (std_max a x) ∧ key x ≤ key (std_max a x) := by
      unfold std_max
      split_ifs with hlt
      · exact ⟨le_of_lt (hax.1 hlt), le_refl _⟩
      · exact ⟨le_refl _, not_lt.1 (fun h => hlt (hax.2 h))⟩
    refine ⟨?_, le_trans hkey.1 h2, ?_⟩
    · rcases h1 with h | h
      · rcases std_max_choice a x with h' | h'
        · exact Or.inl (h.trans h')
        · exact Or.inr (by rw [h, h']; exact List.mem_cons_self _ _)
      · exact Or.inr (List.mem_cons_of_mem _ h)
    · intro r hr
      rcases List.mem_cons.1 hr with h | h
      · rw [h]; exact le_trans hkey.2 h2
      · exact h3 r h

/-- The loop of `std::min` over values that a key orders ends with a value of the smallest
key, the start value or one of the list. -/
theorem foldl_std_min_key (key : R → Int) (l : List R) :
    ∀ a : R, (∀ x ∈ a :: l, ∀ y ∈ a :: l, (x < y ↔ key x < key y)) →
      (l.foldl (fun min tmp_v => std_min min tmp_v) a = a ∨
        l.foldl (fun min tmp_v => std_min min tmp_v) a ∈ l) ∧
      key (l.foldl (fun min tmp_v => std_min min tmp_v) a) ≤ key a ∧
      ∀ r ∈ l, key (l.foldl (fun min tmp_v => std_min min tmp_v) a) ≤ key r := by
  induction l with
  | nil =>
    intro a _
    exact ⟨Or.inl rfl, le_refl _, fun r hr => absurd hr (List.not_mem_nil _)⟩
  | cons x l ih =>
    intro a hk
    simp only [List.foldl_cons]
    have hmem : std_min a x ∈ a :: x :: l := by
      rcases std_min_choice a x with h | h <;> rw [h] <;> simp
    obtain ⟨h1, h2, h3⟩ := ih (std_min a x) (fun u hu v hv => by
      apply hk
      · rcases List.mem_cons.1 hu with h | h
        · rw [h]; exact hmem
        · exact List.mem_cons_of_mem _ (List.mem_cons_of_mem _ h)
      · rcases List.mem_cons.1 hv with h | h
        · rw [h]; exact hmem
        · exact List.mem_cons_of_mem _ (List.mem_cons_of_mem _ h))
    have hxa := hk x (List.mem_cons_of_mem _ (List.mem_cons_self _ _)) a (List.mem_cons_self _ _)
    have hkey : key (std_min a x) ≤ key a ∧ key (std_min a x) ≤ key x := by
      unfold std_min
      split_ifs with hlt
      · exact ⟨le_of_lt (hxa.1 hlt), le_refl _⟩
      · exact ⟨le_refl _, not_lt.1 (fun h => hlt (hxa.2 h))⟩
    refine ⟨?_, le_trans h2 hkey.1, ?_⟩
    · rcases h1 with h | h
      · rcases std_min_choice a x with h' | h'
        · exact Or.inl (h.trans h')
        · exact Or.inr (by rw [h, h']; exact List.mem_cons_self _ _)
      · exact Or.inr (List.mem_cons_of_mem _ h)
    · intro r hr
      rcases List.mem_cons.1 hr with h | h
      · rw [h]; exact le_trans h2 hkey.2
      · exact h3 r h

end StdMinMax

section
variable {R : Type} [Zero R] [Add R] [Sub R] [Mul R]

/-- With every subscript inside its vector, the value `tmp_v` of the scalar `setup_lut` is the
sum of squares that the loop accumulates. -/
theorem lut_distance_eq (pq : Quantizer R) (query : List R) (d k : Nat)
    (hd : d < pq.num_local_codebooks) (hk : k < 16)
    (hq : pq.num_local_codebooks * pq.local_dimension ≤ query.length)
    (hgc : pq.num_local_codebooks * pq.local_dimension ≤ pq.global_centroid.length)
    (hlc : pq.num_local_codebooks * 16 * pq.local_dimension ≤ pq.local_codebooks.length) :
    lut_distance pq query d k = some (lut_value pq query d k) := by
  unfold lut_distance lut_value
  apply foldlM_range_some
  intro v j hj
  have h1 := codebook_index_lt hd hk hj
  have h2 := slice_index_lt hd hj
  rw [List.getElem?_eq_getElem (by omega : _ < pq.local_codebooks.length),
    List.getElem?_eq_getElem (by omega : _ < query.length),
    List.getElem?_eq_getElem (by omega : _ < pq.global_centroid.length)]
  simp only [Option.some_bind, Option.map_some', List.getD_eq_getElem?_getD,
    List.getElem?_eq_getElem (by omega : d * 16 * pq.local_dimension + k * pq.local_dimension + j
      < pq.local_codebooks.length),
    List.getElem?_eq_getElem (by omega : d * pq.local_dimension + j < query.length),
    List.getElem?_eq_getElem (by omega : d * pq.local_dimension + j < pq.global_centroid.length),
    Option.getD_some]

/-- With every subscript inside its vector, the table `raw_dist` holds the `M * 16` sums. -/
theorem raw_dist_eq (pq : Quantizer R) (query : List R)
    (hq : pq.num_local_codebooks * pq.local_dimension ≤ query.length)
    (hgc : pq.num_local_codebooks * pq.local_dimension ≤ pq.global_centroid.length)
    (hlc : pq.num_local_codebooks * 16 * pq.local_dimension ≤ pq.local_codebooks.length) :
    ∃ raw, raw_dist pq query = some raw ∧ raw.length = pq.num_local_codebooks * 16 ∧
      (∀ m c, m < pq.num_local_codebooks → c < 16 →
        raw[m * 16 + c]? = some (lut_value pq query m c)) ∧
      ∀ r ∈ raw, ∃ m c, m < pq.num_local_codebooks ∧ c < 16 ∧ r = lut_value pq query m c := by
  have hf : ∀ p, p < pq.num_local_codebooks * 16 →
      lut_distance pq query (p / 16) (p % 16) = some (lut_value pq query (p / 16) (p % 16)) :=
    fun p hp => lut_distance_eq pq query _ _ (by omega) (Nat.mod_lt _ (by decide)) hq hgc hlc
  obtain ⟨raw, hraw⟩ := gather_total
    (fun p => lut_distance pq query (p / 16) (p % 16)) (pq.num_local_codebooks * 16)
    (fun p hp => ⟨_, hf p hp⟩)
  obtain ⟨h1, h2⟩ := gather_spec _ _ _ hraw
  refine ⟨raw, hraw, h1, fun m c hm hc => ?_, fun r hr => ?_⟩
  · have hp : m * 16 + c < pq.num_local_codebooks * 16 := by omega
    rw [h2 _ hp, hf _ hp, show (m * 16 + c) / 16 = m by omega, show (m * 16 + c) % 16 = c by omega]
  · obtain ⟨p, hp, hpr⟩ := List.getElem_of_mem hr
    have h3 := h2 p (by omega)
    rw [List.getElem?_eq_getElem hp, hpr, hf p (by omega)] at h3
    exact ⟨p / 16, p % 16, by omega, Nat.mod_lt _ (by decide), Option.some.inj h3⟩

end

/-- A sum of squares that starts at `+0` has the positive sign. -/
theorem foldl_squares_sign (g : Nat → Float32) (n : Nat) :
    ((List.range n).foldl (fun tmp_v j => tmp_v + g j * g j) 0).sign = false := by
  induction n with
  | zero => exact Float32.zero_sign
  | succ n ih =>
    rw [List.range_succ, List.foldl_append, List.foldl_cons, List.foldl_nil]
    exact @Float32.add_sign _ (g n * g n) ih (Float32.mul_self_sign (g n))

/-- A raw distance has the positive sign. -/
theorem lut_value_sign (pq : Quantizer Float32) (query : List Float32) (d k : Nat) :
    (lut_value pq query d k).sign = false := by
  unfold lut_value
  exact foldl_squares_sign _ _

theorem FLT_MIN_not_nan : FLT_MIN.is_nan = false := by decide

theorem FLT_MAX_not_nan : FLT_MAX.is_nan = false := by decide

/-- What the byte of a position of the scalar table is, when there is one. -/
theorem lut_entry_eq_some (scale bias raw : Float32) (v : Nat) :
    lut_entry scale bias raw = some v ↔
      Float32.std_round ((raw - bias) / scale) = some (v : Int) ∧ v ≤ 255 := by
  unfold lut_entry
  constructor
  · intro h
    split at h
    · cases h
    · rename_i w hw
      split_ifs at h with hr
      simp only [Option.some.injEq] at h
      subst h
      rw [hw, Int.toNat_of_nonneg hr.1]
      exact ⟨rfl, by omega⟩
  · rintro ⟨h1, h2⟩
    rw [h1]
    simp only
    rw [if_pos ⟨by omega, by omega⟩, Int.toNat_natCast]

/-- The extrema that the scalar `setup_lut` finds in a table without not-a-number that has an
entry at least `FLT_MIN` and an entry at most `FLT_MAX`: entries of the table, with no entry
below `min` and none above `max`. -/
theorem setup_lut_extrema (raw : List Float32)
    (hnan : ∀ r ∈ raw, r.is_nan = false) (hsign : ∀ r ∈ raw, r.sign = false)
    (hbig : ∃ r ∈ raw, ¬ r < FLT_MIN) (hsmall : ∃ r ∈ raw, ¬ FLT_MAX < r) :
    (raw.foldl (fun min tmp_v => std_min min tmp_v) FLT_MAX ∈ raw ∧
      ∀ r ∈ raw, ¬ r < raw.foldl (fun min tmp_v => std_min min tmp_v) FLT_MAX) ∧
    (raw.foldl (fun max tmp_v => std_max max tmp_v) FLT_MIN ∈ raw ∧
      ∀ r ∈ raw, ¬ raw.foldl (fun max tmp_v => std_max max tmp_v) FLT_MIN < r) := by
  have hk : ∀ a : Float32, a.is_nan = false → ∀ x ∈ a :: raw, ∀ y ∈ a :: raw,
      (x < y ↔ Float32.key x < Float32.key y) := by
    intro a ha x hx y hy
    apply Float32.lt_iff_key
    · rcases List.mem_cons.1 hx with h | h
      · rw [h]; exact ha
      · exact hnan x h
    · rcases List.mem_cons.1 hy with h | h
      · rw [h]; exact ha
      · exact hnan y h
  obtain ⟨a1, a2, a3⟩ := foldl_std_min_key Float32.key raw FLT_MAX (hk _ FLT_MAX_not_nan)
  obtain ⟨b1, b2, b3⟩ := foldl_std_max_key Float32.key raw FLT_MIN (hk _ FLT_MIN_not_nan)
  have hmn : raw.foldl (fun min tmp_v => std_min min tmp_v) FLT_MAX ∈ raw := by
    rcases a1 with h | h
    · obtain ⟨r, hr, hr'⟩ := hsmall
      have h1 : ¬ Float32.key FLT_MAX < Float32.key r :=
        fun hh => hr' ((Float32.lt_iff_key FLT_MAX_not_nan (hnan r hr)).2 hh)
      have h2 := a3 r hr
      rw [h] at h2
      have : r = FLT_MAX := Float32.eq_of_key (hsign r hr) rfl (by omega)
      rw [h, ← this]
      exact hr
    · exact h
  have hmx : raw.foldl (fun max tmp_v => std_max max tmp_v) FLT_MIN ∈ raw := by
    rcases b1 with h | h
    · obtain ⟨r, hr, hr'⟩ := hbig
      have h1 : ¬ Float32.key r < Float32.key FLT_MIN :=
        fun hh => hr' ((Float32.lt_iff_key (hnan r hr) FLT_MIN_not_nan).2 hh)
      have h2 := b3 r hr
      rw [h] at h2
      have : r = FLT_MIN := Float32.eq_of_key (hsign r hr) rfl (by omega)
      rw [h, ← this]
      exact hr
    · exact h
  refine ⟨⟨hmn, fun r hr hlt => ?_⟩, ⟨hmx, fun r hr hlt => ?_⟩⟩
  · have := (Float32.lt_iff_key (hnan r hr) (hnan _ hmn)).1 hlt
    have := a3 r hr
    omega
  · have := (Float32.lt_iff_key (hnan _ hmx) (hnan r hr)).1 hlt
    have := b3 r hr
    omega

/-- C10, amended. For every query whose `M * 16` raw squared distances, as the loop accumulates
them in `float`, hold no not-a-number, with an entry at least `FLT_MIN` and an entry at most
`FLT_MAX` (the vectors and the query holding the values that are read), the scalar `setup_lut`
returns `bias = min` and `scale = (max - min) / 255`, the difference taken in `float` and the
quotient by `255.0` in `double` and stored in a `float`, where `min` and `max` are the smallest
and the largest of the raw distances; and at position `m * 16 + c` it writes
`round((raw[m][c] - bias) / scale)`, computed in `float`, whenever this value lies in
`[0, 255]`: the position has no defined byte otherwise. -/
theorem setup_lut_quantizes (pq : Quantizer Float32) (query : List Float32)
    (hq : pq.num_local_codebooks * pq.local_dimension ≤ query.length)
    (hgc : pq.num_local_codebooks * pq.local_dimension ≤ pq.global_centroid.length)
    (hlc : pq.num_local_codebooks * 16 * pq.local_dimension ≤ pq.local_codebooks.length)
    (hnan : ∀ m c, m < pq.num_local_codebooks → c < 16 →
      (lut_value pq query m c).is_nan = false)
    (hbig : ∃ m c, m < pq.num_local_codebooks ∧ c < 16 ∧ ¬ lut_value pq query m c < FLT_MIN)
    (hsmall : ∃ m c, m < pq.num_local_codebooks ∧ c < 16 ∧
      ¬ FLT_MAX < lut_value pq query m c) :
    ∃ lut scale bias, setup_lut pq query = some (lut, scale, bias) ∧
      (∀ m c, m < pq.num_local_codebooks → c < 16 →
        lut_distance pq query m c = some (lut_value pq query m c)) ∧
      ((∃ m c, m < pq.num_local_codebooks ∧ c < 16 ∧ bias = lut_value pq query m c) ∧
        ∀ m c, m < pq.num_local_codebooks → c < 16 → ¬ lut_value pq query m c < bias) ∧
      (∃ max, (∃ m c, m < pq.num_local_codebooks ∧ c < 16 ∧ max = lut_value pq query m c) ∧
        (∀ m c, m < pq.num_local_codebooks → c < 16 → ¬ max < lut_value pq query m c) ∧
        scale = Float32.div_double (max - bias) 255) ∧
      lut.length = pq.num_local_codebooks * 16 ∧
      ∀ m c, m < pq.num_local_codebooks → c < 16 → ∀ v : Nat,
        (lut[m * 16 + c]? = some (some v) ↔
          Float32.std_round ((lut_value pq query m c - bias) / scale) = some (v : Int) ∧
            v ≤ 255) := by
  obtain ⟨raw, hraw, hlen, hget, hmem⟩ := raw_dist_eq pq query hq hgc hlc
  have hmem' : ∀ m c, m < pq.num_local_codebooks → c < 16 → lut_value pq query m c ∈ raw :=
    fun m c hm hc => List.getElem?_mem (hget m c hm hc)
  obtain ⟨⟨m1, m2⟩, ⟨x1, x2⟩⟩ := setup_lut_extrema raw
    (fun r hr => by
      obtain ⟨m, c, hm, hc, rfl⟩ := hmem r hr
      exact hnan m c hm hc)
    (fun r hr => by
      obtain ⟨m, c, hm, hc, rfl⟩ := hmem r hr
      exact lut_value_sign pq query m c)
    (by
      obtain ⟨m, c, hm, hc, h⟩ := hbig
      exact ⟨_, hmem' m c hm hc, h⟩)
    (by
      obtain ⟨m, c, hm, hc, h⟩ := hsmall
      exact ⟨_, hmem' m c hm hc, h⟩)
  refine ⟨_, _, _, by unfold setup_lut; rw [hraw]; rfl,
    fun m c hm hc => lut_distance_eq pq query m c hm hc hq hgc hlc,
    ⟨hmem _ m1, fun m c hm hc => m2 _ (hmem' m c hm hc)⟩,
    ⟨_, hmem _ x1, fun m c hm hc => x2 _ (hmem' m c hm hc), rfl⟩,
    by rw [List.length_map, hlen], fun m c hm hc v => ?_⟩
  rw [List.getElem?_map, hget m c hm hc, Option.map_some', Option.some.injEq]
  exact lut_entry_eq_some _ _ _ v

end ProductQuantizer4Bits
namespace ProductQuantizer4Bits

/-- C10, counterexample. One sub-codebook whose sixteen centroids are all 0 and the query 1:
every raw distance is 1, `scale` is 0, the quotient `(raw - bias) / scale` is `0 / 0` and no
position of the table receives a value of `[0, 255]`. The same happens on a table that is not
constant when `scale` underflows: with the raw distances `2 ^ (-126)` and
`2 ^ (-126) * (1 + 2 ^ (-22))` the quotient `(max - min) / 255` is rounded to 0. And when every
raw distance is 0 (the same centroids and the query 0), `max` keeps its initial value `FLT_MIN`
and `scale` is the `float` nearest to `FLT_MIN / 255`, not `(0 - 0) / 255`. -/
theorem setup_lut_constant_table_counterexample :
    setup_lut constant_quantizer [((1 : Nat) : Float32)]
      = some (List.replicate 16 none, 0, ((1 : Nat) : Float32)) ∧
    setup_lut underflow_quantizer [0] = some (List.replicate 16 none, 0, FLT_MIN) ∧
    raw_dist underflow_quantizer [0]
      = some (FLT_MIN :: List.replicate 15 ⟨false, 1, 2⟩) ∧
    setup_lut constant_quantizer [0]
      = some (List.replicate 16 (some 0), ⟨false, 0, 32897⟩, 0) ∧
    ¬ (∀ (pq : Quantizer Float32) (query : List Float32) (lut : List (Option Nat))
      (scale bias : Float32) (m c : Nat),
      setup_lut pq query = some (lut, scale, bias) →
      m < pq.num_local_codebooks → c < 16 →
      ∃ v : Nat, lut[m * 16 + c]? = some (some v) ∧ v ≤ 255) := by
  have h1 : setup_lut constant_quantizer [((1 : Nat) : Float32)]
      = some (List.replicate 16 none, 0, ((1 : Nat) : Float32)) := by
    set_option maxRecDepth 100000 in decide
  refine ⟨h1, by set_option maxRecDepth 100000 in decide,
    by set_option maxRecDepth 100000 in decide,
    by set_option maxRecDepth 100000 in decide, fun hall => ?_⟩
  obtain ⟨v, hv, _⟩ := hall constant_quantizer [((1 : Nat) : Float32)] _ _ _ 0 0 h1
    (by decide) (by decide)
  simp at hv

/-- The run of C10 on one sub-codebook with the centroids 0, ..., 15 and the query 0: the raw
distances are the squares 0, 1, ..., 225, `bias` is 0, `scale` is the `float` nearest to
`225 / 255`, and every position has its byte. -/
theorem setup_lut_quantizes_witness :
    setup_lut example_quantizer [0]
      = some ([some 0, some 1, some 5, some 10, some 18, some 28, some 41, some 56, some 73,
          some 92, some 113, some 137, some 163, some 192, some 222, some 255],
        ⟨false, 126, 6414818⟩, 0) ∧
    ∃ lut scale bias, setup_lut example_quantizer [0] = some (lut, scale, bias) ∧
      (∀ m c, m < example_quantizer.num_local_codebooks → c < 16 →
        lut_distance example_quantizer [0] m c = some (lut_value example_quantizer [0] m c)) ∧
      ((∃ m c, m < example_quantizer.num_local_codebooks ∧ c < 16 ∧
          bias = lut_value example_quantizer [0] m c) ∧
        ∀ m c, m < example_quantizer.num_local_codebooks → c < 16 →
          ¬ lut_value example_quantizer [0] m c < bias) ∧
      (∃ max, (∃ m c, m < example_quantizer.num_local_codebooks ∧ c < 16 ∧
          max = lut_value example_quantizer [0] m c) ∧
        (∀ m c, m < example_quantizer.num_local_codebooks → c < 16 →
          ¬ max < lut_value example_quantizer [0] m c) ∧
        scale = Float32.div_double (max - bias) 255) ∧
      lut.length = example_quantizer.num_local_codebooks * 16 ∧
      ∀ m c, m < example_quantizer.num_local_codebooks → c < 16 → ∀ v : Nat,
        (lut[m * 16 + c]? = some (some v) ↔
          Float32.std_round ((lut_value example_quantizer [0] m c - bias) / scale)
            = some (v : Int) ∧ v ≤ 255) :=
  ⟨by set_option maxRecDepth 100000 in decide,
    setup_lut_quantizes example_quantizer [0] (by decide) (by decide) (by decide)
      (fun m c hm hc =>
        (by set_option maxRecDepth 100000 in decide :
          ∀ m, m < example_quantizer.num_local_codebooks → ∀ c, c < 16 →
            (lut_value example_quantizer [0] m c).is_nan = false) m hm c hc)
      ⟨0, 1, by decide, by decide, by set_option maxRecDepth 100000 in decide⟩
      ⟨0, 1, by decide, by decide, by set_option maxRecDepth 100000 in decide⟩⟩

end ProductQuantizer4Bits

namespace HNSW
section
variable {D : Type} [LinearOrder D]

theorem visit_neighbor_visited_mono (qd : Nat → D) (efS : Nat) (s : SearchState D) (x : Nat) :
    x ∈ (visit_neighbor qd efS s x).visited ∧
    ∀ y ∈ s.visited, y ∈ (visit_neighbor qd efS s x).visited := by
  unfold visit_neighbor
  dsimp only
  by_cases h1 : x ∈ s.visited
  · rw [if_pos h1]
    exact ⟨h1, fun y hy => hy⟩
  · rw [if_neg h1]
    split_ifs <;> exact ⟨List.mem_cons_self _ _, fun y hy => List.mem_cons_of_mem _ hy⟩

theorem foldl_visit_neighbor_visited (qd : Nat → D) (efS : Nat) (l : List Nat) :
    ∀ s : SearchState D, (∀ x ∈ l, x ∈ (l.foldl (visit_neighbor qd efS) s).visited) ∧
      ∀ y ∈ s.visited, y ∈ (l.foldl (visit_neighbor qd efS) s).visited := by
  induction l with
  | nil => intro s; exact ⟨fun x hx => absurd hx (List.not_mem_nil _), fun y hy => hy⟩
  | cons a l ih =>
    intro s
    simp only [List.foldl_cons]
    obtain ⟨h1, h2⟩ := ih (visit_neighbor qd efS s a)
    obtain ⟨h3, h4⟩ := visit_neighbor_visited_mono qd efS s a
    refine ⟨fun x hx => ?_, fun y hy => h2 y (h4 y hy)⟩
    rcases List.mem_cons.1 hx with rfl | h
    · exact h2 _ h3
    · exact h1 x h

theorem search_loop_visited_mono (qd : Nat → D) (nb : Nat → List Nat) (efS : Nat) :
    ∀ (fuel : Nat) (s s' : SearchState D), search_loop qd nb efS fuel s = .ok s' →
      ∀ y ∈ s.visited, y ∈ s'.visited := by
  intro fuel
  induction fuel with
  | zero => intro s s' h; simp [search_loop] at h
  | succ fuel ih =>
    intro s s' h
    unfold search_loop at h
    split at h
    · cases h; exact fun y hy => hy
    · rename_i c rest hc
      split_ifs at h with hlt
      · cases h; exact fun y hy => hy
      · intro y hy
        exact ih _ _ h y ((foldl_visit_neighbor_visited qd efS _ _).2 y hy)

/-- The neighbors of the start node are all visited by `search_level`. -/
theorem search_loop_init_neighbors (qd : Nat → D) (nb : Nat → List Nat) (efS init_node : Nat) :
    ∀ (fuel : Nat) (s' : SearchState D),
      search_loop qd nb efS fuel (search_init qd init_node) = .ok s' →
      init_node ∈ s'.visited ∧ ∀ x ∈ nb init_node, x ∈ s'.visited := by
  intro fuel s' h
  cases fuel with
  | zero => simp [search_loop] at h
  | succ fuel =>
    have hinit : init_node ∈ s'.visited :=
      search_loop_visited_mono qd nb efS _ _ _ h init_node (by simp [search_init])
    refine ⟨hinit, ?_⟩
    unfold search_loop at h
    simp only [search_init, min_heap_emplace, List.orderedInsert, lt_irrefl, if_false] at h
    intro x hx
    exact search_loop_visited_mono qd nb efS _ _ _ h x
      ((foldl_visit_neighbor_visited qd efS _ _).1 x hx)

theorem visit_neighbor_no_eviction {qd : Nat → D} {efS q : Nat} {s : SearchState D}
    (hq : q ≤ efS) (hs : NoEviction qd efS q s) {x : Nat} (hx : x < q) :
    NoEviction qd efS q (visit_neighbor qd efS s x) := by
  refine ⟨visit_neighbor_inv hs.inv x, visit_neighbor_visited hx hs.vis_lt, ?_⟩
  by_cases hv : x ∈ s.visited
  · unfold visit_neighbor
    simp only [hv, if_true]
    exact hs.vis_topk
  · have hlen : (x :: s.visited).length ≤ q := by
      apply nodup_length_le_of_lt (List.nodup_cons.2 ⟨hv, hs.inv.vis_nodup⟩)
      intro y hy
      rcases List.mem_cons.1 hy with rfl | h
      · exact hx
      · exact hs.vis_lt y h
    have htk : s.topk_queue.length ≤ s.visited.length := by
      have h1 : (s.topk_queue.map Pair.node_id).length ≤ s.visited.length := by
        apply (List.subperm_of_subset hs.inv.topk_nodup _).length_le
        intro y hy
        obtain ⟨p, hp, rfl⟩ := List.mem_map.1 hy
        exact hs.inv.topk_vis p hp
      rwa [List.length_map] at h1
    simp only [List.length_cons] at hlen
    have hpush : s.topk_queue.length < efS := by omega
    have hnopop : ¬ (max_heap_emplace (⟨qd x, x⟩ : Pair D) s.topk_queue).length > efS := by
      rw [max_heap_emplace_length]; omega
    unfold visit_neighbor
    simp only [hv, if_false, hpush, true_or, if_true, hnopop]
    intro y hy
    apply List.mem_map.2
    rcases List.mem_cons.1 hy with rfl | h
    · exact ⟨⟨qd y, y⟩, mem_max_heap_emplace.2 (Or.inl rfl), rfl⟩
    · obtain ⟨p, hp, hpy⟩ := List.mem_map.1 (hs.vis_topk y h)
      exact ⟨p, mem_max_heap_emplace.2 (Or.inr hp), hpy⟩

theorem search_loop_no_eviction {qd : Nat → D} {nb : Nat → List Nat} {efS q : Nat}
    (hq : q ≤ efS) (hnb : ∀ y x, x ∈ nb y → x < q) :
    ∀ (fuel : Nat) (s s' : SearchState D), NoEviction qd efS q s →
      search_loop qd nb efS fuel s = .ok s' → NoEviction qd efS q s' := by
  intro fuel
  induction fuel with
  | zero => intro s s' _ h; simp [search_loop] at h
  | succ fuel ih =>
    intro s s' hs h
    unfold search_loop at h
    split at h
    · cases h; exact hs
    · rename_i c rest hc
      split_ifs at h with hlt
      · cases h; exact hs
      · refine ih _ _ ?_ h
        exact foldl_invariant (NoEviction qd efS q) (visit_neighbor qd efS) _
          (fun a b hb ha => visit_neighbor_no_eviction hq ha (hnb _ _ hb)) _
          ⟨pop_cand_inv hs.inv hc, hs.vis_lt, hs.vis_topk⟩

/-- On a level whose lists hold only nodes below `q` and where the start node is linked to
every other node below `q`, a search with a beam of at least `q` returns every node below `q`,
each once, with its distance, farthest first. -/
theorem search_level_complete {qd : Nat → D} {g : Graph} {init_node efS level q fuel : Nat}
    {top : List (Pair D)} (hq : q ≤ efS) (hinit : init_node < q)
    (hnb : ∀ y x, x ∈ g level y → x < q)
    (hall : ∀ x, x < q → x ≠ init_node → x ∈ g level init_node)
    (h : search_level qd g init_node efS level fuel = .ok top) :
    top.Sorted Pair.ge ∧
    (top.map Pair.node_id).Perm (List.range q) ∧ ∀ p ∈ top, p.dist = qd p.node_id := by
  unfold search_level at h
  split at h
  · rename_i s hs
    cases h
    have hNE0 : NoEviction qd efS q (search_init qd init_node) := by
      refine ⟨search_init_inv qd efS init_node, ?_, ?_⟩
      · intro x hx; simp [search_init] at hx; rw [hx]; exact hinit
      · intro x hx; simp [search_init] at hx; rw [hx]; simp [search_init, max_heap_emplace]
    have hNE := search_loop_no_eviction hq hnb _ _ _ hNE0 hs
    obtain ⟨hv0, hv⟩ := search_loop_init_neighbors qd (g level) efS init_node _ _ hs
    refine ⟨hNE.inv.topk_sorted, ?_, hNE.inv.topk_dist⟩
    apply (List.perm_ext_iff_of_nodup hNE.inv.topk_nodup (List.nodup_range q)).2
    intro x
    constructor
    · intro hx
      obtain ⟨p, hp, rfl⟩ := List.mem_map.1 hx
      exact List.mem_range.2 (hNE.vis_lt _ (hNE.inv.topk_vis p hp))
    · intro hx
      have hxq := List.mem_range.1 hx
      apply hNE.vis_topk
      by_cases hxi : x = init_node
      · rw [hxi]; exact hv0
      · exact hv x (hall x hxq hxi)
  · cases h

end
end HNSW
namespace HNSW
section
variable {D : Type} [LinearOrder D]

theorem add_link_push (dist : Nat → Nat → D) (Mcurmax level : Nat) (g : Graph) (src dst : Nat)
    (hlen : (g level src).length < Mcurmax) (hne : src ≠ dst) :
    add_link dist Mcurmax level g src dst =
      .ok (set_neighborhood g level src (g level src ++ [dst])) := by
  unfold add_link
  dsimp only
  rw [if_neg (by omega), if_neg hne, if_pos hlen]

/-- When no list involved is full, the loop over the selected neighbors appends them to the
list of the new node and the new node to theirs. -/
theorem connect_selected_push (dist : Nat → Nat → D) (Mcurmax level q : Nat) :
    ∀ (sel : List Nat) (g : Graph), sel.Nodup → q ∉ sel →
      (∀ dst ∈ sel, (g level dst).length < Mcurmax) →
      (g level q).length + sel.length ≤ Mcurmax →
      ∃ g', connect_selected dist Mcurmax level q sel g = .ok g' ∧
        g' level q = g level q ++ sel ∧
        (∀ dst ∈ sel, g' level dst = g level dst ++ [q]) ∧
        (∀ lv n, ¬ (lv = level ∧ (n = q ∨ n ∈ sel)) → g' lv n = g lv n) := by
  intro sel
  induction sel with
  | nil =>
    intro g _ _ _ _
    exact ⟨g, rfl, by simp, fun d hd => absurd hd (List.not_mem_nil _), fun _ _ _ => rfl⟩
  | cons dst rest ih =>
    intro g hnd hq hdst hlen
    have hqd : q ≠ dst := fun h => hq (h ▸ List.mem_cons_self _ _)
    have hqr : q ∉ rest := fun h => hq (List.mem_cons_of_mem _ h)
    have hdr : dst ∉ rest := (List.nodup_cons.1 hnd).1
    simp only [List.length_cons] at hlen
    have h1 := add_link_push dist Mcurmax level g q dst (by omega) hqd
    set g1 := set_neighborhood g level q (g level q ++ [dst]) with hg1
    have hg1d : g1 level dst = g level dst :=
      set_neighborhood_other g _ (fun h => hqd h.2.symm)
    have hg1q : g1 level q = g level q ++ [dst] := set_neighborhood_same g level q _
    have h2 := add_link_push dist Mcurmax level g1 dst q
      (by rw [hg1d]; exact hdst dst (List.mem_cons_self _ _)) (Ne.symm hqd)
    set g2 := set_neighborhood g1 level dst (g1 level dst ++ [q]) with hg2
    have hg2q : g2 level q = g level q ++ [dst] := by
      rw [hg2, set_neighborhood_other g1 _ (fun h => hqd h.2), hg1q]
    have hg2d : g2 level dst = g level dst ++ [q] := by
      rw [hg2, set_neighborhood_same, hg1d]
    have hg2o : ∀ lv n, ¬ (lv = level ∧ (n = q ∨ n = dst)) → g2 lv n = g lv n := by
      intro lv n hn
      rw [hg2, set_neighborhood_other g1 _ (fun h => hn ⟨h.1, Or.inr h.2⟩), hg1,
        set_neighborhood_other g _ (fun h => hn ⟨h.1, Or.inl h.2⟩)]
    obtain ⟨g', hg', e1, e2, e3⟩ := ih g2 (List.nodup_cons.1 hnd).2 hqr
      (fun d hd => by
        rw [hg2o level d (fun h => by
          rcases h.2 with h | h
          · exact hqr (h ▸ hd)
          · exact hdr (h ▸ hd))]
        exact hdst d (List.mem_cons_of_mem _ hd))
      (by rw [hg2q]; simp only [List.length_append, List.length_singleton]; omega)
    refine ⟨g', ?_, ?_, ?_, ?_⟩
    · unfold connect_selected
      rw [h1]
      dsimp only
      rw [h2]
      exact hg'
    · rw [e1, hg2q, List.append_assoc, List.singleton_append]
    · intro d hd
      rcases List.mem_cons.1 hd with rfl | h
      · rw [e3 level d (fun h => by
          rcases h.2 with h | h
          · exact hqd h.symm
          · exact hdr h), hg2d]
      · rw [e2 d h, hg2o level d (fun h' => by
          rcases h'.2 with h' | h'
          · exact hqr (h' ▸ h)
          · exact hdr (h' ▸ h))]
    · intro lv n hn
      rw [e3 lv n (fun h => hn ⟨h.1, h.2.imp id (List.mem_cons_of_mem _)⟩),
        hg2o lv n (fun h => hn ⟨h.1, h.2.imp id
          (fun (h' : n = dst) => h' ▸ List.mem_cons_self _ _)⟩)]

/-- When the candidates are fewer than `maxM` and no list involved is full, `mutually_connect`
links the new node with every candidate. -/
theorem mutually_connect_push (dist : Nat → Nat → D) (maxM maxM0 : Nat) (g : Graph) (q : Nat)
    (top : List (Pair D)) (level : Nat)
    (htop : top.length < maxM) (hne : top ≠ []) (hnd : (top.map Pair.node_id).Nodup)
    (hq : q ∉ top.map Pair.node_id)
    (hdst : ∀ d ∈ top.map Pair.node_id,
      (g level d).length < if level ≠ 0 then maxM else maxM0)
    (hlen : (g level q).length + top.length ≤ if level ≠ 0 then maxM else maxM0) :
    ∃ g' next, mutually_connect dist maxM maxM0 g q top level = .ok (g', next) ∧
      next ∈ top.map Pair.node_id ∧
      g' level q = g level q ++ top.map Pair.node_id ∧
      (∀ d ∈ top.map Pair.node_id, g' level d = g level d ++ [q]) ∧
      (∀ lv n, ¬ (lv = level ∧ (n = q ∨ n ∈ top.map Pair.node_id)) → g' lv n = g lv n) := by
  have hh : get_neighbors_heuristic dist top maxM = top := by
    unfold get_neighbors_heuristic
    rw [if_pos htop]
  obtain ⟨g', hg', e1, e2, e3⟩ := connect_selected_push dist
    (if level ≠ 0 then maxM else maxM0) level q (top.map Pair.node_id) g hnd hq hdst
    (by rw [List.length_map]; exact hlen)
  have hne' : top.map Pair.node_id ≠ [] := fun h => hne (List.map_eq_nil_iff.1 h)
  refine ⟨g', (top.map Pair.node_id).getLast hne', ?_, List.getLast_mem _, e1, e2, e3⟩
  unfold mutually_connect
  dsimp only
  rw [hh, if_neg (by omega), hg']
  dsimp only
  rw [List.getLast?_eq_getLast _ hne']

/-- Total form of the induction over the level loop of `add_point`. -/
theorem connect_levels_total {dist : Nat → Nat → D} {maxM maxM0 efC fuel q : Nat}
    (J : Nat → Graph → Nat → Prop) (F : Graph → Prop)
    (hstep : ∀ level g curr, J level g curr → ∃ top g1 next,
      search_level (dist q) g curr efC level fuel = .ok top ∧
      mutually_connect dist maxM maxM0 g q top level = .ok (g1, next) ∧
      (level = 0 → F g1) ∧ (∀ l, level = l + 1 → J l g1 next)) :
    ∀ (level : Nat) (g : Graph) (curr : Nat), J level g curr →
      ∃ r, connect_levels dist maxM maxM0 efC fuel q level g curr = .ok r ∧ F r.1 := by
  intro level
  induction level with
  | zero =>
    intro g curr hJ
    obtain ⟨top, g1, next, h1, h2, h3, _⟩ := hstep 0 g curr hJ
    refine ⟨(g1, next), ?_, h3 rfl⟩
    unfold connect_levels
    rw [h1]
    exact h2
  | succ level ih =>
    intro g curr hJ
    obtain ⟨top, g1, next, h1, h2, _, h4⟩ := hstep (level + 1) g curr hJ
    obtain ⟨r, hr, hF⟩ := ih g1 next (h4 level rfl)
    refine ⟨r, ?_, hF⟩
    unfold connect_levels
    rw [h1]
    dsimp only
    rw [h2]
    exact hr

/-- Total form of the induction over the node loop of `train`, for the nodes below `n`. -/
theorem add_points_total {dist : Nat → Nat → D} {lv : Nat → Nat} {fuel n : Nat}
    (Inv : Nat → Index → Prop)
    (hstep : ∀ q h, q < n → Inv q h →
      ∃ h', add_point dist lv fuel h q = .ok h' ∧ Inv (q + 1) h') :
    ∀ (count start : Nat) (h : Index), start + count ≤ n → Inv start h →
      ∃ h', add_points dist lv fuel count start h = .ok h' ∧ Inv (start + count) h' := by
  intro count
  induction count with
  | zero => intro start h _ hI; exact ⟨h, rfl, hI⟩
  | succ count ih =>
    intro start h hle hI
    obtain ⟨h1, hh1, hI1⟩ := hstep start h (by omega) hI
    obtain ⟨h', hh', hI'⟩ := ih (start + 1) h1 (by omega) hI1
    refine ⟨h', ?_, ?_⟩
    · unfold add_points
      rw [hh1]
      exact hh'
    · rw [show start + (count + 1) = start + 1 + count by omega]
      exact hI'

end
end HNSW
namespace HNSW
section
variable {D : Type} [LinearOrder D]

theorem small_level_step (dist : Nat → Nat → D) {M efC fuel n q : Nat}
    (hqn : q < n) (hnM : n ≤ M) (hefC : n ≤ efC) (hfuel : n < fuel)
    (level : Nat) (g : Graph) (curr : Nat) (hJ : SmallLevelInv q level g curr) :
    ∃ top g1 next,
      search_level (dist q) g curr efC level fuel = .ok top ∧
      mutually_connect dist M (2 * M) g q top level = .ok (g1, next) ∧
      (level = 0 → SmallGraph (q + 1) g1) ∧
      (∀ l, level = l + 1 → SmallLevelInv q l g1 next) := by
  have hnb_n : ∀ y x, x ∈ g level y → x < n :=
    fun y x hx => lt_of_le_of_lt (hJ.ids level y x hx).1 hqn
  obtain ⟨top, htop⟩ := search_level_terminates (dist q) efC hnb_n (lt_trans hJ.curr_lt hqn) hfuel
  obtain ⟨s, hs, hst⟩ := search_level_inv htop
  subst hst
  have hmem : ∀ p ∈ s.topk_queue, p.node_id < q :=
    search_level_mem (P := fun x => x < q)
      (fun y x hx => (hJ.ids_low level y x (le_refl _) hx).1) hJ.curr_lt htop
  have hmem' : ∀ d ∈ s.topk_queue.map Pair.node_id, d < q := by
    intro d hd
    obtain ⟨p, hp, rfl⟩ := List.mem_map.1 hd
    exact hmem p hp
  have hlen : s.topk_queue.length ≤ q := by
    have := nodup_length_le_of_lt hs.topk_nodup hmem'
    rwa [List.length_map] at this
  have hqnot : q ∉ s.topk_queue.map Pair.node_id := fun h => lt_irrefl _ (hmem' q h)
  have hq_empty : g level q = [] := by
    cases hgq : g level q with
    | nil => rfl
    | cons x xs =>
      have := (hJ.ids_low level q x (le_refl _) (by rw [hgq]; exact List.mem_cons_self _ _)).2
      exact absurd this (lt_irrefl _)
  have hMc : M ≤ if level ≠ 0 then M else 2 * M := by split_ifs <;> omega
  obtain ⟨g1, next, hmc, hnext, e1, e2, e3⟩ := mutually_connect_push dist M (2 * M) g q
    s.topk_queue level (by omega) hs.topk_ne hs.topk_nodup hqnot
    (fun d _ => by have := hJ.len_low level d (le_refl _); omega)
    (by rw [hq_empty]; simp only [List.length_nil]; omega)
  rw [hq_empty, List.nil_append] at e1
  have hcases : ∀ lv n, g1 lv n = g lv n ∨
      (lv = level ∧ n = q ∧ g1 lv n = s.topk_queue.map Pair.node_id) ∨
      (lv = level ∧ n ∈ s.topk_queue.map Pair.node_id ∧ g1 lv n = g lv n ++ [q]) := by
    intro lv n
    by_cases h : lv = level ∧ (n = q ∨ n ∈ s.topk_queue.map Pair.node_id)
    · obtain ⟨rfl, h | h⟩ := h
      · exact Or.inr (Or.inl ⟨rfl, h, h ▸ e1⟩)
      · exact Or.inr (Or.inr ⟨rfl, h, e2 n h⟩)
    · exact Or.inl (e3 lv n h)
  have hids : ∀ l y x, x ∈ g1 l y → x ≤ q ∧ y ≤ q := by
    intro l y x hx
    rcases hcases l y with h | ⟨_, hy, h⟩ | ⟨_, hy, h⟩
    · rw [h] at hx; exact hJ.ids l y x hx
    · rw [h] at hx; exact ⟨le_of_lt (hmem' x hx), le_of_eq hy⟩
    · rw [h] at hx
      rcases List.mem_append.1 hx with hx | hx
      · exact hJ.ids l y x hx
      · exact ⟨le_of_eq (List.mem_singleton.1 hx), le_of_lt (hmem' y hy)⟩
  have hlens : ∀ l y, (g1 l y).length ≤ q + 1 := by
    intro l y
    rcases hcases l y with h | ⟨_, _, h⟩ | ⟨hl, _, h⟩
    · rw [h]; exact hJ.len l y
    · rw [h, List.length_map]; omega
    · rw [h, List.length_append, List.length_singleton, hl]
      have := hJ.len_low level y (le_refl _)
      omega
  refine ⟨s.topk_queue, g1, next, htop, hmc, ?_, ?_⟩
  · intro h0
    subst h0
    obtain ⟨_, hperm, _⟩ := search_level_complete (le_trans (le_of_lt hqn) hefC) hJ.curr_lt
      (fun y x hx => (hJ.ids_low 0 y x (le_refl _) hx).1)
      (fun x hx hxc => hJ.complete curr x hJ.curr_lt hx (Ne.symm hxc)) htop
    have hall : ∀ x, x < q → x ∈ s.topk_queue.map Pair.node_id :=
      fun x hx => hperm.symm.subset (List.mem_range.2 hx)
    refine ⟨fun l y x hx => ?_, hlens, ?_⟩
    · have := hids l y x hx
      omega
    · intro x y hx hy hxy
      rcases Nat.lt_succ_iff_lt_or_eq.1 hx with hx' | hx'
      · rcases Nat.lt_succ_iff_lt_or_eq.1 hy with hy' | hy'
        · have hold := hJ.complete x y hx' hy' hxy
          rw [e2 x (hall x hx')]
          exact List.mem_append_left _ hold
        · rw [e2 x (hall x hx'), hy']
          exact List.mem_append_right _ (List.mem_singleton_self _)
      · rcases Nat.lt_succ_iff_lt_or_eq.1 hy with hy' | hy'
        · rw [hx', e1]
          exact hall y hy'
        · exact absurd (hx'.trans hy'.symm) hxy
  · intro l hl
    have hunch : ∀ lv n, lv ≤ l → g1 lv n = g lv n :=
      fun lv n hlv => e3 lv n (fun h => by omega)
    refine ⟨hmem' next hnext, hids, ?_, hlens, ?_, ?_⟩
    · intro lv y x hlv hx
      rw [hunch lv y hlv] at hx
      exact hJ.ids_low lv y x (by omega) hx
    · intro lv y hlv
      rw [hunch lv y hlv]
      exact hJ.len_low lv y (by omega)
    · intro x y hx hy hxy
      rw [hunch 0 x (Nat.zero_le _)]
      exact hJ.complete x y hx hy hxy

/-- The value of `add_point` for a node other than 0, from the values of its two phases. -/
theorem add_point_eq {dist : Nat → Nat → D} {lv : Nat → Nat} {fuel q curr nx : Nat} {h : Index}
    {g1 : Graph} (h0 : q ≠ 0)
    (hent : (lv q < h.max_level ∧ ∃ st, greedy_descent (dist q) h.graph fuel (lv q)
        (h.max_level - lv q) (h.init_node, dist q h.init_node) = .ok st ∧ curr = st.1) ∨
      (¬ lv q < h.max_level ∧ curr = h.init_node))
    (hcl : connect_levels dist h.maxM h.maxM0 h.efC fuel q (min (lv q) h.max_level) h.graph curr
      = .ok (g1, nx)) :
    add_point dist lv fuel h q =
      .ok (if lv q > h.max_level then
        { h with graph := g1, max_level := lv q, init_node := q } else { h with graph := g1 }) := by
  unfold add_point
  dsimp only
  rw [if_neg h0]
  rcases hent with ⟨hlt, st, hst, rfl⟩ | ⟨hlt, rfl⟩
  · rw [if_pos hlt, hst]
    dsimp only
    rw [hcl]
    dsimp only
    split_ifs <;> rfl
  · rw [if_neg hlt]
    dsimp only
    rw [hcl]
    dsimp only
    split_ifs <;> rfl

/-- In a build with at most `M` rows, inserting a node succeeds and keeps `SmallInv`. -/
theorem small_add_point (dist : Nat → Nat → D) (lv : Nat → Nat) {M efC fuel n q : Nat}
    (hqn : q < n) (hnM : n ≤ M) (hefC : n ≤ efC) (hfuel : n < fuel) (h : Index)
    (hI : SmallInv M efC q h) :
    ∃ h', add_point dist lv fuel h q = .ok h' ∧ SmallInv M efC (q + 1) h' := by
  by_cases h0 : q = 0
  · subst h0
    refine ⟨{ h with init_node := 0, max_level := lv 0 }, ?_, ?_⟩
    · unfold add_point; simp
    · refine ⟨hI.maxM_eq, hI.maxM0_eq, hI.efC_eq, fun l y x hx => ?_, fun l y => ?_,
        fun x y hx hy hxy => ?_, fun _ => Nat.zero_lt_one⟩
      · exact absurd (hI.ids l y x hx).1 (Nat.not_lt_zero _)
      · exact le_trans (hI.len l y) (Nat.zero_le _)
      · omega
  · have hinit := hI.init_lt h0
    have hnb : ∀ l y x, x ∈ h.graph l y → x < n :=
      fun l y x hx => lt_trans (hI.ids l y x hx).1 hqn
    have hentry : ∃ curr, curr < q ∧
        ((lv q < h.max_level ∧ ∃ st, greedy_descent (dist q) h.graph fuel (lv q)
          (h.max_level - lv q) (h.init_node, dist q h.init_node) = .ok st ∧ curr = st.1) ∨
        (¬ lv q < h.max_level ∧ curr = h.init_node)) := by
      by_cases hlt : lv q < h.max_level
      · obtain ⟨st, hst⟩ := greedy_descent_terminates (dist q) hnb hfuel (lv q)
          (h.max_level - lv q) (h.init_node, dist q h.init_node)
        refine ⟨st.1, ?_, Or.inl ⟨hlt, st, hst, rfl⟩⟩
        exact greedy_descent_mem (P := fun x => x < q)
          (fun l y x _ hx => (hI.ids l y x hx).1) _ _ _ hinit hst
      · exact ⟨h.init_node, hinit, Or.inr ⟨hlt, rfl⟩⟩
    obtain ⟨curr, hcurr, hcurr_eq⟩ := hentry
    have hJ : SmallLevelInv q (min (lv q) h.max_level) h.graph curr :=
      ⟨hcurr, fun l y x hx => ⟨le_of_lt (hI.ids l y x hx).1, le_of_lt (hI.ids l y x hx).2⟩,
        fun l y x _ hx => hI.ids l y x hx, fun l y => le_trans (hI.len l y) (Nat.le_succ _),
        fun l y _ => hI.len l y, hI.complete⟩
    obtain ⟨r, hr, hF⟩ := connect_levels_total (SmallLevelInv q) (SmallGraph (q + 1))
      (fun level g curr hJ => small_level_step dist hqn hnM hefC hfuel level g curr hJ)
      (min (lv q) h.max_level) h.graph curr hJ
    obtain ⟨g1, nx⟩ := r
    rw [← hI.maxM0_eq, ← hI.maxM_eq, ← hI.efC_eq] at hr
    refine ⟨_, add_point_eq h0 hcurr_eq hr, ?_⟩
    split_ifs with hgt
    · exact ⟨hI.maxM_eq, hI.maxM0_eq, hI.efC_eq, hF.ids, hF.len, hF.complete,
        fun _ => Nat.lt_succ_self q⟩
    · exact ⟨hI.maxM_eq, hI.maxM0_eq, hI.efC_eq, hF.ids, hF.len, hF.complete,
        fun _ => Nat.lt_succ_of_lt hinit⟩

end
end HNSW
namespace HNSW
section
set_option linter.unusedSectionVars false
variable {D : Type} [LinearOrder D]

/-- A build with at most `M` rows (and `2 * M` below `2 ^ 32`) returns an index whose level 0
links every two nodes. -/
theorem small_train (dist : Nat → Nat → D) (rows M efC : Nat) (sampled : Nat → Nat) (ub : Int)
    (fuel : Nat) (hrows : 0 < rows) (hM : rows ≤ M) (hM31 : M < 2 ^ 31) (hefC : rows ≤ efC)
    (hfuel : rows < fuel) :
    ∃ idx, train dist rows M efC sampled ub fuel = .ok idx ∧ idx.num_node = rows ∧
      idx.init_node < rows ∧ (∀ l y x, x ∈ idx.graph l y → x < rows ∧ y < rows) ∧
      (∀ x y, x < rows → y < rows → x ≠ y → y ∈ idx.graph 0 x) := by
  have hmod : (2 * M) % 2 ^ 32 = 2 * M := Nat.mod_eq_of_lt (by omega)
  obtain ⟨h1, hh1, hn, hI⟩ := add_points_total
    (fun q (h : Index) => h.num_node = rows ∧ SmallInv M efC q h)
    (fun q h hq hI => by
      obtain ⟨h', hh', hI'⟩ := small_add_point dist (node2level sampled ub) hq hM hefC hfuel h hI.2
      exact ⟨h', hh', (add_point_ok hh').1.trans hI.1, hI'⟩)
    rows 0 ⟨rows, M, (2 * M) % 2 ^ 32, efC, 0, 0, fun _ _ => []⟩ (by omega)
    ⟨rfl, rfl, hmod, rfl, fun l y x hx => by simp at hx, fun l y => by simp,
      fun x y hx => absurd hx (Nat.not_lt_zero _), fun h => absurd rfl h⟩
  rw [Nat.zero_add] at hI
  refine ⟨{ h1 with graph := ((List.range rows).foldl
    (sort_neighbors_for_node dist (node2level sampled ub)) h1.graph) }, ?_, hn,
    hI.init_lt (by omega), ?_, ?_⟩
  · unfold train
    dsimp only
    rw [if_neg (by omega), hh1]
  · intro l y x hx
    exact hI.ids l y x ((sort_pass_perm dist _ _ h1.graph l y).subset hx)
  · intro x y hx hy hxy
    exact (sort_pass_perm dist _ _ h1.graph 0 x).symm.subset (hI.complete x y hx hy hxy)

theorem pairs_eq_map_of_dist {qd : Nat → D} {top : List (Pair D)}
    (h : ∀ p ∈ top, p.dist = qd p.node_id) :
    top = (top.map Pair.node_id).map (fun i => (⟨qd i, i⟩ : Pair D)) := by
  induction top with
  | nil => rfl
  | cons p t ih =>
    simp only [List.map_cons]
    congr 1
    · cases p
      have := h _ (List.mem_cons_self _ _)
      simp only at this
      rw [this]
    · exact ih (fun p hp => h p (List.mem_cons_of_mem _ hp))

/-- On an index whose level 0 links every two nodes, a query with a beam of at least
`num_node` returns the brute-force answer. -/
theorem small_predict (qd : Nat → D) (idx : Index) (n efS k fuel : Nat)
    (hinit : idx.init_node < n) (hids : ∀ l y x, x ∈ idx.graph l y → x < n ∧ y < n)
    (hcomplete : ∀ x y, x < n → y < n → x ≠ y → y ∈ idx.graph 0 x)
    (hefS : n ≤ efS) (hk : k ≤ n) (hfuel : n < fuel) :
    predict_single qd idx efS k fuel = .ok (brute_force_top_k qd n k) := by
  obtain ⟨st, hst⟩ := greedy_descent_terminates qd (fun l y x hx => (hids l y x hx).1) hfuel 0
    idx.max_level (idx.init_node, qd idx.init_node)
  have hcurr : st.1 < n :=
    greedy_descent_mem (P := fun x => x < n) (fun l y x _ hx => (hids l y x hx).1) _ _ _ hinit hst
  obtain ⟨top, htop⟩ := search_level_terminates qd (max efS k) (fun y x hx => (hids 0 y x hx).1)
    hcurr hfuel
  obtain ⟨hsorted, hperm, hdist⟩ := search_level_complete (le_trans hefS (le_max_left _ _)) hcurr
    (fun y x hx => (hids 0 y x hx).1)
    (fun x hx hxc => hcomplete st.1 x hcurr hx (Ne.symm hxc)) htop
  have hrev : sort_heap top = std_sort ((List.range n).map (fun i => (⟨qd i, i⟩ : Pair D))) := by
    apply List.eq_of_perm_of_sorted (r := Pair.le) _ (sort_heap_sorted hsorted)
      (List.sorted_insertionSort _ _)
    refine (List.reverse_perm top).trans ?_
    refine List.Perm.trans ?_ (List.perm_insertionSort _ _).symm
    rw [pairs_eq_map_of_dist hdist]
    exact hperm.map _
  have hlen : top.length = n := by
    have := hperm.length_eq
    rwa [List.length_map, List.length_range] at this
  obtain ⟨cn, cd⟩ := st
  unfold predict_single
  rw [hst]
  dsimp only
  rw [htop]
  dsimp only
  unfold brute_force_top_k
  rw [← hrev]
  congr 1
  split_ifs with hke
  · rw [pop_down_to_eq_drop]
    unfold sort_heap
    rw [List.take_reverse]
  · have hkn : k = n := by omega
    unfold sort_heap
    rw [List.take_of_length_le (by rw [List.length_reverse]; omega)]

/-- C3, amended. Small-data exactness: for every training set of `n` rows with
`n <= M < 2 ^ 31`, `efC >= n` and every assignment of levels, `train` returns an index on which
`predict_single` with `efS >= n` and `1 <= k <= n` returns exactly the brute-force answer, the
`k` stored points closest to the query in ascending order of distance (ties by ascending id). -/
theorem small_data_exact (dist : Nat → Nat → D) (qd : Nat → D) (rows M efC efS k : Nat)
    (sampled : Nat → Nat) (ub : Int) (fuel : Nat)
    (hM : rows ≤ M) (hM31 : M < 2 ^ 31) (hefC : rows ≤ efC) (hefS : rows ≤ efS)
    (hk1 : 1 ≤ k) (hk : k ≤ rows) (hfuel : rows < fuel) :
    ∃ idx, train dist rows M efC sampled ub fuel = .ok idx ∧
      predict_single qd idx efS k fuel = .ok (brute_force_top_k qd rows k) := by
  obtain ⟨idx, hidx, _, hinit, hids, hcomplete⟩ :=
    small_train dist rows M efC sampled ub fuel (by omega) hM hM31 hefC hfuel
  exact ⟨idx, hidx, small_predict qd idx rows efS k fuel hinit hids hcomplete hefS hk hfuel⟩

end
end HNSW

namespace HNSW

theorem tiny_brute_force :
    brute_force_top_k tiny_qd 4 3 = [⟨1 / 50, 0⟩, ⟨41 / 50, 1⟩, ⟨41 / 50, 2⟩] := by
  have hcanon : (List.range 4).map (fun i => (⟨tiny_qd i, i⟩ : Pair ℚ)) =
      [⟨1 / 50, 0⟩, ⟨41 / 50, 1⟩, ⟨41 / 50, 2⟩, ⟨9801 / 50, 3⟩] := by
    simp [List.range_succ, tiny_qd, tiny_points, l2_sq]
    norm_num
  have hsorted : ([⟨1 / 50, 0⟩, ⟨41 / 50, 1⟩, ⟨41 / 50, 2⟩, ⟨9801 / 50, 3⟩] :
      List (Pair ℚ)).Sorted Pair.le := by
    simp [List.Sorted, Pair.le]
    norm_num
  unfold brute_force_top_k std_sort
  rw [hcanon, hsorted.insertionSort_eq]
  rfl

theorem small_data_exact_witness :
    ∃ idx, train tiny_dist 4 4 8 (fun i => [0, 1, 0, 2].getD i 0) (-1) 5 = .ok idx ∧
      predict_single tiny_qd idx 8 3 5 = .ok [⟨1 / 50, 0⟩, ⟨41 / 50, 1⟩, ⟨41 / 50, 2⟩] := by
  obtain ⟨idx, h1, h2⟩ := small_data_exact tiny_dist tiny_qd 4 4 8 8 3
    (fun i => [0, 1, 0, 2].getD i 0) (-1) 5 (by decide) (by decide) (by decide) (by decide)
    (by decide) (by decide) (by decide)
  exact ⟨idx, h1, by rw [h2, tiny_brute_force]⟩

/-- C3, counterexample. With `M = 2 ^ 31` the capacity `maxM0 = 2 * M` of a level-0 list is 0
in 32-bit arithmetic: on two rows `train` returns an index without level-0 edges, and the
query returns one point where the two stored points are asked for. -/
theorem small_data_exact_counterexample :
    ¬ (∀ (dist : Nat → Nat → Nat) (qd : Nat → Nat) (rows M efC efS k : Nat)
        (sampled : Nat → Nat) (ub : Int) (fuel : Nat),
      rows ≤ M → M < 2 ^ 32 → rows ≤ efC → rows ≤ efS → 1 ≤ k → k ≤ rows → rows < fuel →
      ∃ idx, train dist rows M efC sampled ub fuel = .ok idx ∧
        predict_single qd idx efS k fuel = .ok (brute_force_top_k qd rows k)) := by
  intro hall
  obtain ⟨idx, h1, h2⟩ := hall pair_dist (pair_dist 0) 2 (2 ^ 31) 2 2 2 (fun _ => 0) (-1) 3
    (by decide) (by decide) (by decide) (by decide) (by decide) (by decide) (by decide)
  have hlen : (match train pair_dist 2 (2 ^ 31) 2 (fun _ => 0) (-1) 3 with
      | .ok idx => (match predict_single (pair_dist 0) idx 2 2 3 with
        | .ok r => r.length
        | .error _ => 0)
      | .error _ => 0) = 1 := by rfl
  rw [h1] at hlen
  dsimp only at hlen
  rw [h2] at hlen
  dsimp only at hlen
  revert hlen
  decide

end HNSW
namespace HNSW

/-- C8, counterexample. Six points on a line (8, 5, 0, 7, 6, 4) with `M = 2`, `efC = 4` and
every level 0: when node 5 arrives, node 1 is full and the heuristic drops node 2 from its
list, the only list that held it; node 2 is not reachable from `init_node = 0`. -/
theorem train_reachable_counterexample :
    ¬ (∀ (dist : Nat → Nat → Nat) (rows M efC : Nat) (sampled : Nat → Nat) (ub : Int)
        (fuel : Nat) (idx : Index),
      train dist rows M efC sampled ub fuel = .ok idx →
      ∀ y, y < idx.num_node → reachable idx.graph idx.init_node y) := by
  intro hall
  cases h : train line_dist 6 2 4 (fun _ => 0) (-1) 7 with
  | error e =>
    have hok : (train line_dist 6 2 4 (fun _ => 0) (-1) 7).isOk = true := rfl
    rw [h] at hok
    cases hok
  | ok idx =>
    have hval : (match train line_dist 6 2 4 (fun _ => 0) (-1) 7 with
        | .ok idx => (idx.num_node, idx.init_node, (List.range 6).map (idx.graph 0))
        | .error _ => (0, 0, [])) = (6, 0, [[3, 1], [4, 5], [1], [0, 4, 1], [1, 3], [1]]) := by
      rfl
    rw [h] at hval
    dsimp only at hval
    have hn : idx.num_node = 6 := congrArg Prod.fst hval
    have hi : idx.init_node = 0 := congrArg (fun t => t.2.1) hval
    have hg : (List.range 6).map (idx.graph 0) = [[3, 1], [4, 5], [1], [0, 4, 1], [1, 3], [1]] :=
      congrArg (fun t => t.2.2) hval
    simp only [List.range_succ, List.range_zero, List.nil_append, List.cons_append,
      List.map_cons, List.map_nil, List.cons.injEq, and_true] at hg
    obtain ⟨g0, g1, g2, g3, g4, g5⟩ := hg
    have hreach := hall line_dist 6 2 4 (fun _ => 0) (-1) 7 idx h 2 (by omega)
    have hclosed : ∀ y, reachable idx.graph idx.init_node y → y ∈ [0, 1, 3, 4, 5] := by
      intro y hy
      induction hy with
      | refl => rw [hi]; decide
      | @tail b c _ hstep ih =>
        have hb : b = 0 ∨ b = 1 ∨ b = 3 ∨ b = 4 ∨ b = 5 := by simpa using ih
        rcases hb with rfl | rfl | rfl | rfl | rfl
        · rw [g0] at hstep; revert hstep; simp; omega
        · rw [g1] at hstep; revert hstep; simp; omega
        · rw [g3] at hstep; revert hstep; simp; omega
        · rw [g4] at hstep; revert hstep; simp; omega
        · rw [g5] at hstep; revert hstep; simp; omega
    exact absurd (hclosed 2 hreach) (by decide)

end HNSW

namespace HNSW
section
variable {D : Type} [LinearOrder D]

theorem std_sort_neighbors_sorted (dist : Nat → Nat → D) (x : Nat) (l : List Nat) :
    neighbors_sorted dist x
      ((std_sort (l.map (fun n => (⟨dist x n, n⟩ : Pair D)))).map Pair.node_id) := by
  unfold neighbors_sorted List.Sorted
  rw [List.pairwise_map]
  have hs : (std_sort (l.map (fun n => (⟨dist x n, n⟩ : Pair D)))).Sorted Pair.le :=
    List.sorted_insertionSort _ _
  have hm : ∀ p ∈ std_sort (l.map (fun n => (⟨dist x n, n⟩ : Pair D))),
      p.dist = dist x p.node_id := by
    intro p hp
    have hp' := (List.perm_insertionSort Pair.le _).subset hp
    obtain ⟨n, _, rfl⟩ := List.mem_map.1 hp'
    rfl
  refine List.Pairwise.imp_of_mem ?_ hs
  intro a b ha hb hab
  rw [← hm a ha, ← hm b hb]
  exact Pair.dist_le_of_le hab

theorem empty_upward {g : Graph} {x : Nat} (hE : ∀ l, g l x = [] → g (l + 1) x = []) {l : Nat}
    (h : g l x = []) : ∀ k, g (l + k) x = [] := by
  intro k
  induction k with
  | zero => exact h
  | succ k ih => exact hE _ ih

/-- The sorting pass over one node: when an empty list of the node has only empty lists above
it, the lists of the levels it covers end up sorted, and nothing else changes. -/
theorem sort_levels_sorted (dist : Nat → Nat → D) (x : Nat) :
    ∀ (count level : Nat) (g : Graph), (∀ l, g l x = [] → g (l + 1) x = []) →
      (∀ l, level ≤ l → l < level + count →
        neighbors_sorted dist x (sort_levels dist x count level g l x)) ∧
      (∀ l, l < level → sort_levels dist x count level g l x = g l x) ∧
      (∀ l n, n ≠ x → sort_levels dist x count level g l n = g l n) := by
  intro count
  induction count with
  | zero =>
    intro level g _
    exact ⟨fun l h1 h2 => by omega, fun _ _ => rfl, fun _ _ _ => rfl⟩
  | succ count ih =>
    intro level g hE
    unfold sort_levels
    dsimp only
    split_ifs with h0
    · have hnil : g level x = [] := List.length_eq_zero.1 h0
      refine ⟨fun l h1 _ => ?_, fun _ _ => rfl, fun _ _ _ => rfl⟩
      have := empty_upward hE hnil (l - level)
      rw [show level + (l - level) = l by omega] at this
      rw [this]
      exact List.sorted_nil
    · set sorted := (std_sort ((g level x).map (fun n => (⟨dist x n, n⟩ : Pair D)))).map
        Pair.node_id with hsorted
      have hne : sorted ≠ [] := by
        intro h
        have := (std_sort_map_node_id_perm (dist x) (g level x)).length_eq
        rw [← hsorted, h] at this
        exact h0 this.symm
      set g1 := set_neighborhood g level x sorted with hg1
      have hg1_same : g1 level x = sorted := set_neighborhood_same g level x sorted
      have hg1_other : ∀ l n, ¬ (l = level ∧ n = x) → g1 l n = g l n :=
        fun l n h => set_neighborhood_other g sorted h
      have hE1 : ∀ l, g1 l x = [] → g1 (l + 1) x = [] := by
        intro l hl
        have hl_ne : l ≠ level := fun h => hne (by rw [← hg1_same, ← h]; exact hl)
        rw [hg1_other l x (fun h => hl_ne h.1)] at hl
        by_cases h1 : l + 1 = level
        · exact absurd (h1 ▸ hE l hl) (fun h => h0 (by rw [h]; rfl))
        · rw [hg1_other (l + 1) x (fun h => h1 h.1)]
          exact hE l hl
      obtain ⟨a1, a2, a3⟩ := ih (level + 1) g1 hE1
      refine ⟨fun l h1 h2 => ?_, fun l hl => ?_, fun l n hn => ?_⟩
      · rcases Nat.eq_or_lt_of_le h1 with h | h
        · rw [← h, a2 level (Nat.lt_succ_self _), hg1_same, hsorted]
          exact std_sort_neighbors_sorted dist x _
        · exact a1 l h (by omega)
      · rw [a2 l (by omega), hg1_other l x (fun h => by omega)]
      · rw [a3 l n hn, hg1_other l n (fun h => hn h.2)]

theorem sort_pass_other (dist : Nat → Nat → D) (lvl : Nat → Nat) (nodes : List Nat) :
    ∀ (g : Graph), (∀ x l, g l x = [] → g (l + 1) x = []) →
      ∀ l n, n ∉ nodes → (nodes.foldl (sort_neighbors_for_node dist lvl) g) l n = g l n := by
  induction nodes with
  | nil => intro g _ l n _; rfl
  | cons x rest ih =>
    intro g hE l n hn
    simp only [List.foldl_cons]
    have hE1 : ∀ y l, sort_neighbors_for_node dist lvl g x l y = [] →
        sort_neighbors_for_node dist lvl g x (l + 1) y = [] := by
      intro y l hl
      have p1 := sort_levels_perm dist x (lvl x + 1) 0 g l y
      have p2 := sort_levels_perm dist x (lvl x + 1) 0 g (l + 1) y
      unfold sort_neighbors_for_node at hl ⊢
      rw [hl] at p1
      have := hE y l (List.Perm.nil_eq p1).symm
      rw [this] at p2
      exact List.Perm.eq_nil p2
    rw [ih _ hE1 l n (fun h => hn (List.mem_cons_of_mem _ h))]
    exact (sort_levels_sorted dist x (lvl x + 1) 0 g (hE x)).2.2 l n
      (fun h => hn (h ▸ List.mem_cons_self _ _))

/-- The sorting pass of `train`: when an empty list of a node has only empty lists above it,
every list of every processed node is sorted at the levels the node has. -/
theorem sort_pass_sorted (dist : Nat → Nat → D) (lvl : Nat → Nat) (nodes : List Nat) :
    ∀ (g : Graph), (∀ x l, g l x = [] → g (l + 1) x = []) →
      ∀ x ∈ nodes, ∀ l, l ≤ lvl x →
        neighbors_sorted dist x ((nodes.foldl (sort_neighbors_for_node dist lvl) g) l x) := by
  induction nodes with
  | nil => intro g _ x hx; cases hx
  | cons y rest ih =>
    intro g hE x hx l hl
    simp only [List.foldl_cons]
    have hE1 : ∀ z l, sort_neighbors_for_node dist lvl g y l z = [] →
        sort_neighbors_for_node dist lvl g y (l + 1) z = [] := by
      intro z l hl
      have p1 := sort_levels_perm dist y (lvl y + 1) 0 g l z
      have p2 := sort_levels_perm dist y (lvl y + 1) 0 g (l + 1) z
      unfold sort_neighbors_for_node at hl ⊢
      rw [hl] at p1
      have := hE z l (List.Perm.nil_eq p1).symm
      rw [this] at p2
      exact List.Perm.eq_nil p2
    by_cases hxr : x ∈ rest
    · exact ih _ hE1 x hxr l hl
    · have hxy : x = y := by
        rcases List.mem_cons.1 hx with h | h
        · exact h
        · exact absurd h hxr
      subst hxy
      rw [sort_pass_other dist lvl rest _ hE1 l x hxr]
      exact (sort_levels_sorted dist x (lvl x + 1) 0 g (hE x)).1 l (Nat.zero_le _) (by omega)

end
end HNSW
namespace HNSW
section
variable {D : Type} [LinearOrder D]

theorem add_link_nonempty {dist : Nat → Nat → D} {Mcurmax level : Nat} {g g' : Graph}
    {src dst : Nat} (hMc : 1 ≤ Mcurmax) (h : add_link dist Mcurmax level g src dst = .ok g') :
    (∀ l n, g l n ≠ [] → g' l n ≠ []) ∧ g' level src ≠ [] ∧
    (∀ l n, l ≠ level → g' l n = g l n) := by
  obtain ⟨_, _, l, rfl, _, _, hne, _⟩ := add_link_ok h
  refine ⟨fun lv n hn => ?_, ?_, fun lv n hl => set_neighborhood_other g l (fun h => hl h.1)⟩
  · rcases set_neighborhood_cases g level src lv n l with ⟨_, _, h3⟩ | ⟨_, h3⟩
    · rw [h3]; exact hne hMc
    · rw [h3]; exact hn
  · rw [set_neighborhood_same]; exact hne hMc

/-- With a capacity of at least one, the loop over the selected neighbors leaves no list
empty that was not, and leaves the lists of the new node and of every selected neighbor
non-empty; it changes lists of `level` only. -/
theorem connect_selected_touched (dist : Nat → Nat → D) (Mcurmax level q : Nat)
    (hMc : 1 ≤ Mcurmax) :
    ∀ (sel : List Nat) (g g' : Graph), connect_selected dist Mcurmax level q sel g = .ok g' →
      (∀ l n, g l n ≠ [] → g' l n ≠ []) ∧ (sel ≠ [] → g' level q ≠ []) ∧
      (∀ dst ∈ sel, g' level dst ≠ []) ∧ (∀ l n, l ≠ level → g' l n = g l n) := by
  intro sel
  induction sel with
  | nil =>
    intro g g' h
    cases h
    exact ⟨fun _ _ h => h, fun h => absurd rfl h, fun d hd => absurd hd (List.not_mem_nil _),
      fun _ _ _ => rfl⟩
  | cons dst rest ih =>
    intro g g' h
    unfold connect_selected at h
    split at h
    · cases h
    · rename_i g1 h1
      split at h
      · cases h
      · rename_i g2 h2
        obtain ⟨a1, a2, a3⟩ := add_link_nonempty hMc h1
        obtain ⟨b1, b2, b3⟩ := add_link_nonempty hMc h2
        obtain ⟨c1, _, c3, c4⟩ := ih g2 g' h
        refine ⟨fun l n hn => c1 l n (b1 l n (a1 l n hn)), fun _ => c1 _ _ (b1 _ _ a2), ?_,
          fun l n hl => by rw [c4 l n hl, b3 l n hl, a3 l n hl]⟩
        intro d hd
        rcases List.mem_cons.1 hd with rfl | hd
        · exact c1 _ _ b2
        · exact c3 d hd

theorem mem_of_getLast?_eq_some {l : List Nat} {a : Nat} (h : l.getLast? = some a) : a ∈ l := by
  cases l with
  | nil => simp at h
  | cons x xs =>
    rw [List.getLast?_eq_getLast _ (List.cons_ne_nil x xs)] at h
    cases h
    exact List.getLast_mem _

theorem build_level_step (dist : Nat → Nat → D) (lv : Nat → Nat)
    {maxM efC fuel q top_level : Nat} (hL0 : top_level ≤ lv q)
    (level : Nat) (g : Graph) (curr : Nat) (top : List (Pair D)) (g1 : Graph) (next : Nat)
    (hJ : BuildLevelInv lv q top_level level g curr)
    (hs : search_level (dist q) g curr efC level fuel = .ok top)
    (hm : mutually_connect dist maxM (2 * maxM) g q top level = .ok (g1, next)) :
    (level = 0 → BuildDone lv q top_level g1) ∧
    (∀ l, level = l + 1 → BuildLevelInv lv q top_level l g1 next) := by
  have hmem : ∀ p ∈ top, p.node_id < q ∧ level ≤ lv p.node_id :=
    search_level_mem (P := fun x => x < q ∧ level ≤ lv x)
      (fun y x hx => ⟨(hJ.edges_low level y x (le_refl _) hx).1, (hJ.edges level y x hx).2.2.1⟩)
      hJ.curr_ok hs
  obtain ⟨hcs, hlast⟩ := mutually_connect_ok hm
  set sel := (get_neighbors_heuristic dist top maxM).map Pair.node_id with hsel
  have hsel_mem : ∀ d ∈ sel, d < q ∧ level ≤ lv d := by
    intro d hd
    obtain ⟨p, hp, rfl⟩ := List.mem_map.1 hd
    exact hmem p (get_neighbors_heuristic_mem hp)
  have hnext : next ∈ sel := mem_of_getLast?_eq_some hlast
  have hsel_ne : sel ≠ [] := List.ne_nil_of_mem hnext
  have hmaxM : 1 ≤ maxM := by
    have h1 := get_neighbors_heuristic_length dist top maxM
    have h2 : sel.length ≠ 0 := fun h => hsel_ne (List.length_eq_zero.1 h)
    rw [hsel, List.length_map] at h2
    omega
  have hMc : 1 ≤ if level ≠ 0 then maxM else 2 * maxM := by split_ifs <;> omega
  obtain ⟨t1, t2, t3, t4⟩ := connect_selected_touched dist _ level q hMc sel g g1 hcs
  have hlevq : level ≤ lv q := le_trans hJ.level_le hL0
  have hedges : ∀ l y x, x ∈ g1 l y → x ≤ q ∧ y ≤ q ∧ l ≤ lv x ∧ l ≤ lv y ∧ x ≠ y := by
    refine connect_selected_invariant
      (fun g : Graph => ∀ l y x, x ∈ g l y → x ≤ q ∧ y ≤ q ∧ l ≤ lv x ∧ l ≤ lv y ∧ x ≠ y) sel
      ?_ g g1 hJ.edges hcs
    intro ga gb a b hab hI hl l y x hx
    obtain ⟨hne, _, nl, rfl, _, hnl, _⟩ := add_link_ok hl
    have hab' : a ≤ q ∧ b ≤ q ∧ level ≤ lv a ∧ level ≤ lv b := by
      rcases hab with ⟨rfl, hb⟩ | ⟨rfl, ha⟩
      · exact ⟨le_refl _, le_of_lt (hsel_mem b hb).1, hlevq, (hsel_mem b hb).2⟩
      · exact ⟨le_of_lt (hsel_mem a ha).1, le_refl _, (hsel_mem a ha).2, hlevq⟩
    rcases set_neighborhood_cases ga level a l y nl with ⟨h1, h2, h3⟩ | ⟨_, h3⟩
    · rw [h3] at hx
      subst h1 h2
      rcases hnl x hx with h | h
      · exact hI l y x h
      · subst h
        exact ⟨hab'.2.1, hab'.1, hab'.2.2.2, hab'.2.2.1, Ne.symm hne⟩
    · rw [h3] at hx
      exact hI l y x hx
  -- a node below `q` whose list at `level` is empty after the call
  have halone_level : ∀ x, x < q → level ≤ lv x → g1 level x = [] → False := by
    intro x hx hlx hnil
    have hg : g level x = [] := by
      by_contra hne
      exact t1 level x hne hnil
    have huniq := (hJ.alone x level hx hlx hg).1
    have : next = x := huniq next (hsel_mem next hnext).1 (hsel_mem next hnext).2
    exact t3 x (this ▸ hnext) hnil
  have halone : ∀ x l, x < q → l ≤ lv x → g1 l x = [] →
      (∀ y, y < q → l ≤ lv y → y = x) ∧ (level < l → top_level < l) := by
    intro x l hx hlx hnil
    have hg : g l x = [] := by
      by_contra hne
      exact t1 l x hne hnil
    exact hJ.alone x l hx hlx hg
  constructor
  · intro h0
    subst h0
    refine ⟨hedges, ?_, ?_⟩
    · intro x l hx hlx hnil
      obtain ⟨h1, h2⟩ := halone x l hx hlx hnil
      refine ⟨h1, ?_⟩
      rcases Nat.eq_zero_or_pos l with h | h
      · subst h
        exact absurd hnil (fun h => halone_level x hx hlx h)
      · exact h2 h
    · intro l hl
      rcases Nat.eq_zero_or_pos l with h | h
      · subst h
        exact t2 hsel_ne
      · exact t1 l q (hJ.linked l h hl)
  · intro l' hl'
    subst hl'
    refine ⟨by have := hJ.level_le; omega, hedges, ?_, ?_, ?_, ?_⟩
    · intro l y x hl hx
      rw [t4 l y (by omega)] at hx
      exact hJ.edges_low l y x (by omega) hx
    · exact ⟨(hsel_mem next hnext).1, by have := (hsel_mem next hnext).2; omega⟩
    · intro x l hx hlx hnil
      obtain ⟨h1, h2⟩ := halone x l hx hlx hnil
      refine ⟨h1, fun hl => ?_⟩
      rcases Nat.lt_or_ge (l' + 1) l with h | h
      · exact h2 h
      · have : l = l' + 1 := by omega
        subst this
        exact absurd hnil (fun h => halone_level x hx hlx h)
    · intro l hl1 hl2
      rcases Nat.lt_or_ge (l' + 1) l with h | h
      · exact t1 l q (hJ.linked l h hl2)
      · have : l = l' + 1 := by omega
        subst this
        exact t2 hsel_ne

end
end HNSW

namespace HNSW
section
variable {D : Type} [LinearOrder D]

/-- Inserting a node keeps `BuildInv`. -/
theorem build_add_point (dist : Nat → Nat → D) (lv : Nat → Nat) {fuel q : Nat} {h h' : Index}
    (hI : BuildInv lv q h) (hq : add_point dist lv fuel h q = .ok h') :
    BuildInv lv (q + 1) h' := by
  obtain ⟨_, hmaxM, hmaxM0, _, hcases⟩ := add_point_ok hq
  have hcaps : h'.maxM0 = 2 * h'.maxM := by rw [hmaxM0, hmaxM]; exact hI.caps
  rcases hcases with ⟨h0, hg, hi, hm⟩ | ⟨h0, ⟨curr, r, hent, hcl, hg⟩, hcase⟩
  · subst h0
    refine ⟨hcaps, fun l y x hx => ?_, fun _ => ?_, fun x l hx _ _ y hy _ => by omega⟩
    · rw [hg] at hx
      exact absurd (hI.edges l y x hx).1 (Nat.not_lt_zero _)
    · rw [hi, hm]
      refine ⟨Nat.zero_lt_one, rfl, fun i hi => ?_⟩
      have : i = 0 := by omega
      rw [this]
  · obtain ⟨e1, e2, e3⟩ := hI.entry h0
    have hcurr : curr < q ∧ min (lv q) h.max_level ≤ lv curr := by
      rcases hent with ⟨hlt, st, hst, rfl⟩ | ⟨hlt, rfl⟩
      · have := greedy_descent_mem (P := fun x => x < q ∧ lv q < lv x)
          (fun l y x hl hx => ⟨(hI.edges l y x hx).1,
            lt_of_lt_of_le hl (hI.edges l y x hx).2.2.1⟩)
          _ _ _ ⟨e1, by rw [e2]; exact hlt⟩ hst
        exact ⟨this.1, le_trans (min_le_left _ _) (le_of_lt this.2)⟩
      · exact ⟨e1, by rw [e2]; exact min_le_right _ _⟩
    have hJ : BuildLevelInv lv q (min (lv q) h.max_level) (min (lv q) h.max_level) h.graph curr :=
      ⟨le_refl _,
        fun l y x hx => by
          obtain ⟨a, b, c, d, e⟩ := hI.edges l y x hx
          exact ⟨le_of_lt a, le_of_lt b, c, d, e⟩,
        fun l y x _ hx => ⟨(hI.edges l y x hx).1, (hI.edges l y x hx).2.1⟩,
        hcurr,
        fun x l hx hlx hnil => ⟨hI.alone x l hx hlx hnil, fun hl => hl⟩,
        fun l h1 h2 => by omega⟩
    rw [hI.caps] at hcl
    have hF := connect_levels_induct (BuildLevelInv lv q (min (lv q) h.max_level))
      (BuildDone lv q (min (lv q) h.max_level))
      (fun level g curr top g1 next hJ hs hm =>
        build_level_step dist lv (min_le_left _ _) level g curr top g1 next hJ hs hm)
      _ _ _ r hJ hcl
    rw [← hg] at hF
    refine ⟨hcaps, fun l y x hx => ?_, fun _ => ?_, ?_⟩
    · obtain ⟨a, b, c, d, e⟩ := hF.edges l y x hx
      exact ⟨Nat.lt_succ_of_le a, Nat.lt_succ_of_le b, c, d, e⟩
    · rcases hcase with ⟨hgt, hm, hi⟩ | ⟨hle, hm, hi⟩
      · rw [hm, hi]
        refine ⟨Nat.lt_succ_self _, rfl, fun i hi => ?_⟩
        rcases Nat.lt_succ_iff_lt_or_eq.1 hi with h | h
        · exact le_trans (e3 i h) (le_of_lt hgt)
        · rw [h]
      · rw [hm, hi]
        refine ⟨Nat.lt_succ_of_lt e1, e2, fun i hi => ?_⟩
        rcases Nat.lt_succ_iff_lt_or_eq.1 hi with h | h
        · exact e3 i h
        · rw [h]; exact not_lt.1 hle
    · intro x l hx hlx hnil y hy hly
      rcases Nat.lt_succ_iff_lt_or_eq.1 hx with hx' | hx'
      · obtain ⟨huniq, htop⟩ := hF.alone x l hx' hlx hnil
        rcases Nat.lt_succ_iff_lt_or_eq.1 hy with hy' | hy'
        · exact huniq y hy' hly
        · subst hy'
          have := e3 x hx'
          rcases Nat.le_total (lv y) h.max_level with hmin | hmin
          · rw [min_eq_left hmin] at htop; omega
          · rw [min_eq_right hmin] at htop; omega
      · subst hx'
        have htop : min (lv x) h.max_level < l := by
          by_contra hcon
          exact hF.linked l (not_lt.1 hcon) hnil
        rcases Nat.lt_succ_iff_lt_or_eq.1 hy with hy' | hy'
        · have := e3 y hy'
          rcases Nat.le_total (lv x) h.max_level with hmin | hmin
          · rw [min_eq_left hmin] at htop; omega
          · rw [min_eq_right hmin] at htop; omega
        · exact hy'

end
end HNSW
namespace HNSW
section
variable {D : Type} [LinearOrder D]

theorem add_link_total (dist : Nat → Nat → D) (Mcurmax level : Nat) (g : Graph) (src dst : Nat)
    (hlen : (g level src).length ≤ Mcurmax) (hne : src ≠ dst) :
    ∃ g', add_link dist Mcurmax level g src dst = .ok g' := by
  unfold add_link
  dsimp only
  rw [if_neg (by omega), if_neg hne]
  split_ifs
  · exact ⟨_, rfl⟩
  · exact ⟨_, rfl⟩

/-- On a graph within its capacities, the loop over selected neighbors other than the new node
returns. -/
theorem connect_selected_total (dist : Nat → Nat → D) (maxM maxM0 level q : Nat) :
    ∀ (sel : List Nat) (g : Graph), degree_bounded maxM maxM0 g → q ∉ sel →
      ∃ g', connect_selected dist (if level ≠ 0 then maxM else maxM0) level q sel g = .ok g' := by
  intro sel
  induction sel with
  | nil => intro g _ _; exact ⟨g, rfl⟩
  | cons dst rest ih =>
    intro g hb hq
    have hqd : q ≠ dst := fun h => hq (h ▸ List.mem_cons_self _ _)
    obtain ⟨g1, h1⟩ := add_link_total dist _ level g q dst (hb level q) hqd
    have hb1 := add_link_degree_bounded hb h1
    obtain ⟨g2, h2⟩ := add_link_total dist _ level g1 dst q (hb1 level dst) (Ne.symm hqd)
    have hb2 := add_link_degree_bounded hb1 h2
    obtain ⟨g', hg'⟩ := ih g2 hb2 (fun h => hq (List.mem_cons_of_mem _ h))
    refine ⟨g', ?_⟩
    unfold connect_selected
    rw [h1]
    dsimp only
    rw [h2]
    exact hg'

/-- With `maxM >= 1`, on a graph within its capacities, `mutually_connect` returns for every
non-empty candidate heap that does not hold the new node. -/
theorem mutually_connect_total (dist : Nat → Nat → D) (maxM maxM0 : Nat) (g : Graph) (q : Nat)
    (top : List (Pair D)) (level : Nat) (hM : 1 ≤ maxM) (hb : degree_bounded maxM maxM0 g)
    (hne : top ≠ []) (hq : q ∉ top.map Pair.node_id) :
    ∃ g1 next, mutually_connect dist maxM maxM0 g q top level = .ok (g1, next) := by
  have hsel : q ∉ (get_neighbors_heuristic dist top maxM).map Pair.node_id := by
    intro h
    obtain ⟨p, hp, hpq⟩ := List.mem_map.1 h
    exact hq (List.mem_map.2 ⟨p, get_neighbors_heuristic_mem hp, hpq⟩)
  obtain ⟨g1, hg1⟩ := connect_selected_total dist maxM maxM0 level q _ g hb hsel
  have hne' : (get_neighbors_heuristic dist top maxM).map Pair.node_id ≠ [] :=
    fun h => get_neighbors_heuristic_ne_nil dist hM hne (List.map_eq_nil_iff.1 h)
  refine ⟨g1, ((get_neighbors_heuristic dist top maxM).map Pair.node_id).getLast hne', ?_⟩
  unfold mutually_connect
  dsimp only
  rw [if_neg (by have := get_neighbors_heuristic_length dist top maxM; omega), hg1]
  dsimp only
  rw [List.getLast?_eq_getLast _ hne']

end
end HNSW
namespace HNSW
section
variable {D : Type} [LinearOrder D]

/-- A call of `mutually_connect` that returns has changed lists of `level` only. -/
theorem mutually_connect_frame {dist : Nat → Nat → D} {maxM maxM0 level q next : Nat}
    {g g' : Graph} {top : List (Pair D)}
    (h : mutually_connect dist maxM maxM0 g q top level = .ok (g', next)) :
    ∀ l n, l ≠ level → g' l n = g l n := by
  refine connect_selected_invariant (fun ga : Graph => ∀ l n, l ≠ level → ga l n = g l n) _
    ?_ g g' (fun _ _ _ => rfl) (mutually_connect_ok h).1
  intro ga gb a b _ hI hl l n hne
  obtain ⟨_, _, nl, rfl, _⟩ := add_link_ok hl
  rw [set_neighborhood_other ga nl (fun h => hne h.1)]
  exact hI l n hne

theorem total_level_step (dist : Nat → Nat → D) {maxM maxM0 efC fuel n q : Nat}
    (hqn : q < n) (hfuel : n < fuel) (hM : 1 ≤ maxM)
    (level : Nat) (g : Graph) (curr : Nat) (hJ : TotalLevelInv maxM maxM0 q level g curr) :
    ∃ top g1 next,
      search_level (dist q) g curr efC level fuel = .ok top ∧
      mutually_connect dist maxM maxM0 g q top level = .ok (g1, next) ∧
      (level = 0 → TotalDone maxM maxM0 q g1) ∧
      (∀ l, level = l + 1 → TotalLevelInv maxM maxM0 q l g1 next) := by
  obtain ⟨top, htop⟩ := search_level_terminates (dist q) efC
    (fun y x hx => lt_of_le_of_lt (hJ.ids level y x hx).1 hqn) (lt_trans hJ.curr_lt hqn) hfuel
  obtain ⟨s, hs, hst⟩ := search_level_inv htop
  have hmem : ∀ p ∈ top, p.node_id < q :=
    search_level_mem (P := fun x => x < q)
      (fun y x hx => hJ.ids_low level y x (le_refl _) hx) hJ.curr_lt htop
  have hq : q ∉ top.map Pair.node_id := by
    intro h
    obtain ⟨p, hp, hpq⟩ := List.mem_map.1 h
    exact absurd (hmem p hp) (by rw [hpq]; exact lt_irrefl _)
  obtain ⟨g1, next, hmc⟩ := mutually_connect_total dist maxM maxM0 g q top level hM hJ.bounded
    (by rw [← hst]; exact hs.topk_ne) hq
  obtain ⟨hcs, hlast⟩ := mutually_connect_ok hmc
  have hsel_mem : ∀ d ∈ (get_neighbors_heuristic dist top maxM).map Pair.node_id, d < q := by
    intro d hd
    obtain ⟨p, hp, rfl⟩ := List.mem_map.1 hd
    exact hmem p (get_neighbors_heuristic_mem hp)
  have hids : ∀ l y x, x ∈ g1 l y → x ≤ q ∧ y ≤ q := by
    refine connect_selected_invariant (fun ga : Graph => ∀ l y x, x ∈ ga l y → x ≤ q ∧ y ≤ q) _
      ?_ g g1 hJ.ids hcs
    intro ga gb a b hab hI hl l y x hx
    obtain ⟨_, _, nl, rfl, _, hnl, _⟩ := add_link_ok hl
    have hab' : a ≤ q ∧ b ≤ q := by
      rcases hab with ⟨rfl, hb⟩ | ⟨rfl, ha⟩
      · exact ⟨le_refl _, le_of_lt (hsel_mem b hb)⟩
      · exact ⟨le_of_lt (hsel_mem a ha), le_refl _⟩
    rcases set_neighborhood_cases ga level a l y nl with ⟨h1, h2, h3⟩ | ⟨_, h3⟩
    · rw [h3] at hx
      subst h1 h2
      rcases hnl x hx with h | h
      · exact hI l y x h
      · subst h
        exact ⟨hab'.2, hab'.1⟩
    · rw [h3] at hx
      exact hI l y x hx
  have hb1 := mutually_connect_degree dist maxM maxM0 g q top level g1 next hJ.bounded hmc
  refine ⟨top, g1, next, htop, hmc, fun _ => ⟨hids, hb1⟩, fun l hl => ?_⟩
  refine ⟨hsel_mem next (mem_of_getLast?_eq_some hlast), hids, ?_, hb1⟩
  intro lv y x hlv hx
  rw [mutually_connect_frame hmc lv y (by omega)] at hx
  exact hJ.ids_low lv y x (by omega) hx

/-- Inserting a node into a build with `M >= 1` succeeds and keeps `TotalInv`. -/
theorem total_add_point (dist : Nat → Nat → D) (lv : Nat → Nat) {M fuel n q : Nat}
    (hqn : q < n) (hfuel : n < fuel) (hM : 1 ≤ M) (h : Index) (hI : TotalInv M q h) :
    ∃ h', add_point dist lv fuel h q = .ok h' ∧ TotalInv M (q + 1) h' := by
  by_cases h0 : q = 0
  · subst h0
    refine ⟨{ h with init_node := 0, max_level := lv 0 }, ?_, ?_⟩
    · unfold add_point; simp
    · exact ⟨hI.maxM_eq, fun l y x hx => absurd (hI.ids l y x hx).1 (Nat.not_lt_zero _),
        hI.bounded, fun _ => Nat.zero_lt_one⟩
  · have hinit := hI.init_lt h0
    have hentry : ∃ curr, curr < q ∧
        ((lv q < h.max_level ∧ ∃ st, greedy_descent (dist q) h.graph fuel (lv q)
          (h.max_level - lv q) (h.init_node, dist q h.init_node) = .ok st ∧ curr = st.1) ∨
        (¬ lv q < h.max_level ∧ curr = h.init_node)) := by
      by_cases hlt : lv q < h.max_level
      · obtain ⟨st, hst⟩ := greedy_descent_terminates (dist q)
          (fun l y x hx => lt_trans (hI.ids l y x hx).1 hqn) hfuel (lv q)
          (h.max_level - lv q) (h.init_node, dist q h.init_node)
        refine ⟨st.1, ?_, Or.inl ⟨hlt, st, hst, rfl⟩⟩
        exact greedy_descent_mem (P := fun x => x < q)
          (fun l y x _ hx => (hI.ids l y x hx).1) _ _ _ hinit hst
      · exact ⟨h.init_node, hinit, Or.inr ⟨hlt, rfl⟩⟩
    obtain ⟨curr, hcurr, hcurr_eq⟩ := hentry
    have hJ : TotalLevelInv h.maxM h.maxM0 q (min (lv q) h.max_level) h.graph curr :=
      ⟨hcurr, fun l y x hx => ⟨le_of_lt (hI.ids l y x hx).1, le_of_lt (hI.ids l y x hx).2⟩,
        fun l y x _ hx => (hI.ids l y x hx).1, hI.bounded⟩
    obtain ⟨r, hr, hF⟩ := connect_levels_total (TotalLevelInv h.maxM h.maxM0 q)
      (TotalDone h.maxM h.maxM0 q)
      (fun level g curr hJ => total_level_step dist hqn hfuel (by rw [hI.maxM_eq]; exact hM)
        level g curr hJ)
      (min (lv q) h.max_level) h.graph curr hJ
    obtain ⟨g1, nx⟩ := r
    refine ⟨_, add_point_eq h0 hcurr_eq hr, ?_⟩
    have hids : ∀ l y x, x ∈ g1 l y → x < q + 1 ∧ y < q + 1 := by
      intro l y x hx
      have := hF.ids l y x hx
      omega
    split_ifs with hgt
    · exact ⟨hI.maxM_eq, hids, hF.bounded, fun _ => Nat.lt_succ_self q⟩
    · exact ⟨hI.maxM_eq, hids, hF.bounded, fun _ => Nat.lt_succ_of_lt hinit⟩

/-- On a non-empty matrix, with `M >= 1` and loops that may run `rows + 1` times, `train`
returns an index, and the index is well formed. -/
theorem train_returns (dist : Nat → Nat → D) (rows M efC : Nat) (sampled : Nat → Nat) (ub : Int)
    (fuel : Nat) (hrows : 0 < rows) (hM : 1 ≤ M) (hfuel : rows < fuel) :
    ∃ idx, train dist rows M efC sampled ub fuel = .ok idx ∧ idx.num_node = rows ∧
      idx.well_formed := by
  obtain ⟨h1, hh1, hn, hI⟩ := add_points_total
    (fun q (h : Index) => h.num_node = rows ∧ TotalInv M q h)
    (fun q h hq hI => by
      obtain ⟨h', hh', hI'⟩ := total_add_point dist (node2level sampled ub) hq hfuel hM h hI.2
      exact ⟨h', hh', (add_point_ok hh').1.trans hI.1, hI'⟩)
    rows 0 ⟨rows, M, (2 * M) % 2 ^ 32, efC, 0, 0, fun _ _ => []⟩ (by omega)
    ⟨rfl, rfl, fun l y x hx => by simp at hx, fun l n => by simp,
      fun h => absurd rfl h⟩
  rw [Nat.zero_add] at hI
  refine ⟨{ h1 with graph := ((List.range rows).foldl
    (sort_neighbors_for_node dist (node2level sampled ub)) h1.graph) }, ?_, hn, ?_, ?_⟩
  · unfold train
    dsimp only
    rw [if_neg (by omega), hh1]
  · show h1.init_node < h1.num_node
    rw [hn]
    exact hI.init_lt (by omega)
  · intro l y x hx
    show x < h1.num_node
    rw [hn]
    exact (hI.ids l y x ((sort_pass_perm dist _ _ h1.graph l y).subset hx)).1

end
end HNSW

namespace HNSW
section
variable {D : Type} [LinearOrder D]

/-- C4. The degree bound is an invariant of construction: `mutually_connect` keeps every
neighbor list within its capacity (`maxM0` at level 0, `maxM` above), and after `train` every
list of every node and level is within the capacity `train` has set, `maxM = M` and
`maxM0 = 2 * M` in 32-bit arithmetic. `train` does return on a non-empty matrix with `M >= 1`
when its loops may run `rows + 1` times. -/
theorem degree_bound_invariant (dist : Nat → Nat → D) :
    (∀ (maxM maxM0 : Nat) (g : Graph) (src_node_id : Nat) (top_candidates : List (Pair D))
        (level : Nat) (g' : Graph) (next : Nat),
      degree_bounded maxM maxM0 g →
      mutually_connect dist maxM maxM0 g src_node_id top_candidates level = .ok (g', next) →
      degree_bounded maxM maxM0 g') ∧
    (∀ (rows M efC : Nat) (sampled : Nat → Nat) (ub : Int) (fuel : Nat) (idx : Index),
      train dist rows M efC sampled ub fuel = .ok idx →
      idx.maxM = M ∧ idx.maxM0 = (2 * M) % 2 ^ 32 ∧ (M < 2 ^ 31 → idx.maxM0 = 2 * M) ∧
      degree_bounded idx.maxM idx.maxM0 idx.graph) ∧
    (∀ (rows M efC : Nat) (sampled : Nat → Nat) (ub : Int) (fuel : Nat),
      0 < rows → 1 ≤ M → rows < fuel → ∃ idx, train dist rows M efC sampled ub fuel = .ok idx) := by
  refine ⟨fun maxM maxM0 g q top level g' next hb h =>
    mutually_connect_degree dist maxM maxM0 g q top level g' next hb h, ?_, ?_⟩
  · intro rows M efC sampled ub fuel idx h
    obtain ⟨_, h1, hadd, rfl⟩ := train_ok h
    have key := add_points_induct
      (fun _ (h : Index) => h.maxM = M ∧ h.maxM0 = (2 * M) % 2 ^ 32 ∧
        degree_bounded h.maxM h.maxM0 h.graph)
      (fun q h h' hI hq => by
        obtain ⟨_, h2, h3, _, _⟩ := add_point_ok hq
        exact ⟨h2.trans hI.1, h3.trans hI.2.1, add_point_degree_bounded hI.2.2 hq⟩)
      rows 0 _ h1 ⟨rfl, rfl, fun lv n => by simp⟩ hadd
    refine ⟨key.1, key.2.1, fun hM => ?_, ?_⟩
    · dsimp only
      rw [key.2.1]
      exact Nat.mod_eq_of_lt (by omega)
    · intro lv n
      dsimp only
      rw [(sort_pass_perm dist _ _ h1.graph lv n).length_eq]
      exact key.2.2 lv n
  · intro rows M efC sampled ub fuel hrows hM hfuel
    obtain ⟨idx, hidx, _⟩ := train_returns dist rows M efC sampled ub fuel hrows hM hfuel
    exact ⟨idx, hidx⟩

theorem degree_bound_invariant_witness :
    ∃ idx, train example_dist 4 2 4 (fun i => [1, 0, 2, 0].getD i 0) (-1) 5 = .ok idx ∧
      degree_bounded idx.maxM idx.maxM0 idx.graph := by
  obtain ⟨idx, h⟩ := (degree_bound_invariant example_dist).2.2 4 2 4
    (fun i => [1, 0, 2, 0].getD i 0) (-1) 5 (by decide) (by decide) (by decide)
  exact ⟨idx, h, ((degree_bound_invariant example_dist).2.1 _ _ _ _ _ _ idx h).2.2.2⟩

/-- C6. After `train` has returned (the matrix is then non-empty), `max_level` is the largest
level of a node and `init_node` is the smallest node id whose level is `max_level`; and `train`
does return on a non-empty matrix with `M >= 1` when its loops may run `rows + 1` times. -/
theorem train_entry_point (dist : Nat → Nat → D) (rows M efC : Nat) (sampled : Nat → Nat)
    (ub : Int) (fuel : Nat) :
    (∀ idx, train dist rows M efC sampled ub fuel = .ok idx →
      0 < rows ∧ idx.init_node < rows ∧
      node2level sampled ub idx.init_node = idx.max_level ∧
      (∀ i, i < rows → node2level sampled ub i ≤ idx.max_level) ∧
      (∀ i, i < idx.init_node → node2level sampled ub i < idx.max_level)) ∧
    (0 < rows → 1 ≤ M → rows < fuel → ∃ idx, train dist rows M efC sampled ub fuel = .ok idx) := by
  refine ⟨?_, fun hrows hM hfuel => ?_⟩
  · intro idx h
    obtain ⟨hrows, h1, hadd, rfl⟩ := train_ok h
    have key := add_points_induct
      (fun q (h : Index) => q ≠ 0 → h.init_node < q ∧
        node2level sampled ub h.init_node = h.max_level ∧
        (∀ i, i < q → node2level sampled ub i ≤ h.max_level) ∧
        (∀ i, i < h.init_node → node2level sampled ub i < h.max_level))
      (fun q h h' hI hq _ => by
        obtain ⟨_, _, _, _, h5⟩ := add_point_ok hq
        rcases h5 with ⟨h0, _, hi, hm⟩ | ⟨h0, _, hcase⟩
        · subst h0
          rw [hi, hm]
          refine ⟨Nat.zero_lt_one, rfl, fun i hi => ?_, fun i hi => absurd hi (Nat.not_lt_zero _)⟩
          have : i = 0 := by omega
          rw [this]
        · obtain ⟨a1, a2, a3, a4⟩ := hI h0
          rcases hcase with ⟨hgt, hm, hi⟩ | ⟨hle, hm, hi⟩
          · rw [hm, hi]
            refine ⟨Nat.lt_succ_self _, rfl, fun i hi => ?_, fun i hi => ?_⟩
            · rcases Nat.lt_succ_iff_lt_or_eq.1 hi with h | h
              · exact le_trans (a3 i h) (le_of_lt hgt)
              · rw [h]
            · exact lt_of_le_of_lt (a3 i hi) hgt
          · rw [hm, hi]
            refine ⟨Nat.lt_succ_of_lt a1, a2, fun i hi => ?_, a4⟩
            rcases Nat.lt_succ_iff_lt_or_eq.1 hi with h | h
            · exact a3 i h
            · rw [h]; exact not_lt.1 hle)
      rows 0 _ h1 (fun h => absurd rfl h) hadd
    rw [Nat.zero_add] at key
    exact ⟨Nat.pos_of_ne_zero hrows, key hrows⟩
  · obtain ⟨idx, hidx, _⟩ := train_returns dist rows M efC sampled ub fuel hrows hM hfuel
    exact ⟨idx, hidx⟩

theorem train_entry_point_witness :
    ∃ idx, train example_dist 4 2 4 (fun i => [1, 0, 2, 0].getD i 0) (-1) 5 = .ok idx ∧
      idx.init_node = 2 ∧ idx.max_level = 2 := by
  obtain ⟨idx, h⟩ := (train_entry_point example_dist 4 2 4
    (fun i => [1, 0, 2, 0].getD i 0) (-1) 5).2 (by decide) (by decide) (by decide)
  obtain ⟨_, h1, h2, h3, h4⟩ := (train_entry_point example_dist 4 2 4
    (fun i => [1, 0, 2, 0].getD i 0) (-1) 5).1 idx h
  have hm : idx.max_level = 2 := by
    have a := h3 2 (by decide)
    have b : node2level (fun i => [1, 0, 2, 0].getD i 0) (-1) idx.init_node ≤ 2 := by
      have : idx.init_node < 4 := h1
      interval_cases idx.init_node <;> decide
    have c : node2level (fun i => [1, 0, 2, 0].getD i 0) (-1) 2 = 2 := by decide
    omega
  refine ⟨idx, h, ?_, hm⟩
  have : idx.init_node < 4 := h1
  rw [hm] at h2
  interval_cases hi : idx.init_node
  · exact absurd h2 (by decide)
  · exact absurd h2 (by decide)
  · rfl
  · exact absurd h2 (by decide)

/-- C7, amended. After `train` has returned with `M < 2 ^ 31`, for every node `i` and every
level `l <= level(i)`, the neighbor list of `i` at level `l` is sorted in non-decreasing order of
distance from `i` to the neighbor; and `train` does return on a non-empty matrix with `M >= 1`
when its loops may run `rows + 1` times. -/
theorem train_neighbors_sorted (dist : Nat → Nat → D) (rows M efC : Nat) (sampled : Nat → Nat)
    (ub : Int) (fuel : Nat) (hM : M < 2 ^ 31) :
    (∀ idx, train dist rows M efC sampled ub fuel = .ok idx →
      ∀ i l, l ≤ node2level sampled ub i → neighbors_sorted dist i (idx.graph l i)) ∧
    (0 < rows → 1 ≤ M → rows < fuel → ∃ idx, train dist rows M efC sampled ub fuel = .ok idx) := by
  refine ⟨?_, fun hrows hM1 hfuel => ?_⟩
  · intro idx h
    obtain ⟨_, h1, hadd, rfl⟩ := train_ok h
    have hmod : (2 * M) % 2 ^ 32 = 2 * M := Nat.mod_eq_of_lt (by omega)
    have key := add_points_induct (BuildInv (node2level sampled ub))
      (fun q h h' hI hq => build_add_point dist (node2level sampled ub) hI hq)
      rows 0 _ h1
      ⟨hmod, fun l y x hx => by simp at hx, fun h => absurd rfl h,
        fun x l hx => absurd hx (Nat.not_lt_zero _)⟩ hadd
    rw [Nat.zero_add] at key
    have hE : ∀ x l, h1.graph l x = [] → h1.graph (l + 1) x = [] := by
      intro x l hnil
      cases hg : h1.graph (l + 1) x with
      | nil => rfl
      | cons y ys =>
        obtain ⟨a, b, c, d, e⟩ := key.edges (l + 1) x y (by rw [hg]; exact List.mem_cons_self _ _)
        exact absurd (key.alone x l b (by omega) hnil y a (by omega)) e
    intro i l hl
    dsimp only
    by_cases hi : i < rows
    · exact sort_pass_sorted dist _ _ h1.graph hE i (List.mem_range.2 hi) l hl
    · have hnil : h1.graph l i = [] := by
        cases hg : h1.graph l i with
        | nil => rfl
        | cons y ys =>
          exact absurd (key.edges l i y (by rw [hg]; exact List.mem_cons_self _ _)).2.1 hi
      have := sort_pass_perm dist (node2level sampled ub) (List.range rows) h1.graph l i
      rw [hnil] at this
      rw [List.Perm.eq_nil this]
      exact List.sorted_nil
  · obtain ⟨idx, hidx, _⟩ := train_returns dist rows M efC sampled ub fuel hrows hM1 hfuel
    exact ⟨idx, hidx⟩

end

/-- C7, counterexample. With `M = 2 ^ 31` the capacity `2 * M` of a level-0 list is 0 in
32-bit arithmetic, every level-0 list stays empty, and the sorting pass returns at level 0
before it reaches level 1: node 0 keeps the list `[1, 2]` at distances 100 and 1. -/
theorem train_neighbors_sorted_counterexample :
    ¬ (∀ (dist : Nat → Nat → Nat) (rows M efC : Nat) (sampled : Nat → Nat) (ub : Int)
        (fuel : Nat) (idx : Index),
      M < 2 ^ 32 → train dist rows M efC sampled ub fuel = .ok idx →
      ∀ i l, l ≤ node2level sampled ub i → neighbors_sorted dist i (idx.graph l i)) := by
  intro hall
  cases h : train three_dist 3 (2 ^ 31) 4 (fun _ => 1) (-1) 4 with
  | error e =>
    have hok : (train three_dist 3 (2 ^ 31) 4 (fun _ => 1) (-1) 4).isOk = true := rfl
    rw [h] at hok
    cases hok
  | ok idx =>
    have hval : (match train three_dist 3 (2 ^ 31) 4 (fun _ => 1) (-1) 4 with
        | .ok idx => idx.graph 1 0
        | .error _ => []) = [1, 2] := rfl
    rw [h] at hval
    dsimp only at hval
    have hs := hall three_dist 3 (2 ^ 31) 4 (fun _ => 1) (-1) 4 idx (by decide) h 0 1 (by decide)
    rw [hval] at hs
    unfold neighbors_sorted at hs
    simp only [List.sorted_cons, List.mem_singleton, forall_eq] at hs
    exact absurd hs.1 (by decide)

theorem train_neighbors_sorted_witness :
    ∃ idx, train example_dist 4 2 4 (fun i => [1, 0, 2, 0].getD i 0) (-1) 5 = .ok idx ∧
      neighbors_sorted example_dist 0 (idx.graph 0 0) := by
  obtain ⟨idx, h⟩ := (train_neighbors_sorted example_dist 4 2 4
    (fun i => [1, 0, 2, 0].getD i 0) (-1) 5 (by decide)).2 (by decide) (by decide) (by decide)
  exact ⟨idx, h, (train_neighbors_sorted example_dist 4 2 4 _ (-1) 5 (by decide)).1 idx h 0 0
    (Nat.zero_le _)⟩

end HNSW
namespace HNSW
section
variable {D : Type} [LinearOrder D]

theorem reachable_mono {g g' : Graph} (h : ∀ x y, y ∈ g 0 x → y ∈ g' 0 x) {a b : Nat}
    (hab : reachable g a b) : reachable g' a b := by
  unfold reachable at hab ⊢
  exact Relation.ReflTransGen.mono (fun x y hxy => h x y hxy) hab

theorem sparse_level_step (dist : Nat → Nat → D) {maxM efC fuel q : Nat}
    (hq1 : 1 ≤ q) (hqM : q ≤ 2 * maxM)
    (level : Nat) (g : Graph) (curr : Nat) (top : List (Pair D)) (g1 : Graph) (next : Nat)
    (hJ : SparseLevelInv q level g curr)
    (hs : search_level (dist q) g curr efC level fuel = .ok top)
    (hm : mutually_connect dist maxM (2 * maxM) g q top level = .ok (g1, next)) :
    (level = 0 → SparseDone q g1) ∧ (∀ l, level = l + 1 → SparseLevelInv q l g1 next) := by
  obtain ⟨s, hsinv, hst⟩ := search_level_inv hs
  have hmem : ∀ p ∈ top, p.node_id < q :=
    search_level_mem (P := fun x => x < q)
      (fun y x hx => (hJ.ids_low level y x (le_refl _) hx).1) hJ.curr_lt hs
  obtain ⟨hcs, hlast⟩ := mutually_connect_ok hm
  set sel := (get_neighbors_heuristic dist top maxM).map Pair.node_id with hsel
  have hsel_mem : ∀ d ∈ sel, d < q := by
    intro d hd
    obtain ⟨p, hp, rfl⟩ := List.mem_map.1 hd
    exact hmem p (get_neighbors_heuristic_mem hp)
  have hsel_nodup : sel.Nodup :=
    get_neighbors_heuristic_nodup (by rw [← hst]; exact hsinv.topk_nodup)
  have hsel_len : sel.length ≤ maxM := by
    rw [hsel, List.length_map]
    exact get_neighbors_heuristic_length dist top maxM
  have hnext : next ∈ sel := mem_of_getLast?_eq_some hlast
  have hqsel : q ∉ sel := fun h => lt_irrefl _ (hsel_mem q h)
  have hids : ∀ l y x, x ∈ g1 l y → x ≤ q ∧ y ≤ q := by
    refine connect_selected_invariant (fun ga : Graph => ∀ l y x, x ∈ ga l y → x ≤ q ∧ y ≤ q) _
      ?_ g g1 hJ.ids hcs
    intro ga gb a b hab hI hl l y x hx
    obtain ⟨_, _, nl, rfl, _, hnl, _⟩ := add_link_ok hl
    have hab' : a ≤ q ∧ b ≤ q := by
      rcases hab with ⟨rfl, hb⟩ | ⟨rfl, ha⟩
      · exact ⟨le_refl _, le_of_lt (hsel_mem b hb)⟩
      · exact ⟨le_of_lt (hsel_mem a ha), le_refl _⟩
    rcases set_neighborhood_cases ga level a l y nl with ⟨h1, h2, h3⟩ | ⟨_, h3⟩
    · rw [h3] at hx
      subst h1 h2
      rcases hnl x hx with h | h
      · exact hI l y x h
      · subst h
        exact ⟨hab'.2, hab'.1⟩
    · rw [h3] at hx
      exact hI l y x hx
  constructor
  · intro h0
    subst h0
    have hq_empty : g 0 q = [] := by
      cases hgq : g 0 q with
      | nil => rfl
      | cons x xs =>
        have := (hJ.ids_low 0 q x (le_refl _) (by rw [hgq]; exact List.mem_cons_self _ _)).2
        exact absurd this (lt_irrefl _)
    have hMc : (if (0 : Nat) ≠ 0 then maxM else 2 * maxM) = 2 * maxM := by simp
    rw [hMc] at hcs
    obtain ⟨g', hg', e1, e2, e3⟩ := connect_selected_push dist (2 * maxM) 0 q sel g hsel_nodup
      hqsel (fun d _ => by have := hJ.len0 d; omega)
      (by rw [hq_empty]; simp only [List.length_nil]; omega)
    rw [hcs] at hg'
    cases hg'
    rw [hq_empty, List.nil_append] at e1
    have hmono : ∀ x y, y ∈ g 0 x → y ∈ g1 0 x := by
      intro x y hy
      by_cases hx : x = q ∨ x ∈ sel
      · rcases hx with rfl | hx
        · rw [hq_empty] at hy; cases hy
        · rw [e2 x hx]; exact List.mem_append_left _ hy
      · rw [e3 0 x (fun h => hx h.2)]; exact hy
    refine ⟨hids, fun x => ?_, fun x hx => ?_⟩
    · by_cases hxs : x = q ∨ x ∈ sel
      · rcases hxs with rfl | hxs
        · rw [e1]
          exact nodup_length_le_of_lt hsel_nodup hsel_mem
        · rw [e2 x hxs, List.length_append, List.length_singleton]
          have := hJ.len0 x
          omega
      · rw [e3 0 x (fun h => hxs h.2)]
        have := hJ.len0 x
        omega
    · rcases Nat.lt_succ_iff_lt_or_eq.1 hx with hx' | hx'
      · exact ⟨reachable_mono hmono (hJ.conn x hx').1, reachable_mono hmono (hJ.conn x hx').2⟩
      · subst hx'
        obtain ⟨c1, c2⟩ := hJ.conn next (hsel_mem next hnext)
        refine ⟨Relation.ReflTransGen.tail (reachable_mono hmono c1) ?_,
          Relation.ReflTransGen.head ?_ (reachable_mono hmono c2)⟩
        · show x ∈ g1 0 next
          rw [e2 next hnext]
          exact List.mem_append_right _ (List.mem_singleton_self _)
        · show next ∈ g1 0 x
          rw [e1]
          exact hnext
  · intro l hl
    have hframe := mutually_connect_frame hm
    have heq0 : ∀ x, g1 0 x = g 0 x := fun x => hframe 0 x (by omega)
    refine ⟨hsel_mem next hnext, hids, ?_, fun x => by rw [heq0 x]; exact hJ.len0 x, ?_⟩
    · intro lv y x hlv hx
      rw [hframe lv y (by omega)] at hx
      exact hJ.ids_low lv y x (by omega) hx
    · intro x hx
      have hmono : ∀ a b, b ∈ g 0 a → b ∈ g1 0 a := fun a b hb => by rw [heq0 a]; exact hb
      exact ⟨reachable_mono hmono (hJ.conn x hx).1, reachable_mono hmono (hJ.conn x hx).2⟩

/-- Inserting a node into a build of at most `2 * M + 1` rows keeps `SparseInv`. -/
theorem sparse_add_point (dist : Nat → Nat → D) (lv : Nat → Nat) {M rows fuel q : Nat}
    (hq : q ≤ 2 * M) {h h' : Index} (hI : SparseInv M rows q h)
    (hadd : add_point dist lv fuel h q = .ok h') : SparseInv M rows (q + 1) h' := by
  obtain ⟨hnum, hmaxM, hmaxM0, _, hcases⟩ := add_point_ok hadd
  have hcaps : h'.maxM0 = 2 * h'.maxM := by rw [hmaxM0, hmaxM]; exact hI.caps
  rcases hcases with ⟨h0, hg, hi, _⟩ | ⟨h0, ⟨curr, r, hent, hcl, hg⟩, hcase⟩
  · subst h0
    have hempty : ∀ l y, h.graph l y = [] := by
      intro l y
      cases hgq : h.graph l y with
      | nil => rfl
      | cons x xs =>
        exact absurd (hI.ids l y x (by rw [hgq]; exact List.mem_cons_self _ _)).1
          (Nat.not_lt_zero _)
    refine ⟨hnum.trans hI.num_node_eq, hmaxM.trans hI.maxM_eq, hcaps, fun l y x hx => ?_,
      fun x => ?_, fun x hx => ?_, fun _ => by rw [hi]; exact Nat.zero_lt_one⟩
    · rw [hg, hempty] at hx; cases hx
    · rw [hg, hempty]; exact Nat.zero_le _
    · have : x = 0 := by omega
      subst this
      exact ⟨Relation.ReflTransGen.refl, Relation.ReflTransGen.refl⟩
  · have hinit := hI.init_lt h0
    have hcurr : curr < q := by
      rcases hent with ⟨_, st, hst, rfl⟩ | ⟨_, rfl⟩
      · exact greedy_descent_mem (P := fun x => x < q)
          (fun l y x _ hx => (hI.ids l y x hx).1) _ _ _ hinit hst
      · exact hinit
    have hJ : SparseLevelInv q (min (lv q) h.max_level) h.graph curr :=
      ⟨hcurr, fun l y x hx => ⟨le_of_lt (hI.ids l y x hx).1, le_of_lt (hI.ids l y x hx).2⟩,
        fun l y x _ hx => hI.ids l y x hx, hI.len0, hI.conn⟩
    rw [hI.caps] at hcl
    have hF := connect_levels_induct (SparseLevelInv q) (SparseDone q)
      (fun level g curr top g1 next hJ hs hm =>
        sparse_level_step dist (Nat.pos_of_ne_zero h0) (by rw [hI.maxM_eq]; exact hq)
          level g curr top g1 next hJ hs hm)
      _ _ _ r hJ hcl
    rw [← hg] at hF
    refine ⟨hnum.trans hI.num_node_eq, hmaxM.trans hI.maxM_eq, hcaps, fun l y x hx => ?_,
      fun x => by have := hF.len0 x; omega, hF.conn, fun _ => ?_⟩
    · have := hF.ids l y x hx
      omega
    · rcases hcase with ⟨_, _, hi⟩ | ⟨_, _, hi⟩
      · rw [hi]; exact Nat.lt_succ_self _
      · rw [hi]; exact Nat.lt_succ_of_lt hinit

/-- C8, amended. After `train` has returned on at most `2 * M + 1` rows, with `M < 2 ^ 31`,
every node in `[0, num_node)` is reachable from `init_node` by following only level-0
out-edges: no level-0 list can fill up, so no edge is ever dropped. And `train` does return on
a non-empty matrix with `M >= 1` when its loops may run `rows + 1` times. -/
theorem sparse_train_reachable (dist : Nat → Nat → D) (rows M efC : Nat) (sampled : Nat → Nat)
    (ub : Int) (fuel : Nat) (hrows : rows ≤ 2 * M + 1) (hM31 : M < 2 ^ 31) :
    (∀ idx, train dist rows M efC sampled ub fuel = .ok idx →
      ∀ y, y < idx.num_node → reachable idx.graph idx.init_node y) ∧
    (0 < rows → 1 ≤ M → rows < fuel → ∃ idx, train dist rows M efC sampled ub fuel = .ok idx) := by
  refine ⟨fun idx h => ?_, fun h0 hM hfuel => ?_⟩
  · obtain ⟨hpos, h1, hadd, rfl⟩ := train_ok h
    have hmod : (2 * M) % 2 ^ 32 = 2 * M := Nat.mod_eq_of_lt (by omega)
    have key := add_points_induct
      (fun q (h : Index) => q ≤ rows → SparseInv M rows q h)
      (fun q h h' hI hq hle =>
        sparse_add_point dist (node2level sampled ub) (by omega) (hI (by omega)) hq)
      rows 0 _ h1
      (fun _ => ⟨rfl, rfl, hmod, fun l y x hx => by simp at hx, fun x => by simp,
        fun x hx => absurd hx (Nat.not_lt_zero _), fun h => absurd rfl h⟩) hadd
    rw [Nat.zero_add] at key
    have hI := key (le_refl _)
    intro y hy
    have hy' : y < rows := by
      have : h1.num_node = rows := hI.num_node_eq
      exact this ▸ hy
    have hmono : ∀ a b, b ∈ h1.graph 0 a →
        b ∈ (List.range rows).foldl (sort_neighbors_for_node dist (node2level sampled ub))
          h1.graph 0 a :=
      fun a b hb => (sort_pass_perm dist _ _ h1.graph 0 a).symm.subset hb
    have hi := hI.init_lt hpos
    exact Relation.ReflTransGen.trans (reachable_mono hmono (hI.conn _ hi).2)
      (reachable_mono hmono (hI.conn y hy').1)
  · obtain ⟨idx, hidx, _⟩ := train_returns dist rows M efC sampled ub fuel h0 hM hfuel
    exact ⟨idx, hidx⟩

end

theorem sparse_train_reachable_witness :
    3 ≤ 2 * 1 + 1 ∧ 1 < 2 ^ 31 ∧
    ∃ idx, train example_dist 3 1 1 (fun i => [1, 0, 2].getD i 0) (-1) 4 = .ok idx ∧
      idx.num_node = 3 ∧ reachable idx.graph idx.init_node 2 := by
  obtain ⟨hreach, hret⟩ := sparse_train_reachable example_dist 3 1 1
    (fun i => [1, 0, 2].getD i 0) (-1) 4 (by decide) (by decide)
  obtain ⟨idx, h⟩ := hret (by decide) (by decide) (by decide)
  have hn : (match train example_dist 3 1 1 (fun i => [1, 0, 2].getD i 0) (-1) 4 with
      | .ok idx => idx.num_node
      | .error _ => 0) = 3 := rfl
  rw [h] at hn
  dsimp only at hn
  exact ⟨by decide, by decide, idx, h, hn, hreach idx h 2 (by omega)⟩

end HNSW
namespace ProductQuantizer4Bits

/-- C15. For `code_dimension` and `max_degree` at most `2 ^ 32 - 16`, the `avx512f`
`pad_parameters` replaces `code_dimension` by the least multiple of 4 that is at least it and
`max_degree` by the least multiple of 16 that is at least it, so a second application changes
nothing; the `default` target and the `lec.hpp` version leave both values unchanged. -/
theorem pad_parameters_least_multiple (max_degree code_dimension : Nat)
    (hmd : max_degree ≤ 2 ^ 32 - 16) (hcd : code_dimension ≤ 2 ^ 32 - 16) :
    (4 ∣ (pad_parameters_avx512f max_degree code_dimension).2 ∧
      code_dimension ≤ (pad_parameters_avx512f max_degree code_dimension).2 ∧
      ∀ m, 4 ∣ m → code_dimension ≤ m → (pad_parameters_avx512f max_degree code_dimension).2 ≤ m) ∧
    (16 ∣ (pad_parameters_avx512f max_degree code_dimension).1 ∧
      max_degree ≤ (pad_parameters_avx512f max_degree code_dimension).1 ∧
      ∀ m, 16 ∣ m → max_degree ≤ m → (pad_parameters_avx512f max_degree code_dimension).1 ≤ m) ∧
    pad_parameters_avx512f (pad_parameters_avx512f max_degree code_dimension).1
        (pad_parameters_avx512f max_degree code_dimension).2
      = pad_parameters_avx512f max_degree code_dimension ∧
    pad_parameters_default max_degree code_dimension = (max_degree, code_dimension) ∧
    pad_parameters max_degree code_dimension = (max_degree, code_dimension) := by
  have hcd' : (pad_parameters_avx512f max_degree code_dimension).2
      = if code_dimension % 4 = 0 then code_dimension else (code_dimension / 4 + 1) * 4 := by
    simp only [pad_parameters_avx512f]
    split_ifs
    · rfl
    · exact Nat.mod_eq_of_lt (by omega)
  have hmd' : (pad_parameters_avx512f max_degree code_dimension).1
      = if max_degree % 16 = 0 then max_degree else (max_degree / 16 + 1) * 16 := by
    simp only [pad_parameters_avx512f]
    split_ifs
    · rfl
    · exact Nat.mod_eq_of_lt (by omega)
  have h4 : (pad_parameters_avx512f max_degree code_dimension).2 % 4 = 0 := by
    rw [hcd']; split_ifs <;> omega
  have h16 : (pad_parameters_avx512f max_degree code_dimension).1 % 16 = 0 := by
    rw [hmd']; split_ifs <;> omega
  refine ⟨⟨Nat.dvd_of_mod_eq_zero h4, ?_, ?_⟩, ⟨Nat.dvd_of_mod_eq_zero h16, ?_, ?_⟩, ?_, rfl, rfl⟩
  · rw [hcd']; split_ifs <;> omega
  · intro m hm hle
    obtain ⟨c, rfl⟩ := hm
    rw [hcd']; split_ifs <;> omega
  · rw [hmd']; split_ifs <;> omega
  · intro m hm hle
    obtain ⟨c, rfl⟩ := hm
    rw [hmd']; split_ifs <;> omega
  · generalize pad_parameters_avx512f max_degree code_dimension = p at h4 h16
    obtain ⟨a, b⟩ := p
    simp only at h4 h16
    simp only [pad_parameters_avx512f, h4, h16, if_true]

theorem pad_parameters_least_multiple_witness :
    (pad_parameters_avx512f 17 5 = (32, 8)) ∧
    pad_parameters_avx512f (pad_parameters_avx512f 17 5).1 (pad_parameters_avx512f 17 5).2
      = pad_parameters_avx512f 17 5 :=
  ⟨by decide, (pad_parameters_least_multiple 17 5 (by decide) (by decide)).2.2.1⟩

theorem resize_length {R : Type} (v : List R) (n : Nat) (val : R) : (resize v n val).length = n := by
  simp only [resize, List.length_append, List.length_take, List.length_replicate]
  omega

/-- A loop over `0, ..., n - 1` that has returned has kept an invariant. -/
theorem foldlM_range_invariant {β : Type} (f : β → Nat → Option β) (P : Nat → β → Prop) (n : Nat)
    (hstep : ∀ i b b', i < n → P i b → f b i = some b' → P (i + 1) b') :
    ∀ (b0 b : β), P 0 b0 → (List.range n).foldlM f b0 = some b → P n b := by
  induction n with
  | zero =>
    intro b0 b h0 h
    simp only [List.range_zero, List.foldlM_nil] at h
    cases h
    exact h0
  | succ n ih =>
    intro b0 b h0 h
    rw [List.range_succ, List.foldlM_append] at h
    cases hm : (List.range n).foldlM f b0 with
    | none => rw [hm] at h; cases h
    | some b1 =>
      rw [hm] at h
      simp only [List.foldlM_cons, List.foldlM_nil, bind_pure, Option.bind_eq_bind,
        Option.some_bind] at h
      exact hstep n b1 b (Nat.lt_succ_self n)
        (ih (fun i b b' hi => hstep i b b' (Nat.lt_succ_of_lt hi)) b0 b1 h0 hm) h

/-- A loop over `0, ..., n - 1` returns when each step does under the invariant. -/
theorem foldlM_range_total {β : Type} (f : β → Nat → Option β) (P : Nat → β → Prop) (n : Nat)
    (hstep : ∀ i b, i < n → P i b → ∃ b', f b i = some b' ∧ P (i + 1) b') :
    ∀ (b0 : β), P 0 b0 → ∃ b, (List.range n).foldlM f b0 = some b ∧ P n b := by
  induction n with
  | zero =>
    intro b0 h0
    exact ⟨b0, rfl, h0⟩
  | succ n ih =>
    intro b0 h0
    obtain ⟨b1, hb1, hP1⟩ := ih (fun i b hi hP => hstep i b (Nat.lt_succ_of_lt hi) hP) b0 h0
    obtain ⟨b2, hb2, hP2⟩ := hstep n b1 (Nat.lt_succ_self n) hP1
    refine ⟨b2, ?_, hP2⟩
    rw [List.range_succ, List.foldlM_append, hb1]
    simp only [List.foldlM_cons, List.foldlM_nil, bind_pure, Option.bind_eq_bind,
      Option.some_bind, hb2]

theorem pack_index_injective {ld i j k i' j' k' : Nat} (hj : j < 16) (hj' : j' < 16)
    (hk : k < ld) (hk' : k' < ld)
    (h : i * 16 * ld + k * 16 + j = i' * 16 * ld + k' * 16 + j') : i = i' ∧ j = j' ∧ k = k' := by
  have e1 : i * 16 * ld = 16 * (i * ld) := by ring
  have e2 : i' * 16 * ld = 16 * (i' * ld) := by ring
  rw [e1, e2] at h
  have hjj : j = j' := by omega
  have hik : i * ld + k = i' * ld + k' := by omega
  have hi : i = i' := by
    rcases Nat.lt_trichotomy i i' with hlt | heq | hgt
    · exfalso
      have : (i + 1) * ld ≤ i' * ld := Nat.mul_le_mul_right ld hlt
      rw [Nat.add_mul, Nat.one_mul] at this
      omega
    · exact heq
    · exfalso
      have : (i' + 1) * ld ≤ i * ld := Nat.mul_le_mul_right ld hgt
      rw [Nat.add_mul, Nat.one_mul] at this
      omega
  subst hi
  exact ⟨rfl, hjj, by omega⟩

theorem pack_assign_inv {R : Type} (pq : Quantizer R) (i j k : Nat) (hj : j < 16)
    (hk : k < pq.local_dimension) (lc lc' : List R)
    (hI : PackInv pq i j k lc) (h : pack_assign pq i j lc k = some lc') :
    PackInv pq i j (k + 1) lc' := by
  unfold pack_assign at h
  cases hv : pq.original_local_codebooks[i * 16 * pq.local_dimension + j * pq.local_dimension + k]? with
  | none => rw [hv] at h; cases h
  | some v =>
    rw [hv] at h
    simp only at h
    by_cases hlt : i * 16 * pq.local_dimension + k * 16 + j < lc.length
    · rw [if_pos hlt] at h
      cases h
      refine ⟨by rw [List.length_set]; exact hI.1, ?_⟩
      intro i' j' k' hj' hk' hd
      rw [List.length_set]
      by_cases heq : i' = i ∧ j' = j ∧ k' = k
      · obtain ⟨rfl, rfl, rfl⟩ := heq
        refine ⟨hlt, ?_⟩
        rw [List.getElem?_set_self hlt, hv]
      · have hne : i * 16 * pq.local_dimension + k * 16 + j
            ≠ i' * 16 * pq.local_dimension + k' * 16 + j' := by
          intro he
          obtain ⟨a, b, c⟩ := pack_index_injective hj hj' hk hk' he
          exact heq ⟨a.symm, b.symm, c.symm⟩
        have hd' : pack_done i j k i' j' k' := by
          unfold pack_done at hd ⊢
          omega
        obtain ⟨h1, h2⟩ := hI.2 i' j' k' hj' hk' hd'
        refine ⟨h1, ?_⟩
        rw [List.getElem?_set_ne hne]
        exact h2
    · rw [if_neg hlt] at h
      cases h

theorem PackInv_of_done {R : Type} (pq : Quantizer R) {i j k a b c : Nat} {lc : List R}
    (h : ∀ i' j' k', j' < 16 → k' < pq.local_dimension → pack_done a b c i' j' k' →
      pack_done i j k i' j' k') (hI : PackInv pq i j k lc) : PackInv pq a b c lc :=
  ⟨hI.1, fun i' j' k' hj' hk' hd => hI.2 i' j' k' hj' hk' (h i' j' k' hj' hk' hd)⟩

/-- The loops of `pack_codebook_for_inference`, when they return, have transposed every
sub-codebook. -/
theorem pack_loops_inv {R : Type} (pq : Quantizer R) (lc0 lc : List R)
    (h0 : lc0.length = pq.original_local_codebooks.length)
    (h : (List.range pq.num_local_codebooks).foldlM
      (fun local_codebooks i =>
        (List.range 16).foldlM
          (fun local_codebooks j =>
            (List.range pq.local_dimension).foldlM (pack_assign pq i j) local_codebooks)
          local_codebooks) lc0 = some lc) :
    PackInv pq pq.num_local_codebooks 0 0 lc := by
  refine foldlM_range_invariant _ (fun i lc => PackInv pq i 0 0 lc) _ ?_ lc0 lc
    ⟨h0, fun i' j' k' _ _ hd => by unfold pack_done at hd; omega⟩ h
  intro i b b' _ hI hb
  have hmid := foldlM_range_invariant _ (fun j lc => PackInv pq i j 0 lc) 16 ?_ b b' hI hb
  · exact PackInv_of_done pq (fun i' j' k' hj' hk' hd => by unfold pack_done at hd ⊢; omega) hmid
  intro j c c' hj hJ hc
  have hin := foldlM_range_invariant _ (fun k lc => PackInv pq i j k lc) pq.local_dimension
    (fun k d d' hk hK hd => pack_assign_inv pq i j k hj hk d d' hK hd) c c' hJ hc
  exact PackInv_of_done pq (fun i' j' k' hj' hk' hd => by unfold pack_done at hd ⊢; omega) hin

theorem pack_index_lt {M ld i j k : Nat} (hi : i < M) (hj : j < 16) (hk : k < ld) :
    i * 16 * ld + k * 16 + j < M * 16 * ld ∧ i * 16 * ld + j * ld + k < M * 16 * ld := by
  have e1 : i * 16 * ld = 16 * (i * ld) := by ring
  have e2 : M * 16 * ld = 16 * (M * ld) := by ring
  have h1 : (i + 1) * ld ≤ M * ld := Nat.mul_le_mul_right ld hi
  rw [Nat.add_mul, Nat.one_mul] at h1
  have h2 : j * ld ≤ 15 * ld := Nat.mul_le_mul_right ld (by omega)
  rw [e1, e2]
  constructor <;> omega

theorem pack_assign_total {R : Type} (pq : Quantizer R) (i j k : Nat)
    (hsize : pq.num_local_codebooks * 16 * pq.local_dimension ≤ pq.original_local_codebooks.length)
    (hi : i < pq.num_local_codebooks) (hj : j < 16) (hk : k < pq.local_dimension) (lc : List R)
    (hlen : lc.length = pq.original_local_codebooks.length) :
    ∃ lc', pack_assign pq i j lc k = some lc' ∧ lc'.length = pq.original_local_codebooks.length := by
  obtain ⟨h1, h2⟩ := pack_index_lt hi hj hk
  unfold pack_assign
  rw [List.getElem?_eq_getElem (lt_of_lt_of_le h2 hsize)]
  simp only
  rw [if_pos (by rw [hlen]; exact lt_of_lt_of_le h1 hsize)]
  exact ⟨_, rfl, by rw [List.length_set]; exact hlen⟩

theorem pack_loops_total {R : Type} (pq : Quantizer R) (lc0 : List R)
    (hsize : pq.num_local_codebooks * 16 * pq.local_dimension ≤ pq.original_local_codebooks.length)
    (h0 : lc0.length = pq.original_local_codebooks.length) :
    ∃ lc, (List.range pq.num_local_codebooks).foldlM
      (fun local_codebooks i =>
        (List.range 16).foldlM
          (fun local_codebooks j =>
            (List.range pq.local_dimension).foldlM (pack_assign pq i j) local_codebooks)
          local_codebooks) lc0 = some lc := by
  obtain ⟨lc, h, _⟩ := foldlM_range_total _
    (fun _ (lc : List R) => lc.length = pq.original_local_codebooks.length) pq.num_local_codebooks
    (fun i b hi hb =>
      foldlM_range_total _ (fun _ (lc : List R) => lc.length = pq.original_local_codebooks.length)
        16 (fun j c hj hc =>
          foldlM_range_total _
            (fun _ (lc : List R) => lc.length = pq.original_local_codebooks.length)
            pq.local_dimension (fun k d hk hd => pack_assign_total pq i j k hsize hi hj hk d hd)
            c hc) b hb) lc0 h0
  exact ⟨lc, h⟩

/-- C14. The `avx512f` `pack_codebook_for_inference`, when it returns, has made
`local_codebooks` as long as `original_local_codebooks` and the transpose of each sub-codebook:
entry `i * 16 * local_dim + k * 16 + j` is entry `i * 16 * local_dim + j * local_dim + k` of
`original_local_codebooks`, for `i < M`, `j < 16`, `k < local_dim`; it returns when
`original_local_codebooks` holds the `M * 16 * local_dim` values of the codebook. On the scalar
path `local_codebooks` is `original_local_codebooks`. -/
theorem pack_codebook_transpose {R : Type} [Zero R] (pq : Quantizer R) :
    (∀ pq', pack_codebook_for_inference_avx512f pq = some pq' →
      pq'.local_codebooks.length = pq.original_local_codebooks.length ∧
      pq'.original_local_codebooks = pq.original_local_codebooks ∧
      ∀ i j k, i < pq.num_local_codebooks → j < 16 → k < pq.local_dimension →
        ∃ v, pq'.local_codebooks[i * 16 * pq.local_dimension + k * 16 + j]? = some v ∧
          pq.original_local_codebooks[i * 16 * pq.local_dimension + j * pq.local_dimension + k]?
            = some v) ∧
    (pq.num_local_codebooks * 16 * pq.local_dimension ≤ pq.original_local_codebooks.length →
      ∃ pq', pack_codebook_for_inference_avx512f pq = some pq') ∧
    (pack_codebook_for_inference_default pq).local_codebooks = pq.original_local_codebooks := by
  refine ⟨fun pq' h => ?_, fun hsize => ?_, rfl⟩
  · unfold pack_codebook_for_inference_avx512f at h
    simp only [Option.map_eq_some'] at h
    obtain ⟨lc, hlc, rfl⟩ := h
    have hI := pack_loops_inv pq _ lc (resize_length _ _ _) hlc
    refine ⟨hI.1, rfl, fun i j k hi hj hk => ?_⟩
    obtain ⟨h1, h2⟩ := hI.2 i j k hj hk (Or.inl hi)
    exact ⟨lc[i * 16 * pq.local_dimension + k * 16 + j], List.getElem?_eq_getElem h1,
      by rw [← h2, List.getElem?_eq_getElem h1]⟩
  · obtain ⟨lc, hlc⟩ := pack_loops_total pq _ hsize (resize_length pq.local_codebooks _ 0)
    exact ⟨_, by unfold pack_codebook_for_inference_avx512f; simp only [hlc]; rfl⟩

theorem pack_codebook_transpose_witness :
    ∃ pq', pack_codebook_for_inference_avx512f example_codebook = some pq' ∧
      pq'.local_codebooks
        = (List.range 16).map (fun j => (j : Int)) ++ (List.range 16).map (fun j => 100 + (j : Int)) := by
  obtain ⟨pq', h⟩ := (pack_codebook_transpose example_codebook).2.1 (by decide)
  refine ⟨pq', h, ?_⟩
  have hv : (match pack_codebook_for_inference_avx512f example_codebook with
      | some pq' => pq'.local_codebooks
      | none => []) = (List.range 16).map (fun j => (j : Int))
        ++ (List.range 16).map (fun j => 100 + (j : Int)) := by decide
  rw [h] at hv
  exact hv

set_option maxRecDepth 100000 in
theorem byte_nibbles : ∀ b, b < 256 →
    (b &&& 0x0f = b % 16 ∧ b >>> 4 = b / 16) ∧
    (((b % 256 &&& 0x000f % 2 ^ 16) ||| ((b % 256 &&& 0x00f0 % 2 ^ 16) <<< 4) % 2 ^ 16) % 256
        = b % 16 ∧
      ((b % 256 &&& 0x000f % 2 ^ 16) ||| ((b % 256 &&& 0x00f0 % 2 ^ 16) <<< 4) % 2 ^ 16) / 256 % 256
        = b / 16) ∧
    ((b % 16) &&& 0x80 = 0 ∧ (b / 16) &&& 0x80 = 0) := by
  decide

theorem lane_loop (neighbor_codes lut_ptr : Nat → Nat) (p : Nat) (d : Nat → Nat) (l n : Nat) :
    (List.range n).foldl (lane_step neighbor_codes lut_ptr p) (d, l)
      = (fun k => if k < n then
            (d k + lut_ptr (p + nibble neighbor_codes (2 * l + k)) % 256) % 2 ^ 32
          else d k, l + n / 2) := by
  induction n with
  | zero => simp
  | succ n ih =>
    rw [List.range_succ, List.foldl_append, ih]
    simp only [List.foldl_cons, List.foldl_nil]
    have hb := byte_nibbles (neighbor_codes (l + n / 2) % 256) (Nat.mod_lt _ (by decide))
    have hpos : (2 * l + n) / 2 = l + n / 2 := by omega
    unfold lane_step
    simp only [lt_irrefl, if_false]
    by_cases hn : n % 2 = 0
    · have hnib : nibble neighbor_codes (2 * l + n) = neighbor_codes (l + n / 2) % 256 % 16 := by
        unfold nibble
        rw [if_pos (by omega), hpos]
      rw [if_pos hn, hb.1.1, ← hnib]
      refine Prod.ext ?_ (by simp only; omega)
      funext k
      simp only [Function.update_apply]
      by_cases hk : k = n
      · subst hk; simp
      · rw [if_neg hk]
        by_cases hk2 : k < n
        · rw [if_pos hk2, if_pos (by omega)]
        · rw [if_neg hk2, if_neg (by omega)]
    · have hnib : nibble neighbor_codes (2 * l + n) = neighbor_codes (l + n / 2) % 256 / 16 := by
        unfold nibble
        rw [if_neg (by omega), hpos]
      rw [if_neg hn, hb.1.2, ← hnib]
      refine Prod.ext ?_ (by simp only; omega)
      funext k
      simp only [Function.update_apply]
      by_cases hk : k = n
      · subst hk; simp
      · rw [if_neg hk]
        by_cases hk2 : k < n
        · rw [if_pos hk2, if_pos (by omega)]
        · rw [if_neg hk2, if_neg (by omega)]

/-- The accumulators of the scalar path after one group: the sum of the selected table
entries in 32-bit arithmetic, and `localID` has moved by `8 * M` bytes. -/
theorem group_accumulators_default_eq (M : Nat) (neighbor_codes lut_ptr : Nat → Nat) (l : Nat) :
    group_accumulators_default M neighbor_codes lut_ptr l
      = (fun k => if k < 16 then selected_sum M neighbor_codes lut_ptr l k % 2 ^ 32 else 0,
          l + 8 * M) := by
  unfold group_accumulators_default
  induction M with
  | zero =>
    simp only [List.range_zero, List.foldl_nil, selected_sum, Finset.range_zero,
      Finset.sum_empty, Nat.zero_mod, ite_self, Nat.mul_zero, Nat.add_zero]
  | succ M ih =>
    rw [List.range_succ (n := M), List.foldl_append, ih]
    simp only [List.foldl_cons, List.foldl_nil]
    rw [lane_loop]
    refine Prod.ext ?_ (by simp only; omega)
    funext k
    simp only
    by_cases hk : k < 16
    · simp only [if_pos hk, selected_sum, selected_entry, Finset.sum_range_succ]
      have e : 2 * (l + 8 * M) + k = 2 * l + 16 * M + k := by ring
      rw [e, Nat.mod_add_mod]
    · simp only [if_neg hk]

/-- The values written group by group: sixteen per group, in order. -/
theorem group_outputs_getElem? {R : Type} (f : Nat → Nat → R) (G : Nat) :
    ((List.range G).flatMap (fun g => (List.range 16).map (f g))).length = 16 * G ∧
    ∀ g k, g < G → k < 16 →
      ((List.range G).flatMap (fun g => (List.range 16).map (f g)))[16 * g + k]? = some (f g k) := by
  induction G with
  | zero => exact ⟨rfl, fun g k hg _ => absurd hg (Nat.not_lt_zero _)⟩
  | succ G ih =>
    have hlen : ((List.range (G + 1)).flatMap (fun g => (List.range 16).map (f g))).length
        = 16 * (G + 1) := by
      rw [List.range_succ (n := G), List.flatMap_append, List.length_append, ih.1]
      simp
      omega
    refine ⟨hlen, fun g k hg hk => ?_⟩
    rw [List.range_succ (n := G), List.flatMap_append]
    by_cases hgG : g < G
    · rw [List.getElem?_append_left (by rw [ih.1]; omega)]
      exact ih.2 g k hgG hk
    · have hg' : g = G := by omega
      subst hg'
      rw [List.getElem?_append_right (by rw [ih.1]; omega), ih.1]
      simp only [List.flatMap_cons, List.flatMap_nil, List.append_nil]
      rw [show 16 * g + k - 16 * g = k by omega, List.getElem?_map,
        List.getElem?_range hk]
      rfl

/-- The loop over groups: the values written and the final offset of `localID`, when each
group moves `localID` by `c` bytes. -/
theorem group_loop {R : Type} (F : Nat → (Nat → R) × Nat) (c : Nat)
    (hF : ∀ l, (F l).2 = l + c) (G : Nat) :
    (List.range G).foldl
        (fun (st : List R × Nat) _ => ((st.1 ++ (List.range 16).map (F st.2).1), (F st.2).2))
        ([], 0)
      = ((List.range G).flatMap (fun g => (List.range 16).map (F (c * g)).1), c * G) := by
  induction G with
  | zero => rfl
  | succ G ih =>
    rw [List.range_succ (n := G), List.foldl_append, ih, List.flatMap_append]
    simp only [List.foldl_cons, List.foldl_nil, List.flatMap_cons, List.flatMap_nil,
      List.append_nil]
    rw [hF]
    refine Prod.ext rfl ?_
    simp only
    ring

/-- The number of groups of sixteen neighbors. -/
theorem num_groups_eq (n : Nat) :
    (if n % 16 = 0 then n / 16 else n / 16 + 1) = (n + 15) / 16 := by
  split_ifs <;> omega

/-- The scalar path in closed form: it writes, for each group, the sums of the selected table
entries in 32-bit arithmetic, times `scale`, plus `bias`. -/
theorem approximate_neighbor_group_distance_default_eq {R : Type} [NatCast R] [Mul R] [Add R]
    (pq : Quantizer R) (n : Nat) (neighbor_codes lut_ptr : Nat → Nat) (scale bias : R) :
    approximate_neighbor_group_distance_default pq n neighbor_codes lut_ptr scale bias
      = if 2 ^ 31 ≤ 16 * ((n + 15) / 16 % 2 ^ 32) then none
        else some ((List.range ((n + 15) / 16 % 2 ^ 32)).flatMap (fun g =>
          (List.range 16).map (fun k =>
            ((selected_sum pq.num_local_codebooks neighbor_codes lut_ptr
              (8 * pq.num_local_codebooks * g) k % 2 ^ 32 : Nat) : R) * scale + bias))) := by
  unfold approximate_neighbor_group_distance_default
  simp only [num_groups_eq]
  split_ifs with h
  · rfl
  · have key := group_loop (fun l => (fun k =>
        (((group_accumulators_default pq.num_local_codebooks neighbor_codes lut_ptr l).1 k : Nat) : R)
          * scale + bias,
        (group_accumulators_default pq.num_local_codebooks neighbor_codes lut_ptr l).2))
      (8 * pq.num_local_codebooks)
      (fun l => by simp only [group_accumulators_default_eq])
      ((n + 15) / 16 % 2 ^ 32)
    simp only at key
    rw [key]
    simp only [Option.some.injEq]
    refine List.flatMap_congr ?_
    intro g _
    refine List.map_congr_left ?_
    intro k hk
    rw [group_accumulators_default_eq]
    simp only [if_pos (List.mem_range.1 hk)]

theorem selected_sum_le (M : Nat) (neighbor_codes lut_ptr : Nat → Nat) (l k : Nat) :
    selected_sum M neighbor_codes lut_ptr l k ≤ 255 * M := by
  unfold selected_sum selected_entry
  calc ∑ i in Finset.range M, lut_ptr (16 * i + nibble neighbor_codes (2 * l + 16 * i + k)) % 256
      ≤ ∑ _i in Finset.range M, 255 :=
        Finset.sum_le_sum (fun i _ => Nat.le_of_lt_succ (Nat.mod_lt _ (by decide)))
    _ = 255 * M := by rw [Finset.sum_const, Finset.card_range, smul_eq_mul, Nat.mul_comm]

theorem nibble_of_group (neighbor_codes : Nat → Nat) (M g i k : Nat) :
    nibble neighbor_codes (2 * (8 * M * g) + 16 * i + k)
      = if k % 2 = 0 then neighbor_codes (8 * (g * M + i) + k / 2) % 256 % 16
        else neighbor_codes (8 * (g * M + i) + k / 2) % 256 / 16 := by
  unfold nibble
  have e : (2 * (8 * M * g) + 16 * i + k) / 2 = 8 * (g * M + i) + k / 2 := by
    have : 8 * M * g = 8 * (g * M) := by ring
    omega
  have p : (2 * (8 * M * g) + 16 * i + k) % 2 = k % 2 := by omega
  rw [e, p]

/-- C11, amended. For every `neighbor_size` up to `2 ^ 31 - 16` and at most 16843009
sub-codebooks (so that `255 * M` fits in 32 bits), the scalar
`approximate_neighbor_group_distance` writes exactly `16 * ceil(n / 16)` values, and
`ds[16 * g + k]` is `acc * scale + bias` where `acc` is the sum over the sub-codebooks `i` of
`lut[16 * i + nib]`, `nib` being the low (`k` even) or high (`k` odd) half of code byte
`8 * (g * M + i) + k / 2`. -/
theorem approximate_neighbor_group_distance_scalar {R : Type} [Ring R] (pq : Quantizer R)
    (n : Nat) (neighbor_codes lut_ptr : Nat → Nat) (scale bias : R)
    (hn : n ≤ 2 ^ 31 - 16) (hM : 255 * pq.num_local_codebooks < 2 ^ 32) :
    ∃ ds, approximate_neighbor_group_distance_default pq n neighbor_codes lut_ptr scale bias
        = some ds ∧
      ds.length = 16 * ((n + 15) / 16) ∧
      ∀ g k, g < (n + 15) / 16 → k < 16 →
        ds[16 * g + k]? = some
          (((∑ i in Finset.range pq.num_local_codebooks,
              lut_ptr (16 * i +
                (if k % 2 = 0 then
                  neighbor_codes (8 * (g * pq.num_local_codebooks + i) + k / 2) % 256 % 16
                else neighbor_codes (8 * (g * pq.num_local_codebooks + i) + k / 2) % 256 / 16))
                % 256 : Nat) : R) * scale + bias) := by
  have hG : (n + 15) / 16 % 2 ^ 32 = (n + 15) / 16 := Nat.mod_eq_of_lt (by omega)
  rw [approximate_neighbor_group_distance_default_eq, hG, if_neg (by omega)]
  refine ⟨_, rfl, (group_outputs_getElem? _ _).1, fun g k hg hk => ?_⟩
  rw [(group_outputs_getElem? _ _).2 g k hg hk]
  have hsum : selected_sum pq.num_local_codebooks neighbor_codes lut_ptr
      (8 * pq.num_local_codebooks * g) k % 2 ^ 32
      = ∑ i in Finset.range pq.num_local_codebooks,
          lut_ptr (16 * i +
            (if k % 2 = 0 then
              neighbor_codes (8 * (g * pq.num_local_codebooks + i) + k / 2) % 256 % 16
            else neighbor_codes (8 * (g * pq.num_local_codebooks + i) + k / 2) % 256 / 16))
            % 256 := by
    rw [Nat.mod_eq_of_lt (lt_of_le_of_lt (selected_sum_le _ _ _ _ _) hM)]
    unfold selected_sum selected_entry
    refine Finset.sum_congr rfl (fun i _ => ?_)
    rw [nibble_of_group]
  rw [hsum]

/-- C11, counterexample. With `neighbor_size = 2 ^ 36` the 32-bit `num_groups` is 0 and nothing
is written, where `16 * ceil(n / 16)` is `2 ^ 36`; and with 16843010 sub-codebooks whose
selected table entries are all 255 the 32-bit accumulator holds 254, not the sum 4294967550. -/
theorem approximate_neighbor_group_distance_counterexample :
    (approximate_neighbor_group_distance_default (⟨0, 0, [], [], []⟩ : Quantizer Int) (2 ^ 36)
        (fun _ => 0) (fun _ => 0) 1 0 = some [] ∧ 16 * ((2 ^ 36 + 15) / 16) = 2 ^ 36) ∧
    (∃ ds, approximate_neighbor_group_distance_default
        (⟨16843010, 0, [], [], []⟩ : Quantizer Int) 16 (fun _ => 0) (fun _ => 255) 1 0 = some ds ∧
      ds[0]? = some 254 ∧
      ∑ i in Finset.range 16843010, (fun _ => 255) (16 * i + 0) % 256 = 4294967550) := by
  refine ⟨⟨by decide, by norm_num⟩, ?_⟩
  have hs : ∀ k, selected_sum 16843010 (fun _ => 0) (fun _ => 255) (8 * 16843010 * 0) k
      = 4294967550 := by
    intro k
    unfold selected_sum selected_entry
    simp only [Nat.reduceMod]
    rw [Finset.sum_const, Finset.card_range, smul_eq_mul]
  have h1 : (16 + 15) / 16 % 2 ^ 32 = 1 := by norm_num
  rw [approximate_neighbor_group_distance_default_eq, h1, if_neg (by norm_num)]
  refine ⟨_, rfl, ?_, ?_⟩
  · have h0 := (group_outputs_getElem? (fun g k =>
        ((selected_sum 16843010 (fun _ => 0) (fun _ => 255) (8 * 16843010 * g) k % 2 ^ 32 : Nat)
          : Int) * 1 + 0) 1).2 0 0 (by decide) (by decide)
    rw [show 16 * 0 + 0 = 0 from rfl] at h0
    rw [h0, hs]
    norm_num
  · simp only [Nat.reduceMod]
    rw [Finset.sum_const, Finset.card_range, smul_eq_mul]

theorem approximate_neighbor_group_distance_scalar_witness :
    17 ≤ 2 ^ 31 - 16 ∧ 255 * 2 < 2 ^ 32 ∧
    ∃ ds, approximate_neighbor_group_distance_default (⟨2, 1, [], [], []⟩ : Quantizer Int) 17
        (fun p => (p * 37 + 11) % 256) (fun p => (p * 91 + 7) % 256) 2 1 = some ds ∧
      ds.length = 32 := by
  obtain ⟨ds, h, hlen, _⟩ := approximate_neighbor_group_distance_scalar
    (⟨2, 1, [], [], []⟩ : Quantizer Int) 17 (fun p => (p * 37 + 11) % 256)
    (fun p => (p * 91 + 7) % 256) 2 1 (by decide) (by decide)
  exact ⟨by decide, by decide, ds, h, hlen⟩

/-- The table entry that byte `p` of `vtmp` holds in block `r`, when the 32 code bytes of the
block start at `localID`. -/
theorem shuffle_lane (neighbor_codes lut_ptr : Nat → Nat) (l r p : Nat) (hp : p < 64) :
    _mm512_shuffle_epi8 (_mm512_loadu_si512 lut_ptr (64 * r))
        (epi16_bytes (_mm512_or_si512
          (_mm512_and_si512 (_mm512_cvtepu8_epi16 (_mm256_loadu_si256 neighbor_codes l))
            (_mm512_set1_epi16 0x000f))
          (_mm512_slli_epi16
            (_mm512_and_si512 (_mm512_cvtepu8_epi16 (_mm256_loadu_si256 neighbor_codes l))
              (_mm512_set1_epi16 0x00f0)) 4))) p
      = lut_ptr (64 * r + 16 * (p / 16) + nibble neighbor_codes (2 * l + p)) % 256 := by
  have hp2 : p / 2 < 32 := by omega
  have hb := byte_nibbles (neighbor_codes (l + p / 2) % 256) (Nat.mod_lt _ (by decide))
  have hpos : (2 * l + p) / 2 = l + p / 2 := by omega
  have hobj : epi16_bytes (_mm512_or_si512
          (_mm512_and_si512 (_mm512_cvtepu8_epi16 (_mm256_loadu_si256 neighbor_codes l))
            (_mm512_set1_epi16 0x000f))
          (_mm512_slli_epi16
            (_mm512_and_si512 (_mm512_cvtepu8_epi16 (_mm256_loadu_si256 neighbor_codes l))
              (_mm512_set1_epi16 0x00f0)) 4)) p = nibble neighbor_codes (2 * l + p) := by
    unfold epi16_bytes _mm512_or_si512 _mm512_and_si512 _mm512_slli_epi16 _mm512_cvtepu8_epi16
      _mm256_loadu_si256 _mm512_set1_epi16 nibble
    simp only [if_pos hp2, hpos]
    by_cases hpar : p % 2 = 0
    · rw [if_pos hpar, if_pos (by omega), hb.2.1.1]
    · rw [if_neg hpar, if_neg (by omega), hb.2.1.2]
  have hnib : nibble neighbor_codes (2 * l + p) < 16 ∧
      nibble neighbor_codes (2 * l + p) &&& 0x80 = 0 := by
    unfold nibble
    rw [hpos]
    split_ifs
    · exact ⟨Nat.mod_lt _ (by decide), hb.2.2.1⟩
    · exact ⟨by omega, hb.2.2.2⟩
  unfold _mm512_shuffle_epi8
  rw [if_pos hp, hobj, if_neg (by rw [hnib.2]; simp), Nat.mod_eq_of_lt hnib.1]
  unfold _mm512_loadu_si512
  rw [if_pos (by omega), Nat.add_assoc]

theorem min_adds (a b c : Nat) : min (min a c + b) c = min (a + b) c := by
  omega

theorem extract_bytes (v : Reg) (imm8 t : Nat) :
    _mm512_cvtepu8_epi16 (_mm512_extracti64x4_epi64 32 v imm8) t
      = if t < 32 then v (32 * (imm8 % 2) + t) % 256 else 0 := by
  unfold _mm512_cvtepu8_epi16 _mm512_extracti64x4_epi64
  by_cases ht : t < 32
  · simp only [if_pos ht]
  · simp only [if_neg ht]

theorem block_step_eq (neighbor_codes lut_ptr : Nat → Nat) (s : Reg) (l r : Nat) :
    block_step neighbor_codes lut_ptr (s, l) r
      = (fun t => min (min (s t) 65535 + block_terms neighbor_codes lut_ptr l r t) 65535,
          l + 32) := by
  unfold block_step
  refine Prod.ext ?_ rfl
  funext t
  simp only [_mm512_adds_epu16]
  have h1 : _mm512_cvtepu8_epi16 (_mm512_extracti64x4_epi64 32
      (_mm512_shuffle_epi8 (_mm512_loadu_si512 lut_ptr (64 * r))
        (epi16_bytes (_mm512_or_si512
          (_mm512_and_si512 (_mm512_cvtepu8_epi16 (_mm256_loadu_si256 neighbor_codes l))
            (_mm512_set1_epi16 0x000f))
          (_mm512_slli_epi16
            (_mm512_and_si512 (_mm512_cvtepu8_epi16 (_mm256_loadu_si256 neighbor_codes l))
              (_mm512_set1_epi16 0x00f0)) 4)))) 0) t
      = if t < 32 then
          lut_ptr (64 * r + 16 * (t / 16) + nibble neighbor_codes (2 * l + t)) % 256
        else 0 := by
    rw [extract_bytes]
    by_cases ht : t < 32
    · simp only [if_pos ht]
      rw [show 32 * (0 % 2) + t = t by omega, shuffle_lane _ _ _ _ _ (by omega), Nat.mod_mod]
    · simp only [if_neg ht]
  have h2 : _mm512_cvtepu8_epi16 (_mm512_extracti64x4_epi64 32
      (_mm512_shuffle_epi8 (_mm512_loadu_si512 lut_ptr (64 * r))
        (epi16_bytes (_mm512_or_si512
          (_mm512_and_si512 (_mm512_cvtepu8_epi16 (_mm256_loadu_si256 neighbor_codes l))
            (_mm512_set1_epi16 0x000f))
          (_mm512_slli_epi16
            (_mm512_and_si512 (_mm512_cvtepu8_epi16 (_mm256_loadu_si256 neighbor_codes l))
              (_mm512_set1_epi16 0x00f0)) 4)))) 1) t
      = if t < 32 then
          lut_ptr (64 * r + 16 * ((32 + t) / 16) + nibble neighbor_codes (2 * l + (32 + t))) % 256
        else 0 := by
    rw [extract_bytes]
    by_cases ht : t < 32
    · simp only [if_pos ht]
      rw [show 32 * (1 % 2) + t = 32 + t by omega, shuffle_lane _ _ _ _ _ (by omega), Nat.mod_mod]
    · simp only [if_neg ht]
  rw [h1, h2]
  unfold block_terms
  split_ifs <;> omega

/-- Lane `t` of `sum_result` after `n` blocks: the saturated sum of what the blocks add. -/
theorem block_loop (neighbor_codes lut_ptr : Nat → Nat) (l n : Nat) :
    (List.range n).foldl (block_step neighbor_codes lut_ptr) (_mm512_setzero_si512, l)
      = (fun t => min (∑ r in Finset.range n,
            block_terms neighbor_codes lut_ptr (l + 32 * r) r t) 65535, l + 32 * n) := by
  induction n with
  | zero =>
    simp only [List.range_zero, List.foldl_nil, Finset.range_zero, Finset.sum_empty,
      Nat.mul_zero, Nat.add_zero]
    rfl
  | succ n ih =>
    rw [List.range_succ, List.foldl_append, ih]
    simp only [List.foldl_cons, List.foldl_nil]
    rw [block_step_eq]
    refine Prod.ext ?_ (by simp only; omega)
    funext t
    simp only [Finset.sum_range_succ]
    omega

theorem block_terms_low (neighbor_codes lut_ptr : Nat → Nat) (l r k : Nat) (hk : k < 16) :
    block_terms neighbor_codes lut_ptr (l + 32 * r) r k
      = selected_entry neighbor_codes lut_ptr l k (4 * r)
        + selected_entry neighbor_codes lut_ptr l k (4 * r + 2) := by
  unfold block_terms selected_entry
  rw [if_pos (by omega)]
  have a1 : 64 * r + 16 * (k / 16) = 16 * (4 * r) := by omega
  have a2 : 2 * (l + 32 * r) + k = 2 * l + 16 * (4 * r) + k := by omega
  have a3 : 64 * r + 16 * ((32 + k) / 16) = 16 * (4 * r + 2) := by omega
  have a4 : 2 * (l + 32 * r) + (32 + k) = 2 * l + 16 * (4 * r + 2) + k := by omega
  rw [a1, a2, a3, a4]

theorem block_terms_high (neighbor_codes lut_ptr : Nat → Nat) (l r k : Nat) (hk : k < 16) :
    block_terms neighbor_codes lut_ptr (l + 32 * r) r (16 + k)
      = selected_entry neighbor_codes lut_ptr l k (4 * r + 1)
        + selected_entry neighbor_codes lut_ptr l k (4 * r + 3) := by
  unfold block_terms selected_entry
  rw [if_pos (by omega)]
  have a1 : 64 * r + 16 * ((16 + k) / 16) = 16 * (4 * r + 1) := by omega
  have a2 : 2 * (l + 32 * r) + (16 + k) = 2 * l + 16 * (4 * r + 1) + k := by omega
  have a3 : 64 * r + 16 * ((32 + (16 + k)) / 16) = 16 * (4 * r + 3) := by omega
  have a4 : 2 * (l + 32 * r) + (32 + (16 + k)) = 2 * l + 16 * (4 * r + 3) + k := by omega
  rw [a1, a2, a3, a4]

theorem sum_range_four (f : Nat → Nat) (n : Nat) :
    ∑ i in Finset.range (4 * n), f i
      = ∑ r in Finset.range n, (f (4 * r) + f (4 * r + 2))
        + ∑ r in Finset.range n, (f (4 * r + 1) + f (4 * r + 3)) := by
  induction n with
  | zero => simp
  | succ n ih =>
    rw [show 4 * (n + 1) = 4 * n + 1 + 1 + 1 + 1 by ring]
    simp only [Finset.sum_range_succ, ih]
    ring

theorem selected_entry_le (neighbor_codes lut_ptr : Nat → Nat) (l k i : Nat) :
    selected_entry neighbor_codes lut_ptr l k i ≤ 255 :=
  Nat.le_of_lt_succ (Nat.mod_lt _ (by decide))

theorem sum_le_const (f : Nat → Nat) (n c : Nat) (h : ∀ r, f r ≤ c) :
    ∑ r in Finset.range n, f r ≤ c * n := by
  calc ∑ r in Finset.range n, f r ≤ ∑ _r in Finset.range n, c :=
        Finset.sum_le_sum (fun r _ => h r)
    _ = c * n := by rw [Finset.sum_const, Finset.card_range, smul_eq_mul, Nat.mul_comm]

/-- The sums of the `avx512f` path after one group, for `M` a multiple of 4 up to 512: no
16-bit lane saturates, and accumulator `k` is the sum of the selected table entries. -/
theorem group_accumulators_avx512f_eq (M : Nat) (neighbor_codes lut_ptr : Nat → Nat) (l : Nat)
    (h4 : M % 4 = 0) (h512 : M ≤ 512) :
    (group_accumulators_avx512f M neighbor_codes lut_ptr l).2 = l + 8 * M ∧
    ∀ k, k < 16 → (group_accumulators_avx512f M neighbor_codes lut_ptr l).1 k
      = selected_sum M neighbor_codes lut_ptr l k := by
  unfold group_accumulators_avx512f
  simp only [if_pos h4, block_loop]
  refine ⟨by omega, fun k hk => ?_⟩
  unfold _mm512_add_epi32 _mm512_cvtepu16_epi32 _mm512_extracti64x4_epi64
  simp only [if_pos hk]
  rw [show 16 * (0 % 2) + k = k by omega, show 16 * (1 % 2) + k = 16 + k by omega]
  have e0 : ∑ r in Finset.range (M / 4), block_terms neighbor_codes lut_ptr (l + 32 * r) r k
      = ∑ r in Finset.range (M / 4), (selected_entry neighbor_codes lut_ptr l k (4 * r)
        + selected_entry neighbor_codes lut_ptr l k (4 * r + 2)) :=
    Finset.sum_congr rfl (fun r _ => block_terms_low _ _ _ _ _ hk)
  have e1 : ∑ r in Finset.range (M / 4),
        block_terms neighbor_codes lut_ptr (l + 32 * r) r (16 + k)
      = ∑ r in Finset.range (M / 4), (selected_entry neighbor_codes lut_ptr l k (4 * r + 1)
        + selected_entry neighbor_codes lut_ptr l k (4 * r + 3)) :=
    Finset.sum_congr rfl (fun r _ => block_terms_high _ _ _ _ _ hk)
  have b0 := sum_le_const (fun r => selected_entry neighbor_codes lut_ptr l k (4 * r)
        + selected_entry neighbor_codes lut_ptr l k (4 * r + 2)) (M / 4) 510
    (fun r => Nat.add_le_add (selected_entry_le neighbor_codes lut_ptr l k (4 * r))
      (selected_entry_le neighbor_codes lut_ptr l k (4 * r + 2)))
  have b1 := sum_le_const (fun r => selected_entry neighbor_codes lut_ptr l k (4 * r + 1)
        + selected_entry neighbor_codes lut_ptr l k (4 * r + 3)) (M / 4) 510
    (fun r => Nat.add_le_add (selected_entry_le neighbor_codes lut_ptr l k (4 * r + 1))
      (selected_entry_le neighbor_codes lut_ptr l k (4 * r + 3)))
  have hs : selected_sum M neighbor_codes lut_ptr l k
      = ∑ r in Finset.range (M / 4), (selected_entry neighbor_codes lut_ptr l k (4 * r)
          + selected_entry neighbor_codes lut_ptr l k (4 * r + 2))
        + ∑ r in Finset.range (M / 4), (selected_entry neighbor_codes lut_ptr l k (4 * r + 1)
          + selected_entry neighbor_codes lut_ptr l k (4 * r + 3)) := by
    unfold selected_sum
    rw [← sum_range_four, show 4 * (M / 4) = M by omega]
  rw [e0, e1, hs]
  simp only at b0 b1
  omega

/-- The `avx512f` path in closed form, for `M` a multiple of 4 up to 512: the sums of the
selected table entries, converted as signed 32-bit integers. -/
theorem approximate_neighbor_group_distance_avx512f_closed {R : Type} [IntCast R] [Mul R]
    [Add R] (pq : Quantizer R)
    (h4 : pq.num_local_codebooks % 4 = 0) (h512 : pq.num_local_codebooks ≤ 512)
    (n : Nat) (neighbor_codes lut_ptr : Nat → Nat) (scale bias : R) :
    approximate_neighbor_group_distance_avx512f pq n neighbor_codes lut_ptr scale bias
      = (List.range ((n + 15) / 16 % 2 ^ 32)).flatMap (fun g =>
          (List.range 16).map (fun k =>
            (((selected_sum pq.num_local_codebooks neighbor_codes lut_ptr
              (8 * pq.num_local_codebooks * g) k : Nat) : Int) : R) * scale + bias)) := by
  unfold approximate_neighbor_group_distance_avx512f
  simp only [num_groups_eq]
  have key := group_loop (fun l => (fun k =>
      (_mm512_cvtepi32_ps
        (group_accumulators_avx512f pq.num_local_codebooks neighbor_codes lut_ptr l).1 k : R)
        * scale + bias,
      (group_accumulators_avx512f pq.num_local_codebooks neighbor_codes lut_ptr l).2))
    (8 * pq.num_local_codebooks)
    (fun l => (group_accumulators_avx512f_eq _ neighbor_codes lut_ptr l h4 h512).1)
    ((n + 15) / 16 % 2 ^ 32)
  simp only at key
  rw [key]
  refine List.flatMap_congr ?_
  intro g _
  refine List.map_congr_left ?_
  intro k hk
  have hk' := List.mem_range.1 hk
  unfold _mm512_cvtepi32_ps
  rw [(group_accumulators_avx512f_eq _ neighbor_codes lut_ptr _ h4 h512).2 k hk']
  have hlt : selected_sum pq.num_local_codebooks neighbor_codes lut_ptr
      (8 * pq.num_local_codebooks * g) k < 2 ^ 31 :=
    lt_of_le_of_lt (selected_sum_le _ _ _ _ _) (by omega)
  rw [if_pos hlt]

/-- The `avx512f` path in closed form, for `M` a multiple of 4 up to 512. -/
theorem approximate_neighbor_group_distance_avx512f_eq {R : Type} [Ring R] (pq : Quantizer R)
    (h4 : pq.num_local_codebooks % 4 = 0) (h512 : pq.num_local_codebooks ≤ 512)
    (n : Nat) (neighbor_codes lut_ptr : Nat → Nat) (scale bias : R) :
    approximate_neighbor_group_distance_avx512f pq n neighbor_codes lut_ptr scale bias
      = (List.range ((n + 15) / 16 % 2 ^ 32)).flatMap (fun g =>
          (List.range 16).map (fun k =>
            ((selected_sum pq.num_local_codebooks neighbor_codes lut_ptr
              (8 * pq.num_local_codebooks * g) k : Nat) : R) * scale + bias)) := by
  rw [approximate_neighbor_group_distance_avx512f_closed pq h4 h512]
  simp only [Int.cast_natCast]

/-- C13. Given the same table bytes and the same code block, with `M` a multiple of 4 and
`M <= 512`, the `avx512f` and the `default` `approximate_neighbor_group_distance` compute the
same integer accumulator for each of the 16 neighbors of every group, and consume the same
`8 * M` code bytes: the 4-bit code at position `64 * r + 16 * L + k` of the group selects the
table entry of sub-codebook `4 * r + L` for neighbor `k`. Their outputs are then the same
list. -/
theorem avx512f_default_same_accumulators {R : Type} [Ring R] (pq : Quantizer R)
    (neighbor_codes lut_ptr : Nat → Nat)
    (h4 : pq.num_local_codebooks % 4 = 0) (h512 : pq.num_local_codebooks ≤ 512) :
    (∀ localID k, k < 16 →
      (group_accumulators_avx512f pq.num_local_codebooks neighbor_codes lut_ptr localID).1 k
        = (group_accumulators_default pq.num_local_codebooks neighbor_codes lut_ptr localID).1 k ∧
      (group_accumulators_avx512f pq.num_local_codebooks neighbor_codes lut_ptr localID).1 k
        = ∑ r in Finset.range (pq.num_local_codebooks / 4), ∑ L in Finset.range 4,
            lut_ptr (16 * (4 * r + L)
              + nibble neighbor_codes (2 * localID + (64 * r + 16 * L + k))) % 256 ∧
      (group_accumulators_avx512f pq.num_local_codebooks neighbor_codes lut_ptr localID).2
        = (group_accumulators_default pq.num_local_codebooks neighbor_codes lut_ptr localID).2) ∧
    (∀ (n : Nat) (scale bias : R), n ≤ 2 ^ 31 - 16 →
      approximate_neighbor_group_distance_default pq n neighbor_codes lut_ptr scale bias
        = some (approximate_neighbor_group_distance_avx512f pq n neighbor_codes lut_ptr
            scale bias)) := by
  constructor
  · intro l k hk
    obtain ⟨h2, h1⟩ := group_accumulators_avx512f_eq pq.num_local_codebooks neighbor_codes
      lut_ptr l h4 h512
    rw [h1 k hk, h2, group_accumulators_default_eq]
    simp only [if_pos hk]
    refine ⟨(Nat.mod_eq_of_lt (lt_of_le_of_lt (selected_sum_le _ _ _ _ _) (by omega))).symm,
      ?_, trivial⟩
    unfold selected_sum
    have hM : pq.num_local_codebooks = 4 * (pq.num_local_codebooks / 4) := by omega
    conv_lhs => rw [hM]
    rw [sum_range_four, ← Finset.sum_add_distrib]
    refine Finset.sum_congr rfl (fun r _ => ?_)
    simp only [Finset.sum_range_succ, Finset.range_zero, Finset.sum_empty, selected_entry]
    have a0 : 2 * l + (64 * r + 16 * 0 + k) = 2 * l + 16 * (4 * r) + k := by omega
    have a1 : 2 * l + (64 * r + 16 * 1 + k) = 2 * l + 16 * (4 * r + 1) + k := by omega
    have a2 : 2 * l + (64 * r + 16 * 2 + k) = 2 * l + 16 * (4 * r + 2) + k := by omega
    have a3 : 2 * l + (64 * r + 16 * 3 + k) = 2 * l + 16 * (4 * r + 3) + k := by omega
    rw [a0, a1, a2, a3]
    simp only [Nat.add_zero, Nat.zero_add]
    ring
  · intro n scale bias hn
    have hG : (n + 15) / 16 % 2 ^ 32 = (n + 15) / 16 := Nat.mod_eq_of_lt (by omega)
    rw [approximate_neighbor_group_distance_default_eq,
      approximate_neighbor_group_distance_avx512f_eq pq h4 h512, hG, if_neg (by omega)]
    simp only [Option.some.injEq]
    refine List.flatMap_congr ?_
    intro g _
    refine List.map_congr_left ?_
    intro k _
    rw [Nat.mod_eq_of_lt (lt_of_le_of_lt (selected_sum_le _ _ _ _ _) (by omega))]

theorem avx512f_default_same_accumulators_witness :
    4 % 4 = 0 ∧ 4 ≤ 512 ∧
    (group_accumulators_avx512f 4 (fun p => (p * 37 + 11) % 256) (fun p => (p * 91 + 7) % 256)
        5).1 3
      = (group_accumulators_default 4 (fun p => (p * 37 + 11) % 256)
        (fun p => (p * 91 + 7) % 256) 5).1 3 ∧
    (group_accumulators_default 4 (fun p => (p * 37 + 11) % 256)
        (fun p => (p * 91 + 7) % 256) 5).1 3 = 196 :=
  ⟨by decide, by decide,
    ((avx512f_default_same_accumulators (⟨4, 1, [], [], []⟩ : Quantizer Int)
      (fun p => (p * 37 + 11) % 256) (fun p => (p * 91 + 7) % 256) (by decide) (by decide)).1
      5 3 (by decide)).1,
    by decide⟩

end ProductQuantizer4Bits
namespace ProductQuantizer4Bits

/-- What the `avx512f` `pack_codebook_for_inference` leaves, when it returns. -/
theorem pack_codebook_for_inference_avx512f_spec {R : Type} [Zero R] (pq pq' : Quantizer R)
    (h : pack_codebook_for_inference_avx512f pq = some pq') :
    pq'.num_local_codebooks = pq.num_local_codebooks ∧
    pq'.local_dimension = pq.local_dimension ∧
    pq'.global_centroid = pq.global_centroid ∧
    ∀ i j k, i < pq.num_local_codebooks → j < 16 → k < pq.local_dimension →
      pq'.local_codebooks.getD (i * 16 * pq.local_dimension + k * 16 + j) 0
        = pq.original_local_codebooks.getD
          (i * 16 * pq.local_dimension + j * pq.local_dimension + k) 0 := by
  unfold pack_codebook_for_inference_avx512f at h
  simp only [Option.map_eq_some'] at h
  obtain ⟨lc, hlc, rfl⟩ := h
  have hI := pack_loops_inv pq _ lc (resize_length _ _ _) hlc
  refine ⟨rfl, rfl, rfl, fun i j k hi hj hk => ?_⟩
  obtain ⟨_, h2⟩ := hI.2 i j k hj hk (Or.inl hi)
  simp only [List.getD_eq_getElem?_getD, h2]

theorem pack_codebook_for_inference_avx512f_total {R : Type} [Zero R] (pq : Quantizer R)
    (hsize : pq.num_local_codebooks * 16 * pq.local_dimension
      ≤ pq.original_local_codebooks.length) :
    ∃ pq', pack_codebook_for_inference_avx512f pq = some pq' := by
  obtain ⟨lc, hlc⟩ := pack_loops_total pq _ hsize (resize_length pq.local_codebooks _ 0)
  exact ⟨_, by unfold pack_codebook_for_inference_avx512f; simp only [hlc]; rfl⟩

/-- The transposed codebook has the size of the original one. -/
theorem pack_codebook_for_inference_avx512f_length {R : Type} [Zero R] (pq pq' : Quantizer R)
    (h : pack_codebook_for_inference_avx512f pq = some pq') :
    pq'.local_codebooks.length = pq.original_local_codebooks.length := by
  unfold pack_codebook_for_inference_avx512f at h
  simp only [Option.map_eq_some'] at h
  obtain ⟨lc, hlc, rfl⟩ := h
  exact (pack_loops_inv pq _ lc (resize_length _ _ _) hlc).1

end ProductQuantizer4Bits
namespace ProductQuantizer4Bits

theorem max_ps_key {a b : Float32} (ha : a.is_nan = false) (hb : b.is_nan = false) :
    (max_ps a b = a ∨ max_ps a b = b) ∧ (max_ps a b).is_nan = false ∧
    Float32.key a ≤ Float32.key (max_ps a b) ∧ Float32.key b ≤ Float32.key (max_ps a b) := by
  unfold max_ps
  have h := Float32.lt_iff_key hb ha
  split_ifs with hlt
  · exact ⟨Or.inl rfl, ha, le_refl _, le_of_lt (h.1 hlt)⟩
  · exact ⟨Or.inr rfl, hb, not_lt.1 (fun hh => hlt (h.2 hh)), le_refl _⟩

theorem min_ps_key {a b : Float32} (ha : a.is_nan = false) (hb : b.is_nan = false) :
    (min_ps a b = a ∨ min_ps a b = b) ∧ (min_ps a b).is_nan = false ∧
    Float32.key (min_ps a b) ≤ Float32.key a ∧ Float32.key (min_ps a b) ≤ Float32.key b := by
  unfold min_ps
  have h := Float32.lt_iff_key ha hb
  split_ifs with hlt
  · exact ⟨Or.inl rfl, ha, le_refl _, le_of_lt (h.1 hlt)⟩
  · exact ⟨Or.inr rfl, hb, not_lt.1 (fun hh => hlt (h.2 hh)), le_refl _⟩

/-- The reduction of sixteen lanes by an operation that returns one of its operands, the one
of the larger rank `k`: the result is a lane, of the largest rank. -/
theorem reduce_tree (op : Float32 → Float32 → Float32) (k : Float32 → Int)
    (Good : Float32 → Prop)
    (hop : ∀ a b, Good a → Good b → Good (op a b) ∧ k a ≤ k (op a b) ∧ k b ≤ k (op a b))
    (v : Nat → Float32) (hv : ∀ c, c < 16 → Good (v c)) :
    Good (op
      (op (op (op (v (8 + (4 + 0))) (v (4 + 0))) (op (v (8 + 0)) (v 0)))
        (op (op (v (8 + (4 + (2 + 0)))) (v (4 + (2 + 0)))) (op (v (8 + (2 + 0))) (v (2 + 0)))))
      (op (op (op (v (8 + (4 + 1))) (v (4 + 1))) (op (v (8 + 1)) (v 1)))
        (op (op (v (8 + (4 + (2 + 1)))) (v (4 + (2 + 1)))) (op (v (8 + (2 + 1))) (v (2 + 1)))))) ∧
    ∀ c, c < 16 → k (v c) ≤ k (op
      (op (op (op (v (8 + (4 + 0))) (v (4 + 0))) (op (v (8 + 0)) (v 0)))
        (op (op (v (8 + (4 + (2 + 0)))) (v (4 + (2 + 0)))) (op (v (8 + (2 + 0))) (v (2 + 0)))))
      (op (op (op (v (8 + (4 + 1))) (v (4 + 1))) (op (v (8 + 1)) (v 1)))
        (op (op (v (8 + (4 + (2 + 1)))) (v (4 + (2 + 1)))) (op (v (8 + (2 + 1))) (v (2 + 1)))))) := by
  have P3 : ∀ i, i < 8 → Good (op (v (8 + i)) (v i)) ∧ k (v i) ≤ k (op (v (8 + i)) (v i)) ∧
      k (v (8 + i)) ≤ k (op (v (8 + i)) (v i)) := fun i hi => by
    obtain ⟨h1, h2, h3⟩ := hop (v (8 + i)) (v i) (hv _ (by omega)) (hv _ (by omega))
    exact ⟨h1, h3, h2⟩
  have P6 : ∀ i, i < 4 →
      Good (op (op (v (8 + (4 + i))) (v (4 + i))) (op (v (8 + i)) (v i))) ∧
      k (op (v (8 + i)) (v i))
        ≤ k (op (op (v (8 + (4 + i))) (v (4 + i))) (op (v (8 + i)) (v i))) ∧
      k (op (v (8 + (4 + i))) (v (4 + i)))
        ≤ k (op (op (v (8 + (4 + i))) (v (4 + i))) (op (v (8 + i)) (v i))) := fun i hi => by
    obtain ⟨h1, h2, h3⟩ := hop _ _ (P3 (4 + i) (by omega)).1 (P3 i (by omega)).1
    exact ⟨h1, h3, h2⟩
  have P8 : ∀ i, i < 2 →
      Good (op (op (op (v (8 + (4 + i))) (v (4 + i))) (op (v (8 + i)) (v i)))
        (op (op (v (8 + (4 + (2 + i)))) (v (4 + (2 + i)))) (op (v (8 + (2 + i))) (v (2 + i))))) ∧
      k (op (op (v (8 + (4 + i))) (v (4 + i))) (op (v (8 + i)) (v i)))
        ≤ k (op (op (op (v (8 + (4 + i))) (v (4 + i))) (op (v (8 + i)) (v i)))
          (op (op (v (8 + (4 + (2 + i)))) (v (4 + (2 + i))))
            (op (v (8 + (2 + i))) (v (2 + i))))) ∧
      k (op (op (v (8 + (4 + (2 + i)))) (v (4 + (2 + i)))) (op (v (8 + (2 + i))) (v (2 + i))))
        ≤ k (op (op (op (v (8 + (4 + i))) (v (4 + i))) (op (v (8 + i)) (v i)))
          (op (op (v (8 + (4 + (2 + i)))) (v (4 + (2 + i))))
            (op (v (8 + (2 + i))) (v (2 + i))))) := fun i hi =>
    hop _ _ (P6 i (by omega)).1 (P6 (2 + i) (by omega)).1
  obtain ⟨g, q0, q1⟩ := hop _ _ (P8 0 (by omega)).1 (P8 1 (by omega)).1
  refine ⟨g, fun c hc => ?_⟩
  have A : ∃ i, i < 8 ∧ k (v c) ≤ k (op (v (8 + i)) (v i)) := by
    by_cases h : c < 8
    · exact ⟨c, h, (P3 c h).2.1⟩
    · obtain ⟨i, rfl⟩ : ∃ i, c = 8 + i := ⟨c - 8, by omega⟩
      exact ⟨i, by omega, (P3 i (by omega)).2.2⟩
  obtain ⟨i, hi, hA⟩ := A
  have B : ∃ j, j < 4 ∧ k (op (v (8 + i)) (v i))
      ≤ k (op (op (v (8 + (4 + j))) (v (4 + j))) (op (v (8 + j)) (v j))) := by
    by_cases h : i < 4
    · exact ⟨i, h, (P6 i h).2.1⟩
    · obtain ⟨j, rfl⟩ : ∃ j, i = 4 + j := ⟨i - 4, by omega⟩
      exact ⟨j, by omega, (P6 j (by omega)).2.2⟩
  obtain ⟨j, hj, hB⟩ := B
  have C : k (op (op (v (8 + (4 + j))) (v (4 + j))) (op (v (8 + j)) (v j))) ≤ k (op
      (op (op (op (v (8 + (4 + 0))) (v (4 + 0))) (op (v (8 + 0)) (v 0)))
        (op (op (v (8 + (4 + (2 + 0)))) (v (4 + (2 + 0)))) (op (v (8 + (2 + 0))) (v (2 + 0)))))
      (op (op (op (v (8 + (4 + 1))) (v (4 + 1))) (op (v (8 + 1)) (v 1)))
        (op (op (v (8 + (4 + (2 + 1)))) (v (4 + (2 + 1)))) (op (v (8 + (2 + 1))) (v (2 + 1)))))) := by
    have hj4 : j = 0 ∨ j = 1 ∨ j = 2 + 0 ∨ j = 2 + 1 := by omega
    rcases hj4 with h | h | h | h <;> subst h
    · exact le_trans (P8 0 (by omega)).2.1 q0
    · exact le_trans (P8 1 (by omega)).2.1 q1
    · exact le_trans (P8 0 (by omega)).2.2 q0
    · exact le_trans (P8 1 (by omega)).2.2 q1
  exact le_trans hA (le_trans hB C)

/-- On sixteen lanes without not-a-number, `_mm512_reduce_max_ps` returns a lane of the largest
key. -/
theorem reduce_max_spec (v : Nat → Float32) (hv : ∀ c, c < 16 → (v c).is_nan = false) :
    ((_mm512_reduce_max_ps v).is_nan = false ∧ ∃ c, c < 16 ∧ _mm512_reduce_max_ps v = v c) ∧
    ∀ c, c < 16 → Float32.key (v c) ≤ Float32.key (_mm512_reduce_max_ps v) := by
  unfold _mm512_reduce_max_ps
  exact reduce_tree max_ps Float32.key (fun x => x.is_nan = false ∧ ∃ c, c < 16 ∧ x = v c)
    (fun a b ha hb => by
      obtain ⟨h1, h2, h3, h4⟩ := max_ps_key ha.1 hb.1
      refine ⟨⟨h2, ?_⟩, h3, h4⟩
      rcases h1 with h | h
      · rw [h]; exact ha.2
      · rw [h]; exact hb.2)
    v (fun c hc => ⟨hv c hc, c, hc, rfl⟩)

/-- On sixteen lanes without not-a-number, `_mm512_reduce_min_ps` returns a lane of the
smallest key. -/
theorem reduce_min_spec (v : Nat → Float32) (hv : ∀ c, c < 16 → (v c).is_nan = false) :
    ((_mm512_reduce_min_ps v).is_nan = false ∧ ∃ c, c < 16 ∧ _mm512_reduce_min_ps v = v c) ∧
    ∀ c, c < 16 → Float32.key (_mm512_reduce_min_ps v) ≤ Float32.key (v c) := by
  unfold _mm512_reduce_min_ps
  obtain ⟨h1, h2⟩ := reduce_tree min_ps (fun x => - Float32.key x)
    (fun x => x.is_nan = false ∧ ∃ c, c < 16 ∧ x = v c)
    (fun a b ha hb => by
      obtain ⟨h1, h2, h3, h4⟩ := min_ps_key ha.1 hb.1
      refine ⟨⟨h2, ?_⟩, by dsimp only; omega, by dsimp only; omega⟩
      rcases h1 with h | h
      · rw [h]; exact ha.2
      · rw [h]; exact hb.2)
    v (fun c hc => ⟨hv c hc, c, hc, rfl⟩)
  exact ⟨h1, fun c hc => neg_le_neg_iff.1 (h2 c hc)⟩

theorem foldl_append_flatMap {α : Type} (F : Nat → List α) (n : Nat) :
    (List.range n).foldl (fun acc i => acc ++ F i) [] = (List.range n).flatMap F := by
  induction n with
  | zero => rfl
  | succ n ih =>
    rw [List.range_succ, List.foldl_append, ih, List.flatMap_append]
    simp

/-- The vector `centered_query` when the blocks of 16 are inside `query` and
`global_centroid`. -/
theorem centered_query_avx512f_eq (pq : Quantizer Float32) (query : List Float32) (gb : Nat)
    (hq : 16 * gb ≤ query.length) (hg : 16 * gb ≤ pq.global_centroid.length) :
    ∃ cq, centered_query_avx512f pq query gb = some cq ∧ cq.length = 16 * gb ∧
      ∀ i, i < 16 * gb → cq[i]? = some (query.getD i 0 - pq.global_centroid.getD i 0) := by
  have h := foldlM_range_some
    (fun centered_query i =>
      (_mm512_loadu_ps query (16 * i)).bind
        (fun q => (_mm512_loadu_ps pq.global_centroid (16 * i)).map
          (fun g => centered_query ++ (List.range 16).map (fun t => q t - g t))))
    (fun centered_query i => centered_query ++ (List.range 16).map
      (fun t => query.getD (16 * i + t) 0 - pq.global_centroid.getD (16 * i + t) 0)) gb
    (fun b j hj => by
      unfold _mm512_loadu_ps
      dsimp only
      rw [if_pos (by omega), if_pos (by omega)]
      rfl) []
  rw [foldl_append_flatMap] at h
  obtain ⟨h1, h2⟩ := group_outputs_getElem?
    (fun i t => query.getD (16 * i + t) 0 - pq.global_centroid.getD (16 * i + t) 0) gb
  refine ⟨_, h, h1, fun i hi => ?_⟩
  have := h2 (i / 16) (i % 16) (by omega) (Nat.mod_lt _ (by decide))
  rw [show 16 * (i / 16) + i % 16 = i by omega] at this
  exact this

theorem foldl_lane (F : Float32 → Nat → Nat → Float32) (n : Nat) (init : Nat → Float32)
    (c : Nat) :
    ((List.range n).foldl (fun (tmp_v : Nat → Float32) j => fun t => F (tmp_v t) j t) init) c
      = (List.range n).foldl (fun v j => F v j c) (init c) := by
  induction n with
  | zero => rfl
  | succ n ih =>
    rw [List.range_succ, List.foldl_append, List.foldl_append]
    simp only [List.foldl_cons, List.foldl_nil]
    rw [ih]

/-- The register `tmp_v` of the `avx512f` `setup_lut` over the transposed codebook holds in
its sixteen lanes the raw distances of the scalar path over the copied codebook. -/
theorem lut_distance_avx512f_eq (pq pq' : Quantizer Float32) (query cq : List Float32)
    (h : pack_codebook_for_inference_avx512f pq = some pq')
    (hsize : pq.num_local_codebooks * 16 * pq.local_dimension
      ≤ pq.original_local_codebooks.length)
    (hcq : ∀ i, i < pq.num_local_codebooks * pq.local_dimension →
      cq[i]? = some (query.getD i 0 - pq.global_centroid.getD i 0))
    (d : Nat) (hd : d < pq.num_local_codebooks) :
    ∃ reg, lut_distance_avx512f pq' cq d = some reg ∧
      ∀ c, c < 16 → reg c = lut_value (pack_codebook_for_inference_default pq) query d c := by
  obtain ⟨_, hld, _, hspec⟩ := pack_codebook_for_inference_avx512f_spec pq pq' h
  have hlen := pack_codebook_for_inference_avx512f_length pq pq' h
  have hstep := foldlM_range_some
    (fun (tmp_v : Nat → Float32) j =>
      (cq[d * pq'.local_dimension + j]?).bind
        (fun q => (_mm512_loadu_ps pq'.local_codebooks (16 * (d * pq'.local_dimension + j))).map
          (fun l => fun t =>
            let v := q - l t
            let v := v * v
            tmp_v t + v)))
    (fun (tmp_v : Nat → Float32) j => fun t =>
      tmp_v t + ((query.getD (d * pq.local_dimension + j) 0
            - pq.global_centroid.getD (d * pq.local_dimension + j) 0)
          - pq'.local_codebooks.getD (16 * (d * pq.local_dimension + j) + t) 0)
        * ((query.getD (d * pq.local_dimension + j) 0
            - pq.global_centroid.getD (d * pq.local_dimension + j) 0)
          - pq'.local_codebooks.getD (16 * (d * pq.local_dimension + j) + t) 0))
    pq'.local_dimension
    (fun b j hj => by
      rw [hld] at hj ⊢
      have h2 := slice_index_lt hd hj
      have h3 : 16 * (d * pq.local_dimension + j) + 16
          ≤ pq.num_local_codebooks * 16 * pq.local_dimension := by
        have : 16 * (d * pq.local_dimension + j + 1)
            ≤ 16 * (pq.num_local_codebooks * pq.local_dimension) :=
          Nat.mul_le_mul_left 16 h2
        have e : pq.num_local_codebooks * 16 * pq.local_dimension
            = 16 * (pq.num_local_codebooks * pq.local_dimension) := by ring
        omega
      unfold _mm512_loadu_ps
      dsimp only
      rw [hcq _ h2, if_pos (by omega)]
      rfl)
    (fun _ => 0)
  refine ⟨_, hstep, fun c hc => ?_⟩
  rw [hld, foldl_lane (fun v j t =>
      v + ((query.getD (d * pq.local_dimension + j) 0
            - pq.global_centroid.getD (d * pq.local_dimension + j) 0)
          - pq'.local_codebooks.getD (16 * (d * pq.local_dimension + j) + t) 0)
        * ((query.getD (d * pq.local_dimension + j) 0
            - pq.global_centroid.getD (d * pq.local_dimension + j) 0)
          - pq'.local_codebooks.getD (16 * (d * pq.local_dimension + j) + t) 0))]
  unfold lut_value pack_codebook_for_inference_default
  refine foldl_congr_range _ _ _ _ (fun v j hj => ?_)
  have e : 16 * (d * pq.local_dimension + j) + c
      = d * 16 * pq.local_dimension + j * 16 + c := by ring
  simp only
  rw [e, hspec d c j hd hc hj]

theorem std_max_key {a b : Float32} (ha : a.is_nan = false) (hb : b.is_nan = false) :
    (std_max a b = a ∨ std_max a b = b) ∧ (std_max a b).is_nan = false ∧
    Float32.key a ≤ Float32.key (std_max a b) ∧ Float32.key b ≤ Float32.key (std_max a b) := by
  unfold std_max
  have h := Float32.lt_iff_key ha hb
  split_ifs with hlt
  · exact ⟨Or.inr rfl, hb, le_of_lt (h.1 hlt), le_refl _⟩
  · exact ⟨Or.inl rfl, ha, le_refl _, not_lt.1 (fun hh => hlt (h.2 hh))⟩

theorem std_min_key {a b : Float32} (ha : a.is_nan = false) (hb : b.is_nan = false) :
    (std_min a b = a ∨ std_min a b = b) ∧ (std_min a b).is_nan = false ∧
    Float32.key (std_min a b) ≤ Float32.key a ∧ Float32.key (std_min a b) ≤ Float32.key b := by
  unfold std_min
  have h := Float32.lt_iff_key hb ha
  split_ifs with hlt
  · exact ⟨Or.inr rfl, hb, le_of_lt (h.1 hlt), le_refl _⟩
  · exact ⟨Or.inl rfl, ha, le_refl _, not_lt.1 (fun hh => hlt (h.2 hh))⟩

/-- The extrema that the `avx512f` `setup_lut` has after the loop over the sub-codebooks, on
registers without not-a-number: the start values or lanes of the registers, of the largest and
of the smallest key. -/
theorem avx512f_extrema (regs : List (Nat → Float32)) :
    ∀ (a b : Float32), a.is_nan = false → b.is_nan = false →
      (∀ reg ∈ regs, ∀ c, c < 16 → (reg c).is_nan = false) →
      (((regs.foldl (fun (mm : Float32 × Float32) tmp_v =>
            (std_max mm.1 (_mm512_reduce_max_ps tmp_v), std_min mm.2 (_mm512_reduce_min_ps tmp_v)))
            (a, b)).1 = a ∨
          ∃ reg ∈ regs, ∃ c, c < 16 ∧ (regs.foldl (fun (mm : Float32 × Float32) tmp_v =>
            (std_max mm.1 (_mm512_reduce_max_ps tmp_v), std_min mm.2 (_mm512_reduce_min_ps tmp_v)))
            (a, b)).1 = reg c) ∧
        Float32.key a ≤ Float32.key (regs.foldl (fun (mm : Float32 × Float32) tmp_v =>
            (std_max mm.1 (_mm512_reduce_max_ps tmp_v), std_min mm.2 (_mm512_reduce_min_ps tmp_v)))
            (a, b)).1 ∧
        ∀ reg ∈ regs, ∀ c, c < 16 → Float32.key (reg c)
          ≤ Float32.key (regs.foldl (fun (mm : Float32 × Float32) tmp_v =>
            (std_max mm.1 (_mm512_reduce_max_ps tmp_v), std_min mm.2 (_mm512_reduce_min_ps tmp_v)))
            (a, b)).1) ∧
      (((regs.foldl (fun (mm : Float32 × Float32) tmp_v =>
            (std_max mm.1 (_mm512_reduce_max_ps tmp_v), std_min mm.2 (_mm512_reduce_min_ps tmp_v)))
            (a, b)).2 = b ∨
          ∃ reg ∈ regs, ∃ c, c < 16 ∧ (regs.foldl (fun (mm : Float32 × Float32) tmp_v =>
            (std_max mm.1 (_mm512_reduce_max_ps tmp_v), std_min mm.2 (_mm512_reduce_min_ps tmp_v)))
            (a, b)).2 = reg c) ∧
        Float32.key (regs.foldl (fun (mm : Float32 × Float32) tmp_v =>
            (std_max mm.1 (_mm512_reduce_max_ps tmp_v), std_min mm.2 (_mm512_reduce_min_ps tmp_v)))
            (a, b)).2 ≤ Float32.key b ∧
        ∀ reg ∈ regs, ∀ c, c < 16 →
          Float32.key (regs.foldl (fun (mm : Float32 × Float32) tmp_v =>
            (std_max mm.1 (_mm512_reduce_max_ps tmp_v), std_min mm.2 (_mm512_reduce_min_ps tmp_v)))
            (a, b)).2 ≤ Float32.key (reg c)) := by
  induction regs with
  | nil =>
    intro a b _ _ _
    exact ⟨⟨Or.inl rfl, le_refl _, fun reg hr => absurd hr (List.not_mem_nil _)⟩,
      ⟨Or.inl rfl, le_refl _, fun reg hr => absurd hr (List.not_mem_nil _)⟩⟩
  | cons r regs ih =>
    intro a b ha hb hnan
    simp only [List.foldl_cons]
    have hr : ∀ c, c < 16 → (r c).is_nan = false := hnan r (List.mem_cons_self _ _)
    obtain ⟨⟨x1, cx, hcx, x2⟩, x3⟩ := reduce_max_spec r hr
    obtain ⟨⟨n1, cn, hcn, n2⟩, n3⟩ := reduce_min_spec r hr
    obtain ⟨p1, p2, p3, p4⟩ := std_max_key ha x1
    obtain ⟨q1, q2, q3, q4⟩ := std_min_key hb n1
    obtain ⟨⟨a1, a2, a3⟩, ⟨b1, b2, b3⟩⟩ := ih _ _ p2 q2
      (fun reg hreg => hnan reg (List.mem_cons_of_mem _ hreg))
    refine ⟨⟨?_, le_trans p3 a2, ?_⟩, ⟨?_, le_trans b2 q3, ?_⟩⟩
    · rcases a1 with h | ⟨reg, hreg, c, hc, h⟩
      · rcases p1 with h' | h'
        · exact Or.inl (h.trans h')
        · exact Or.inr ⟨r, List.mem_cons_self _ _, cx, hcx, by rw [h, h', x2]⟩
      · exact Or.inr ⟨reg, List.mem_cons_of_mem _ hreg, c, hc, h⟩
    · intro reg hreg c hc
      rcases List.mem_cons.1 hreg with h | h
      · rw [h]
        exact le_trans (x3 c hc) (le_trans p4 a2)
      · exact a3 reg h c hc
    · rcases b1 with h | ⟨reg, hreg, c, hc, h⟩
      · rcases q1 with h' | h'
        · exact Or.inl (h.trans h')
        · exact Or.inr ⟨r, List.mem_cons_self _ _, cn, hcn, by rw [h, h', n2]⟩
      · exact Or.inr ⟨reg, List.mem_cons_of_mem _ hreg, c, hc, h⟩
    · intro reg hreg c hc
      rcases List.mem_cons.1 hreg with h | h
      · rw [h]
        exact le_trans b2 (le_trans q4 (n3 c hc))
      · exact b3 reg h c hc

/-- The values written register by register: sixteen per register, in order. -/
theorem flatMap_lanes {α β : Type} (f : α → Nat → β) (l : List α) :
    (l.flatMap (fun a => (List.range 16).map (f a))).length = 16 * l.length ∧
    ∀ d c a, c < 16 → l[d]? = some a →
      (l.flatMap (fun a => (List.range 16).map (f a)))[16 * d + c]? = some (f a c) := by
  induction l with
  | nil => exact ⟨rfl, fun d c a _ h => by simp at h⟩
  | cons x l ih =>
    refine ⟨by simp only [List.flatMap_cons, List.length_append, List.length_map,
      List.length_range, ih.1, List.length_cons]; omega, fun d c a hc h => ?_⟩
    simp only [List.flatMap_cons]
    cases d with
    | zero =>
      simp only [List.getElem?_cons_zero, Option.some.injEq] at h
      subst h
      rw [List.getElem?_append_left (by simp; omega), List.getElem?_map,
        show 16 * 0 + c = c by omega, List.getElem?_range hc]
      rfl
    | succ d =>
      simp only [List.getElem?_cons_succ] at h
      rw [List.getElem?_append_right (by simp; omega)]
      simp only [List.length_map, List.length_range]
      rw [show 16 * (d + 1) + c - 16 = 16 * d + c by omega]
      exact ih.2 d c a hc h

/-- The two `setup_lut`, each on its codebook, when every load is inside its vector and no raw
distance is not-a-number: they return the same `scale` and `bias`, and at each position the
scalar path stores the byte of the quotient rounded by `std::round` (when there is one) and
the `avx512f` path the byte of the same quotient rounded to even. -/
theorem setup_lut_avx512f_eq (pq pq' : Quantizer Float32) (query : List Float32)
    (hpack : pack_codebook_for_inference_avx512f pq = some pq')
    (hsize : pq.num_local_codebooks * 16 * pq.local_dimension
      ≤ pq.original_local_codebooks.length)
    (hq : 16 * ((pq.num_local_codebooks * pq.local_dimension + 15) / 16) ≤ query.length)
    (hg : 16 * ((pq.num_local_codebooks * pq.local_dimension + 15) / 16)
      ≤ pq.global_centroid.length)
    (hE : 16 * ((pq.num_local_codebooks * pq.local_dimension + 15) / 16) < 2 ^ 31)
    (hnan : ∀ m c, m < pq.num_local_codebooks → c < 16 →
      (lut_value (pack_codebook_for_inference_default pq) query m c).is_nan = false) :
    ∃ lut_s lut_a scale bias,
      setup_lut (pack_codebook_for_inference_default pq) query = some (lut_s, scale, bias) ∧
      setup_lut_avx512f pq' query = some (lut_a, scale, bias) ∧
      lut_s.length = pq.num_local_codebooks * 16 ∧ lut_a.length = 16 * pq.num_local_codebooks ∧
      ∀ m c, m < pq.num_local_codebooks → c < 16 →
        lut_s[m * 16 + c]? = some (lut_entry scale bias
          (lut_value (pack_codebook_for_inference_default pq) query m c)) ∧
        lut_a[16 * m + c]? = some (cvtps_epi32_epi8 (Float32.round_nearest_even
          ((lut_value (pack_codebook_for_inference_default pq) query m c - bias) / scale))) := by
  obtain ⟨hM, hld, hgc, _⟩ := pack_codebook_for_inference_avx512f_spec pq pq' hpack
  have hle : pq.num_local_codebooks * pq.local_dimension
      ≤ 16 * ((pq.num_local_codebooks * pq.local_dimension + 15) / 16) := by omega
  obtain ⟨raw, hraw, hrlen, hrget, hrmem⟩ := raw_dist_eq
    (pack_codebook_for_inference_default pq) query
    (show pq.num_local_codebooks * pq.local_dimension ≤ query.length by omega)
    (show pq.num_local_codebooks * pq.local_dimension ≤ pq.global_centroid.length by omega)
    hsize
  obtain ⟨cq, hcq, hcqlen, hcqget⟩ := centered_query_avx512f_eq pq' query
    ((pq.num_local_codebooks * pq.local_dimension + 15) / 16) hq (by rw [hgc]; exact hg)
  rw [hgc] at hcqget
  obtain ⟨regs, hregs⟩ := gather_total (lut_distance_avx512f pq' cq) pq.num_local_codebooks
    (fun d hd => by
      obtain ⟨reg, hreg, _⟩ := lut_distance_avx512f_eq pq pq' query cq hpack hsize
        (fun i hi => hcqget i (by omega)) d hd
      exact ⟨reg, hreg⟩)
  obtain ⟨hglen, hgget⟩ := gather_spec _ _ _ hregs
  have hreg : ∀ d, d < pq.num_local_codebooks → ∃ reg, regs[d]? = some reg ∧
      ∀ c, c < 16 → reg c = lut_value (pack_codebook_for_inference_default pq) query d c := by
    intro d hd
    obtain ⟨reg, hreg, hv⟩ := lut_distance_avx512f_eq pq pq' query cq hpack hsize
      (fun i hi => hcqget i (by omega)) d hd
    exact ⟨reg, by rw [hgget d hd, hreg], hv⟩
  have hregmem : ∀ reg ∈ regs, ∃ d, d < pq.num_local_codebooks ∧
      ∀ c, c < 16 → reg c = lut_value (pack_codebook_for_inference_default pq) query d c := by
    intro reg hr
    obtain ⟨d, hd, hdr⟩ := List.getElem_of_mem hr
    obtain ⟨reg', h1, h2⟩ := hreg d (by omega)
    rw [List.getElem?_eq_getElem hd, hdr] at h1
    rw [Option.some.inj h1]
    exact ⟨d, by omega, h2⟩
  have hrnan : ∀ r ∈ raw, r.is_nan = false := by
    intro r hr
    obtain ⟨m, c, hm, hc, rfl⟩ := hrmem r hr
    exact hnan m c hm hc
  have hrsign : ∀ r ∈ raw, r.sign = false := by
    intro r hr
    obtain ⟨m, c, hm, hc, rfl⟩ := hrmem r hr
    exact lut_value_sign _ _ _ _
  have hrmem' : ∀ m c, m < pq.num_local_codebooks → c < 16 →
      lut_value (pack_codebook_for_inference_default pq) query m c ∈ raw :=
    fun m c hm hc => List.getElem?_mem (hrget m c hm hc)
  have hk : ∀ a : Float32, a.is_nan = false → ∀ x ∈ a :: raw, ∀ y ∈ a :: raw,
      (x < y ↔ Float32.key x < Float32.key y) := by
    intro a ha x hx y hy
    apply Float32.lt_iff_key
    · rcases List.mem_cons.1 hx with h | h
      · rw [h]; exact ha
      · exact hrnan x h
    · rcases List.mem_cons.1 hy with h | h
      · rw [h]; exact ha
      · exact hrnan y h
  obtain ⟨s1, s2, s3⟩ := foldl_std_max_key Float32.key raw FLT_MIN (hk _ FLT_MIN_not_nan)
  obtain ⟨t1, t2, t3⟩ := foldl_std_min_key Float32.key raw FLT_MAX (hk _ FLT_MAX_not_nan)
  obtain ⟨⟨a1, a2, a3⟩, ⟨b1, b2, b3⟩⟩ := avx512f_extrema regs FLT_MIN FLT_MAX FLT_MIN_not_nan
    FLT_MAX_not_nan (fun reg hr c hc => by
      obtain ⟨d, hd, hv⟩ := hregmem reg hr
      rw [hv c hc]
      exact hnan d c hd hc)
  have hmax : (regs.foldl (fun (mm : Float32 × Float32) tmp_v =>
      (std_max mm.1 (_mm512_reduce_max_ps tmp_v), std_min mm.2 (_mm512_reduce_min_ps tmp_v)))
      (FLT_MIN, FLT_MAX)).1 = raw.foldl (fun max tmp_v => std_max max tmp_v) FLT_MIN := by
    apply Float32.eq_of_key
    · rcases a1 with h | ⟨reg, hr, c, hc, h⟩
      · rw [h]; rfl
      · obtain ⟨d, hd, hv⟩ := hregmem reg hr
        rw [h, hv c hc]
        exact lut_value_sign _ _ _ _
    · rcases s1 with h | h
      · rw [h]; rfl
      · exact hrsign _ h
    · apply le_antisymm
      · rcases a1 with h | ⟨reg, hr, c, hc, h⟩
        · rw [h]; exact s2
        · obtain ⟨d, hd, hv⟩ := hregmem reg hr
          rw [h, hv c hc]
          exact s3 _ (hrmem' d c hd hc)
      · rcases s1 with h | h
        · rw [h]; exact a2
        · obtain ⟨m, c, hm, hc, e⟩ := hrmem _ h
          obtain ⟨reg, h1, h2⟩ := hreg m hm
          rw [e, ← h2 c hc]
          exact a3 reg (List.getElem?_mem h1) c hc
  have hmin : (regs.foldl (fun (mm : Float32 × Float32) tmp_v =>
      (std_max mm.1 (_mm512_reduce_max_ps tmp_v), std_min mm.2 (_mm512_reduce_min_ps tmp_v)))
      (FLT_MIN, FLT_MAX)).2 = raw.foldl (fun min tmp_v => std_min min tmp_v) FLT_MAX := by
    apply Float32.eq_of_key
    · rcases b1 with h | ⟨reg, hr, c, hc, h⟩
      · rw [h]; rfl
      · obtain ⟨d, hd, hv⟩ := hregmem reg hr
        rw [h, hv c hc]
        exact lut_value_sign _ _ _ _
    · rcases t1 with h | h
      · rw [h]; rfl
      · exact hrsign _ h
    · apply le_antisymm
      · rcases t1 with h | h
        · rw [h]; exact b2
        · obtain ⟨m, c, hm, hc, e⟩ := hrmem _ h
          obtain ⟨reg, h1, h2⟩ := hreg m hm
          rw [e, ← h2 c hc]
          exact b3 reg (List.getElem?_mem h1) c hc
      · rcases b1 with h | ⟨reg, hr, c, hc, h⟩
        · rw [h]; exact t2
        · obtain ⟨d, hd, hv⟩ := hregmem reg hr
          rw [h, hv c hc]
          exact t3 _ (hrmem' d c hd hc)
  have hA : setup_lut_avx512f pq' query
      = some (regs.flatMap (fun tmp_v => (List.range 16).map
          (fun c => cvtps_epi32_epi8 (Float32.round_nearest_even
            ((tmp_v c - raw.foldl (fun min tmp_v => std_min min tmp_v) FLT_MAX)
              / Float32.div_double (raw.foldl (fun max tmp_v => std_max max tmp_v) FLT_MIN
                - raw.foldl (fun min tmp_v => std_min min tmp_v) FLT_MAX) 255)))),
        Float32.div_double (raw.foldl (fun max tmp_v => std_max max tmp_v) FLT_MIN
          - raw.foldl (fun min tmp_v => std_min min tmp_v) FLT_MAX) 255,
        raw.foldl (fun min tmp_v => std_min min tmp_v) FLT_MAX) := by
    unfold setup_lut_avx512f
    simp only [num_groups_eq, hM, hld]
    rw [if_neg (by omega), hcq]
    simp only [Option.some_bind, hregs, Option.map_some', hmax, hmin]
  have hS : setup_lut (pack_codebook_for_inference_default pq) query
      = some (raw.map (lut_entry
          (Float32.div_double (raw.foldl (fun max tmp_v => std_max max tmp_v) FLT_MIN
            - raw.foldl (fun min tmp_v => std_min min tmp_v) FLT_MAX) 255)
          (raw.foldl (fun min tmp_v => std_min min tmp_v) FLT_MAX)),
        Float32.div_double (raw.foldl (fun max tmp_v => std_max max tmp_v) FLT_MIN
          - raw.foldl (fun min tmp_v => std_min min tmp_v) FLT_MAX) 255,
        raw.foldl (fun min tmp_v => std_min min tmp_v) FLT_MAX) := by
    unfold setup_lut
    rw [hraw]
    rfl
  obtain ⟨f1, f2⟩ := flatMap_lanes (fun (tmp_v : Nat → Float32) c =>
      cvtps_epi32_epi8 (Float32.round_nearest_even
        ((tmp_v c - raw.foldl (fun min tmp_v => std_min min tmp_v) FLT_MAX)
          / Float32.div_double (raw.foldl (fun max tmp_v => std_max max tmp_v) FLT_MIN
            - raw.foldl (fun min tmp_v => std_min min tmp_v) FLT_MAX) 255))) regs
  refine ⟨_, _, _, _, hS, hA, by rw [List.length_map, hrlen]; rfl, by rw [f1, hglen],
    fun m c hm hc => ⟨?_, ?_⟩⟩
  · rw [List.getElem?_map, hrget m c hm hc]
    rfl
  · obtain ⟨reg, h1, h2⟩ := hreg m hm
    rw [f2 m c reg hc h1, h2 c hc]

/-- Where the scalar path has a byte, the byte of the `avx512f` path is this byte or the one
below. -/
theorem lut_bytes_near (scale bias raw : Float32) (s : Nat)
    (h : lut_entry scale bias raw = some s) :
    cvtps_epi32_epi8 (Float32.round_nearest_even ((raw - bias) / scale)) ≤ s ∧
    s ≤ cvtps_epi32_epi8 (Float32.round_nearest_even ((raw - bias) / scale)) + 1 ∧
    s ≤ 255 := by
  obtain ⟨h1, h2⟩ := (lut_entry_eq_some scale bias raw s).1 h
  obtain ⟨w, hw, w0, w255, w1, w2⟩ := Float32.round_nearest_even_near _ (s : Int) h1
    (by omega) (by omega)
  rw [hw]
  unfold cvtps_epi32_epi8
  simp only
  rw [if_pos ⟨by omega, by omega⟩, Int.emod_eq_of_lt w0 (by omega)]
  omega

theorem sum_near (f g : Nat → Nat) (n : Nat)
    (h : ∀ i, i < n → f i ≤ g i ∧ g i ≤ f i + 1) :
    ∑ i in Finset.range n, f i ≤ ∑ i in Finset.range n, g i ∧
    ∑ i in Finset.range n, g i ≤ ∑ i in Finset.range n, f i + n := by
  induction n with
  | zero => simp
  | succ n ih =>
    obtain ⟨i1, i2⟩ := ih (fun i hi => h i (Nat.lt_succ_of_lt hi))
    obtain ⟨j1, j2⟩ := h n (Nat.lt_succ_self n)
    simp only [Finset.sum_range_succ]
    constructor <;> omega

theorem nibble_lt (neighbor_codes : Nat → Nat) (p : Nat) : nibble neighbor_codes p < 16 := by
  unfold nibble
  split_ifs
  · exact Nat.mod_lt _ (by decide)
  · have := Nat.mod_lt (neighbor_codes (p / 2)) (show 0 < 256 by decide)
    omega

theorem Float32.intCast_natCast (n : Nat) : (((n : Int) : Float32)) = (n : Float32) := rfl

end ProductQuantizer4Bits
namespace ProductQuantizer4Bits

set_option maxRecDepth 1000000 in
theorem parity_pack :
    pack_codebook_for_inference_avx512f parity_quantizer = some parity_quantizer_avx512f := by
  rfl

theorem parity_setup_lut :
    setup_lut (pack_codebook_for_inference_default parity_quantizer) (List.replicate 16 0)
      = some (parity_lut_default, ((1 : Nat) : Float32), 0) := by
  set_option maxRecDepth 1000000 in decide

theorem parity_setup_lut_avx512f :
    setup_lut_avx512f parity_quantizer_avx512f (List.replicate 16 0)
      = some (parity_lut_avx512f, ((1 : Nat) : Float32), 0) := by
  set_option maxRecDepth 1000000 in decide

theorem parity_distance_default :
    approximate_neighbor_group_distance_default
      (pack_codebook_for_inference_default parity_quantizer) 16 (fun _ => 17)
      (fun p => (parity_lut_default.getD p none).getD 0) ((1 : Nat) : Float32) 0
      = some (List.replicate 16 ((4 : Nat) : Float32)) := by
  set_option maxRecDepth 1000000 in decide

theorem parity_distance_avx512f :
    approximate_neighbor_group_distance_avx512f parity_quantizer_avx512f 16 (fun _ => 17)
      (fun p => parity_lut_avx512f.getD p 0) ((1 : Nat) : Float32) 0
      = List.replicate 16 0 := by
  set_option maxRecDepth 1000000 in decide

theorem parity_units :
    ((1 : Nat) : Float32).signed_units = 2 ^ 149 ∧
    ((4 : Nat) : Float32).signed_units = 4 * 2 ^ 149 ∧
    (0 : Float32).signed_units = 0 := by
  set_option maxRecDepth 1000000 in decide

end ProductQuantizer4Bits
namespace ProductQuantizer4Bits

theorem pack_codebook_for_inference_fields {R : Type} [Zero R] (target : Target)
    (pq pq' : Quantizer R) (h : pack_codebook_for_inference target pq = some pq') :
    pq'.num_local_codebooks = pq.num_local_codebooks ∧
    pq'.local_dimension = pq.local_dimension := by
  cases target with
  | default =>
    simp only [pack_codebook_for_inference, Option.some.injEq] at h
    subst h
    exact ⟨rfl, rfl⟩
  | avx512f =>
    obtain ⟨h1, h2, _, _⟩ := pack_codebook_for_inference_avx512f_spec pq pq' h
    exact ⟨h1, h2⟩

/-- C16. For every training matrix with `D` columns and every `M >= 1` (an `int`), on either
target, `train` throws its `std::runtime_error` if and only if `D mod M != 0`; the quantizer is
then as it was before the call; and when `train` succeeds `num_local_codebooks = M` and
`local_dimension = D / M`, with `M * local_dimension = D`. -/
theorem train_dimension_check {R : Type} [Zero R] (env : Collaborators R) (target : Target)
    (pq : Quantizer R) (X_trn : drm_t R) (M : Int) (sub_sample_points : Nat) (seed : Int)
    (max_iter : Nat) (threads : Int) (hM1 : 1 ≤ M) (hM : M < 2 ^ 31) :
    ((∃ what pq', train env target pq X_trn M sub_sample_points seed max_iter threads
        = .error (.runtime_error what, pq')) ↔ X_trn.cols % M.toNat ≠ 0) ∧
    (∀ what pq', train env target pq X_trn M sub_sample_points seed max_iter threads
        = .error (.runtime_error what, pq') → pq' = pq) ∧
    (∀ pq', train env target pq X_trn M sub_sample_points seed max_iter threads = .ok pq' →
      pq'.num_local_codebooks = M.toNat ∧ pq'.local_dimension = X_trn.cols / M.toNat ∧
      M.toNat * pq'.local_dimension = X_trn.cols) := by
  have h64 : (M % 2 ^ 64).toNat = M.toNat := by
    rw [Int.emod_eq_of_lt (by omega) (by omega)]
  have h32 : (M % 2 ^ 32).toNat = M.toNat := by
    rw [Int.emod_eq_of_lt (by omega) (by omega)]
  unfold train
  simp only [h64, h32]
  by_cases hd : X_trn.cols % M.toNat ≠ 0
  · rw [if_pos hd]
    refine ⟨⟨fun _ => hd, fun _ => ⟨_, _, rfl⟩⟩, ?_, ?_⟩
    · intro what pq' h
      simp only [Except.error.injEq, Prod.mk.injEq] at h
      exact h.2.symm
    · intro pq' h
      cases h
  · rw [if_neg hd]
    have hd' : X_trn.cols % M.toNat = 0 := not_not.1 hd
    refine ⟨⟨?_, fun h => absurd h hd⟩, ?_, ?_⟩
    · rintro ⟨what, pq', h⟩
      exfalso
      revert h
      split
      · intro h; simp only [Except.error.injEq, Prod.mk.injEq] at h; cases h.1
      · split
        · intro h; simp only [Except.error.injEq, Prod.mk.injEq] at h; cases h.1
        · intro h; cases h
    · intro what pq' h
      exfalso
      revert h
      split
      · intro h; simp only [Except.error.injEq, Prod.mk.injEq] at h; cases h.1
      · split
        · intro h; simp only [Except.error.injEq, Prod.mk.injEq] at h; cases h.1
        · intro h; cases h
    · intro pq' h
      revert h
      split
      · intro h; cases h
      · split
        · intro h; cases h
        · rename_i q hq
          intro h
          simp only [Except.ok.injEq] at h
          subst h
          obtain ⟨f1, f2⟩ := pack_codebook_for_inference_fields target _ _ hq
          simp only at f1 f2
          refine ⟨f1, f2, ?_⟩
          rw [f2]
          exact Nat.mul_div_cancel' (Nat.dvd_of_mod_eq_zero hd')

theorem train_dimension_check_witness :
    (∃ pq', train example_collaborators .avx512f ⟨0, 0, [], [], []⟩ example_matrix 2 0 0 10 1
        = .ok pq' ∧ pq'.num_local_codebooks = 2 ∧ pq'.local_dimension = 1) ∧
    (∃ what, train example_collaborators .default ⟨7, 7, [], [], []⟩ ⟨3, 3, [1, 2, 3, 4, 5, 6, 7, 8, 9]⟩
        2 0 0 10 1 = .error (.runtime_error what, ⟨7, 7, [], [], []⟩)) := by
  constructor
  · cases h : train example_collaborators .avx512f ⟨0, 0, [], [], []⟩ example_matrix 2 0 0 10 1 with
    | error e =>
      have hok : (train example_collaborators .avx512f ⟨0, 0, [], [], []⟩ example_matrix 2 0 0
        10 1).isOk = true := by decide
      rw [h] at hok
      cases hok
    | ok pq' =>
      obtain ⟨h1, h2, _⟩ := (train_dimension_check example_collaborators .avx512f
        ⟨0, 0, [], [], []⟩ example_matrix 2 0 0 10 1 (by decide) (by decide)).2.2 pq' h
      exact ⟨pq', rfl, h1, h2⟩
  · exact ⟨_, rfl⟩

end ProductQuantizer4Bits
namespace file_util

theorem le_bytes_length (width x : Nat) : (le_bytes width x).length = width := by
  induction width generalizing x with
  | zero => rfl
  | succ w ih => simp only [le_bytes, List.length_cons, ih]

theorem le_bytes_lt (width x : Nat) : ∀ b ∈ le_bytes width x, b < 256 := by
  induction width generalizing x with
  | zero => intro b hb; cases hb
  | succ w ih =>
    intro b hb
    simp only [le_bytes, List.mem_cons] at hb
    rcases hb with rfl | hb
    · exact Nat.mod_lt _ (by decide)
    · exact ih _ b hb

theorem le_value_le_bytes (width x : Nat) (hx : x < 256 ^ width) :
    le_value (le_bytes width x) = x := by
  induction width generalizing x with
  | zero =>
    simp only [pow_zero, Nat.lt_one_iff] at hx
    subst hx
    rfl
  | succ w ih =>
    simp only [le_bytes, le_value, Nat.mod_mod]
    rw [ih (x / 256) (by rw [pow_succ] at hx; omega)]
    omega

theorem le_bytes_le_value (bs : List Nat) (hb : ∀ b ∈ bs, b < 256) :
    le_bytes bs.length (le_value bs) = bs ∧ le_value bs < 256 ^ bs.length := by
  induction bs with
  | nil => exact ⟨rfl, by simp [le_value]⟩
  | cons b bs ih =>
    obtain ⟨i1, i2⟩ := ih (fun c hc => hb c (List.mem_cons_of_mem _ hc))
    have hb0 : b < 256 := hb b (List.mem_cons_self _ _)
    simp only [List.length_cons, le_bytes, le_value]
    rw [Nat.mod_eq_of_lt hb0]
    refine ⟨?_, by rw [pow_succ]; omega⟩
    rw [show (b + 256 * le_value bs) % 256 = b by omega,
      show (b + 256 * le_value bs) / 256 = le_value bs by omega, i1]

theorem flatMap_le_bytes_length (width : Nat) (vals : List Nat) :
    (vals.flatMap (le_bytes width)).length = width * vals.length := by
  induction vals with
  | nil => simp
  | cons v vs ih =>
    simp only [List.flatMap_cons, List.length_append, le_bytes_length, ih, List.length_cons]
    ring

theorem le_values_flatMap (width : Nat) (vals rest : List Nat)
    (h : ∀ x ∈ vals, x < 256 ^ width) :
    le_values width vals.length (vals.flatMap (le_bytes width) ++ rest) = vals := by
  induction vals with
  | nil => rfl
  | cons v vs ih =>
    simp only [List.flatMap_cons, List.length_cons, le_values, List.append_assoc]
    rw [List.take_left' (le_bytes_length width v), List.drop_left' (le_bytes_length width v),
      le_value_le_bytes width v (h v (List.mem_cons_self _ _)),
      ih (fun x hx => h x (List.mem_cons_of_mem _ hx))]

/-- Reading back what `fput_multiple` has written gives the values and the rest of the
stream. -/
theorem fget_multiple_fput (width : Nat) (vals rest : List Nat)
    (h : ∀ x ∈ vals, x < 256 ^ width) :
    fget_multiple width vals.length (vals.flatMap (le_bytes width) ++ rest) = .ok (vals, rest) := by
  unfold fget_multiple
  have hlen := flatMap_le_bytes_length width vals
  rw [if_neg (by rw [List.length_append, hlen]; omega), le_values_flatMap width vals rest h,
    ← hlen, List.drop_left]

theorem le_values_inv (width : Nat) :
    ∀ (num : Nat) (fp : List Nat), width * num ≤ fp.length → (∀ b ∈ fp, b < 256) →
      fp = (le_values width num fp).flatMap (le_bytes width) ++ fp.drop (width * num) ∧
      (le_values width num fp).length = num ∧
      ∀ x ∈ le_values width num fp, x < 256 ^ width := by
  intro num
  induction num with
  | zero => intro fp _ _; simp [le_values]
  | succ n ih =>
    intro fp hlen hb
    have hw : width ≤ fp.length := by
      have : width * (n + 1) = width * n + width := by ring
      omega
    have htake : (fp.take width).length = width := by
      rw [List.length_take]; omega
    obtain ⟨t1, t2⟩ := le_bytes_le_value (fp.take width)
      (fun b hb' => hb b (List.mem_of_mem_take hb'))
    rw [htake] at t1 t2
    obtain ⟨i1, i2, i3⟩ := ih (fp.drop width)
      (by rw [List.length_drop]; have : width * (n + 1) = width * n + width := by ring
          omega)
      (fun b hb' => hb b (List.mem_of_mem_drop hb'))
    simp only [le_values, List.flatMap_cons, List.length_cons, i2, List.mem_cons]
    refine ⟨?_, trivial, ?_⟩
    · rw [t1, List.append_assoc]
      rw [List.drop_drop] at i1
      rw [show width * (n + 1) = width + width * n by ring, ← i1, List.take_append_drop]
    · rintro x (rfl | hx)
      · exact t2
      · exact i3 x hx

/-- What a successful `fget_multiple` says of a stream of bytes. -/
theorem fget_multiple_ok (width num : Nat) (fp vals rest : List Nat)
    (h : fget_multiple width num fp = .ok (vals, rest)) (hb : ∀ b ∈ fp, b < 256) :
    fp = vals.flatMap (le_bytes width) ++ rest ∧ vals.length = num ∧
      (∀ x ∈ vals, x < 256 ^ width) ∧ ∀ b ∈ rest, b < 256 := by
  unfold fget_multiple at h
  by_cases hlen : fp.length < width * num
  · rw [if_pos hlen] at h; cases h
  · rw [if_neg hlen] at h
    simp only [Except.ok.injEq, Prod.mk.injEq] at h
    obtain ⟨rfl, rfl⟩ := h
    obtain ⟨i1, i2, i3⟩ := le_values_inv width num fp (by omega) hb
    exact ⟨i1, i2, i3, fun b hb' => hb b (List.mem_of_mem_drop hb')⟩

end file_util

namespace ProductQuantizer4Bits

/-- The stream that `save` writes: the two scalars, then the three length-prefixed blocks in
the order `global_centroid`, `original_local_codebooks`, `local_codebooks`. -/
theorem save_eq (pq : Quantizer Nat) (fp : List Nat) :
    save pq fp = fp ++ (file_util.le_bytes 4 pq.num_local_codebooks
      ++ file_util.le_bytes 4 pq.local_dimension
      ++ length_prefixed pq.global_centroid
      ++ length_prefixed pq.original_local_codebooks
      ++ length_prefixed pq.local_codebooks) := by
  have hif : ∀ (v fp : List Nat), (if v.length ≠ 0 then file_util.fput_multiple 4 v fp else fp)
      = fp ++ v.flatMap (file_util.le_bytes 4) := by
    intro v fp
    split_ifs with h
    · rfl
    · have : v = [] := List.length_eq_zero.1 (not_not.1 h)
      subst this
      simp
  unfold save
  simp only [hif]
  simp only [file_util.fput_multiple, length_prefixed, List.flatMap_cons, List.flatMap_nil,
    List.append_nil, List.append_assoc]

theorem load_block_prefixed (v rest : List Nat) (hlen : v.length < 2 ^ 64)
    (hv : ∀ x ∈ v, x < 2 ^ 32) : load_block (length_prefixed v ++ rest) = .ok (v, rest) := by
  unfold load_block length_prefixed
  have h1 := file_util.fget_multiple_fput 8 [v.length]
    (v.flatMap (file_util.le_bytes 4) ++ rest)
    (fun x hx => by
      rw [List.mem_singleton] at hx
      subst hx
      exact lt_of_lt_of_le hlen (by norm_num))
  simp only [List.flatMap_cons, List.flatMap_nil, List.append_nil, List.length_singleton] at h1
  rw [List.append_assoc, h1]
  simp only [Except.bind, bind, List.headD_cons]
  by_cases h0 : v.length ≠ 0
  · rw [if_pos h0]
    exact file_util.fget_multiple_fput 4 v rest
      (fun x hx => lt_of_lt_of_le (hv x hx) (by norm_num))
  · rw [if_neg h0]
    have : v = [] := List.length_eq_zero.1 (not_not.1 h0)
    subst this
    rfl

/-- Loading what `save` has written gives the quantizer back and leaves the rest of the
stream. -/
theorem load_save (pq : Quantizer Nat) (rest : List Nat) (h : in_range pq) :
    load (save pq [] ++ rest) = .ok (pq, rest) := by
  obtain ⟨h1, h2, ⟨h3, h3'⟩, ⟨h4, h4'⟩, ⟨h5, h5'⟩⟩ := h
  rw [save_eq, List.nil_append]
  unfold load
  have e1 := file_util.fget_multiple_fput 4 [pq.num_local_codebooks]
    (file_util.le_bytes 4 pq.local_dimension ++ (length_prefixed pq.global_centroid
      ++ (length_prefixed pq.original_local_codebooks
      ++ (length_prefixed pq.local_codebooks ++ rest))))
    (fun x hx => by
      rw [List.mem_singleton] at hx; subst hx; exact lt_of_lt_of_le h1 (by norm_num))
  have e2 := file_util.fget_multiple_fput 4 [pq.local_dimension]
    (length_prefixed pq.global_centroid ++ (length_prefixed pq.original_local_codebooks
      ++ (length_prefixed pq.local_codebooks ++ rest)))
    (fun x hx => by
      rw [List.mem_singleton] at hx; subst hx; exact lt_of_lt_of_le h2 (by norm_num))
  simp only [List.flatMap_cons, List.flatMap_nil, List.append_nil, List.length_singleton]
    at e1 e2
  simp only [List.append_assoc]
  rw [e1]
  simp only [Except.bind, bind]
  rw [e2]
  simp only [load_block_prefixed _ _ h3 h3', load_block_prefixed _ _ h4 h4',
    load_block_prefixed _ _ h5 h5', List.headD_cons]
  rfl

theorem load_block_ok (fp v rest : List Nat) (h : load_block fp = .ok (v, rest))
    (hb : ∀ b ∈ fp, b < 256) :
    fp = length_prefixed v ++ rest ∧ (v.length < 2 ^ 64 ∧ ∀ x ∈ v, x < 2 ^ 32) ∧
      ∀ b ∈ rest, b < 256 := by
  unfold load_block at h
  cases h1 : file_util.fget_multiple 8 1 fp with
  | error e => rw [h1] at h; cases h
  | ok r =>
    obtain ⟨sz, fp1⟩ := r
    rw [h1] at h
    simp only [Except.bind, bind] at h
    obtain ⟨a1, a2, a3, a4⟩ := file_util.fget_multiple_ok 8 1 fp sz fp1 h1 hb
    obtain ⟨s, rfl⟩ : ∃ s, sz = [s] := by
      match sz, a2 with
      | [s], _ => exact ⟨s, rfl⟩
    simp only [List.headD_cons] at h
    have hs : s < 2 ^ 64 := lt_of_lt_of_le (a3 s (List.mem_singleton_self _)) (by norm_num)
    simp only [List.flatMap_cons, List.flatMap_nil, List.append_nil] at a1
    by_cases h0 : s ≠ 0
    · rw [if_pos h0] at h
      obtain ⟨b1, b2, b3, b4⟩ := file_util.fget_multiple_ok 4 s fp1 v rest h a4
      refine ⟨?_, ⟨by rw [b2]; exact hs, fun x hx => lt_of_lt_of_le (b3 x hx) (by norm_num)⟩, b4⟩
      unfold length_prefixed
      rw [b2, List.append_assoc, ← b1]
      exact a1
    · rw [if_neg h0] at h
      simp only [pure, Except.pure, Except.ok.injEq, Prod.mk.injEq] at h
      obtain ⟨rfl, rfl⟩ := h
      have : s = 0 := not_not.1 h0
      subst this
      refine ⟨?_, ⟨by simp, fun x hx => by cases hx⟩, a4⟩
      unfold length_prefixed
      simp only [List.length_nil, List.flatMap_nil, List.append_nil]
      exact a1

/-- A stream of bytes that `load` accepts is what `save` writes for the quantizer read,
followed by the rest that `load` leaves. -/
theorem load_ok (fp : List Nat) (pq : Quantizer Nat) (rest : List Nat)
    (h : load fp = .ok (pq, rest)) (hb : ∀ b ∈ fp, b < 256) :
    fp = save pq [] ++ rest ∧ in_range pq := by
  unfold load at h
  cases h1 : file_util.fget_multiple 4 1 fp with
  | error e => rw [h1] at h; cases h
  | ok r1 =>
    obtain ⟨v1, fp1⟩ := r1
    rw [h1] at h
    simp only [Except.bind, bind] at h
    obtain ⟨a1, a2, a3, a4⟩ := file_util.fget_multiple_ok 4 1 fp v1 fp1 h1 hb
    cases h2 : file_util.fget_multiple 4 1 fp1 with
    | error e => rw [h2] at h; cases h
    | ok r2 =>
      obtain ⟨v2, fp2⟩ := r2
      rw [h2] at h
      simp only at h
      obtain ⟨b1, b2, b3, b4⟩ := file_util.fget_multiple_ok 4 1 fp1 v2 fp2 h2 a4
      cases h3 : load_block fp2 with
      | error e => rw [h3] at h; cases h
      | ok r3 =>
        obtain ⟨gc, fp3⟩ := r3
        rw [h3] at h
        simp only at h
        obtain ⟨c1, c2, c3⟩ := load_block_ok fp2 gc fp3 h3 b4
        cases h4 : load_block fp3 with
        | error e => rw [h4] at h; cases h
        | ok r4 =>
          obtain ⟨orig, fp4⟩ := r4
          rw [h4] at h
          simp only at h
          obtain ⟨d1, d2, d3⟩ := load_block_ok fp3 orig fp4 h4 c3
          cases h5 : load_block fp4 with
          | error e => rw [h5] at h; cases h
          | ok r5 =>
            obtain ⟨lc, fp5⟩ := r5
            rw [h5] at h
            simp only [pure, Except.pure, Except.ok.injEq, Prod.mk.injEq] at h
            obtain ⟨rfl, rfl⟩ := h
            obtain ⟨e1, e2, _⟩ := load_block_ok fp4 lc fp5 h5 d3
            obtain ⟨s1, rfl⟩ : ∃ s, v1 = [s] := by
              match v1, a2 with
              | [s], _ => exact ⟨s, rfl⟩
            obtain ⟨s2, rfl⟩ : ∃ s, v2 = [s] := by
              match v2, b2 with
              | [s], _ => exact ⟨s, rfl⟩
            simp only [List.flatMap_cons, List.flatMap_nil, List.append_nil] at a1 b1
            refine ⟨?_, ⟨lt_of_lt_of_le (a3 s1 (List.mem_singleton_self _)) (by norm_num),
              lt_of_lt_of_le (b3 s2 (List.mem_singleton_self _)) (by norm_num), c2, d2, e2⟩⟩
            rw [save_eq, List.nil_append]
            simp only [List.headD_cons, List.append_assoc]
            rw [← e1, ← d1, ← c1, ← b1]
            exact a1

theorem flatMap_le_bytes_lt (width : Nat) (v : List Nat) :
    ∀ b ∈ v.flatMap (file_util.le_bytes width), b < 256 := by
  intro b hb
  obtain ⟨x, _, hx⟩ := List.mem_flatMap.1 hb
  exact file_util.le_bytes_lt width x b hx

theorem save_bytes (pq : Quantizer Nat) : ∀ b ∈ save pq [], b < 256 := by
  intro b hb
  rw [save_eq, List.nil_append] at hb
  unfold length_prefixed at hb
  simp only [List.mem_append] at hb
  rcases hb with (((h | h) | h | h) | h | h) | h | h
  · exact file_util.le_bytes_lt _ _ b h
  · exact file_util.le_bytes_lt _ _ b h
  · exact file_util.le_bytes_lt _ _ b h
  · exact flatMap_le_bytes_lt _ _ b h
  · exact file_util.le_bytes_lt _ _ b h
  · exact flatMap_le_bytes_lt _ _ b h
  · exact file_util.le_bytes_lt _ _ b h
  · exact flatMap_le_bytes_lt _ _ b h

/-- A stream that stops before the end of what `save` has written is refused. -/
theorem load_truncated (pq : Quantizer Nat) (h : in_range pq) (k : Nat)
    (hk : k < (save pq []).length) : ∃ e, load ((save pq []).take k) = .error e := by
  cases hl : load ((save pq []).take k) with
  | error e => exact ⟨e, rfl⟩
  | ok r =>
    exfalso
    obtain ⟨q, rest⟩ := r
    obtain ⟨e1, e2⟩ := load_ok _ q rest hl
      (fun b hb => save_bytes pq b (List.mem_of_mem_take hb))
    have hs : save pq [] = save q [] ++ (rest ++ (save pq []).drop k) := by
      rw [← List.append_assoc, ← e1, List.take_append_drop]
    have h1 := load_save q (rest ++ (save pq []).drop k) e2
    rw [← hs] at h1
    have h2 := load_save pq [] h
    rw [List.append_nil] at h2
    rw [h2] at h1
    simp only [Except.ok.injEq, Prod.mk.injEq] at h1
    have h3 : (save pq []).drop k = [] := (List.append_eq_nil.1 h1.2.symm).2
    have := List.drop_eq_nil_iff.1 h3
    omega

/-- C17. For every quantizer state (each scalar and `float` by its bit pattern), `save` writes
`num_local_codebooks`, `local_dimension`, then the three length-prefixed blocks in the order
`global_centroid`, `original_local_codebooks`, `local_codebooks`; and `load` on this stream
restores the five fields exactly and consumes exactly the bytes that `save` wrote. -/
theorem save_load_round_trip (pq : Quantizer Nat) (fp rest : List Nat) (h : in_range pq) :
    save pq fp = fp ++ (file_util.le_bytes 4 pq.num_local_codebooks
      ++ file_util.le_bytes 4 pq.local_dimension
      ++ (file_util.le_bytes 8 pq.global_centroid.length
        ++ pq.global_centroid.flatMap (file_util.le_bytes 4))
      ++ (file_util.le_bytes 8 pq.original_local_codebooks.length
        ++ pq.original_local_codebooks.flatMap (file_util.le_bytes 4))
      ++ (file_util.le_bytes 8 pq.local_codebooks.length
        ++ pq.local_codebooks.flatMap (file_util.le_bytes 4))) ∧
    load (save pq [] ++ rest) = .ok (pq, rest) :=
  ⟨save_eq pq fp, load_save pq rest h⟩

theorem save_load_round_trip_witness :
    in_range ⟨1, 2, [3], [4, 5], [6]⟩ ∧
    save ⟨1, 2, [3], [4, 5], [6]⟩ [] = [1, 0, 0, 0, 2, 0, 0, 0, 1, 0, 0, 0, 0, 0, 0, 0,
      3, 0, 0, 0, 1, 0, 0, 0, 0, 0, 0, 0, 6, 0, 0, 0, 2, 0, 0, 0, 0, 0, 0, 0, 4, 0, 0, 0,
      5, 0, 0, 0] ∧
    load (save ⟨1, 2, [3], [4, 5], [6]⟩ [] ++ [9]) = .ok (⟨1, 2, [3], [4, 5], [6]⟩, [9]) :=
  ⟨by simp [in_range], by decide,
    (save_load_round_trip ⟨1, 2, [3], [4, 5], [6]⟩ [] [9] (by simp [in_range])).2⟩

/-- C20, counterexample. A stream whose header says one sub-codebook of dimension one, with a
`global_centroid` of two values, two empty codebook blocks and one byte more after the third
block: `load` accepts it and leaves the byte unread. -/
theorem load_validates_counterexample :
    ∃ pq rest, load [1, 0, 0, 0, 1, 0, 0, 0, 2, 0, 0, 0, 0, 0, 0, 0, 7, 0, 0, 0, 8, 0, 0, 0,
        0, 0, 0, 0, 0, 0, 0, 0, 0, 0, 0, 0, 0, 0, 0, 0, 9] = .ok (pq, rest) ∧
      pq.global_centroid.length ≠ pq.num_local_codebooks * pq.local_dimension ∧
      pq.original_local_codebooks.length ≠ pq.num_local_codebooks * 16 * pq.local_dimension ∧
      pq.local_codebooks.length ≠ pq.num_local_codebooks * 16 * pq.local_dimension ∧
      rest = [9] :=
  ⟨⟨1, 1, [7, 8], [], []⟩, [9], rfl, by decide, by decide, by decide, rfl⟩

/-- C20, amended. `load` checks no length prefix against the header and does not look past
the third block: it accepts every stream that holds the two scalars and three blocks, each
with as many values as its own prefix announces, whatever these lengths and whatever follows;
a stream of bytes that it accepts has this form; and it raises an error on every stream that
stops before the end of what `save` has written. -/
theorem load_accepts_consistent_blocks :
    (∀ (pq : Quantizer Nat) (rest : List Nat), in_range pq →
      load (save pq [] ++ rest) = .ok (pq, rest)) ∧
    (∀ (fp : List Nat) (pq : Quantizer Nat) (rest : List Nat), (∀ b ∈ fp, b < 256) →
      load fp = .ok (pq, rest) → fp = save pq [] ++ rest) ∧
    (∀ (pq : Quantizer Nat) (k : Nat), in_range pq → k < (save pq []).length →
      ∃ e, load ((save pq []).take k) = .error e) :=
  ⟨fun pq rest h => load_save pq rest h,
    fun fp pq rest hb h => (load_ok fp pq rest h hb).1,
    fun pq k h hk => load_truncated pq h k hk⟩

theorem load_accepts_consistent_blocks_witness :
    in_range ⟨1, 1, [7, 8], [], []⟩ ∧
    load (save ⟨1, 1, [7, 8], [], []⟩ [] ++ [9]) = .ok (⟨1, 1, [7, 8], [], []⟩, [9]) ∧
    ∃ e, load ((save ⟨1, 1, [7, 8], [], []⟩ []).take 39) = .error e :=
  ⟨by simp [in_range],
    load_accepts_consistent_blocks.1 ⟨1, 1, [7, 8], [], []⟩ [9] (by simp [in_range]),
    load_accepts_consistent_blocks.2.2 ⟨1, 1, [7, 8], [], []⟩ 39 (by simp [in_range])
      (by decide)⟩

end ProductQuantizer4Bits
namespace HNSW

theorem read_scalar_put (x : Nat) (rest : List Nat) (hx : x < 2 ^ 32) :
    read_scalar (file_util.le_bytes 4 x ++ rest) = .ok (x, rest) := by
  unfold read_scalar
  have h := file_util.fget_multiple_fput 4 [x] rest (fun y hy => by
    rw [List.mem_singleton] at hy; subst hy; exact lt_of_lt_of_le hx (by norm_num))
  simp only [List.flatMap_cons, List.flatMap_nil, List.append_nil, List.length_singleton] at h
  rw [h]
  rfl

/-- The bytes of `index.bin` that `save` writes: the six scalars in the order `num_node`,
`maxM`, `maxM0`, `efC`, `max_level`, `init_node`, four bytes each, then the level-0 graph, then
the upper-level graph. -/
theorem save_index {G0 G1 : Type} (hnsw_t_cur : String) (c0 : GraphCodec G0)
    (c1 : GraphCodec G1) (self : Stored G0 G1) :
    (save hnsw_t_cur c0 c1 self).index
      = file_util.le_bytes 4 self.num_node ++ (file_util.le_bytes 4 self.maxM
        ++ (file_util.le_bytes 4 self.maxM0 ++ (file_util.le_bytes 4 self.efC
        ++ (file_util.le_bytes 4 self.max_level ++ (file_util.le_bytes 4 self.init_node
        ++ (c0.save self.graph_l0 ++ c1.save self.graph_l1)))))) := by
  simp only [save, file_util.fput_multiple, List.flatMap_cons, List.flatMap_nil,
    List.append_nil, List.nil_append, List.append_assoc]

theorem load_config_save_config {G0 G1 : Type} (hnsw_t_cur : String) (self : Stored G0 G1) :
    load_config hnsw_t_cur (.json (save_config hnsw_t_cur self))
      = .ok (save_config hnsw_t_cur self) ∧
    (save_config hnsw_t_cur self).find "version" = some (.string "v1.0") ∧
    (save_config hnsw_t_cur self).find "hnsw_t" = some (.string hnsw_t_cur) := by
  refine ⟨?_, rfl, rfl⟩
  simp only [load_config, save_config, Json.subscript, List.lookup, Json.get_string]
  simp

/-- Loading what `save` has written gets past the configuration and reads the six scalars
back, whatever the graphs do. -/
theorem load_save_scalars {G0 G1 : Type} (hnsw_t_cur : String) (c0 : GraphCodec G0)
    (c1 : GraphCodec G1) (self other : Stored G0 G1)
    (h1 : self.num_node < 2 ^ 32) (h2 : self.maxM < 2 ^ 32) (h3 : self.maxM0 < 2 ^ 32)
    (h4 : self.efC < 2 ^ 32) (h5 : self.max_level < 2 ^ 32) (h6 : self.init_node < 2 ^ 32) :
    load hnsw_t_cur c0 c1 other (save hnsw_t_cur c0 c1 self)
      = match c0.load other.graph_l0 (c0.save self.graph_l0 ++ c1.save self.graph_l1) with
        | .error (e, g) => .error (e, { self with graph_l0 := g, graph_l1 := other.graph_l1 })
        | .ok (g, fp) =>
          match c1.load other.graph_l1 fp with
          | .error (e, g1) => .error (e, { self with graph_l0 := g, graph_l1 := g1 })
          | .ok (g1, _) => .ok { self with graph_l0 := g, graph_l1 := g1 } := by
  unfold load
  rw [save_index]
  have hc : (save hnsw_t_cur c0 c1 self).config = .json (save_config hnsw_t_cur self) := rfl
  rw [hc, (load_config_save_config hnsw_t_cur self).1]
  simp only [(load_config_save_config hnsw_t_cur self).2.1, Json.get_string, if_true,
    read_scalar_put _ _ h1, read_scalar_put _ _ h2, read_scalar_put _ _ h3,
    read_scalar_put _ _ h4, read_scalar_put _ _ h5, read_scalar_put _ _ h6]

/-- C18. `save` writes the six scalars in the order `num_node`, `maxM`, `maxM0`, `efC`,
`max_level`, `init_node`, each as one 32-bit unsigned integer, followed by the level-0 graph and
then the upper-level graph; its configuration carries version "v1.0" and the tag of the index,
so `load_config` accepts it; and `load` reads the same fields in the same order: whether the
graphs load or fail, the six scalars of the loading index are then the saved ones, and when
the graphs load back what they save, `load` returns the saved index. -/
theorem save_load_header {G0 G1 : Type} (hnsw_t_cur : String) (c0 : GraphCodec G0)
    (c1 : GraphCodec G1) (self other : Stored G0 G1)
    (h1 : self.num_node < 2 ^ 32) (h2 : self.maxM < 2 ^ 32) (h3 : self.maxM0 < 2 ^ 32)
    (h4 : self.efC < 2 ^ 32) (h5 : self.max_level < 2 ^ 32) (h6 : self.init_node < 2 ^ 32) :
    (save hnsw_t_cur c0 c1 self).index
      = file_util.le_bytes 4 self.num_node ++ (file_util.le_bytes 4 self.maxM
        ++ (file_util.le_bytes 4 self.maxM0 ++ (file_util.le_bytes 4 self.efC
        ++ (file_util.le_bytes 4 self.max_level ++ (file_util.le_bytes 4 self.init_node
        ++ (c0.save self.graph_l0 ++ c1.save self.graph_l1)))))) ∧
    (∃ j, (save hnsw_t_cur c0 c1 self).config = .json j ∧
      j.find "version" = some (.string "v1.0") ∧ j.find "hnsw_t" = some (.string hnsw_t_cur) ∧
      load_config hnsw_t_cur (.json j) = .ok j) ∧
    (∀ r, load hnsw_t_cur c0 c1 other (save hnsw_t_cur c0 c1 self) = .ok r →
      same_scalars r self) ∧
    (∀ e r, load hnsw_t_cur c0 c1 other (save hnsw_t_cur c0 c1 self) = .error (e, r) →
      same_scalars r self) ∧
    ((∀ g g' rest, c0.load g' (c0.save g ++ rest) = .ok (g, rest)) →
      (∀ g g' rest, c1.load g' (c1.save g ++ rest) = .ok (g, rest)) →
      load hnsw_t_cur c0 c1 other (save hnsw_t_cur c0 c1 self) = .ok self) := by
  have key := load_save_scalars hnsw_t_cur c0 c1 self other h1 h2 h3 h4 h5 h6
  refine ⟨save_index hnsw_t_cur c0 c1 self,
    ⟨_, rfl, (load_config_save_config hnsw_t_cur self).2.1,
      (load_config_save_config hnsw_t_cur self).2.2,
      (load_config_save_config hnsw_t_cur self).1⟩, ?_, ?_, ?_⟩
  · intro r hr
    rw [key] at hr
    revert hr
    split
    · intro hr; cases hr
    · split
      · intro hr; cases hr
      · intro hr
        simp only [Except.ok.injEq] at hr
        subst hr
        exact ⟨rfl, rfl, rfl, rfl, rfl, rfl⟩
  · intro e r hr
    rw [key] at hr
    revert hr
    split
    · intro hr
      simp only [Except.error.injEq, Prod.mk.injEq] at hr
      obtain ⟨_, rfl⟩ := hr
      exact ⟨rfl, rfl, rfl, rfl, rfl, rfl⟩
    · split
      · intro hr
        simp only [Except.error.injEq, Prod.mk.injEq] at hr
        obtain ⟨_, rfl⟩ := hr
        exact ⟨rfl, rfl, rfl, rfl, rfl, rfl⟩
      · intro hr; cases hr
  · intro hc0 hc1
    rw [key, hc0]
    simp only
    have := hc1 self.graph_l1 other.graph_l1 []
    rw [List.append_nil] at this
    rw [this]

theorem save_load_header_witness :
    (save "HNSW" empty_codec empty_codec ⟨5, 16, 32, 200, 2, 3, (), ()⟩).index
      = [5, 0, 0, 0, 16, 0, 0, 0, 32, 0, 0, 0, 200, 0, 0, 0, 2, 0, 0, 0, 3, 0, 0, 0] ∧
    load "HNSW" empty_codec empty_codec ⟨0, 0, 0, 0, 0, 0, (), ()⟩
        (save "HNSW" empty_codec empty_codec ⟨5, 16, 32, 200, 2, 3, (), ()⟩)
      = .ok ⟨5, 16, 32, 200, 2, 3, (), ()⟩ :=
  ⟨by decide,
    (save_load_header "HNSW" empty_codec empty_codec ⟨5, 16, 32, 200, 2, 3, (), ()⟩
      ⟨0, 0, 0, 0, 0, 0, (), ()⟩ (by decide) (by decide) (by decide) (by decide) (by decide)
      (by decide)).2.2.2.2 (fun _ _ _ => rfl) (fun _ _ _ => rfl)⟩

theorem load_config_json (hnsw_t_cur : String) (j c : Json)
    (h : load_config hnsw_t_cur (.json j) = .ok c) : c = j := by
  unfold load_config at h
  simp only at h
  revert h
  split
  · intro h; cases h
  · split
    · intro h; cases h
    · split_ifs
      · intro h; cases h
      · intro h
        simp only [Except.ok.injEq] at h
        exact h.symm

/-- C19. `load` raises an error whenever the `hnsw_t` of the configuration differs from the
tag of the loading index, or the configuration has no version, or a version other than "v1.0";
the index is then as it was before the call: none of `num_node`, `maxM`, `maxM0`, `efC`,
`max_level`, `init_node` or the two graphs has been modified. -/
theorem load_rejects_config {G0 G1 : Type} (hnsw_t_cur : String) (c0 : GraphCodec G0)
    (c1 : GraphCodec G1) (self : Stored G0 G1) (model_dir : ModelDir) (j : Json)
    (hj : model_dir.config = .json j) :
    (∀ t, j.find "hnsw_t" = some (.string t) → t ≠ hnsw_t_cur →
      ∃ e, load hnsw_t_cur c0 c1 self model_dir = .error (e, self)) ∧
    (j.find "version" = none → ∃ e, load hnsw_t_cur c0 c1 self model_dir = .error (e, self)) ∧
    (∀ v, j.find "version" = some (.string v) → v ≠ "v1.0" →
      ∃ e, load hnsw_t_cur c0 c1 self model_dir = .error (e, self)) := by
  refine ⟨fun t ht hne => ?_, fun hv => ?_, fun v hv hne => ?_⟩
  · have hl : load_config hnsw_t_cur (.json j) = .error "Inconsistent HNSW_T" := by
      cases j with
      | object members =>
        simp only [Json.find] at ht
        simp only [load_config, Json.subscript, ht, Option.getD_some, Json.get_string]
        rw [if_pos (fun h => hne h.symm)]
      | null => cases ht
      | string s => cases ht
      | number n => cases ht
    unfold load
    rw [hj, hl]
    exact ⟨_, rfl⟩
  · unfold load
    rw [hj]
    cases hl : load_config hnsw_t_cur (.json j) with
    | error e => exact ⟨_, rfl⟩
    | ok c =>
      have := load_config_json hnsw_t_cur j c hl
      subst this
      simp only [hv]
      rw [if_neg (by decide)]
      exact ⟨_, rfl⟩
  · unfold load
    rw [hj]
    cases hl : load_config hnsw_t_cur (.json j) with
    | error e => exact ⟨_, rfl⟩
    | ok c =>
      have := load_config_json hnsw_t_cur j c hl
      subst this
      simp only [hv, Json.get_string]
      rw [if_neg hne]
      exact ⟨_, rfl⟩

theorem load_rejects_config_witness :
    ∃ e, load "HNSW" empty_codec empty_codec ⟨5, 16, 32, 200, 2, 3, (), ()⟩
        ⟨.json (.object [("hnsw_t", .string "HNSW"), ("version", .string "v2.0")]),
          [9, 0, 0, 0]⟩
      = .error (e, ⟨5, 16, 32, 200, 2, 3, (), ()⟩) :=
  (load_rejects_config "HNSW" empty_codec empty_codec ⟨5, 16, 32, 200, 2, 3, (), ()⟩
    ⟨.json (.object [("hnsw_t", .string "HNSW"), ("version", .string "v2.0")]), [9, 0, 0, 0]⟩
    _ rfl).2.2 "v2.0" rfl (by decide)

end HNSW

namespace HNSW
section
set_option linter.unusedSectionVars false
variable {D : Type} [LinearOrder D]

/-- C29. For every graph, query, start node, level and `efS ≥ 1`, the result heap that
`search_level` returns is non-empty, holds at most `efS` entries, and each entry `(d, n)` has
`d = distance(query, n)`; and the call does return when the neighbor ids of the level and the
start node are below `n`, once the loop may run `n + 1` times. -/
theorem search_level_result (qd : Nat → D) (g : Graph) (init_node efS level fuel : Nat)
    (hefS : 1 ≤ efS) :
    (∀ r, search_level qd g init_node efS level fuel = .ok r →
      r ≠ [] ∧ r.length ≤ efS ∧ ∀ p ∈ r, p.dist = qd p.node_id) ∧
    (∀ n, (∀ y x, x ∈ g level y → x < n) → init_node < n → n < fuel →
      ∃ r, search_level qd g init_node efS level fuel = .ok r) := by
  refine ⟨?_, fun n hnb hinit hf => search_level_terminates qd efS hnb hinit hf⟩
  intro r hr
  obtain ⟨s, hs, rfl⟩ := search_level_inv hr
  refine ⟨hs.topk_ne, ?_, hs.topk_dist⟩
  have := hs.topk_len
  rwa [max_eq_left hefS] at this

theorem search_level_result_witness :
    1 ≤ 2 ∧ search_level example_qd example_index.graph 0 2 0 4 = .ok [⟨4, 0⟩, ⟨1, 1⟩] ∧
    ([⟨4, 0⟩, ⟨1, 1⟩] : List (Pair Nat)) ≠ [] ∧
    ([⟨4, 0⟩, ⟨1, 1⟩] : List (Pair Nat)).length ≤ 2 ∧
    ∀ p ∈ ([⟨4, 0⟩, ⟨1, 1⟩] : List (Pair Nat)), p.dist = example_qd p.node_id :=
  ⟨by decide, rfl,
    (search_level_result example_qd example_index.graph 0 2 0 4 (by decide)).1 _ rfl⟩

end
end HNSW

namespace HNSW
section
set_option linter.unusedSectionVars false
variable {D : Type} [LinearOrder D]

theorem greedy_level_spec (qd : Nat → D) (nb : Nat → List Nat) :
    ∀ (fuel : Nat) (st r : Nat × D), st.2 = qd st.1 → greedy_level qd nb fuel st = .ok r →
      r.2 = qd r.1 ∧ qd r.1 ≤ qd st.1 ∧ ∀ x ∈ nb r.1, ¬ qd x < qd r.1 := by
  intro fuel
  induction fuel with
  | zero => intro st r _ h; obtain ⟨n, d⟩ := st; simp [greedy_level] at h
  | succ fuel ih =>
    intro st r hst h
    obtain ⟨n, d⟩ := st
    simp only at hst
    unfold greedy_level at h
    dsimp only at h
    rcases scan_neighbors_cases qd (nb n) (n, d, false) with hc | ⟨hch, hlt, heq, _⟩
    · rw [hc] at h
      simp only [Bool.false_eq_true, if_false] at h
      cases h
      refine ⟨hst, le_refl _, ?_⟩
      intro x hx
      have := scan_neighbors_no_closer qd (nb n) (n, d, false) x hx
      rw [hc] at this
      simp only at this
      rwa [hst] at this
    · rw [if_pos hch] at h
      obtain ⟨h1, h2, h3⟩ := ih _ r heq h
      refine ⟨h1, le_trans h2 ?_, h3⟩
      simp only at hlt ⊢
      rw [← heq, ← hst]
      exact le_of_lt hlt

theorem greedy_descent_spec (qd : Nat → D) (g : Graph) (fuel lo : Nat) :
    ∀ (count n0 : Nat) (r : Nat × D),
      greedy_descent qd g fuel lo count (n0, qd n0) = .ok r →
      ∃ c : Nat → Nat, c (lo + count + 1) = n0 ∧ r = (c (lo + 1), qd (c (lo + 1))) ∧
        ∀ l, lo < l → l ≤ lo + count →
          qd (c l) ≤ qd (c (l + 1)) ∧ ∀ x ∈ g l (c l), ¬ qd x < qd (c l) := by
  intro count
  induction count with
  | zero =>
    intro n0 r h
    simp only [greedy_descent] at h
    cases h
    exact ⟨fun _ => n0, rfl, rfl, fun l h1 h2 => absurd h1 (by omega)⟩
  | succ count ih =>
    intro n0 r h
    unfold greedy_descent at h
    split at h
    · rename_i st1 hst1
      obtain ⟨e1, e2, e3⟩ := greedy_level_spec qd _ fuel (n0, qd n0) st1 rfl hst1
      obtain ⟨n1, d1⟩ := st1
      simp only at e1 e2 e3
      subst e1
      obtain ⟨c, hc0, hr, hc⟩ := ih n1 r h
      refine ⟨fun l => if l = lo + count + 2 then n0 else c l, ?_, ?_, ?_⟩
      · simp only [if_pos (show lo + (count + 1) + 1 = lo + count + 2 by omega)]
      · dsimp only
        rw [if_neg (show lo + 1 ≠ lo + count + 2 by omega)]
        exact hr
      · intro l hl1 hl2
        dsimp only
        rw [if_neg (show l ≠ lo + count + 2 by omega)]
        by_cases hl : l = lo + count + 1
        · subst hl
          rw [if_pos rfl, hc0]
          exact ⟨e2, e3⟩
        · rw [if_neg (show l + 1 ≠ lo + count + 2 by omega)]
          exact hc l hl1 (by omega)
    · cases h

/-- C30. In the greedy descent of `predict_single` and of `add_point`, no step increases the
distance from the query to the current node, and there is a current node `c l` on leaving each
level `l` of the descent (with `c (max_level + 1)` the entry point) such that `c l` is at most
as far as `c (l + 1)` and no neighbor of `c l` at level `l` is strictly closer to the query;
`predict_single` hands `c 1` to the level-0 search, `add_point` hands the node after level
`query_level + 1` to the search of the level below. On a well-formed index `predict_single`
does return, once the loops may run `num_node + 1` times. -/
theorem greedy_descent_monotone (qd : Nat → D) (dist : Nat → Nat → D) (h : Index) :
    (∀ (neighbors : List Nat) (st : Nat × D × Bool),
      (scan_neighbors qd neighbors st).2.1 ≤ st.2.1) ∧
    (∀ (efS topk fuel : Nat) (r : List (Pair D)), predict_single qd h efS topk fuel = .ok r →
      ∃ c : Nat → Nat, c (h.max_level + 1) = h.init_node ∧
        (∀ l, 0 < l → l ≤ h.max_level →
          qd (c l) ≤ qd (c (l + 1)) ∧ ∀ x ∈ h.graph l (c l), ¬ qd x < qd (c l)) ∧
        ∃ q, search_level qd h.graph (c 1) (max efS topk) 0 fuel = .ok q ∧
          r = sort_heap (if topk < efS then pop_down_to topk q else q)) ∧
    (∀ (lv : Nat → Nat) (fuel q : Nat) (h' : Index), q ≠ 0 → lv q < h.max_level →
      add_point dist lv fuel h q = .ok h' →
      ∃ c : Nat → Nat, c (h.max_level + 1) = h.init_node ∧
        (∀ l, lv q < l → l ≤ h.max_level →
          dist q (c l) ≤ dist q (c (l + 1)) ∧
          ∀ x ∈ h.graph l (c l), ¬ dist q x < dist q (c l)) ∧
        ∃ r, connect_levels dist h.maxM h.maxM0 h.efC fuel q (lv q) h.graph (c (lv q + 1))
          = .ok r ∧ h'.graph = r.1) ∧
    (∀ (efS topk fuel : Nat), h.well_formed → h.num_node < fuel →
      ∃ r, predict_single qd h efS topk fuel = .ok r) := by
  refine ⟨scan_neighbors_le qd, ?_, ?_, fun efS topk fuel hwf hf =>
    predict_single_total efS topk hwf hf⟩
  · intro efS topk fuel r hr
    obtain ⟨st, q, hst, hq, rfl⟩ := predict_single_ok hr
    obtain ⟨c, hc0, hcr, hc⟩ := greedy_descent_spec qd h.graph fuel 0 h.max_level _ st hst
    rw [Nat.zero_add] at hc0 hcr
    refine ⟨c, hc0, ?_, q, ?_, rfl⟩
    · intro l hl1 hl2
      exact hc l hl1 (by omega)
    · rw [hcr] at hq
      exact hq
  · intro lv fuel q h' hq0 hlt hadd
    obtain ⟨_, _, _, _, hcase⟩ := add_point_ok hadd
    rcases hcase with ⟨hq, _⟩ | ⟨_, ⟨curr, r, hentry, hconn, hg⟩, _⟩
    · exact absurd hq hq0
    · rcases hentry with ⟨_, st, hst, hcurr⟩ | ⟨hn, _⟩
      · obtain ⟨c, hc0, hcr, hc⟩ := greedy_descent_spec (dist q) h.graph fuel (lv q)
          (h.max_level - lv q) _ st hst
        have e : lv q + (h.max_level - lv q) = h.max_level := by omega
        rw [e] at hc0 hc
        refine ⟨c, hc0, hc, r, ?_, hg⟩
        rw [hcurr, hcr, min_eq_left (le_of_lt hlt)] at hconn
        exact hconn
      · exact absurd hlt hn

theorem greedy_descent_monotone_witness :
    predict_single example_qd descent_index 3 2 4 = .ok [⟨1, 1⟩, ⟨4, 0⟩] ∧
    ∃ c : Nat → Nat, c (descent_index.max_level + 1) = descent_index.init_node ∧
      (∀ l, 0 < l → l ≤ descent_index.max_level →
        example_qd (c l) ≤ example_qd (c (l + 1)) ∧
        ∀ x ∈ descent_index.graph l (c l), ¬ example_qd x < example_qd (c l)) ∧
      ∃ q, search_level example_qd descent_index.graph (c 1) (max 3 2) 0 4 = .ok q ∧
        ([⟨1, 1⟩, ⟨4, 0⟩] : List (Pair Nat))
          = sort_heap (if 2 < 3 then pop_down_to 2 q else q) :=
  ⟨rfl, (greedy_descent_monotone example_qd example_dist descent_index).2.1 3 2 4 _ rfl⟩

end
end HNSW

namespace HNSW
section
set_option linter.unusedSectionVars false
variable {D : Type} [LinearOrder D]

theorem predict_single_sorted_nodup {qd : Nat → D} {h : Index} {efS topk fuel : Nat}
    {r : List (Pair D)} (hr : predict_single qd h efS topk fuel = .ok r) :
    r.Sorted Pair.le ∧ (r.map Pair.node_id).Nodup := by
  obtain ⟨st, q, _, hq, rfl⟩ := predict_single_ok hr
  obtain ⟨s, hs, rfl⟩ := search_level_inv hq
  have hsub : (if topk < efS then pop_down_to topk s.topk_queue else s.topk_queue).Sublist
      s.topk_queue := by
    split_ifs
    · exact (pop_down_to_suffix _ _).sublist
    · exact List.Sublist.refl _
  refine ⟨sort_heap_sorted (hs.topk_sorted.sublist hsub), ?_⟩
  unfold sort_heap
  rw [List.map_reverse, List.nodup_reverse]
  exact hs.topk_nodup.sublist (hsub.map _)

/-- C26. Whenever two pairs returned by `predict_single` have equal distance, the pair with the
smaller node id comes first in the returned sequence: of two returned pairs of equal distance,
the earlier one has the strictly smaller id. On a well-formed index the call does return, once
the loops may run `num_node + 1` times. -/
theorem predict_single_ties (qd : Nat → D) (h : Index) (efS topk fuel : Nat) :
    (∀ r, predict_single qd h efS topk fuel = .ok r →
      r.Pairwise (fun a b => a.dist = b.dist → a.node_id < b.node_id)) ∧
    (h.well_formed → h.num_node < fuel → ∃ r, predict_single qd h efS topk fuel = .ok r) := by
  refine ⟨?_, fun hwf hf => predict_single_total efS topk hwf hf⟩
  intro r hr
  obtain ⟨hs, hn⟩ := predict_single_sorted_nodup hr
  have hn2 : r.Pairwise (fun a b => a.node_id ≠ b.node_id) := by
    rw [List.Nodup, List.pairwise_map] at hn
    exact hn
  have hs2 : r.Pairwise Pair.le := hs
  refine (hs2.and hn2).imp ?_
  intro a b hab heq
  rcases hab.1 with hlt | ⟨_, hle⟩
  · exact absurd heq (ne_of_lt hlt)
  · exact lt_of_le_of_ne hle hab.2

theorem predict_single_ties_witness :
    predict_single tie_qd example_index 3 3 4 = .ok [⟨5, 0⟩, ⟨5, 1⟩, ⟨5, 2⟩] ∧
    List.Pairwise (fun a b : Pair Nat => a.dist = b.dist → a.node_id < b.node_id)
      [⟨5, 0⟩, ⟨5, 1⟩, ⟨5, 2⟩] :=
  ⟨rfl, (predict_single_ties tie_qd example_index 3 3 4).1 _ rfl⟩

theorem node2level_le (sampled : Nat → Nat) {ub : Int} (hub : 0 ≤ ub) (node_id : Nat) :
    ((node2level sampled ub node_id : Nat) : Int) ≤ ub := by
  unfold node2level
  rw [if_pos hub]
  have h1 : min (sampled node_id) ub.toNat ≤ ub.toNat := min_le_right _ _
  have h2 : ((ub.toNat : Nat) : Int) = ub := Int.toNat_of_nonneg hub
  omega

theorem add_points_max_level_le {dist : Nat → Nat → D} {lv : Nat → Nat} {fuel : Nat} (B : Nat)
    (hlv : ∀ i, lv i ≤ B) (count start : Nat) (h h' : Index) (h0 : h.max_level ≤ B)
    (hadd : add_points dist lv fuel count start h = .ok h') : h'.max_level ≤ B := by
  refine add_points_induct (fun _ h => h.max_level ≤ B) ?_ count start h h' h0 hadd
  intro q h1 h2 hI hq
  obtain ⟨_, _, _, _, hcase⟩ := add_point_ok hq
  rcases hcase with ⟨_, _, _, hm⟩ | ⟨_, _, hm⟩
  · rw [hm]; exact hlv 0
  · rcases hm with ⟨_, hm, _⟩ | ⟨_, hm, _⟩
    · rw [hm]; exact hlv q
    · rw [hm]; exact hI

/-- C25. For every `max_level_upper_bound ≥ 0` and every outcome `sampled` of the level
sampling, the level that `train` uses for each node is at most the bound, and `max_level` is at
most the bound after `train` returns; with a negative bound the levels used are the sampled
ones. In each case `train` uses the levels `node2level` (its build loop is the one over them),
and it does return on at least one row with `M ≥ 1`, once the loops may run `rows + 1` times. -/
theorem train_level_bound (dist : Nat → Nat → D) (rows M efC : Nat) (sampled : Nat → Nat)
    (ub : Int) (fuel : Nat) :
    (0 ≤ ub → (∀ i, ((node2level sampled ub i : Nat) : Int) ≤ ub) ∧
      ∀ idx, train dist rows M efC sampled ub fuel = .ok idx → (idx.max_level : Int) ≤ ub) ∧
    (ub < 0 → ∀ i, node2level sampled ub i = sampled i) ∧
    (∀ idx, train dist rows M efC sampled ub fuel = .ok idx →
      ∃ h1, add_points dist (node2level sampled ub) fuel rows 0
        ⟨rows, M, (2 * M) % 2 ^ 32, efC, 0, 0, fun _ _ => []⟩ = .ok h1 ∧
        idx.max_level = h1.max_level) ∧
    (0 < rows → 1 ≤ M → rows < fuel → ∃ idx, train dist rows M efC sampled ub fuel = .ok idx) := by
  refine ⟨?_, ?_, ?_, ?_⟩
  · intro hub
    refine ⟨node2level_le sampled hub, ?_⟩
    intro idx hidx
    obtain ⟨_, h1, hadd, rfl⟩ := train_ok hidx
    have hB := add_points_max_level_le ub.toNat (fun i => by
      have := node2level_le sampled hub i
      omega) rows 0 _ h1 (Nat.zero_le _) hadd
    show ((h1.max_level : Nat) : Int) ≤ ub
    have h2 : ((ub.toNat : Nat) : Int) = ub := Int.toNat_of_nonneg hub
    omega
  · intro hub i
    unfold node2level
    rw [if_neg (by omega)]
  · intro idx hidx
    obtain ⟨_, h1, hadd, rfl⟩ := train_ok hidx
    exact ⟨h1, hadd, rfl⟩
  · intro hrows hM hfuel
    obtain ⟨idx, hidx, _⟩ := train_returns dist rows M efC sampled ub fuel hrows hM hfuel
    exact ⟨idx, hidx⟩

theorem train_level_bound_witness :
    (0 : Int) ≤ 1 ∧
    (∃ idx, train example_dist 4 2 4 (fun i => [1, 0, 2, 0].getD i 0) 1 5 = .ok idx ∧
      idx.max_level = 1 ∧ (idx.max_level : Int) ≤ 1) ∧
    (∃ idx, train example_dist 4 2 4 (fun i => [1, 0, 2, 0].getD i 0) (-1) 5 = .ok idx ∧
      idx.max_level = 2) := by
  have h1 : (match train example_dist 4 2 4 (fun i => [1, 0, 2, 0].getD i 0) 1 5 with
    | .ok idx => idx.max_level | .error _ => 7) = 1 := rfl
  have h2 : (match train example_dist 4 2 4 (fun i => [1, 0, 2, 0].getD i 0) (-1) 5 with
    | .ok idx => idx.max_level | .error _ => 7) = 2 := rfl
  obtain ⟨idx1, e1⟩ := (train_level_bound example_dist 4 2 4 (fun i => [1, 0, 2, 0].getD i 0)
    1 5).2.2.2 (by decide) (by decide) (by decide)
  obtain ⟨idx2, e2⟩ := (train_level_bound example_dist 4 2 4 (fun i => [1, 0, 2, 0].getD i 0)
    (-1) 5).2.2.2 (by decide) (by decide) (by decide)
  rw [e1] at h1
  rw [e2] at h2
  exact ⟨by decide, ⟨idx1, e1, h1, ((train_level_bound example_dist 4 2 4
    (fun i => [1, 0, 2, 0].getD i 0) 1 5).1 (by decide)).2 idx1 e1⟩, ⟨idx2, e2, h2⟩⟩

end
end HNSW

namespace HNSW
section
set_option linter.unusedSectionVars false
variable {D : Type} [LinearOrder D]

theorem add_link_error {dist : Nat → Nat → D} {Mcurmax level : Nat} {g : Graph} {src dst : Nat}
    {e : Err} (h : add_link dist Mcurmax level g src dst = .error e) :
    e = .bad_neighbor_size ∨ e = .self_connect := by
  unfold add_link at h
  dsimp only at h
  split_ifs at h
  · cases h; exact Or.inl rfl
  · cases h; exact Or.inr rfl

theorem connect_selected_error {dist : Nat → Nat → D} {Mcurmax level q : Nat} :
    ∀ (sel : List Nat) (g : Graph) (e : Err),
      connect_selected dist Mcurmax level q sel g = .error e →
      e = .bad_neighbor_size ∨ e = .self_connect := by
  intro sel
  induction sel with
  | nil => intro g e h; simp [connect_selected] at h
  | cons dst rest ih =>
    intro g e h
    unfold connect_selected at h
    split at h
    · rename_i e1 he1
      cases h
      exact add_link_error he1
    · split at h
      · rename_i e2 he2
        cases h
        exact add_link_error he2
      · exact ih _ _ h

/-- C28. For every candidate heap and every `M`, the heap that `get_neighbors_heuristic` leaves
holds at most `M` entries, all of them entries of the input (counted with multiplicity); so
`mutually_connect` never raises "Should be not be more than M_ candidates returned by the
heuristic": the only exceptions it ends with are the two of `add_link`. -/
theorem get_neighbors_heuristic_bounded (dist : Nat → Nat → D) :
    (∀ (top_candidates : List (Pair D)) (M : Nat),
      (get_neighbors_heuristic dist top_candidates M).length ≤ M ∧
      (get_neighbors_heuristic dist top_candidates M).Subperm top_candidates ∧
      ∀ p ∈ get_neighbors_heuristic dist top_candidates M, p ∈ top_candidates) ∧
    (∀ (maxM maxM0 : Nat) (g : Graph) (src_node_id : Nat) (top_candidates : List (Pair D))
      (level : Nat),
      mutually_connect dist maxM maxM0 g src_node_id top_candidates level
        ≠ .error .too_many_candidates) := by
  constructor
  · intro top M
    refine ⟨get_neighbors_heuristic_length dist top M, ?_, fun p hp =>
      get_neighbors_heuristic_mem hp⟩
    obtain ⟨l, q, h1, h2, h3⟩ := get_neighbors_heuristic_subperm dist top M
    exact (h1.subperm.trans h2.subperm).trans h3.subperm
  · intro maxM maxM0 g q top level h
    unfold mutually_connect at h
    dsimp only at h
    rw [if_neg (not_lt.mpr (get_neighbors_heuristic_length dist top maxM))] at h
    split at h
    · rename_i e he
      cases h
      rcases connect_selected_error _ _ _ he with h1 | h1 <;> cases h1
    · split at h <;> cases h

theorem heuristic_loop_snoc (dist : Nat → Nat → D) (M : Nat) (c : Pair D) :
    ∀ (pre ret : List (Pair D)),
      heuristic_loop dist M (pre ++ [c]) ret =
        if (heuristic_loop dist M pre ret).length < M ∧
            ∀ s ∈ heuristic_loop dist M pre ret, c.dist ≤ dist s.node_id c.node_id then
          heuristic_loop dist M pre ret ++ [c]
        else heuristic_loop dist M pre ret := by
  intro pre
  induction pre with
  | nil =>
    intro ret
    have e0 : heuristic_loop dist M [] ret = ret := by unfold heuristic_loop; rfl
    have e1 : heuristic_loop dist M ([] ++ [c]) ret
        = if ret.length ≥ M then ret
          else if (!(ret.any (fun second_pair =>
              decide (dist second_pair.node_id c.node_id < c.dist)))) = true
            then ret ++ [c] else ret := by
      rw [List.nil_append]
      unfold heuristic_loop
      by_cases hlen : ret.length ≥ M
      · rw [if_pos hlen, if_pos hlen]
      · rw [if_neg hlen, if_neg hlen]
        dsimp only
        split_ifs <;> (unfold heuristic_loop; rfl)
    rw [e1, e0]
    by_cases hlen : ret.length ≥ M
    · rw [if_pos hlen, if_neg (fun hh => absurd hh.1 (not_lt.mpr hlen))]
    · rw [if_neg hlen]
      by_cases hgood : ∀ s ∈ ret, c.dist ≤ dist s.node_id c.node_id
      · have : (!(ret.any (fun second_pair =>
            decide (dist second_pair.node_id c.node_id < c.dist)))) = true := by
          simp only [Bool.not_eq_true', List.any_eq_false, decide_eq_true_eq, not_lt]
          exact hgood
        rw [if_pos this, if_pos (show ret.length < M ∧
          ∀ s ∈ ret, c.dist ≤ dist s.node_id c.node_id from ⟨not_le.mp hlen, hgood⟩)]
      · have : ¬ (!(ret.any (fun second_pair =>
            decide (dist second_pair.node_id c.node_id < c.dist)))) = true := by
          simp only [Bool.not_eq_true', List.any_eq_false, decide_eq_true_eq, not_lt]
          exact hgood
        rw [if_neg this, if_neg (show ¬ (ret.length < M ∧
          ∀ s ∈ ret, c.dist ≤ dist s.node_id c.node_id) from fun hh => hgood hh.2)]
  | cons p t ih =>
    intro ret
    simp only [List.cons_append]
    by_cases hlen : ret.length ≥ M
    · have e1 : heuristic_loop dist M (p :: (t ++ [c])) ret = ret := by
        unfold heuristic_loop; rw [if_pos hlen]
      have e2 : heuristic_loop dist M (p :: t) ret = ret := by
        unfold heuristic_loop; rw [if_pos hlen]
      rw [e1, e2, if_neg (fun hh => absurd hh.1 (not_lt.mpr hlen))]
    · have e1 : ∀ rest, heuristic_loop dist M (p :: rest) ret
          = heuristic_loop dist M rest (if (!(ret.any (fun second_pair =>
              decide (dist second_pair.node_id p.node_id < p.dist)))) = true
            then ret ++ [p] else ret) := by
        intro rest
        conv_lhs => unfold heuristic_loop
        rw [if_neg hlen]
      rw [e1, e1, ih]

/-- C27. For every candidate heap with at least `M` entries (`M ≥ 1`),
`get_neighbors_heuristic` visits the candidates in a sequence `queue_closest` that is in
non-decreasing order of distance (ties by ascending id); with `kept i` the survivors after
the first `i` visits, the candidate visited next is appended exactly when fewer than `M`
survivors are kept and every survivor `s` kept before it has
`dist(s, c) ≥ dist(query, c)`, and nothing changes otherwise; the closest candidate is always
kept, and the heap left holds exactly the survivors after the last visit. -/
theorem get_neighbors_heuristic_selection (dist : Nat → Nat → D)
    (top_candidates : List (Pair D)) (M : Nat) (hM : 1 ≤ M)
    (hlen : M ≤ top_candidates.length) :
    ∃ (queue_closest : List (Pair D)) (kept : Nat → List (Pair D)),
      queue_closest.Perm top_candidates ∧
      queue_closest.Sorted Pair.le ∧
      queue_closest.Sorted (fun a b => a.dist ≤ b.dist) ∧
      kept 0 = [] ∧
      (∀ i c, queue_closest[i]? = some c →
        kept (i + 1) =
          if (kept i).length < M ∧ ∀ s ∈ kept i, dist s.node_id c.node_id ≥ c.dist then
            kept i ++ [c]
          else kept i) ∧
      (∃ rest, kept 1 = queue_closest.take 1 ∧ queue_closest.take 1 ++ rest = queue_closest ∧
        kept 1 ≠ []) ∧
      (get_neighbors_heuristic dist top_candidates M).Perm (kept queue_closest.length) ∧
      (get_neighbors_heuristic dist top_candidates M).Sorted Pair.ge ∧
      (get_neighbors_heuristic dist top_candidates M).length ≤ M := by
  have hsorted : (drain_to_min_heap top_candidates []).Sorted Pair.le :=
    drain_to_min_heap_sorted top_candidates List.sorted_nil
  have hperm : (drain_to_min_heap top_candidates []).Perm top_candidates := by
    have := drain_to_min_heap_perm top_candidates []
    rwa [List.append_nil] at this
  refine ⟨drain_to_min_heap top_candidates [],
    fun i => heuristic_loop dist M ((drain_to_min_heap top_candidates []).take i) [],
    hperm, hsorted, hsorted.imp (fun hab => Pair.dist_le_of_le hab), ?_, ?_, ?_, ?_, ?_,
    get_neighbors_heuristic_length dist top_candidates M⟩
  · simp only [List.take_zero, heuristic_loop]
  · intro i c hc
    dsimp only
    have hi : i < (drain_to_min_heap top_candidates []).length := by
      rcases lt_or_ge i (drain_to_min_heap top_candidates []).length with h | h
      · exact h
      · rw [List.getElem?_eq_none h] at hc; cases hc
    have htake : (drain_to_min_heap top_candidates []).take (i + 1)
        = (drain_to_min_heap top_candidates []).take i ++ [c] := by
      rw [List.take_succ, hc]
      rfl
    rw [htake, heuristic_loop_snoc]
  · dsimp only
    have hne : drain_to_min_heap top_candidates [] ≠ [] := by
      intro h0
      rw [h0] at hperm
      have := hperm.length_eq
      simp only [List.length_nil] at this
      omega
    obtain ⟨c, rest, hq⟩ := List.exists_cons_of_ne_nil hne
    rw [hq]
    refine ⟨rest, ?_, rfl, ?_⟩
    · simp only [List.take_succ_cons, List.take_zero]
      unfold heuristic_loop
      rw [if_neg (by simp only [List.length_nil]; omega)]
      simp only [List.any_nil, Bool.not_false, if_true, List.nil_append, heuristic_loop]
    · simp only [List.take_succ_cons, List.take_zero]
      unfold heuristic_loop
      rw [if_neg (by simp only [List.length_nil]; omega)]
      simp only [List.any_nil, Bool.not_false, if_true, List.nil_append, heuristic_loop]
      exact List.cons_ne_nil _ _
  · dsimp only
    rw [List.take_length]
    unfold get_neighbors_heuristic
    rw [if_neg (not_lt.mpr hlen)]
    have := foldl_max_heap_emplace_perm
      (heuristic_loop dist M (drain_to_min_heap top_candidates []) []) []
    rwa [List.append_nil] at this
  · unfold get_neighbors_heuristic
    rw [if_neg (not_lt.mpr hlen)]
    exact foldl_max_heap_emplace_sorted _ List.sorted_nil

theorem get_neighbors_heuristic_selection_witness :
    1 ≤ 2 ∧ 2 ≤ ([⟨100, 0⟩, ⟨49, 1⟩, ⟨36, 2⟩] : List (Pair Nat)).length ∧
    get_neighbors_heuristic example_dist [⟨100, 0⟩, ⟨49, 1⟩, ⟨36, 2⟩] 2 = [⟨36, 2⟩] ∧
    ∃ (queue_closest : List (Pair Nat)) (kept : Nat → List (Pair Nat)),
      queue_closest.Perm [⟨100, 0⟩, ⟨49, 1⟩, ⟨36, 2⟩] ∧
      queue_closest.Sorted Pair.le ∧
      queue_closest.Sorted (fun a b => a.dist ≤ b.dist) ∧
      kept 0 = [] ∧
      (∀ i c, queue_closest[i]? = some c →
        kept (i + 1) =
          if (kept i).length < 2 ∧
              ∀ s ∈ kept i, example_dist s.node_id c.node_id ≥ c.dist then
            kept i ++ [c]
          else kept i) ∧
      (∃ rest, kept 1 = queue_closest.take 1 ∧ queue_closest.take 1 ++ rest = queue_closest ∧
        kept 1 ≠ []) ∧
      (get_neighbors_heuristic example_dist [⟨100, 0⟩, ⟨49, 1⟩, ⟨36, 2⟩] 2).Perm
        (kept queue_closest.length) ∧
      (get_neighbors_heuristic example_dist [⟨100, 0⟩, ⟨49, 1⟩, ⟨36, 2⟩] 2).Sorted Pair.ge ∧
      (get_neighbors_heuristic example_dist [⟨100, 0⟩, ⟨49, 1⟩, ⟨36, 2⟩] 2).length ≤ 2 :=
  ⟨by decide, by decide, by decide,
    get_neighbors_heuristic_selection example_dist [⟨100, 0⟩, ⟨49, 1⟩, ⟨36, 2⟩] 2
      (by decide) (by decide)⟩

end
end HNSW
namespace ProductQuantizer4Bits

/-- C21, counterexample. With two sub-codebooks, the codes 3 and 5 of the vector `(3, 5)` are
stored in two bytes, `codes[0] = 3` and `codes[1] = 5`: the output is not the one byte
`3 + 16 * 5` and does not occupy `ceil(M / 2)` bytes. -/
theorem encode_packed_counterexample :
    encode two_book_quantizer [3, 5] = some [3, 5] ∧
    ¬ (∀ (pq : Quantizer Int) (x : List Int) (codes : List Nat),
      encode pq x = some codes → codes.length = (pq.num_local_codebooks + 1) / 2) := by
  have h1 : encode two_book_quantizer [3, 5] = some [3, 5] := by decide
  refine ⟨h1, fun hall => ?_⟩
  have h := hall two_book_quantizer [3, 5] [3, 5] h1
  revert h
  decide

/-- C21, amended. `encode` stores the `M` codes of a vector one per byte: the output occupies
`M` bytes, and byte `d` holds the code of sub-codebook `d` alone, the position `std::min_element`
finds among the 16 distances, a value below 16, so that the high nibble of every byte is zero.
It returns these bytes whenever the vectors of the quantizer and `x` hold the values that are
read. -/
theorem encode_one_code_per_byte {R : Type} [Zero R] [Add R] [Sub R] [Mul R] [LT R]
    [DecidableRel (fun a b : R => a < b)] (pq : Quantizer R) (x : List R) :
    (∀ codes, encode pq x = some codes →
      codes.length = pq.num_local_codebooks ∧
      ∀ d, d < pq.num_local_codebooks →
        ∃ c results, codes[d]? = some c ∧ encode_results pq x d = some results ∧
          results.length = 16 ∧ c = min_element results ∧ c < 16 ∧ c % 16 = c ∧ c / 16 = 0) ∧
    (pq.num_local_codebooks * 16 * pq.local_dimension ≤ pq.original_local_codebooks.length →
      pq.num_local_codebooks * pq.local_dimension ≤ pq.global_centroid.length →
      pq.num_local_codebooks * pq.local_dimension ≤ x.length →
      ∃ codes, encode pq x = some codes) := by
  constructor
  · intro codes h
    obtain ⟨hlen, hget⟩ := gather_spec _ _ _ h
    refine ⟨hlen, fun d hd => ?_⟩
    have hd' := hget d hd
    have hsome : ∃ c, codes[d]? = some c :=
      ⟨codes[d], List.getElem?_eq_getElem (by omega)⟩
    obtain ⟨c, hc⟩ := hsome
    rw [hc] at hd'
    obtain ⟨results, hr, hmin⟩ := Option.map_eq_some'.1 hd'.symm
    have hrlen := (gather_spec _ _ _ hr).1
    have hne : results ≠ [] := by
      intro h0
      rw [h0] at hrlen
      cases hrlen
    have hlt : min_element results < 16 := by
      have := min_element_lt results hne
      omega
    rw [Nat.mod_eq_of_lt (by omega)] at hmin
    subst hmin
    exact ⟨_, results, hc, hr, hrlen, rfl, hlt, Nat.mod_eq_of_lt hlt, Nat.div_eq_of_lt hlt⟩
  · intro hcb hgc hx
    exact gather_total _ _ (fun d hd => by
      obtain ⟨results, hr, _⟩ := encode_results_eq pq x d hd hcb hgc hx
      exact ⟨min_element results % 256, by simp only [hr, Option.map_some']⟩)

theorem encode_one_code_per_byte_witness :
    encode two_book_quantizer [3, 5] = some [3, 5] ∧
    ([3, 5] : List Nat).length = two_book_quantizer.num_local_codebooks ∧
    ∀ d, d < two_book_quantizer.num_local_codebooks →
      ∃ c results, ([3, 5] : List Nat)[d]? = some c ∧
        encode_results two_book_quantizer [3, 5] d = some results ∧
        results.length = 16 ∧ c = min_element results ∧ c < 16 ∧ c % 16 = c ∧ c / 16 = 0 :=
  ⟨by decide,
    (encode_one_code_per_byte two_book_quantizer [3, 5]).1 [3, 5] (by decide)⟩

end ProductQuantizer4Bits

namespace ProductQuantizer4Bits

theorem write_block_length {R : Type} {v v' block : List R} {off : Nat}
    (h : write_block v off block = some v') : v'.length = v.length := by
  unfold write_block at h
  split_ifs at h with hfit
  simp only [Option.some.injEq] at h
  subst h
  simp only [List.length_append, List.length_take, List.length_drop]
  omega

theorem write_block_total {R : Type} (v block : List R) (off : Nat)
    (hfit : off + block.length ≤ v.length) :
    ∃ v', write_block v off block = some v' ∧ v'.length = v.length := by
  have h : write_block v off block
      = some (v.take off ++ block ++ v.drop (off + block.length)) := by
    unfold write_block
    rw [if_pos hfit]
  exact ⟨_, h, write_block_length h⟩

theorem read_block_length {R : Type} {v y : List R} {off len : Nat}
    (h : read_block v off len = some y) : y.length = len := by
  unfold read_block at h
  split_ifs at h with hfit
  simp only [Option.some.injEq] at h
  subst h
  simp only [List.length_take, List.length_drop]
  omega

theorem read_block_total {R : Type} (v : List R) (off len : Nat) (hfit : off + len ≤ v.length) :
    ∃ y, read_block v off len = some y ∧ y.length = len := by
  have h : read_block v off len = some ((v.drop off).take len) := by
    unfold read_block
    rw [if_pos hfit]
  exact ⟨_, h, read_block_length h⟩

/-- The loop over the sub-spaces keeps the size of `original_local_codebooks`. -/
theorem train_codebooks_length {R : Type} [Zero R] (env : Collaborators R) (X_trn : drm_t R)
    (num_local_codebooks dimension local_dimension n_data sub_sample_points : Nat)
    (seed : Int) (max_iter : Nat) (threads : Int) (olc0 olc : List R)
    (h : train_codebooks env X_trn num_local_codebooks dimension local_dimension n_data
      sub_sample_points seed max_iter threads olc0 = some olc) :
    olc.length = olc0.length := by
  unfold train_codebooks at h
  simp only [Option.map_eq_some'] at h
  obtain ⟨st, hst, rfl⟩ := h
  refine foldlM_range_invariant _ (fun _ (st : List R × List R) => st.1.length = olc0.length)
    num_local_codebooks ?_ _ st rfl hst
  intro m b b' _ hb hstep
  split at hstep
  · cases hstep
  · split at hstep
    · cases hstep
    · simp only [Option.map_eq_some'] at hstep
      obtain ⟨w, hw, rfl⟩ := hstep
      rw [← hb]
      exact write_block_length hw

/-- Either target of `pack_codebook_for_inference` keeps `original_local_codebooks` and leaves
`local_codebooks` with as many values. -/
theorem pack_codebook_for_inference_lengths {R : Type} [Zero R] (target : Target)
    (pq pq' : Quantizer R) (h : pack_codebook_for_inference target pq = some pq') :
    pq'.original_local_codebooks = pq.original_local_codebooks ∧
    pq'.local_codebooks.length = pq.original_local_codebooks.length := by
  cases target with
  | default =>
    simp only [pack_codebook_for_inference, Option.some.injEq] at h
    subst h
    exact ⟨rfl, rfl⟩
  | avx512f =>
    simp only [pack_codebook_for_inference, pack_codebook_for_inference_avx512f,
      Option.map_eq_some'] at h
    obtain ⟨lc, hlc, rfl⟩ := h
    exact ⟨rfl, (pack_loops_inv pq _ lc (resize_length _ _ _) hlc).1⟩

/-- What a successful `train` has gone through, for an `int M` with `1 ≤ M`. -/
theorem train_ok_steps {R : Type} [Zero R] {env : Collaborators R} {target : Target}
    {pq pq' : Quantizer R} {X_trn : drm_t R} {M : Int} {sub_sample_points : Nat} {seed : Int}
    {max_iter : Nat} {threads : Int} (hM1 : 1 ≤ M) (hM : M < 2 ^ 31)
    (h : train env target pq X_trn M sub_sample_points seed max_iter threads = .ok pq') :
    X_trn.cols % M.toNat = 0 ∧
    ∃ olc, train_codebooks env X_trn M.toNat X_trn.cols (X_trn.cols / M.toNat) X_trn.rows
        (if sub_sample_points = 0 then X_trn.rows else sub_sample_points) seed max_iter threads
        (resize pq.original_local_codebooks (M.toNat * 16 * X_trn.cols) 0) = some olc ∧
      pack_codebook_for_inference target
        ⟨M.toNat, X_trn.cols / M.toNat, resize pq.global_centroid X_trn.cols 0,
          pq.local_codebooks, olc⟩ = some pq' := by
  have h64 : (M % 2 ^ 64).toNat = M.toNat := by
    rw [Int.emod_eq_of_lt (by omega) (by omega)]
  have h32 : (M % 2 ^ 32).toNat = M.toNat := by
    rw [Int.emod_eq_of_lt (by omega) (by omega)]
  unfold train at h
  simp only [h64, h32] at h
  by_cases hd : X_trn.cols % M.toNat ≠ 0
  · rw [if_pos hd] at h
    cases h
  · rw [if_neg hd] at h
    refine ⟨not_not.1 hd, ?_⟩
    revert h
    split
    · intro h; cases h
    · rename_i olc holc
      split
      · intro h; cases h
      · rename_i q hq
        intro h
        simp only [Except.ok.injEq] at h
        subst h
        exact ⟨olc, holc, hq⟩

/-- C22. After `train` succeeds on `D`-dimensional data with `M` sub-codebooks (an `int`,
`1 ≤ M`), on either target, `original_local_codebooks` and `local_codebooks` hold
`M * 16 * D` values each, the size of the `resize` call, while `local_dimension = D / M`: that
is `M * 16 * local_dim` values only when `M = 1` or `D = 0`. -/
theorem train_codebook_size {R : Type} [Zero R] (env : Collaborators R) (target : Target)
    (pq pq' : Quantizer R) (X_trn : drm_t R) (M : Int) (sub_sample_points : Nat) (seed : Int)
    (max_iter : Nat) (threads : Int) (hM1 : 1 ≤ M) (hM : M < 2 ^ 31)
    (h : train env target pq X_trn M sub_sample_points seed max_iter threads = .ok pq') :
    pq'.original_local_codebooks.length = M.toNat * 16 * X_trn.cols ∧
    pq'.local_codebooks.length = M.toNat * 16 * X_trn.cols ∧
    pq'.num_local_codebooks = M.toNat ∧
    pq'.local_dimension = X_trn.cols / M.toNat ∧
    (pq'.original_local_codebooks.length = M.toNat * 16 * pq'.local_dimension ↔
      M = 1 ∨ X_trn.cols = 0) := by
  obtain ⟨hd, olc, holc, hpack⟩ := train_ok_steps hM1 hM h
  have hlen := train_codebooks_length _ _ _ _ _ _ _ _ _ _ _ _ holc
  rw [resize_length] at hlen
  obtain ⟨e1, e2⟩ := pack_codebook_for_inference_lengths target _ _ hpack
  obtain ⟨f1, f2⟩ := pack_codebook_for_inference_fields target _ _ hpack
  simp only at e1 e2 f1 f2
  rw [e1]
  refine ⟨hlen, e2.trans hlen, f1, f2, ?_⟩
  rw [hlen, f2]
  obtain ⟨ld, hld⟩ := Nat.dvd_of_mod_eq_zero hd
  have hMpos : 0 < M.toNat := by omega
  rw [hld, Nat.mul_div_cancel_left ld hMpos]
  constructor
  · intro heq
    have h1 : M.toNat * ld = ld := by
      have h2 : M.toNat * 16 * (M.toNat * ld) = M.toNat * 16 * ld := heq
      exact Nat.eq_of_mul_eq_mul_left (by omega : 0 < M.toNat * 16) h2
    rcases Nat.eq_zero_or_pos ld with h0 | hpos
    · right; rw [h0, Nat.mul_zero]
    · left
      have h3 : M.toNat = 1 := by
        have : M.toNat * ld = 1 * ld := by rw [h1, Nat.one_mul]
        exact Nat.eq_of_mul_eq_mul_right hpos this
      omega
  · rintro (h1 | h0)
    · subst h1
      simp
    · rcases Nat.mul_eq_zero.1 h0 with h2 | h2
      · omega
      · rw [h2, Nat.mul_zero]

theorem train_codebook_size_witness :
    ∃ pq', train example_collaborators .default ⟨0, 0, [], [], []⟩ example_matrix 2 0 0 10 1
        = .ok pq' ∧
      pq'.original_local_codebooks.length = 64 ∧ pq'.local_codebooks.length = 64 ∧
      pq'.num_local_codebooks = 2 ∧ pq'.local_dimension = 1 ∧
      pq'.original_local_codebooks.length ≠ 2 * 16 * pq'.local_dimension := by
  cases h : train example_collaborators .default ⟨0, 0, [], [], []⟩ example_matrix 2 0 0 10 1 with
  | error e =>
    have hok : (train example_collaborators .default ⟨0, 0, [], [], []⟩ example_matrix 2 0 0
      10 1).isOk = true := by decide
    rw [h] at hok
    cases hok
  | ok pq' =>
    obtain ⟨h1, h2, h3, h4, h5⟩ := train_codebook_size example_collaborators .default
      ⟨0, 0, [], [], []⟩ pq' example_matrix 2 0 0 10 1 (by decide) (by decide) h
    refine ⟨pq', rfl, h1, h2, h3, h4, ?_⟩
    intro heq
    rcases h5.1 heq with h6 | h6
    · exact absurd h6 (by decide)
    · exact absurd h6 (by decide)

end ProductQuantizer4Bits

namespace ProductQuantizer4Bits

theorem write_block_getElem? {R : Type} {v v' block : List R} {off : Nat}
    (h : write_block v off block = some v') (i : Nat) :
    v'[i]? = if i < off then v[i]? else if i < off + block.length then block[i - off]?
      else v[i]? := by
  unfold write_block at h
  split_ifs at h with hfit
  simp only [Option.some.injEq] at h
  subst h
  have hoff : (v.take off).length = off := by
    rw [List.length_take]; omega
  by_cases h1 : i < off
  · rw [if_pos h1, List.append_assoc, List.getElem?_append_left (by omega),
      List.getElem?_take_of_lt h1]
  · rw [if_neg h1, List.append_assoc, List.getElem?_append_right (by omega), hoff]
    by_cases h2 : i < off + block.length
    · rw [if_pos h2, List.getElem?_append_left (by omega)]
    · rw [if_neg h2, List.getElem?_append_right (by omega), List.getElem?_drop]
      congr 1
      omega

theorem centroid_block_getElem? {R : Type} (v : List R) (d c j : Nat) :
    (centroid_block v d c)[j]? = if j < d then v[c * d + j]? else none := by
  unfold centroid_block
  rw [List.getElem?_take]
  split_ifs
  · rw [List.getElem?_drop]
  · rfl

theorem read_block_eq {R : Type} {v y : List R} {d c : Nat}
    (h : read_block v (c * d) d = some y) : y = centroid_block v d c := by
  unfold read_block at h
  split_ifs at h
  simp only [Option.some.injEq] at h
  exact h.symm

theorem write_block_same {R : Type} {v v' block : List R} {d a : Nat}
    (h : write_block v (a * d) block = some v') (hlen : block.length = d) :
    centroid_block v' d a = block := by
  apply List.ext_getElem?
  intro j
  rw [centroid_block_getElem?]
  by_cases hj : j < d
  · rw [if_pos hj, write_block_getElem? h, if_neg (by omega), if_pos (by omega)]
    congr 1
    omega
  · rw [if_neg hj, List.getElem?_eq_none (by omega)]

theorem write_block_other {R : Type} {v v' block : List R} {d a b : Nat}
    (h : write_block v (a * d) block = some v') (hlen : block.length = d) (hab : a ≠ b) :
    centroid_block v' d b = centroid_block v d b := by
  apply List.ext_getElem?
  intro j
  rw [centroid_block_getElem?, centroid_block_getElem?]
  by_cases hj : j < d
  · rw [if_pos hj, if_pos hj, write_block_getElem? h]
    rcases Nat.lt_or_gt_of_ne hab with hlt | hgt
    · have h1 : (a + 1) * d ≤ b * d := Nat.mul_le_mul_right d hlt
      rw [Nat.add_mul, Nat.one_mul] at h1
      rw [if_neg (by omega), if_neg (by omega)]
    · have h1 : (b + 1) * d ≤ a * d := Nat.mul_le_mul_right d hgt
      rw [Nat.add_mul, Nat.one_mul] at h1
      rw [if_pos (by omega)]
  · rw [if_neg hj, if_neg hj]

end ProductQuantizer4Bits

namespace ProductQuantizer4Bits

theorem accumulate_rows_other {R : Type} (env : Collaborators R) (X : drm_t R) (dsub : Nat)
    (assign : List Nat) (c_l c_r c : Nat)
    (haxpy : ∀ x y, x.length = y.length → (env.do_axpy x y).length = y.length)
    (hempty : ∀ i, i < X.rows → assign[i]? ≠ some c) (st st' : List R × List Nat)
    (h : accumulate_rows env X dsub assign c_l c_r st = some st') :
    st'.1.length = st.1.length ∧ st'.2.length = st.2.length ∧ st'.2[c]? = st.2[c]? ∧
    centroid_block st'.1 dsub c = centroid_block st.1 dsub c := by
  unfold accumulate_rows at h
  refine foldlM_range_invariant _ (fun _ (s : List R × List Nat) =>
    s.1.length = st.1.length ∧ s.2.length = st.2.length ∧ s.2[c]? = st.2[c]? ∧
    centroid_block s.1 dsub c = centroid_block st.1 dsub c) X.rows ?_ st st'
    ⟨rfl, rfl, rfl, rfl⟩ h
  intro i s s' hi hs hstep
  split at hstep
  · cases hstep
  · rename_i ci hci
    have hne : ci ≠ c := by
      intro heq
      rw [heq] at hci
      exact hempty i hi hci
    split_ifs at hstep with hrange
    · split at hstep
      · rename_i y xi size hy hxi hsize
        simp only [Option.map_eq_some'] at hstep
        obtain ⟨w, hw, rfl⟩ := hstep
        have hylen : (env.do_axpy xi y).length = dsub := by
          rw [haxpy _ _ ((read_block_length hxi).trans (read_block_length hy).symm),
            read_block_length hy]
        refine ⟨?_, ?_, ?_, ?_⟩
        · rw [← hs.1]; exact write_block_length hw
        · simp only [List.length_set]; exact hs.2.1
        · simp only
          rw [List.getElem?_set_ne hne]
          exact hs.2.2.1
        · simp only
          rw [write_block_other hw hylen hne]
          exact hs.2.2.2
      · cases hstep
    · simp only [Option.some.injEq] at hstep
      subst hstep
      exact hs

theorem normalize_centroids_empty {R : Type} (env : Collaborators R) (dsub c_l c_r c : Nat)
    (centroids_size : List Nat) (centroids centroids' Z : List R)
    (hscale : ∀ n y, (env.do_scale n y).length = y.length)
    (hsz : centroids_size[c]? = some 0)
    (h0 : centroid_block centroids dsub c = if c < c_l then env.do_scale 0 Z else Z)
    (h : normalize_centroids env dsub c_l c_r centroids_size centroids = some centroids') :
    centroids'.length = centroids.length ∧
    centroid_block centroids' dsub c
      = if c < c_l + (c_r - c_l) then env.do_scale 0 Z else Z := by
  unfold normalize_centroids at h
  refine foldlM_range_invariant _ (fun t (v : List R) =>
    v.length = centroids.length ∧
    centroid_block v dsub c = if c < c_l + t then env.do_scale 0 Z else Z) (c_r - c_l) ?_
    centroids centroids' ⟨rfl, h0⟩ h
  intro t v v' _ hv hstep
  split at hstep
  · rename_i y size hy hsize
    have hylen : (env.do_scale size y).length = dsub := by
      rw [hscale, read_block_length hy]
    refine ⟨by rw [← hv.1]; exact write_block_length hstep, ?_⟩
    by_cases hct : c_l + t = c
    · rw [hct] at hy hsize hstep
      rw [write_block_same hstep hylen, if_pos (by omega)]
      rw [hsz] at hsize
      simp only [Option.some.injEq] at hsize
      subst hsize
      have hyZ : y = Z := by
        rw [read_block_eq hy, hv.2, if_neg (by omega)]
      rw [hyZ]
    · rw [write_block_other hstep hylen hct, hv.2]
      by_cases hlt : c < c_l + t
      · rw [if_pos hlt, if_pos (by omega)]
      · rw [if_neg hlt, if_neg (by omega)]
  · cases hstep

theorem centroid_block_replicate {R : Type} (x : R) (dsub ksub c : Nat) (hc : c < ksub) :
    centroid_block (List.replicate (ksub * dsub) x) dsub c = List.replicate dsub x := by
  apply List.ext_getElem?
  intro j
  rw [centroid_block_getElem?, List.getElem?_replicate, List.getElem?_replicate]
  have h1 : (c + 1) * dsub ≤ ksub * dsub := Nat.mul_le_mul_right dsub hc
  rw [Nat.add_mul, Nat.one_mul] at h1
  by_cases hj : j < dsub
  · rw [if_pos hj, if_pos hj, if_pos (by omega)]
  · rw [if_neg hj, if_neg hj]

/-- The centroid of a cluster without rows: what `do_scale(1.0 / 0, y, dsub)` makes of `dsub`
zeros. -/
theorem compute_centroids_empty {R : Type} [Zero R] (env : Collaborators R) (X : drm_t R)
    (dsub ksub : Nat) (assign : List Nat) (threads c : Nat)
    (haxpy : ∀ x y, x.length = y.length → (env.do_axpy x y).length = y.length)
    (hscale : ∀ n y, (env.do_scale n y).length = y.length)
    (hT : 1 ≤ threads) (hc : c < ksub)
    (hempty : ∀ i, i < X.rows → assign[i]? ≠ some c) (centroids : List R)
    (h : compute_centroids env X dsub ksub assign threads = some centroids) :
    centroids.length = ksub * dsub ∧
    centroid_block centroids dsub c = env.do_scale 0 (List.replicate dsub 0) := by
  unfold compute_centroids at h
  rw [if_neg (by omega : ¬ threads = 0)] at h
  simp only [Option.map_eq_some'] at h
  obtain ⟨st, hst, rfl⟩ := h
  have hP := foldlM_range_invariant _ (fun r (s : List R × List Nat) =>
    s.1.length = ksub * dsub ∧ s.2[c]? = some 0 ∧
    centroid_block s.1 dsub c = if c < ksub * r / threads
      then env.do_scale 0 (List.replicate dsub 0) else List.replicate dsub 0) threads ?_
    _ st ⟨List.length_replicate _ _, ?_, ?_⟩ hst
  · refine ⟨hP.1, ?_⟩
    rw [hP.2.2, Nat.mul_div_cancel _ (by omega : 0 < threads), if_pos hc]
  · intro r s s' _ hs hstep
    split at hstep
    · cases hstep
    · rename_i s1 hs1
      simp only [Option.map_eq_some'] at hstep
      obtain ⟨v, hv, rfl⟩ := hstep
      obtain ⟨a1, _, a3, a4⟩ := accumulate_rows_other env X dsub assign _ _ c haxpy hempty
        s s1 hs1
      have hle : ksub * r / threads ≤ ksub * (r + 1) / threads :=
        Nat.div_le_div_right (Nat.mul_le_mul_left ksub (Nat.le_succ r))
      obtain ⟨b1, b2⟩ := normalize_centroids_empty env dsub _ _ c s1.2 s1.1 v
        (List.replicate dsub 0) hscale (a3.trans hs.2.1) (a4.trans hs.2.2) hv
      rw [Nat.add_sub_cancel' hle] at b2
      exact ⟨by rw [b1, a1]; exact hs.1, a3.trans hs.2.1, b2⟩
  · simp only [List.getElem?_replicate, if_pos hc]
  · rw [Nat.mul_zero, Nat.zero_div, if_neg (Nat.not_lt_zero c)]
    exact centroid_block_replicate 0 dsub ksub c hc

/-- C23. For every assignment in which a cluster `c` below `ksub` receives no row, with at
least one thread and helpers that write `dsub` values as `do_axpy` and `do_scale` do,
`compute_centroids` does scale the centroid of `c` by `1.0 / 0`: the centroid it leaves is what
`do_scale(1.0 / 0, y, dsub)` makes of `dsub` zeros, which in `float` arithmetic is
not-a-number in every coordinate, not zero. -/
theorem compute_centroids_empty_cluster {R : Type} [Zero R] (env : Collaborators R)
    (X : drm_t R) (dsub ksub : Nat) (assign : List Nat) (threads c : Nat)
    (haxpy : ∀ x y, x.length = y.length → (env.do_axpy x y).length = y.length)
    (hscale : ∀ n y, (env.do_scale n y).length = y.length)
    (hT : 1 ≤ threads) (hc : c < ksub)
    (hempty : ∀ i, i < X.rows → assign[i]? ≠ some c) (centroids : List R)
    (h : compute_centroids env X dsub ksub assign threads = some centroids) :
    centroids.length = ksub * dsub ∧
    (centroids.drop (c * dsub)).take dsub = env.do_scale 0 (List.replicate dsub 0) :=
  compute_centroids_empty env X dsub ksub assign threads c haxpy hscale hT hc hempty
    centroids h

theorem compute_centroids_empty_cluster_witness :
    compute_centroids ieee_collaborators ⟨2, 1, [.fin 2, .fin 4]⟩ 1 16 [0, 0] 1
      = some (.fin 3 :: List.replicate 15 .nan) ∧
    (∀ i, i < 2 → [0, 0][i]? ≠ some 1) ∧
    (((.fin 3 :: List.replicate 15 .nan : List ExampleFloat).drop (1 * 1)).take 1
      = ieee_collaborators.do_scale 0 (List.replicate 1 0)) ∧
    ieee_collaborators.do_scale 0 (List.replicate 1 0) = [.nan] ∧
    ieee_collaborators.do_scale 0 (List.replicate 1 0) ≠ [0] :=
  ⟨by decide, by decide,
    (compute_centroids_empty_cluster ieee_collaborators ⟨2, 1, [.fin 2, .fin 4]⟩ 1 16 [0, 0] 1 1
      (fun x y hxy => by
        show (List.zipWith ExampleFloat.add x y).length = y.length
        rw [List.length_zipWith, hxy, Nat.min_self])
      (fun n y => by
        show (y.map (ExampleFloat.scale n)).length = y.length
        rw [List.length_map])
      (by decide) (by decide) (by decide) _ (by decide)).2,
    by decide, by decide⟩

end ProductQuantizer4Bits

namespace ProductQuantizer4Bits

theorem normalize_centroids_total {R : Type} (env : Collaborators R) (dsub ksub c_l c_r : Nat)
    (centroids_size : List Nat) (centroids : List R)
    (hscale : ∀ n y, (env.do_scale n y).length = y.length)
    (hlen : centroids.length = ksub * dsub) (hsz : centroids_size.length = ksub)
    (hcr : c_r ≤ ksub) :
    ∃ v, normalize_centroids env dsub c_l c_r centroids_size centroids = some v ∧
      v.length = ksub * dsub := by
  unfold normalize_centroids
  refine foldlM_range_total _ (fun _ (v : List R) => v.length = ksub * dsub) (c_r - c_l) ?_
    centroids hlen
  intro t v ht hv
  have hc : c_l + t < ksub := by omega
  have h1 : (c_l + t + 1) * dsub ≤ ksub * dsub := Nat.mul_le_mul_right dsub hc
  rw [Nat.add_mul, Nat.one_mul] at h1
  obtain ⟨y, hy, hylen⟩ := read_block_total v ((c_l + t) * dsub) dsub (by omega)
  have hs : centroids_size[c_l + t]? = some (centroids_size.get ⟨c_l + t, by omega⟩) :=
    List.getElem?_eq_getElem (by omega)
  obtain ⟨w, hw, hwlen⟩ := write_block_total v
    (env.do_scale (centroids_size.get ⟨c_l + t, by omega⟩) y) ((c_l + t) * dsub)
    (by rw [hscale, hylen]; omega)
  refine ⟨w, ?_, hwlen.trans hv⟩
  simp only [hy, hs]
  exact hw

/-- With no row to add and at least one thread, `compute_centroids` returns `ksub * dsub`
values. -/
theorem compute_centroids_zero_rows {R : Type} [Zero R] (env : Collaborators R) (X : drm_t R)
    (dsub ksub : Nat) (assign : List Nat) (threads : Nat)
    (hscale : ∀ n y, (env.do_scale n y).length = y.length) (hT : 1 ≤ threads)
    (hrows : X.rows = 0) :
    ∃ centroids, compute_centroids env X dsub ksub assign threads = some centroids ∧
      centroids.length = ksub * dsub := by
  unfold compute_centroids
  rw [if_neg (by omega : ¬ threads = 0)]
  obtain ⟨st, hst, hP⟩ := foldlM_range_total
    (fun (st : List R × List Nat) rank =>
      let c_l := ksub * rank / threads
      let c_r := ksub * (rank + 1) / threads
      match accumulate_rows env X dsub assign c_l c_r st with
      | none => none
      | some st =>
        (normalize_centroids env dsub c_l c_r st.2 st.1).map (fun centroids => (centroids, st.2)))
    (fun _ (st : List R × List Nat) => st.1.length = ksub * dsub ∧ st.2.length = ksub) threads
    (fun rank st hrank hst => by
      have hacc : accumulate_rows env X dsub assign (ksub * rank / threads)
          (ksub * (rank + 1) / threads) st = some st := by
        unfold accumulate_rows
        rw [hrows]
        rfl
      have hcr : ksub * (rank + 1) / threads ≤ ksub := by
        apply Nat.div_le_of_le_mul
        rw [Nat.mul_comm threads ksub]
        exact Nat.mul_le_mul_left ksub hrank
      obtain ⟨v, hv, hvlen⟩ := normalize_centroids_total env dsub ksub
        (ksub * rank / threads) (ksub * (rank + 1) / threads) st.2 st.1 hscale hst.1 hst.2 hcr
      exact ⟨(v, st.2), by simp only [hacc, hv, Option.map_some'], hvlen, hst.2⟩)
    (List.replicate (ksub * dsub) (0 : R), List.replicate ksub 0)
    ⟨List.length_replicate _ _, List.length_replicate _ _⟩
  exact ⟨st.1, congrArg (Option.map Prod.fst) hst, hP.1⟩

/-- The loop over the sub-spaces on a matrix without rows, all rows sampled, with at least one
thread: it returns. -/
theorem train_codebooks_zero_rows {R : Type} [Zero R] (env : Collaborators R) (X_trn : drm_t R)
    (num_local_codebooks dimension local_dimension : Nat) (seed : Int) (max_iter : Nat)
    (threads : Int) (olc0 : List R)
    (hscale : ∀ n y, (env.do_scale n y).length = y.length) (hT : 1 ≤ threads)
    (hsize : num_local_codebooks * 16 * local_dimension ≤ olc0.length) :
    ∃ olc, train_codebooks env X_trn num_local_codebooks dimension local_dimension 0 0 seed
      max_iter threads olc0 = some olc ∧ olc.length = olc0.length := by
  unfold train_codebooks
  obtain ⟨st, hst, hP⟩ := foldlM_range_total
    (fun (st : List R × List R) m =>
      let indices := env.random_shuffle m (List.range 0)
      match copy_slices X_trn dimension local_dimension m indices 0 st.2 with
      | none => none
      | some xslice =>
        let Xsub : drm_t R := ⟨0, local_dimension, xslice⟩
        let assignments := env.run_clustering Xsub seed max_iter threads
        match compute_centroids env Xsub local_dimension 16 assignments threads.toNat with
        | none => none
        | some centroids =>
          (write_block st.1 (m * 16 * local_dimension) centroids).map
            (fun original_local_codebooks => (original_local_codebooks, xslice)))
    (fun _ (st : List R × List R) => st.1.length = olc0.length) num_local_codebooks
    (fun m st hm hst => by
      have hcopy : copy_slices X_trn dimension local_dimension m
          (env.random_shuffle m (List.range 0)) 0 st.2 = some st.2 := by
        unfold copy_slices
        rfl
      obtain ⟨centroids, hcen, hclen⟩ := compute_centroids_zero_rows env
        ⟨0, local_dimension, st.2⟩ local_dimension 16
        (env.run_clustering ⟨0, local_dimension, st.2⟩ seed max_iter threads) threads.toNat
        hscale (by omega) rfl
      have h1 : (m + 1) * (16 * local_dimension) ≤ num_local_codebooks * (16 * local_dimension) :=
        Nat.mul_le_mul_right _ hm
      rw [Nat.add_mul, Nat.one_mul, ← Nat.mul_assoc, ← Nat.mul_assoc] at h1
      obtain ⟨w, hw, hwlen⟩ := write_block_total st.1 centroids (m * 16 * local_dimension)
        (by rw [hclen, hst]; omega)
      exact ⟨(w, st.2), by simp only [hcopy, hcen, hw, Option.map_some'], hwlen.trans hst⟩)
    (olc0, List.replicate (0 * local_dimension) (0 : R)) rfl
  exact ⟨st.1, congrArg (Option.map Prod.fst) hst, hP⟩

/-- The body of `train` past the guard on the dimension, for an `int M` with `1 ≤ M`. -/
theorem train_past_guard {R : Type} [Zero R] (env : Collaborators R) (target : Target)
    (pq : Quantizer R) (X_trn : drm_t R) (M : Int) (sub_sample_points : Nat) (seed : Int)
    (max_iter : Nat) (threads : Int) (hM1 : 1 ≤ M) (hM : M < 2 ^ 31)
    (hdiv : X_trn.cols % M.toNat = 0) (olc : List R) (pq' : Quantizer R)
    (holc : train_codebooks env X_trn M.toNat X_trn.cols (X_trn.cols / M.toNat) X_trn.rows
        (if sub_sample_points = 0 then X_trn.rows else sub_sample_points) seed max_iter threads
        (resize pq.original_local_codebooks (M.toNat * 16 * X_trn.cols) 0) = some olc)
    (hpack : pack_codebook_for_inference target
        ⟨M.toNat, X_trn.cols / M.toNat, resize pq.global_centroid X_trn.cols 0,
          pq.local_codebooks, olc⟩ = some pq') :
    train env target pq X_trn M sub_sample_points seed max_iter threads = .ok pq' := by
  have h64 : (M % 2 ^ 64).toNat = M.toNat := by
    rw [Int.emod_eq_of_lt (by omega) (by omega)]
  have h32 : (M % 2 ^ 32).toNat = M.toNat := by
    rw [Int.emod_eq_of_lt (by omega) (by omega)]
  unfold train
  simp only [h64, h32]
  rw [if_neg (not_not.2 hdiv)]
  simp only [holc, hpack]

/-- C24. Neither `train` has a check on the number of rows, and on a training matrix with zero
rows neither fails with an error. `ProductQuantizer4Bits::train` (all rows sampled, `M` an
`int` with `1 ≤ M` that divides `D`, a `do_scale` that writes `dsub` values, at least one
thread) returns a quantizer on either target, with `num_local_codebooks = M` and
`local_dimension = D / M`; `HNSW::train` reaches the dereference of `std::max_element` over the
empty `node2level`, which has no defined behaviour. -/
theorem train_zero_rows {R : Type} [Zero R] (env : Collaborators R) (target : Target)
    (pq : Quantizer R) (X_trn : drm_t R) (M : Int) (seed : Int) (max_iter : Nat)
    (threads : Int) (hM1 : 1 ≤ M) (hM : M < 2 ^ 31) (hrows : X_trn.rows = 0)
    (hdiv : X_trn.cols % M.toNat = 0)
    (hscale : ∀ n y, (env.do_scale n y).length = y.length) (hT : 1 ≤ threads) :
    (∃ pq', train env target pq X_trn M 0 seed max_iter threads = .ok pq' ∧
      pq'.num_local_codebooks = M.toNat ∧ pq'.local_dimension = X_trn.cols / M.toNat) ∧
    ∀ (dist : Nat → Nat → Int) (maxM efC : Nat) (sampled : Nat → Nat)
      (max_level_upper_bound : Int) (fuel : Nat),
      HNSW.train dist X_trn.rows maxM efC sampled max_level_upper_bound fuel
        = .error .max_element_of_empty := by
  refine ⟨?_, fun dist maxM efC sampled max_level_upper_bound fuel => by
    rw [hrows]; rfl⟩
  have hld : X_trn.cols / M.toNat ≤ X_trn.cols := Nat.div_le_self _ _
  have hsz : M.toNat * 16 * (X_trn.cols / M.toNat) ≤ M.toNat * 16 * X_trn.cols :=
    Nat.mul_le_mul_left _ hld
  obtain ⟨olc, holc, hlen⟩ := train_codebooks_zero_rows env X_trn M.toNat X_trn.cols
    (X_trn.cols / M.toNat) seed max_iter threads
    (resize pq.original_local_codebooks (M.toNat * 16 * X_trn.cols) 0) hscale hT
    (by rw [resize_length]; exact hsz)
  rw [resize_length] at hlen
  have hpack : ∃ pq', pack_codebook_for_inference target
      ⟨M.toNat, X_trn.cols / M.toNat, resize pq.global_centroid X_trn.cols 0,
        pq.local_codebooks, olc⟩ = some pq' := by
    cases target with
    | default => exact ⟨_, rfl⟩
    | avx512f =>
      exact pack_codebook_for_inference_avx512f_total _ (by
        show M.toNat * 16 * (X_trn.cols / M.toNat) ≤ olc.length
        rw [hlen]; exact hsz)
  obtain ⟨pq', hpq'⟩ := hpack
  have htrain := train_past_guard env target pq X_trn M 0 seed max_iter threads hM1 hM hdiv olc
    pq' (by rw [if_pos rfl, hrows]; exact holc) hpq'
  obtain ⟨f1, f2⟩ := pack_codebook_for_inference_fields target _ _ hpq'
  exact ⟨pq', htrain, f1, f2⟩

/-- The run of C24 on a matrix with zero rows and two columns, `M = 2`, one thread, with
`do_scale` multiplying by `1.0 / count` as IEEE 754 has it: `train` returns a quantizer whose
two sub-codebooks hold not-a-number in every coordinate of every centroid. -/
theorem train_zero_rows_witness :
    (1 : Int) ≤ 2 ∧ (2 : Int) < 2 ^ 31 ∧ (⟨0, 2, []⟩ : drm_t ExampleFloat).rows = 0 ∧
    (1 : Int) ≤ 1 ∧
    ((∃ pq', train ieee_collaborators .default ⟨0, 0, [], [], []⟩ ⟨0, 2, []⟩ 2 0 0 10 1
        = .ok pq' ∧
      pq'.num_local_codebooks = 2 ∧ pq'.local_dimension = 1) ∧
    ∀ (dist : Nat → Nat → Int) (maxM efC : Nat) (sampled : Nat → Nat)
      (max_level_upper_bound : Int) (fuel : Nat),
      HNSW.train dist 0 maxM efC sampled max_level_upper_bound fuel
        = .error .max_element_of_empty) ∧
    (match train ieee_collaborators .default ⟨0, 0, [], [], []⟩ ⟨0, 2, []⟩ 2 0 0 10 1 with
      | .ok pq' => pq'.original_local_codebooks.take 32
      | .error _ => []) = List.replicate 32 ExampleFloat.nan :=
  ⟨by decide, by decide, rfl, by decide,
    train_zero_rows ieee_collaborators .default ⟨0, 0, [], [], []⟩ ⟨0, 2, []⟩ 2 0 10 1
      (by decide) (by decide) rfl (by decide) (fun n y => by
        show (y.map (ExampleFloat.scale n)).length = y.length
        rw [List.length_map]) (by decide),
    by decide⟩

end ProductQuantizer4Bits

namespace HNSW
section
set_option linter.unusedSectionVars false
variable {D : Type} [LinearOrder D]

/-- C40. The final sorting pass of `train` changes only the order of entries: run over any
nodes of any graph, it leaves at every node and level a list with the same multiset of neighbor
ids, hence the same degree; the index `train` returns is the one the insertion loop built, with
the same scalars and with such a permutation of every list. `train` does return on at least
one row with `M ≥ 1`, once the loops may run `rows + 1` times. -/
theorem sort_pass_permutes (dist : Nat → Nat → D) (rows M efC : Nat) (sampled : Nat → Nat)
    (ub : Int) (fuel : Nat) :
    (∀ (lvl : Nat → Nat) (nodes : List Nat) (g : Graph) (lv n : Nat),
      ((nodes.foldl (sort_neighbors_for_node dist lvl) g) lv n).Perm (g lv n) ∧
      ((nodes.foldl (sort_neighbors_for_node dist lvl) g) lv n).length = (g lv n).length) ∧
    (∀ idx, train dist rows M efC sampled ub fuel = .ok idx →
      ∃ h1, add_points dist (node2level sampled ub) fuel rows 0
          ⟨rows, M, (2 * M) % 2 ^ 32, efC, 0, 0, fun _ _ => []⟩ = .ok h1 ∧
        idx.graph = (List.range rows).foldl
          (sort_neighbors_for_node dist (node2level sampled ub)) h1.graph ∧
        idx.max_level = h1.max_level ∧ idx.init_node = h1.init_node ∧
        ∀ lv n, ((idx.graph lv n : List Nat) : Multiset Nat) = (h1.graph lv n : List Nat) ∧
          (idx.graph lv n).length = (h1.graph lv n).length) ∧
    (0 < rows → 1 ≤ M → rows < fuel → ∃ idx, train dist rows M efC sampled ub fuel = .ok idx) := by
  refine ⟨fun lvl nodes g lv n => ⟨sort_pass_perm dist lvl nodes g lv n,
    (sort_pass_perm dist lvl nodes g lv n).length_eq⟩, ?_, ?_⟩
  · intro idx hidx
    obtain ⟨_, h1, hadd, rfl⟩ := train_ok hidx
    refine ⟨h1, hadd, rfl, rfl, rfl, fun lv n => ?_⟩
    have hp := sort_pass_perm dist (node2level sampled ub) (List.range rows) h1.graph lv n
    exact ⟨Multiset.coe_eq_coe.2 hp, hp.length_eq⟩
  · intro hrows hM hfuel
    obtain ⟨idx, hidx, _⟩ := train_returns dist rows M efC sampled ub fuel hrows hM hfuel
    exact ⟨idx, hidx⟩

theorem sort_pass_permutes_witness :
    ∃ idx h1, train example_dist 4 2 4 (fun i => [1, 0, 2, 0].getD i 0) (-1) 5 = .ok idx ∧
      add_points example_dist (node2level (fun i => [1, 0, 2, 0].getD i 0) (-1)) 5 4 0
        ⟨4, 2, (2 * 2) % 2 ^ 32, 4, 0, 0, fun _ _ => []⟩ = .ok h1 ∧
      ∀ lv n, ((idx.graph lv n : List Nat) : Multiset Nat) = (h1.graph lv n : List Nat) ∧
        (idx.graph lv n).length = (h1.graph lv n).length := by
  obtain ⟨idx, hidx⟩ := (sort_pass_permutes example_dist 4 2 4 (fun i => [1, 0, 2, 0].getD i 0)
    (-1) 5).2.2 (by decide) (by decide) (by decide)
  obtain ⟨h1, hadd, _, _, _, hall⟩ := (sort_pass_permutes example_dist 4 2 4
    (fun i => [1, 0, 2, 0].getD i 0) (-1) 5).2.1 idx hidx
  exact ⟨idx, h1, hidx, hadd, hall⟩

theorem search_level_nodup {qd : Nat → D} {g : Graph} {init_node efS level fuel : Nat}
    {r : List (Pair D)} (h : search_level qd g init_node efS level fuel = .ok r) :
    (r.map Pair.node_id).Nodup := by
  obtain ⟨s, hs, rfl⟩ := search_level_inv h
  exact hs.topk_nodup

/-- C38. No node id occurs twice in the result heap of `search_level`, whatever the graph
(duplicate edges, cycles, self-loops), and none occurs twice in the sequence `predict_single`
returns; both calls do return on a graph whose ids are below `n`, once the loops may run
`n + 1` times. -/
theorem search_result_nodup (qd : Nat → D) :
    (∀ (g : Graph) (init_node efS level fuel : Nat) (r : List (Pair D)),
      search_level qd g init_node efS level fuel = .ok r → (r.map Pair.node_id).Nodup) ∧
    (∀ (h : Index) (efS topk fuel : Nat) (r : List (Pair D)),
      predict_single qd h efS topk fuel = .ok r → (r.map Pair.node_id).Nodup) ∧
    (∀ (g : Graph) (init_node efS level fuel n : Nat), (∀ y x, x ∈ g level y → x < n) →
      init_node < n → n < fuel → ∃ r, search_level qd g init_node efS level fuel = .ok r) ∧
    (∀ (h : Index) (efS topk fuel : Nat), h.well_formed → h.num_node < fuel →
      ∃ r, predict_single qd h efS topk fuel = .ok r) :=
  ⟨fun _ _ _ _ _ _ h => search_level_nodup h,
    fun _ _ _ _ _ h => (predict_single_sorted_nodup h).2,
    fun _ _ efS _ _ _ hnb hinit hf => search_level_terminates qd efS hnb hinit hf,
    fun _ efS topk _ hwf hf => predict_single_total efS topk hwf hf⟩

theorem search_result_nodup_witness :
    search_level example_qd duplicate_graph 0 3 0 4 = .ok [⟨9, 2⟩, ⟨4, 0⟩, ⟨1, 1⟩] ∧
    (([⟨9, 2⟩, ⟨4, 0⟩, ⟨1, 1⟩] : List (Pair Nat)).map Pair.node_id).Nodup :=
  ⟨rfl, (search_result_nodup example_qd).1 duplicate_graph 0 3 0 4 _ rfl⟩

theorem descent_index_well_formed : descent_index.well_formed := by
  refine ⟨by decide, ?_⟩
  intro l y x hx
  simp only [descent_index] at hx ⊢
  split_ifs at hx with h0 h1
  · rcases Nat.lt_or_ge y 3 with hy | hy
    · interval_cases y <;> simp at hx <;> omega
    · rw [List.getD_eq_default _ _ (by simpa using hy)] at hx; cases hx
  · rcases Nat.lt_or_ge y 2 with hy | hy
    · interval_cases y <;> simp at hx <;> omega
    · rw [List.getD_eq_default _ _ (by simpa using hy)] at hx; cases hx
  · cases hx

/-- C37. `predict_single` terminates on every finite index. A scan of the greedy descent either
changes nothing (the `while` loop of the level then ends) or leaves a current node strictly
closer to the query; in `search_level` a neighbor already visited changes nothing and a new
one is marked visited, and is then the only entry the candidate queue may gain, so the queue
never holds a node twice and holds visited nodes only; on a well-formed index (entry point and
neighbor ids below `num_node`) every loop ends within `num_node` runs of its body and a last
test: `predict_single` returns with fuel `num_node + 1`. -/
theorem predict_single_terminates (qd : Nat → D) :
    (∀ (neighbors : List Nat) (st : Nat × D × Bool),
      scan_neighbors qd neighbors st = st ∨
      ((scan_neighbors qd neighbors st).2.2 = true ∧
        (scan_neighbors qd neighbors st).2.1 < st.2.1)) ∧
    (∀ (efS : Nat) (s : SearchState D) (x : Nat),
      (x ∈ s.visited → visit_neighbor qd efS s x = s) ∧
      (x ∉ s.visited → (visit_neighbor qd efS s x).visited = x :: s.visited ∧
        ((visit_neighbor qd efS s x).cand_queue = s.cand_queue ∨
          (visit_neighbor qd efS s x).cand_queue
            = min_heap_emplace ⟨qd x, x⟩ s.cand_queue))) ∧
    (∀ (g : Graph) (init_node efS level fuel : Nat) (s : SearchState D),
      search_loop qd (g level) efS fuel (search_init qd init_node) = .ok s →
      (s.cand_queue.map Pair.node_id).Nodup ∧ ∀ p ∈ s.cand_queue, p.node_id ∈ s.visited) ∧
    (∀ (h : Index) (efS topk : Nat), h.well_formed →
      ∃ r, predict_single qd h efS topk (h.num_node + 1) = .ok r) := by
  refine ⟨?_, ?_, ?_, fun h efS topk hwf => predict_single_total efS topk hwf (Nat.lt_succ_self _)⟩
  · intro neighbors st
    rcases scan_neighbors_cases qd neighbors st with h | ⟨h1, h2, _, _⟩
    · exact Or.inl h
    · exact Or.inr ⟨h1, h2⟩
  · intro efS s x
    constructor
    · intro hx
      unfold visit_neighbor
      rw [if_pos hx]
    · intro hx
      unfold visit_neighbor
      rw [if_neg hx]
      dsimp only
      split_ifs
      · exact ⟨rfl, Or.inr rfl⟩
      · exact ⟨rfl, Or.inr rfl⟩
      · exact ⟨rfl, Or.inl rfl⟩
  · intro g init_node efS level fuel s hs
    have hI := search_loop_inv qd (g level) efS fuel _ s (search_init_inv qd efS init_node) hs
    exact ⟨hI.cand_nodup, hI.cand_vis⟩

theorem predict_single_terminates_witness :
    descent_index.well_formed ∧
    ∃ r, predict_single example_qd descent_index 3 2 (descent_index.num_node + 1) = .ok r :=
  ⟨descent_index_well_formed,
    (predict_single_terminates example_qd).2.2.2 descent_index 3 2 descent_index_well_formed⟩

end
end HNSW

namespace HNSW
section
set_option linter.unusedSectionVars false
variable {D : Type} [LinearOrder D]

theorem getLast?_of_sorted_ge {R : List (Pair D)} {m : Pair D} (hs : R.Sorted Pair.ge)
    (hm : m ∈ R) (hmin : ∀ p ∈ R, Pair.le m p) : R.getLast? = some m := by
  rcases List.eq_nil_or_concat R with h | ⟨L, x, h⟩
  · rw [h] at hm; cases hm
  · rw [List.concat_eq_append] at h
    subst h
    rw [List.getLast?_append, List.getLast?_singleton]
    simp only [Option.or_some, Option.some.injEq]
    have hx : Pair.le m x := hmin x (by simp)
    have hxm : Pair.le x m := by
      rcases List.mem_append.1 hm with h1 | h1
      · have hp := List.pairwise_append.1 hs
        exact hp.2.2 m h1 x (by simp)
      · rw [List.mem_singleton] at h1
        rw [h1]
        exact Pair.le_refl x
    exact Pair.le_antisymm hxm hx

/-- The closest candidate, first in the order of the min-heap, is among the survivors. -/
theorem get_neighbors_heuristic_closest (dist : Nat → Nat → D) {top : List (Pair D)} {M : Nat}
    (hM : 1 ≤ M) (hne : top ≠ []) :
    ∃ m, m ∈ top ∧ (∀ p ∈ top, Pair.le m p) ∧ m ∈ get_neighbors_heuristic dist top M := by
  have hsorted : (drain_to_min_heap top []).Sorted Pair.le :=
    drain_to_min_heap_sorted top List.sorted_nil
  have hperm : (drain_to_min_heap top []).Perm top := by
    have := drain_to_min_heap_perm top []
    rwa [List.append_nil] at this
  have hqne : drain_to_min_heap top [] ≠ [] := by
    intro h0
    rw [h0] at hperm
    exact hne hperm.symm.eq_nil
  obtain ⟨c, rest, hq⟩ := List.exists_cons_of_ne_nil hqne
  have hc : c ∈ top := hperm.subset (by rw [hq]; exact List.mem_cons_self _ _)
  have hmin : ∀ p ∈ top, Pair.le c p := by
    intro p hp
    have hp' : p ∈ c :: rest := by rw [← hq]; exact hperm.symm.subset hp
    rcases List.mem_cons.1 hp' with h1 | h1
    · rw [h1]; exact Pair.le_refl c
    · rw [hq] at hsorted
      exact List.rel_of_sorted_cons hsorted p h1
  refine ⟨c, hc, hmin, ?_⟩
  unfold get_neighbors_heuristic
  split_ifs with hlen
  · exact hc
  · obtain ⟨l, hl⟩ := heuristic_loop_first dist hM c rest
    rw [hq, hl]
    exact (foldl_max_heap_emplace_perm (c :: l) []).symm.subset (by simp)

/-- C39. For every non-empty candidate heap and `maxM ≥ 1`, a candidate `m` that is first in
the order of the heap (none has a smaller distance to the query) survives
`get_neighbors_heuristic`; it is the last entry popped from the heap of survivors, and when
`mutually_connect` returns, the id it returns is the id of `m`. -/
theorem closest_candidate_survives (dist : Nat → Nat → D) (top_candidates : List (Pair D))
    (maxM : Nat) (hM : 1 ≤ maxM) (hne : top_candidates ≠ [])
    (hheap : top_candidates.Sorted Pair.ge) :
    ∃ m, m ∈ top_candidates ∧ (∀ p ∈ top_candidates, m.dist ≤ p.dist) ∧
      m ∈ get_neighbors_heuristic dist top_candidates maxM ∧
      (get_neighbors_heuristic dist top_candidates maxM).getLast? = some m ∧
      ∀ (maxM0 : Nat) (g g' : Graph) (src_node_id level next : Nat),
        mutually_connect dist maxM maxM0 g src_node_id top_candidates level = .ok (g', next) →
        next = m.node_id := by
  obtain ⟨m, hm, hmin, hsurv⟩ := get_neighbors_heuristic_closest dist hM hne
  have hlast : (get_neighbors_heuristic dist top_candidates maxM).getLast? = some m :=
    getLast?_of_sorted_ge (get_neighbors_heuristic_sorted dist maxM hheap) hsurv
      (fun p hp => hmin p (get_neighbors_heuristic_mem hp))
  refine ⟨m, hm, fun p hp => Pair.dist_le_of_le (hmin p hp), hsurv, hlast, ?_⟩
  intro maxM0 g g' q level next h
  obtain ⟨_, h2⟩ := mutually_connect_ok h
  rw [List.getLast?_map, hlast] at h2
  simp only [Option.map_some', Option.some.injEq] at h2
  exact h2.symm

theorem closest_candidate_survives_witness :
    1 ≤ 2 ∧ ([⟨100, 0⟩, ⟨49, 1⟩, ⟨36, 2⟩] : List (Pair Nat)) ≠ [] ∧
    (∃ g', mutually_connect example_dist 2 4 example_index.graph 3
      [⟨100, 0⟩, ⟨49, 1⟩, ⟨36, 2⟩] 0 = .ok (g', 2)) ∧
    ∃ m : Pair Nat, m ∈ ([⟨100, 0⟩, ⟨49, 1⟩, ⟨36, 2⟩] : List (Pair Nat)) ∧
      (∀ p ∈ ([⟨100, 0⟩, ⟨49, 1⟩, ⟨36, 2⟩] : List (Pair Nat)), m.dist ≤ p.dist) ∧
      m ∈ get_neighbors_heuristic example_dist [⟨100, 0⟩, ⟨49, 1⟩, ⟨36, 2⟩] 2 ∧
      (get_neighbors_heuristic example_dist [⟨100, 0⟩, ⟨49, 1⟩, ⟨36, 2⟩] 2).getLast? = some m ∧
      ∀ (maxM0 : Nat) (g g' : Graph) (src_node_id level next : Nat),
        mutually_connect example_dist 2 maxM0 g src_node_id [⟨100, 0⟩, ⟨49, 1⟩, ⟨36, 2⟩] level
          = .ok (g', next) → next = m.node_id := by
  refine ⟨by decide, by decide, ?_,
    closest_candidate_survives example_dist [⟨100, 0⟩, ⟨49, 1⟩, ⟨36, 2⟩] 2 (by decide)
      (by decide) (by decide)⟩
  have h : (match mutually_connect example_dist 2 4 example_index.graph 3
      [⟨100, 0⟩, ⟨49, 1⟩, ⟨36, 2⟩] 0 with
    | .ok r => r.2 | .error _ => 7) = 2 := rfl
  cases hm : mutually_connect example_dist 2 4 example_index.graph 3
      [⟨100, 0⟩, ⟨49, 1⟩, ⟨36, 2⟩] 0 with
  | error e => rw [hm] at h; cases h
  | ok r =>
    rw [hm] at h
    obtain ⟨g', next⟩ := r
    simp only at h
    subst h
    exact ⟨g', rfl⟩

end
end HNSW

namespace HNSW
section
set_option linter.unusedSectionVars false
variable {D : Type} [LinearOrder D]

/-- While the list of the new node has room for the remaining survivors, every
`add_link(q, dst)` is a push. -/
theorem connect_selected_new_node (dist : Nat → Nat → D) (Mcurmax level q : Nat) :
    ∀ (sel : List Nat) (g g' : Graph), q ∉ sel →
      (g level q).length + sel.length ≤ Mcurmax →
      connect_selected dist Mcurmax level q sel g = .ok g' →
      g' level q = g level q ++ sel ∧
      ∀ lv n, ¬ (lv = level ∧ (n = q ∨ n ∈ sel)) → g' lv n = g lv n := by
  intro sel
  induction sel with
  | nil =>
    intro g g' _ _ h
    simp only [connect_selected, Except.ok.injEq] at h
    subst h
    exact ⟨(List.append_nil _).symm, fun _ _ _ => rfl⟩
  | cons dst rest ih =>
    intro g g' hq hlen h
    have hqd : q ≠ dst := fun e => hq (e ▸ List.mem_cons_self _ _)
    have hqr : q ∉ rest := fun e => hq (List.mem_cons_of_mem _ e)
    simp only [List.length_cons] at hlen
    have h1 := add_link_push dist Mcurmax level g q dst (by omega) hqd
    unfold connect_selected at h
    rw [h1] at h
    dsimp only at h
    split at h
    · cases h
    · rename_i g2 hg2
      obtain ⟨_, _, l, hl, _⟩ := add_link_ok hg2
      have e2q : g2 level q = g level q ++ [dst] := by
        rw [hl, set_neighborhood_other _ _ (fun hh => hqd hh.2), set_neighborhood_same]
      obtain ⟨i1, i2⟩ := ih g2 g' hqr (by rw [e2q, List.length_append, List.length_singleton]; omega) h
      refine ⟨by rw [i1, e2q, List.append_assoc, List.singleton_append], ?_⟩
      intro lv n hn
      have hn1 : ¬ (lv = level ∧ (n = q ∨ n ∈ rest)) := by
        rintro ⟨a, b | b⟩
        · exact hn ⟨a, Or.inl b⟩
        · exact hn ⟨a, Or.inr (List.mem_cons_of_mem _ b)⟩
      rw [i2 lv n hn1, hl, set_neighborhood_other _ _ (fun hh => hn ⟨hh.1, Or.inr (by
        rw [hh.2]; exact List.mem_cons_self _ _)⟩),
        set_neighborhood_other _ _ (fun hh => hn ⟨hh.1, Or.inl hh.2⟩)]

/-- C31, counterexample. With `maxM = 2^31` and the level-0 capacity `maxM0 = 0` that `train`
computes from it, the new node 1 and the single candidate node 0: `mutually_connect` returns
node 0 and leaves the level-0 list of node 1 empty, although node 0 is the heuristic's
survivor. -/
theorem mutually_connect_new_node_counterexample :
    ¬ (∀ (dist : Nat → Nat → Nat) (maxM maxM0 : Nat) (g g' : Graph) (q level next : Nat)
      (top_candidates : List (Pair Nat)), g level q = [] →
      q ∉ top_candidates.map Pair.node_id →
      mutually_connect dist maxM maxM0 g q top_candidates level = .ok (g', next) →
      g' level q = (get_neighbors_heuristic dist top_candidates maxM).map Pair.node_id) := by
  intro hall
  have h : (match mutually_connect pair_dist (2 ^ 31) 0 (fun _ _ => []) 1 [⟨1, 0⟩] 0 with
    | .ok r => (r.1 0 1, r.2) | .error _ => ([7], 7)) = ([], 0) := by decide
  cases hm : mutually_connect pair_dist (2 ^ 31) 0 (fun _ _ => []) 1 [⟨1, 0⟩] 0 with
  | error e => rw [hm] at h; cases h
  | ok r =>
    rw [hm] at h
    obtain ⟨g', next⟩ := r
    simp only [Prod.mk.injEq] at h
    have := hall pair_dist (2 ^ 31) 0 (fun _ _ => []) g' 1 0 next [⟨1, 0⟩] rfl (by decide) hm
    rw [h.1] at this
    revert this
    decide

/-- C31, amended. When the survivors fit the capacity of the level (always so above level 0,
and at level 0 when there are at most `maxM0` of them, as when `maxM ≤ maxM0`), for every new
node `q` whose list at the level is empty and every candidate heap not containing `q`, after
`mutually_connect` returns, the list of `q` at the level holds exactly the ids of the
heuristic's survivors, one entry per survivor in the order they are popped, and no list other
than the lists of `q` and of the survivors at that level has changed. -/
theorem mutually_connect_new_node (dist : Nat → Nat → D) (maxM maxM0 : Nat) (g g' : Graph)
    (q level next : Nat) (top_candidates : List (Pair D))
    (hcap : level = 0 →
      (get_neighbors_heuristic dist top_candidates maxM).length ≤ maxM0)
    (hempty : g level q = [])
    (hq : q ∉ top_candidates.map Pair.node_id)
    (h : mutually_connect dist maxM maxM0 g q top_candidates level = .ok (g', next)) :
    g' level q = (get_neighbors_heuristic dist top_candidates maxM).map Pair.node_id ∧
    ∀ lv n, ¬ (lv = level ∧
        (n = q ∨ n ∈ (get_neighbors_heuristic dist top_candidates maxM).map Pair.node_id)) →
      g' lv n = g lv n := by
  obtain ⟨hc, _⟩ := mutually_connect_ok h
  have hqs : q ∉ (get_neighbors_heuristic dist top_candidates maxM).map Pair.node_id := by
    intro hmem
    obtain ⟨p, hp, hpq⟩ := List.mem_map.1 hmem
    exact hq (List.mem_map.2 ⟨p, get_neighbors_heuristic_mem hp, hpq⟩)
  have hlen : (g level q).length
      + ((get_neighbors_heuristic dist top_candidates maxM).map Pair.node_id).length
      ≤ if level ≠ 0 then maxM else maxM0 := by
    rw [hempty, List.length_nil, Nat.zero_add, List.length_map]
    have h1 := get_neighbors_heuristic_length dist top_candidates maxM
    split_ifs with h0
    · exact h1
    · exact hcap (not_not.1 h0)
  obtain ⟨e1, e2⟩ := connect_selected_new_node dist _ level q _ g g' hqs hlen hc
  rw [hempty, List.nil_append] at e1
  exact ⟨e1, e2⟩

theorem mutually_connect_new_node_witness :
    ((0 : Nat) = 0 → (get_neighbors_heuristic example_dist
      [⟨100, 0⟩, ⟨49, 1⟩, ⟨36, 2⟩] 2).length ≤ 4) ∧ example_index.graph 0 3 = [] ∧
    3 ∉ ([⟨100, 0⟩, ⟨49, 1⟩, ⟨36, 2⟩] : List (Pair Nat)).map Pair.node_id ∧
    ∃ g' next, mutually_connect example_dist 2 4 example_index.graph 3
        [⟨100, 0⟩, ⟨49, 1⟩, ⟨36, 2⟩] 0 = .ok (g', next) ∧
      g' 0 3 = (get_neighbors_heuristic example_dist
        [⟨100, 0⟩, ⟨49, 1⟩, ⟨36, 2⟩] 2).map Pair.node_id ∧
      g' 0 3 = [2] := by
  refine ⟨fun _ => by decide, by decide, by decide, ?_⟩
  cases hm : mutually_connect example_dist 2 4 example_index.graph 3
      [⟨100, 0⟩, ⟨49, 1⟩, ⟨36, 2⟩] 0 with
  | error e =>
    have h : (mutually_connect example_dist 2 4 example_index.graph 3
      [⟨100, 0⟩, ⟨49, 1⟩, ⟨36, 2⟩] 0).isOk = true := by decide
    rw [hm] at h
    cases h
  | ok r =>
    obtain ⟨g', next⟩ := r
    have h1 := (mutually_connect_new_node example_dist 2 4 example_index.graph g' 3 0 next
      [⟨100, 0⟩, ⟨49, 1⟩, ⟨36, 2⟩] (fun _ => by decide) (by decide) (by decide) hm).1
    exact ⟨g', next, rfl, h1, by rw [h1]; decide⟩

/-- C32, counterexample. With capacity 0 (the level-0 capacity when `M = 2^31`) the empty list
of node 0 is at capacity, and `add_link(0, 1)` leaves it empty. -/
theorem add_link_rebuild_counterexample :
    ¬ (∀ (dist : Nat → Nat → Nat) (Mcur level : Nat) (g g' : Graph) (s q : Nat),
      (g level s).length = Mcur → s ≠ q → add_link dist Mcur level g s q = .ok g' →
      g' level s ≠ []) := by
  intro hall
  have h : (match add_link pair_dist 0 0 (fun _ _ => []) 0 1 with
    | .ok g' => g' 0 0 | .error _ => [7]) = [] := by decide
  cases hm : add_link pair_dist 0 0 (fun _ _ => []) 0 1 with
  | error e => rw [hm] at h; cases h
  | ok g' =>
    rw [hm] at h
    exact hall pair_dist 0 0 (fun _ _ => []) g' 0 1 rfl (by decide) hm h

/-- C32, amended. When the list of `s` at the level is at capacity `Mcur ≥ 1`, `add_link(s, q)`
(with `s ≠ q`) replaces the list by the ids of the survivors of `get_neighbors_heuristic` with
`M = Mcur`, run over the heap that holds the former neighbors and `q`, each with its distance
to `s`, in the order they are popped; the new list is non-empty, has at most `Mcur` entries,
and each entry is a former neighbor or `q`. -/
theorem add_link_rebuild (dist : Nat → Nat → D) (Mcur level : Nat) (g : Graph) (s q : Nat)
    (hM : 1 ≤ Mcur) (hfull : (g level s).length = Mcur) (hne : s ≠ q) :
    ∃ candidates : List (Pair D),
      candidates.Sorted Pair.ge ∧
      candidates.Perm ((g level s ++ [q]).map (fun n => (⟨dist s n, n⟩ : Pair D))) ∧
      add_link dist Mcur level g s q = .ok (set_neighborhood g level s
        ((get_neighbors_heuristic dist candidates Mcur).map Pair.node_id)) ∧
      (get_neighbors_heuristic dist candidates Mcur).map Pair.node_id ≠ [] ∧
      ((get_neighbors_heuristic dist candidates Mcur).map Pair.node_id).length ≤ Mcur ∧
      ∀ x ∈ (get_neighbors_heuristic dist candidates Mcur).map Pair.node_id,
        x ∈ g level s ∨ x = q := by
  have hfold : (g level s).foldl (fun h n => max_heap_emplace (⟨dist s n, n⟩ : Pair D) h)
      (max_heap_emplace ⟨dist s q, q⟩ [])
      = ((g level s).map (fun n => (⟨dist s n, n⟩ : Pair D))).foldl
        (fun h p => max_heap_emplace p h) (max_heap_emplace ⟨dist s q, q⟩ []) := by
    rw [List.foldl_map]
  have hsorted0 : (max_heap_emplace (⟨dist s q, q⟩ : Pair D) []).Sorted Pair.ge :=
    max_heap_emplace_sorted _ List.sorted_nil
  have hperm : ((g level s).foldl (fun h n => max_heap_emplace (⟨dist s n, n⟩ : Pair D) h)
      (max_heap_emplace ⟨dist s q, q⟩ [])).Perm
      ((g level s ++ [q]).map (fun n => (⟨dist s n, n⟩ : Pair D))) := by
    rw [hfold, List.map_append]
    refine (foldl_max_heap_emplace_perm _ _).trans (List.Perm.append_left _ ?_)
    exact max_heap_emplace_perm _ []
  have hne0 : (g level s).foldl (fun h n => max_heap_emplace (⟨dist s n, n⟩ : Pair D) h)
      (max_heap_emplace ⟨dist s q, q⟩ []) ≠ [] := by
    intro h0
    rw [h0] at hperm
    have := hperm.length_eq
    simp at this
  refine ⟨_, ?_, hperm, ?_, ?_, ?_, ?_⟩
  · rw [hfold]
    exact foldl_max_heap_emplace_sorted _ hsorted0
  · unfold add_link
    dsimp only
    rw [if_neg (by omega), if_neg hne, if_neg (by omega)]
  · intro h0
    exact get_neighbors_heuristic_ne_nil dist hM hne0 (List.map_eq_nil_iff.1 h0)
  · rw [List.length_map]
    exact get_neighbors_heuristic_length dist _ Mcur
  · intro x hx
    obtain ⟨p, hp, rfl⟩ := List.mem_map.1 hx
    have hp1 := hperm.subset (get_neighbors_heuristic_mem hp)
    obtain ⟨n, hn, rfl⟩ := List.mem_map.1 hp1
    rcases List.mem_append.1 hn with h1 | h1
    · exact Or.inl h1
    · exact Or.inr (List.mem_singleton.1 h1)

theorem add_link_rebuild_witness :
    1 ≤ 2 ∧ (example_index.graph 0 0).length = 2 ∧ 0 ≠ 3 ∧
    ∃ candidates : List (Pair Nat),
      candidates.Sorted Pair.ge ∧
      candidates.Perm ((example_index.graph 0 0 ++ [3]).map
        (fun n => (⟨example_dist 0 n, n⟩ : Pair Nat))) ∧
      add_link example_dist 2 0 example_index.graph 0 3
        = .ok (set_neighborhood example_index.graph 0 0
          ((get_neighbors_heuristic example_dist candidates 2).map Pair.node_id)) ∧
      (get_neighbors_heuristic example_dist candidates 2).map Pair.node_id ≠ [] ∧
      ((get_neighbors_heuristic example_dist candidates 2).map Pair.node_id).length ≤ 2 ∧
      ∀ x ∈ (get_neighbors_heuristic example_dist candidates 2).map Pair.node_id,
        x ∈ example_index.graph 0 0 ∨ x = 3 :=
  ⟨by decide, by decide, by decide,
    add_link_rebuild example_dist 2 0 example_index.graph 0 3 (by decide) (by decide)
      (by decide)⟩

end
end HNSW

namespace HNSW
section
set_option linter.unusedSectionVars false
variable {D : Type} [LinearOrder D]

theorem search_init_reach (qd : Nat → D) (nb : Nat → List Nat) (efS init_node : Nat) :
    SearchReach qd nb efS init_node none (search_init qd init_node) := by
  constructor
  · simp [search_init]
  · intro v hv
    simp only [search_init, List.mem_singleton] at hv
    rw [hv]
  · intro v hv hnot
    simp only [search_init, List.mem_singleton] at hv
    exfalso
    apply hnot
    simp [search_init, max_heap_emplace, hv]
  · intro _ v hv
    simp only [search_init, List.mem_singleton] at hv
    simp [search_init, max_heap_emplace, hv]
  · intro _ v hv hnot
    simp only [search_init, List.mem_singleton] at hv
    exfalso
    apply hnot
    simp [search_init, min_heap_emplace, hv]

theorem head_dist_le_of_sorted_ge {l : List (Pair D)} {t p : Pair D} {rest : List (Pair D)}
    (hs : l.Sorted Pair.ge) (hl : l = t :: rest) (hp : p ∈ l) : p.dist ≤ t.dist := by
  subst hl
  rcases List.mem_cons.1 hp with h | h
  · rw [h]
  · exact Pair.dist_le_of_le (List.rel_of_sorted_cons hs p h)

theorem visit_neighbor_reach {qd : Nat → D} {nb : Nat → List Nat} {efS init_node : Nat}
    {e : Option Nat} {s : SearchState D} (hs : SearchInv qd efS s)
    (hr : SearchReach qd nb efS init_node e s) {x : Nat}
    (hx : Relation.ReflTransGen (fun a b => b ∈ nb a) init_node x) :
    SearchReach qd nb efS init_node e (visit_neighbor qd efS s x) := by
  unfold visit_neighbor
  by_cases hv : x ∈ s.visited
  · simp only [hv, if_true]; exact hr
  · simp only [hv, if_false]
    obtain ⟨t, trest, ht⟩ := List.exists_cons_of_ne_nil hs.topk_ne
    have hub : s.topk_ub_dist = t.dist := hs.ub_eq t trest ht
    have hreach : ∀ v ∈ x :: s.visited,
        Relation.ReflTransGen (fun a b => b ∈ nb a) init_node v := by
      intro v hv'
      rcases List.mem_cons.1 hv' with h | h
      · rw [h]; exact hx
      · exact hr.vis_reach v h
    split_ifs with hc hlen
    · -- pushed, then popped
      have hS := max_heap_emplace_sorted ⟨qd x, x⟩ hs.topk_sorted
      have hL := max_heap_emplace_length ⟨qd x, x⟩ s.topk_queue
      have hfull : ¬ s.topk_queue.length < efS := by
        simp only [gt_iff_lt, hL] at hlen
        omega
      have hxlt : qd x < s.topk_ub_dist := hc.resolve_left hfull
      obtain ⟨m, T, hE⟩ := List.exists_cons_of_ne_nil
        (show max_heap_emplace ⟨qd x, x⟩ s.topk_queue ≠ [] by
          intro h0; rw [h0] at hL; simp at hL)
      have hTlen : T.length = s.topk_queue.length := by
        have := congrArg List.length hE
        rw [hL, List.length_cons] at this
        omega
      refine ⟨List.mem_cons_of_mem _ hr.init_vis, hreach, ?_, ?_, ?_⟩
      · intro v hv' hnot p hp
        dsimp only at hnot hp ⊢
        rw [hE, List.tail_cons] at hnot hp
        have hpm : p.dist ≤ m.dist := by
          rw [hE] at hS
          exact Pair.dist_le_of_le (List.rel_of_sorted_cons hS p hp)
        -- the pair of `v`, when it is in the heap before the pop, is the popped one
        have hpopped : ∀ pv : Pair D, pv ∈ max_heap_emplace ⟨qd x, x⟩ s.topk_queue →
            pv.node_id = v → pv = m := by
          intro pv hpv hpvv
          rw [hE] at hpv
          rcases List.mem_cons.1 hpv with h | h
          · exact h
          · exact absurd (List.mem_map.2 ⟨pv, h, hpvv⟩) hnot
        rcases List.mem_cons.1 hv' with h | h
        · have := hpopped ⟨qd x, x⟩ (mem_max_heap_emplace.2 (Or.inl rfl)) h.symm
          rw [← this] at hpm
          rw [h]
          exact hpm
        · by_cases hin : v ∈ s.topk_queue.map Pair.node_id
          · obtain ⟨pv, hpv, hpvv⟩ := List.mem_map.1 hin
            have := hpopped pv (mem_max_heap_emplace.2 (Or.inr hpv)) hpvv
            rw [← this, hs.topk_dist pv hpv, hpvv] at hpm
            exact hpm
          · rcases mem_max_heap_emplace.1 (show p ∈ max_heap_emplace ⟨qd x, x⟩ s.topk_queue by
              rw [hE]; exact List.mem_cons_of_mem _ hp) with h1 | h1
            · rw [h1]
              have h2 := hr.absent_far v h hin t (by rw [ht]; exact List.mem_cons_self _ _)
              exact le_trans (le_of_lt (hub ▸ hxlt)) h2
            · exact hr.absent_far v h hin p h1
      · intro hsmall
        dsimp only at hsmall
        rw [List.length_tail, hL] at hsmall
        omega
      · intro hsmall
        dsimp only at hsmall
        rw [List.length_tail, hL] at hsmall
        omega
    · -- pushed, not popped
      have hL := max_heap_emplace_length ⟨qd x, x⟩ s.topk_queue
      have hsmall0 : s.topk_queue.length < efS := by
        simp only [gt_iff_lt, not_lt, hL] at hlen
        omega
      refine ⟨List.mem_cons_of_mem _ hr.init_vis, hreach, ?_, ?_, ?_⟩
      · intro v hv' hnot p hp
        exfalso
        apply hnot
        dsimp only
        rcases List.mem_cons.1 hv' with h | h
        · exact List.mem_map.2 ⟨⟨qd x, x⟩, mem_max_heap_emplace.2 (Or.inl rfl), h.symm⟩
        · obtain ⟨pv, hpv, hpvv⟩ := List.mem_map.1 (hr.small_all hsmall0 v h)
          exact List.mem_map.2 ⟨pv, mem_max_heap_emplace.2 (Or.inr hpv), hpvv⟩
      · intro _ v hv'
        dsimp only
        rcases List.mem_cons.1 hv' with h | h
        · exact List.mem_map.2 ⟨⟨qd x, x⟩, mem_max_heap_emplace.2 (Or.inl rfl), h.symm⟩
        · obtain ⟨pv, hpv, hpvv⟩ := List.mem_map.1 (hr.small_all hsmall0 v h)
          exact List.mem_map.2 ⟨pv, mem_max_heap_emplace.2 (Or.inr hpv), hpvv⟩
      · intro _ v hv' hnot hne y hy
        dsimp only at hnot ⊢
        rcases List.mem_cons.1 hv' with h | h
        · exact absurd (List.mem_map.2 ⟨⟨qd x, x⟩, mem_min_heap_emplace.2 (Or.inl rfl),
            h.symm⟩) hnot
        · refine List.mem_cons_of_mem _ (hr.small_closed hsmall0 v h ?_ hne y hy)
          intro hin
          obtain ⟨pv, hpv, hpvv⟩ := List.mem_map.1 hin
          exact hnot (List.mem_map.2 ⟨pv, mem_min_heap_emplace.2 (Or.inr hpv), hpvv⟩)
    · -- not pushed
      have hfull : ¬ s.topk_queue.length < efS := fun h => hc (Or.inl h)
      have hfar : ¬ qd x < s.topk_ub_dist := fun h => hc (Or.inr h)
      refine ⟨List.mem_cons_of_mem _ hr.init_vis, hreach, ?_, ?_, ?_⟩
      · intro v hv' hnot p hp
        dsimp only at hnot hp
        rcases List.mem_cons.1 hv' with h | h
        · rw [h]
          have h1 := head_dist_le_of_sorted_ge hs.topk_sorted ht hp
          rw [← hub] at h1
          exact le_trans h1 (not_lt.1 hfar)
        · exact hr.absent_far v h hnot p hp
      · intro hsmall
        exact absurd hsmall hfull
      · intro hsmall
        exact absurd hsmall hfull

theorem foldl_visit_neighbor_reach {qd : Nat → D} {nb : Nat → List Nat} {efS init_node : Nat}
    {e : Option Nat} (l : List Nat)
    (hl : ∀ x ∈ l, Relation.ReflTransGen (fun a b => b ∈ nb a) init_node x) :
    ∀ s : SearchState D, SearchInv qd efS s → SearchReach qd nb efS init_node e s →
      SearchInv qd efS (l.foldl (visit_neighbor qd efS) s) ∧
      SearchReach qd nb efS init_node e (l.foldl (visit_neighbor qd efS) s) := by
  induction l with
  | nil => intro s hs hr; exact ⟨hs, hr⟩
  | cons x rest ih =>
    intro s hs hr
    simp only [List.foldl_cons]
    exact ih (fun y hy => hl y (List.mem_cons_of_mem _ hy)) _ (visit_neighbor_inv hs x)
      (visit_neighbor_reach hs hr (hl x (List.mem_cons_self _ _)))

/-- The loop of `search_level` keeps `SearchReach`, and it ends either on an empty candidate
queue or on a candidate farther than the farthest entry of the result heap. -/
theorem search_loop_reach (qd : Nat → D) (nb : Nat → List Nat) (efS init_node : Nat) :
    ∀ (fuel : Nat) (s s' : SearchState D), SearchInv qd efS s →
      SearchReach qd nb efS init_node none s → search_loop qd nb efS fuel s = .ok s' →
      SearchInv qd efS s' ∧ SearchReach qd nb efS init_node none s' ∧
      (s'.cand_queue = [] ∨
        ∃ c rest, s'.cand_queue = c :: rest ∧ s'.topk_ub_dist < c.dist) := by
  intro fuel
  induction fuel with
  | zero => intro s s' _ _ h; simp [search_loop] at h
  | succ fuel ih =>
    intro s s' hs hr h
    unfold search_loop at h
    split at h
    · rename_i hc
      cases h
      exact ⟨hs, hr, Or.inl hc⟩
    · rename_i c rest hc
      split_ifs at h with hlt
      · cases h
        exact ⟨hs, hr, Or.inr ⟨c, rest, hc, hlt⟩⟩
      · have hcvis : c.node_id ∈ s.visited := hs.cand_vis c (by rw [hc]; exact List.mem_cons_self _ _)
        have hpop : SearchReach qd nb efS init_node (some c.node_id)
            ⟨s.topk_queue, rest, s.visited, s.topk_ub_dist⟩ := by
          refine ⟨hr.init_vis, hr.vis_reach, hr.absent_far, hr.small_all, ?_⟩
          intro hsmall v hv hnot hne
          refine hr.small_closed hsmall v hv ?_ (by simp)
          rw [hc, List.map_cons, List.mem_cons]
          rintro (h1 | h1)
          · exact hne (by rw [h1])
          · exact hnot h1
        have hfold := foldl_visit_neighbor_reach (nb c.node_id)
          (fun x hx => (hr.vis_reach _ hcvis).tail hx) _ (pop_cand_inv hs hc) hpop
        have hdone : SearchReach qd nb efS init_node none
            ((nb c.node_id).foldl (visit_neighbor qd efS)
              ⟨s.topk_queue, rest, s.visited, s.topk_ub_dist⟩) := by
          refine ⟨hfold.2.init_vis, hfold.2.vis_reach, hfold.2.absent_far, hfold.2.small_all, ?_⟩
          intro hsmall v hv hnot _
          by_cases hvc : v = c.node_id
          · intro x hx
            rw [hvc] at hx
            exact (foldl_visit_neighbor_visited qd efS (nb c.node_id) _).1 x hx
          · exact hfold.2.small_closed hsmall v hv hnot (by simpa using hvc)
        exact ih _ _ hfold.1 hdone h

/-- The state in which `search_level` leaves the searcher: the visited nodes absent from the
result heap are at least as far as each of its entries; when the heap holds fewer than `efS`
entries, it holds every visited node, and the visited nodes are the nodes reachable from the
start node. -/
theorem search_loop_final {qd : Nat → D} {nb : Nat → List Nat} {efS init_node fuel : Nat}
    {s : SearchState D}
    (h : search_loop qd nb efS fuel (search_init qd init_node) = .ok s) :
    SearchInv qd efS s ∧
    (∀ v ∈ s.visited, Relation.ReflTransGen (fun a b => b ∈ nb a) init_node v) ∧
    (∀ v ∈ s.visited, v ∉ s.topk_queue.map Pair.node_id →
      ∀ p ∈ s.topk_queue, p.dist ≤ qd v) ∧
    (s.topk_queue.length < efS →
      (∀ v ∈ s.visited, v ∈ s.topk_queue.map Pair.node_id) ∧
      ∀ v, Relation.ReflTransGen (fun a b => b ∈ nb a) init_node v → v ∈ s.visited) := by
  obtain ⟨hs, hr, hexit⟩ := search_loop_reach qd nb efS init_node fuel _ s
    (search_init_inv qd efS init_node) (search_init_reach qd nb efS init_node) h
  refine ⟨hs, hr.vis_reach, hr.absent_far, fun hsmall => ⟨hr.small_all hsmall, ?_⟩⟩
  have hcand : s.cand_queue = [] := by
    rcases hexit with h0 | ⟨c, rest, hc, hlt⟩
    · exact h0
    · exfalso
      have hcmem : c ∈ s.cand_queue := by rw [hc]; exact List.mem_cons_self _ _
      obtain ⟨p, hp, hpc⟩ := List.mem_map.1 (hr.small_all hsmall c.node_id (hs.cand_vis c hcmem))
      obtain ⟨t, trest, ht⟩ := List.exists_cons_of_ne_nil hs.topk_ne
      have h1 := head_dist_le_of_sorted_ge hs.topk_sorted ht hp
      rw [hs.topk_dist p hp, hpc, ← hs.cand_dist c hcmem, ← hs.ub_eq t trest ht] at h1
      exact absurd hlt (not_lt.2 h1)
  intro v hv
  induction hv with
  | refl => exact hr.init_vis
  | tail _ hab ih =>
    exact hr.small_closed hsmall _ ih (by rw [hcand]; simp) (by simp) _ hab

end
end HNSW

namespace HNSW
section
set_option linter.unusedSectionVars false
variable {D : Type} [LinearOrder D]

theorem search_level_eq_topk {qd : Nat → D} {g : Graph} {init_node efS level fuel : Nat} :
    (∀ s, search_loop qd (g level) efS fuel (search_init qd init_node) = .ok s →
      search_level qd g init_node efS level fuel = .ok s.topk_queue) ∧
    (∀ r, search_level qd g init_node efS level fuel = .ok r →
      ∃ s, search_loop qd (g level) efS fuel (search_init qd init_node) = .ok s ∧
        s.topk_queue = r) := by
  constructor
  · intro s hs
    unfold search_level
    rw [hs]
  · intro r hr
    unfold search_level at hr
    split at hr
    · rename_i s hs
      cases hr
      exact ⟨s, hs, rfl⟩
    · cases hr

/-- C36. When `search_level` returns, with `visited` the nodes marked during the call: every
visited node that is absent from the result heap is at least as far from the query as every
entry of the heap, hence as the farthest; and if the heap holds fewer than `efS` entries, it
contains every visited node, and the visited nodes are exactly the nodes reachable from the
start node through the edges of the level. The call does return when the neighbor ids of the
level and the start node are below `n`, once the loop may run `n + 1` times. -/
theorem search_level_visited (qd : Nat → D) (g : Graph) (init_node efS level fuel : Nat) :
    (∀ r, search_level qd g init_node efS level fuel = .ok r →
      ∃ s, search_loop qd (g level) efS fuel (search_init qd init_node) = .ok s ∧
        s.topk_queue = r ∧
        (∀ v ∈ s.visited, v ∉ r.map Pair.node_id → ∀ p ∈ r, p.dist ≤ qd v) ∧
        (r.length < efS →
          (∀ v ∈ s.visited, v ∈ r.map Pair.node_id) ∧
          ∀ v, v ∈ s.visited ↔
            Relation.ReflTransGen (fun a b => b ∈ g level a) init_node v)) ∧
    (∀ n, (∀ y x, x ∈ g level y → x < n) → init_node < n → n < fuel →
      ∃ r, search_level qd g init_node efS level fuel = .ok r) := by
  refine ⟨?_, fun n hnb hinit hf => search_level_terminates qd efS hnb hinit hf⟩
  intro r hr
  obtain ⟨s, hs, rfl⟩ := search_level_eq_topk.2 r hr
  obtain ⟨_, h1, h2, h3⟩ := search_loop_final hs
  exact ⟨s, hs, rfl, h2, fun hsmall => ⟨(h3 hsmall).1, fun v => ⟨h1 v, (h3 hsmall).2 v⟩⟩⟩

theorem search_level_visited_witness :
    search_level example_qd duplicate_graph 0 2 0 4 = .ok [⟨4, 0⟩, ⟨1, 1⟩] ∧
    ∃ s, search_loop example_qd (duplicate_graph 0) 2 4 (search_init example_qd 0) = .ok s ∧
      s.topk_queue = [⟨4, 0⟩, ⟨1, 1⟩] ∧
      (∀ v ∈ s.visited, v ∉ ([⟨4, 0⟩, ⟨1, 1⟩] : List (Pair Nat)).map Pair.node_id →
        ∀ p ∈ ([⟨4, 0⟩, ⟨1, 1⟩] : List (Pair Nat)), p.dist ≤ example_qd v) ∧
      (([⟨4, 0⟩, ⟨1, 1⟩] : List (Pair Nat)).length < 2 →
        (∀ v ∈ s.visited, v ∈ ([⟨4, 0⟩, ⟨1, 1⟩] : List (Pair Nat)).map Pair.node_id) ∧
        ∀ v, v ∈ s.visited ↔
          Relation.ReflTransGen (fun a b => b ∈ duplicate_graph 0 a) 0 v) :=
  ⟨rfl, (search_level_visited example_qd duplicate_graph 0 2 0 4).1 _ rfl⟩

theorem reachable_lt {h : Index} (hwf : h.well_formed) {c : Nat} (hc : c < h.num_node) {v : Nat}
    (hv : reachable h.graph c v) : v < h.num_node := by
  unfold reachable at hv
  induction hv with
  | refl => exact hc
  | tail _ hab _ => exact hwf.2 0 _ _ hab

theorem length_le_ncard {l : List Nat} {S : Set Nat} (hn : l.Nodup) (hsub : ∀ x ∈ l, x ∈ S)
    (hfin : S.Finite) : l.length ≤ S.ncard := by
  rw [← List.toFinset_card_of_nodup hn, ← Set.ncard_coe_Finset]
  exact Set.ncard_le_ncard (fun x hx => hsub x (List.mem_toFinset.1 hx)) hfin

theorem ncard_le_length {l : List Nat} {S : Set Nat} (hsub : ∀ x ∈ S, x ∈ l) :
    S.ncard ≤ l.length := by
  refine le_trans ?_ (List.toFinset_card_le l)
  rw [← Set.ncard_coe_Finset]
  exact Set.ncard_le_ncard (fun x hx => List.mem_toFinset.2 (hsub x hx))
    (Finset.finite_toSet _)

/-- The result heap of a level-0 search with a beam `efS ≥ 1` holds `min(efS, r)` entries,
`r` being the number of nodes reachable from the start node. -/
theorem search_level_length {qd : Nat → D} {h : Index} {c efS fuel : Nat} {r : List (Pair D)}
    (hwf : h.well_formed) (hc : c < h.num_node) (hefS : 1 ≤ efS)
    (hr : search_level qd h.graph c efS 0 fuel = .ok r) :
    r.length = min efS (Set.ncard {v | reachable h.graph c v}) := by
  obtain ⟨s, hs, rfl⟩ := search_level_eq_topk.2 r hr
  obtain ⟨hI, h1, _, h3⟩ := search_loop_final hs
  have hfin : {v | reachable h.graph c v}.Finite :=
    (Set.finite_lt_nat h.num_node).subset (fun v hv => reachable_lt hwf hc hv)
  have hle : s.topk_queue.length ≤ Set.ncard {v | reachable h.graph c v} := by
    have := length_le_ncard hI.topk_nodup (S := {v | reachable h.graph c v}) (fun x hx => by
      obtain ⟨p, hp, rfl⟩ := List.mem_map.1 hx
      exact h1 _ (hI.topk_vis p hp)) hfin
    rwa [List.length_map] at this
  have hlen := hI.topk_len
  rw [max_eq_left hefS] at hlen
  rcases Nat.lt_or_ge s.topk_queue.length efS with hsmall | hfull
  · have hge : Set.ncard {v | reachable h.graph c v} ≤ s.topk_queue.length := by
      have := ncard_le_length (S := {v | reachable h.graph c v})
        (l := s.topk_queue.map Pair.node_id)
        (fun x hx => (h3 hsmall).1 x ((h3 hsmall).2 x hx))
      rwa [List.length_map] at this
    omega
  · omega

/-- C35. For every well-formed index (entry point and neighbor ids below `num_node`), query,
`efS` and `k ≥ 1`, `predict_single` returns exactly `min(k, r)` pairs, where `r` is the number
of nodes reachable through level-0 edges from the node `c` at which the greedy descent ends
(`c` included); in particular it returns exactly `k` pairs when at least `k` nodes are
reachable. The call does return once the loops may run `num_node + 1` times. -/
theorem predict_single_count (qd : Nat → D) (h : Index) (efS topk fuel : Nat)
    (hwf : h.well_formed) (hk : 1 ≤ topk) :
    (∀ r, predict_single qd h efS topk fuel = .ok r →
      ∃ c d, greedy_descent qd h.graph fuel 0 h.max_level (h.init_node, qd h.init_node)
          = .ok (c, d) ∧
        r.length = min topk (Set.ncard {v | reachable h.graph c v}) ∧
        (topk ≤ Set.ncard {v | reachable h.graph c v} → r.length = topk)) ∧
    (h.num_node < fuel → ∃ r, predict_single qd h efS topk fuel = .ok r) := by
  refine ⟨?_, fun hf => predict_single_total efS topk hwf hf⟩
  intro r hr
  obtain ⟨st, q, hst, hq, rfl⟩ := predict_single_ok hr
  have hc : st.1 < h.num_node :=
    greedy_descent_mem (P := fun x => x < h.num_node) (fun l y x _ hx => hwf.2 l y x hx)
      _ _ _ hwf.1 hst
  have hlen := search_level_length hwf hc (le_trans hk (le_max_right efS topk)) hq
  have hmain : (sort_heap (if topk < efS then pop_down_to topk q else q)).length
      = min topk (Set.ncard {v | reachable h.graph st.1 v}) := by
    unfold sort_heap
    rw [List.length_reverse]
    split_ifs with hlt
    · rw [pop_down_to_eq_drop, List.length_drop, hlen, max_eq_left (le_of_lt hlt)]
      omega
    · rw [hlen, max_eq_right (not_lt.1 hlt)]
  refine ⟨st.1, st.2, hst, hmain, fun hge => ?_⟩
  rw [hmain]
  exact min_eq_left hge

theorem island_index_well_formed : island_index.well_formed := by
  refine ⟨by decide, ?_⟩
  intro l y x hx
  simp only [island_index] at hx ⊢
  split_ifs at hx with h0
  · rcases Nat.lt_or_ge y 3 with hy | hy
    · interval_cases y <;> simp at hx <;> omega
    · rw [List.getD_eq_default _ _ (by simpa using hy)] at hx; cases hx
  · cases hx

theorem predict_single_count_witness :
    island_index.well_formed ∧ 1 ≤ 3 ∧
    predict_single example_qd island_index 3 3 4 = .ok [⟨1, 1⟩, ⟨4, 0⟩] ∧
    ∃ c d, greedy_descent example_qd island_index.graph 4 0 island_index.max_level
        (island_index.init_node, example_qd island_index.init_node) = .ok (c, d) ∧
      ([⟨1, 1⟩, ⟨4, 0⟩] : List (Pair Nat)).length
        = min 3 (Set.ncard {v | reachable island_index.graph c v}) ∧
      (3 ≤ Set.ncard {v | reachable island_index.graph c v} →
        ([⟨1, 1⟩, ⟨4, 0⟩] : List (Pair Nat)).length = 3) :=
  ⟨island_index_well_formed, by decide, rfl,
    (predict_single_count example_qd island_index 3 3 4 island_index_well_formed
      (by decide)).1 _ rfl⟩

end
end HNSW

namespace ProductQuantizer4Bits

theorem read_block_drop_take {R : Type} {v y : List R} {off len : Nat}
    (h : read_block v off len = some y) : y = (v.drop off).take len := by
  unfold read_block at h
  split_ifs at h
  simp only [Option.some.injEq] at h
  exact h.symm

theorem cluster_sum_succ {R : Type} (env : Collaborators R) (X : drm_t R) (dsub : Nat)
    (assign : List Nat) (c n : Nat) (y : List R) :
    cluster_sum env X dsub assign c (n + 1) y
      = if assign[n]? = some c then
          env.do_axpy ((X.val.drop (n * X.cols)).take dsub) (cluster_sum env X dsub assign c n y)
        else cluster_sum env X dsub assign c n y := by
  unfold cluster_sum
  rw [List.range_succ, List.foldl_append]
  rfl

theorem cluster_count_succ (assign : List Nat) (c n : Nat) :
    cluster_count assign c (n + 1)
      = cluster_count assign c n + if assign[n]? = some c then 1 else 0 := by
  unfold cluster_count
  rw [List.range_succ, List.filter_append, List.length_append]
  by_cases h : assign[n]? = some c
  · simp [h]
  · simp [h]

/-- One thread's loop over the rows, seen from cluster `c`: in the thread's range the block of
`c` gains the rows assigned to `c` and its size their number; outside nothing changes. -/
theorem accumulate_rows_block {R : Type} (env : Collaborators R) (X : drm_t R) (dsub : Nat)
    (assign : List Nat) (c_l c_r c : Nat)
    (haxpy : ∀ x y, x.length = y.length → (env.do_axpy x y).length = y.length)
    (st st' : List R × List Nat)
    (h : accumulate_rows env X dsub assign c_l c_r st = some st') :
    st'.1.length = st.1.length ∧ st'.2.length = st.2.length ∧
    ((c_l ≤ c ∧ c < c_r) →
      centroid_block st'.1 dsub c
        = cluster_sum env X dsub assign c X.rows (centroid_block st.1 dsub c) ∧
      st'.2[c]? = (st.2[c]?).map (fun size => size + cluster_count assign c X.rows)) ∧
    (¬ (c_l ≤ c ∧ c < c_r) →
      centroid_block st'.1 dsub c = centroid_block st.1 dsub c ∧ st'.2[c]? = st.2[c]?) := by
  unfold accumulate_rows at h
  have hP := foldlM_range_invariant _ (fun n (s : List R × List Nat) =>
    s.1.length = st.1.length ∧ s.2.length = st.2.length ∧
    ((c_l ≤ c ∧ c < c_r) →
      centroid_block s.1 dsub c
        = cluster_sum env X dsub assign c n (centroid_block st.1 dsub c) ∧
      s.2[c]? = (st.2[c]?).map (fun size => size + cluster_count assign c n)) ∧
    (¬ (c_l ≤ c ∧ c < c_r) →
      centroid_block s.1 dsub c = centroid_block st.1 dsub c ∧ s.2[c]? = st.2[c]?))
    X.rows ?_ st st' ⟨rfl, rfl, fun _ => ⟨rfl, ?_⟩, fun _ => ⟨rfl, rfl⟩⟩ h
  · exact hP
  · intro i s s' _ hs hstep
    split at hstep
    · cases hstep
    · rename_i ci hci
      split_ifs at hstep with hrange
      · split at hstep
        · rename_i y xi size hy hxi hsize
          simp only [Option.map_eq_some'] at hstep
          obtain ⟨w, hw, rfl⟩ := hstep
          have hylen : (env.do_axpy xi y).length = dsub := by
            rw [haxpy _ _ ((read_block_length hxi).trans (read_block_length hy).symm),
              read_block_length hy]
          refine ⟨by rw [← hs.1]; exact write_block_length hw,
            by simp only [List.length_set]; exact hs.2.1, ?_, ?_⟩
          · intro hc
            rw [cluster_sum_succ, cluster_count_succ, hci]
            by_cases hcc : ci = c
            · subst hcc
              rw [if_pos rfl, if_pos rfl]
              refine ⟨?_, ?_⟩
              · simp only
                rw [write_block_same hw hylen, ← (hs.2.2.1 hc).1, ← read_block_eq hy,
                  ← read_block_drop_take hxi]
              · simp only
                have h2 := (hs.2.2.1 hc).2
                rw [hsize] at h2
                have hlt : ci < s.2.length := by
                  by_contra hnot
                  rw [List.getElem?_eq_none (not_lt.1 hnot)] at hsize
                  cases hsize
                rw [List.getElem?_set_self hlt]
                cases h0 : st.2[ci]? with
                | none => rw [h0] at h2; cases h2
                | some s0 =>
                  rw [h0] at h2
                  simp only [Option.map_some', Option.some.injEq] at h2 ⊢
                  omega
            · have hne : ¬ (some ci = some c) := fun hh => hcc (Option.some.inj hh)
              rw [if_neg hne, if_neg hne, Nat.add_zero]
              simp only
              rw [write_block_other hw hylen hcc, List.getElem?_set_ne hcc]
              exact hs.2.2.1 hc
          · intro hc
            have hcc : ci ≠ c := fun hh => hc (hh ▸ hrange)
            simp only
            rw [write_block_other hw hylen hcc, List.getElem?_set_ne hcc]
            exact hs.2.2.2 hc
        · cases hstep
      · simp only [Option.some.injEq] at hstep
        subst hstep
        refine ⟨hs.1, hs.2.1, ?_, hs.2.2.2⟩
        intro hc
        have hcc : ci ≠ c := fun hh => hrange (hh ▸ hc)
        have hne : ¬ (some ci = some c) := fun hh => hcc (Option.some.inj hh)
        rw [cluster_sum_succ, cluster_count_succ, hci, if_neg hne, if_neg hne, Nat.add_zero]
        exact hs.2.2.1 hc
  · unfold cluster_count
    cases st.2[c]? <;> simp

/-- One thread's normalizing loop, seen from cluster `c`: in the thread's range the block of
`c` is scaled by its size; outside nothing changes. -/
theorem normalize_centroids_block {R : Type} (env : Collaborators R) (dsub c_l c_r c : Nat)
    (centroids_size : List Nat) (centroids centroids' : List R)
    (hscale : ∀ n y, (env.do_scale n y).length = y.length)
    (h : normalize_centroids env dsub c_l c_r centroids_size centroids = some centroids') :
    centroids'.length = centroids.length ∧
    ((c_l ≤ c ∧ c < c_r) → ∃ size, centroids_size[c]? = some size ∧
      centroid_block centroids' dsub c = env.do_scale size (centroid_block centroids dsub c)) ∧
    (¬ (c_l ≤ c ∧ c < c_r) →
      centroid_block centroids' dsub c = centroid_block centroids dsub c) := by
  unfold normalize_centroids at h
  have hP := foldlM_range_invariant _ (fun t (v : List R) =>
    v.length = centroids.length ∧
    ((c_l ≤ c ∧ c < c_l + t) → ∃ size, centroids_size[c]? = some size ∧
      centroid_block v dsub c = env.do_scale size (centroid_block centroids dsub c)) ∧
    (¬ (c_l ≤ c ∧ c < c_l + t) →
      centroid_block v dsub c = centroid_block centroids dsub c)) (c_r - c_l) ?_
    centroids centroids' ⟨rfl, fun hh => absurd hh.2 (by omega), fun _ => rfl⟩ h
  · refine ⟨hP.1, fun hc => hP.2.1 ⟨hc.1, by omega⟩, fun hc => hP.2.2 (fun hh => hc ⟨hh.1, by omega⟩)⟩
  · intro t v v' _ hv hstep
    split at hstep
    · rename_i y size hy hsize
      have hylen : (env.do_scale size y).length = dsub := by
        rw [hscale, read_block_length hy]
      refine ⟨by rw [← hv.1]; exact write_block_length hstep, ?_, ?_⟩
      · intro hc
        by_cases hct : c_l + t = c
        · rw [hct] at hy hsize hstep
          refine ⟨size, hsize, ?_⟩
          rw [write_block_same hstep hylen, read_block_eq hy, hv.2.2 (by omega)]
        · obtain ⟨sz, h1, h2⟩ := hv.2.1 ⟨hc.1, by omega⟩
          exact ⟨sz, h1, by rw [write_block_other hstep hylen hct, h2]⟩
      · intro hc
        have hct : c_l + t ≠ c := by omega
        rw [write_block_other hstep hylen hct]
        exact hv.2.2 (fun hh => hc ⟨hh.1, by omega⟩)
    · cases hstep

/-- The centroid that `compute_centroids` leaves for cluster `c`: the rows assigned to `c`
added to zero by `do_axpy`, then scaled by `do_scale(1.0 / count, ...)`. -/
theorem compute_centroids_block {R : Type} [Zero R] (env : Collaborators R) (X : drm_t R)
    (dsub ksub : Nat) (assign : List Nat) (threads c : Nat)
    (haxpy : ∀ x y, x.length = y.length → (env.do_axpy x y).length = y.length)
    (hscale : ∀ n y, (env.do_scale n y).length = y.length)
    (hT : 1 ≤ threads) (hc : c < ksub) (centroids : List R)
    (h : compute_centroids env X dsub ksub assign threads = some centroids) :
    centroids.length = ksub * dsub ∧
    centroid_block centroids dsub c
      = env.do_scale (cluster_count assign c X.rows)
        (cluster_sum env X dsub assign c X.rows (List.replicate dsub 0)) := by
  unfold compute_centroids at h
  rw [if_neg (by omega : ¬ threads = 0)] at h
  simp only [Option.map_eq_some'] at h
  obtain ⟨st, hst, rfl⟩ := h
  have hP := foldlM_range_invariant _ (fun r (s : List R × List Nat) =>
    s.1.length = ksub * dsub ∧
    (c < ksub * r / threads →
      centroid_block s.1 dsub c = env.do_scale (cluster_count assign c X.rows)
        (cluster_sum env X dsub assign c X.rows (List.replicate dsub 0))) ∧
    (¬ c < ksub * r / threads →
      centroid_block s.1 dsub c = List.replicate dsub 0 ∧ s.2[c]? = some 0)) threads ?_
    _ st ⟨List.length_replicate _ _, ?_, ?_⟩ hst
  · refine ⟨hP.1, hP.2.1 ?_⟩
    rw [Nat.mul_div_cancel _ (by omega : 0 < threads)]
    exact hc
  · intro r s s' _ hs hstep
    split at hstep
    · cases hstep
    · rename_i s1 hs1
      simp only [Option.map_eq_some'] at hstep
      obtain ⟨v, hv, rfl⟩ := hstep
      obtain ⟨a1, _, a3, a4⟩ := accumulate_rows_block env X dsub assign _ _ c haxpy s s1 hs1
      obtain ⟨b1, b2, b3⟩ := normalize_centroids_block env dsub _ _ c s1.2 s1.1 v hscale hv
      have hle : ksub * r / threads ≤ ksub * (r + 1) / threads :=
        Nat.div_le_div_right (Nat.mul_le_mul_left ksub (Nat.le_succ r))
      refine ⟨by rw [b1, a1]; exact hs.1, ?_, ?_⟩
      · intro hlt
        by_cases hdone : c < ksub * r / threads
        · have hout : ¬ (ksub * r / threads ≤ c ∧ c < ksub * (r + 1) / threads) := by omega
          simp only
          rw [b3 hout, (a4 hout).1]
          exact hs.2.1 hdone
        · have hin : ksub * r / threads ≤ c ∧ c < ksub * (r + 1) / threads := by omega
          obtain ⟨size, hsize, hblock⟩ := b2 hin
          obtain ⟨e1, e2⟩ := a3 hin
          obtain ⟨z1, z2⟩ := hs.2.2 hdone
          rw [e2, z2] at hsize
          simp only [Option.map_some', Option.some.injEq, Nat.zero_add] at hsize
          simp only
          rw [hblock, e1, z1, hsize]
      · intro hnot
        have hout : ¬ (ksub * r / threads ≤ c ∧ c < ksub * (r + 1) / threads) := by omega
        have hdone : ¬ c < ksub * r / threads := by omega
        simp only
        rw [b3 hout, (a4 hout).1, (a4 hout).2]
        exact hs.2.2 hdone
  · intro hlt
    rw [Nat.mul_zero, Nat.zero_div] at hlt
    exact absurd hlt (Nat.not_lt_zero c)
  · intro _
    exact ⟨centroid_block_replicate 0 dsub ksub c hc, by
      simp only [List.getElem?_replicate, if_pos hc]⟩

end ProductQuantizer4Bits

namespace ProductQuantizer4Bits

theorem accumulate_rows_total {R : Type} (env : Collaborators R) (X : drm_t R)
    (dsub ksub : Nat) (assign : List Nat) (c_l c_r : Nat)
    (haxpy : ∀ x y, x.length = y.length → (env.do_axpy x y).length = y.length)
    (hassign : X.rows ≤ assign.length)
    (hX : ∀ i, i < X.rows → i * X.cols + dsub ≤ X.val.length) (hcr : c_r ≤ ksub)
    (st : List R × List Nat) (h1 : st.1.length = ksub * dsub) (h2 : st.2.length = ksub) :
    ∃ st', accumulate_rows env X dsub assign c_l c_r st = some st' ∧
      st'.1.length = ksub * dsub ∧ st'.2.length = ksub := by
  unfold accumulate_rows
  refine foldlM_range_total _ (fun _ (s : List R × List Nat) =>
    s.1.length = ksub * dsub ∧ s.2.length = ksub) X.rows ?_ st ⟨h1, h2⟩
  intro i s hi hs
  have hilt : i < assign.length := by omega
  obtain ⟨ci, hai⟩ : ∃ ci, assign[i]? = some ci := ⟨assign[i], List.getElem?_eq_getElem hilt⟩
  rw [hai]
  dsimp only
  by_cases hrange : c_l ≤ ci ∧ ci < c_r
  · rw [if_pos hrange]
    have hci : ci < ksub := by omega
    have hb : (ci + 1) * dsub ≤ ksub * dsub := Nat.mul_le_mul_right dsub hci
    rw [Nat.add_mul, Nat.one_mul] at hb
    obtain ⟨y, hy, hylen⟩ := read_block_total s.1 (ci * dsub) dsub (by omega)
    obtain ⟨xi, hxi, hxilen⟩ := read_block_total X.val (i * X.cols) dsub (hX i hi)
    have hcilt : ci < s.2.length := by omega
    obtain ⟨size, hsz⟩ : ∃ size, s.2[ci]? = some size :=
      ⟨s.2[ci], List.getElem?_eq_getElem hcilt⟩
    obtain ⟨w, hw, hwlen⟩ := write_block_total s.1 (env.do_axpy xi y) (ci * dsub)
      (by rw [haxpy _ _ (hxilen.trans hylen.symm), hylen]; omega)
    refine ⟨(w, s.2.set ci (size + 1)), ?_, hwlen.trans hs.1, ?_⟩
    · simp only [hy, hxi, hsz, hw, Option.map_some']
    · simp only [List.length_set]
      exact hs.2
  · rw [if_neg hrange]
    exact ⟨s, rfl, hs⟩

/-- On a matrix that has its rows, with an assignment for each row and at least one thread,
`compute_centroids` returns `ksub * dsub` values. -/
theorem compute_centroids_total {R : Type} [Zero R] (env : Collaborators R) (X : drm_t R)
    (dsub ksub : Nat) (assign : List Nat) (threads : Nat)
    (haxpy : ∀ x y, x.length = y.length → (env.do_axpy x y).length = y.length)
    (hscale : ∀ n y, (env.do_scale n y).length = y.length)
    (hT : 1 ≤ threads) (hassign : X.rows ≤ assign.length)
    (hX : ∀ i, i < X.rows → i * X.cols + dsub ≤ X.val.length) :
    ∃ centroids, compute_centroids env X dsub ksub assign threads = some centroids ∧
      centroids.length = ksub * dsub := by
  unfold compute_centroids
  rw [if_neg (by omega : ¬ threads = 0)]
  obtain ⟨st, hst, hP⟩ := foldlM_range_total
    (fun (st : List R × List Nat) rank =>
      let c_l := ksub * rank / threads
      let c_r := ksub * (rank + 1) / threads
      match accumulate_rows env X dsub assign c_l c_r st with
      | none => none
      | some st =>
        (normalize_centroids env dsub c_l c_r st.2 st.1).map (fun centroids => (centroids, st.2)))
    (fun _ (st : List R × List Nat) => st.1.length = ksub * dsub ∧ st.2.length = ksub) threads
    (fun rank st hrank hst => by
      have hcr : ksub * (rank + 1) / threads ≤ ksub := by
        apply Nat.div_le_of_le_mul
        rw [Nat.mul_comm threads ksub]
        exact Nat.mul_le_mul_left ksub hrank
      obtain ⟨st1, hacc, ha1, ha2⟩ := accumulate_rows_total env X dsub ksub assign
        (ksub * rank / threads) (ksub * (rank + 1) / threads) haxpy hassign hX hcr st
        hst.1 hst.2
      obtain ⟨v, hv, hvlen⟩ := normalize_centroids_total env dsub ksub
        (ksub * rank / threads) (ksub * (rank + 1) / threads) st1.2 st1.1 hscale ha1 ha2 hcr
      exact ⟨(v, st1.2), by simp only [hacc, hv, Option.map_some'], hvlen, ha2⟩)
    (List.replicate (ksub * dsub) (0 : R), List.replicate ksub 0)
    ⟨List.length_replicate _ _, List.length_replicate _ _⟩
  exact ⟨st.1, congrArg (Option.map Prod.fst) hst, hP.1⟩

/-- The ranges `[ksub * r / T, ksub * (r + 1) / T)` of the threads `r = 0, ..., T - 1` contain
each cluster index below `ksub` exactly once. -/
theorem thread_ranges_partition (ksub threads c : Nat) (hT : 1 ≤ threads) (hc : c < ksub) :
    ∃! r, r < threads ∧ ksub * r / threads ≤ c ∧ c < ksub * (r + 1) / threads := by
  have hmono : ∀ a b, a ≤ b → ksub * a / threads ≤ ksub * b / threads :=
    fun a b hab => Nat.div_le_div_right (Nat.mul_le_mul_left ksub hab)
  have hex : ∃ r, c < ksub * (r + 1) / threads :=
    ⟨threads - 1, by
      rw [Nat.sub_add_cancel hT, Nat.mul_div_cancel _ (by omega : 0 < threads)]
      exact hc⟩
  have hfind := Nat.find_spec hex
  have hmin := fun m => Nat.find_min hex (m := m)
  refine ⟨Nat.find hex, ⟨?_, ?_, hfind⟩, ?_⟩
  · by_contra hge
    have h1 : threads - 1 < Nat.find hex := by omega
    apply hmin (threads - 1) h1
    rw [Nat.sub_add_cancel hT, Nat.mul_div_cancel _ (by omega : 0 < threads)]
    exact hc
  · rcases Nat.eq_zero_or_pos (Nat.find hex) with h0 | hpos
    · rw [h0, Nat.mul_zero, Nat.zero_div]
      exact Nat.zero_le c
    · have h1 := hmin (Nat.find hex - 1) (by omega)
      rw [Nat.sub_add_cancel hpos] at h1
      exact not_lt.1 h1
  · intro r ⟨_, hr1, hr2⟩
    rcases Nat.lt_trichotomy r (Nat.find hex) with h1 | h1 | h1
    · exact absurd hr2 (hmin r h1)
    · exact h1
    · exfalso
      have h2 := hmono (Nat.find hex + 1) r h1
      omega

end ProductQuantizer4Bits

namespace ProductQuantizer4Bits

theorem cluster_sum_exact {K : Type} [Field K] (env : Collaborators K) (X : drm_t K)
    (dsub : Nat) (assign : List Nat) (c : Nat)
    (haxpy : ∀ x y, env.do_axpy x y = List.zipWith (fun yi xi => yi + 1 * xi) y x)
    (hX : ∀ i, i < X.rows → i * X.cols + dsub ≤ X.val.length) :
    ∀ n, n ≤ X.rows →
      (cluster_sum env X dsub assign c n (List.replicate dsub 0)).length = dsub ∧
      ∀ j, j < dsub →
        (cluster_sum env X dsub assign c n (List.replicate dsub 0))[j]?
          = some (∑ i in Finset.range n,
              if assign[i]? = some c then X.val.getD (i * X.cols + j) 0 else 0) := by
  intro n
  induction n with
  | zero =>
    intro _
    refine ⟨by simp [cluster_sum], fun j hj => ?_⟩
    simp [cluster_sum, List.getElem?_replicate, hj]
  | succ n ih =>
    intro hn
    obtain ⟨ih1, ih2⟩ := ih (by omega)
    have hrow := hX n (by omega)
    rw [cluster_sum_succ]
    by_cases ha : assign[n]? = some c
    · rw [if_pos ha, haxpy]
      refine ⟨?_, fun j hj => ?_⟩
      · rw [List.length_zipWith, ih1, List.length_take, List.length_drop]
        omega
      · rw [List.getElem?_zipWith, ih2 j hj, List.getElem?_take, if_pos hj, List.getElem?_drop,
          Finset.sum_range_succ, if_pos ha]
        have hlt : n * X.cols + j < X.val.length := by omega
        rw [List.getD_eq_getElem _ _ hlt, List.getElem?_eq_getElem hlt]
        simp only [one_mul]
    · rw [if_neg ha]
      refine ⟨ih1, fun j hj => ?_⟩
      rw [ih2 j hj, Finset.sum_range_succ, if_neg ha, add_zero]

end ProductQuantizer4Bits

namespace ProductQuantizer4Bits

/-- A loop over `0, ..., n - 1` whose body fails at some `k < n` fails. -/
theorem foldlM_range_fails {β : Type} (f : β → Nat → Option β) (k : Nat)
    (hk : ∀ b, f b k = none) : ∀ (n : Nat) (b0 : β), k < n → (List.range n).foldlM f b0 = none := by
  intro n
  induction n with
  | zero => intro b0 h; exact absurd h (Nat.not_lt_zero k)
  | succ n ih =>
    intro b0 h
    rw [List.range_succ, List.foldlM_append]
    cases hm : (List.range n).foldlM f b0 with
    | none => rfl
    | some b1 =>
      simp only [List.foldlM_cons, List.foldlM_nil, bind_pure, Option.bind_eq_bind,
        Option.some_bind]
      rcases Nat.lt_or_ge k n with h1 | h1
      · rw [ih b0 h1] at hm; cases hm
      · have : k = n := by omega
        rw [← this]
        exact hk b1

/-- With more sampled points than shuffled indices, the copy reads `indices[i]` past the end of
the index array. -/
theorem copy_slices_overrun {R : Type} (X_trn : drm_t R) (dimension local_dimension m : Nat)
    (indices : List Nat) (sub_sample_points : Nat) (xslice : List R)
    (h : indices.length < sub_sample_points) :
    copy_slices X_trn dimension local_dimension m indices sub_sample_points xslice = none := by
  unfold copy_slices
  refine foldlM_range_fails _ indices.length (fun b => ?_) sub_sample_points xslice h
  rw [List.getElem?_eq_none (le_refl _)]

theorem train_codebooks_overrun {R : Type} [Zero R] (env : Collaborators R) (X_trn : drm_t R)
    (num_local_codebooks dimension local_dimension n_data sub_sample_points : Nat)
    (seed : Int) (max_iter : Nat) (threads : Int) (olc0 : List R)
    (hshuffle : ∀ m l, (env.random_shuffle m l).length = l.length)
    (hM : 1 ≤ num_local_codebooks) (h : n_data < sub_sample_points) :
    train_codebooks env X_trn num_local_codebooks dimension local_dimension n_data
      sub_sample_points seed max_iter threads olc0 = none := by
  unfold train_codebooks
  rw [foldlM_range_fails _ 0 (fun b => ?_) num_local_codebooks _ hM]
  · rfl
  · dsimp only
    rw [copy_slices_overrun X_trn dimension local_dimension 0 _ sub_sample_points b.2
      (by rw [hshuffle, List.length_range]; exact h)]

theorem copy_slices_total {R : Type} (X_trn : drm_t R) (M local_dimension m : Nat)
    (indices : List Nat) (sub_sample_points : Nat) (xslice : List R)
    (hX : X_trn.val.length = X_trn.rows * (M * local_dimension)) (hm : m < M)
    (hlen : sub_sample_points ≤ indices.length) (hidx : ∀ x ∈ indices, x < X_trn.rows)
    (hxs : xslice.length = sub_sample_points * local_dimension) :
    ∃ xslice', copy_slices X_trn (M * local_dimension) local_dimension m indices
        sub_sample_points xslice = some xslice' ∧
      xslice'.length = sub_sample_points * local_dimension := by
  unfold copy_slices
  refine foldlM_range_total _ (fun _ (xs : List R) =>
    xs.length = sub_sample_points * local_dimension) sub_sample_points ?_ xslice hxs
  intro i xs hi hxsl
  have hilt : i < indices.length := by omega
  obtain ⟨index, hindex⟩ : ∃ index, indices[i]? = some index :=
    ⟨indices[i], List.getElem?_eq_getElem hilt⟩
  have hin : index < X_trn.rows := by
    apply hidx
    rw [List.getElem?_eq_getElem hilt, Option.some.injEq] at hindex
    rw [← hindex]
    exact List.getElem_mem hilt
  have h1 : (index + 1) * (M * local_dimension) ≤ X_trn.rows * (M * local_dimension) :=
    Nat.mul_le_mul_right _ hin
  have h2 : (m + 1) * local_dimension ≤ M * local_dimension := Nat.mul_le_mul_right _ hm
  have h3 : (i + 1) * local_dimension ≤ sub_sample_points * local_dimension :=
    Nat.mul_le_mul_right _ hi
  rw [Nat.add_mul, Nat.one_mul] at h1 h2 h3
  obtain ⟨row, hrow, hrowlen⟩ := read_block_total X_trn.val
    (index * (M * local_dimension) + m * local_dimension) local_dimension (by omega)
  obtain ⟨w, hw, hwlen⟩ := write_block_total xs row (i * local_dimension)
    (by rw [hrowlen, hxsl]; omega)
  exact ⟨w, by simp only [hindex, hrow, hw], hwlen.trans hxsl⟩

/-- The loop over the sub-spaces returns when no more points are sampled than there are rows,
the shuffle permutes the indices, the clustering gives an assignment for each row and there is
at least one thread. -/
theorem train_codebooks_total {R : Type} [Zero R] (env : Collaborators R) (X_trn : drm_t R)
    (M local_dimension sub_sample_points : Nat) (seed : Int) (max_iter : Nat) (threads : Int)
    (olc0 : List R)
    (hshuffle : ∀ m l, (env.random_shuffle m l).Perm l)
    (hcluster : ∀ (Xs : drm_t R) s i t, Xs.rows ≤ (env.run_clustering Xs s i t).length)
    (haxpy : ∀ x y, x.length = y.length → (env.do_axpy x y).length = y.length)
    (hscale : ∀ n y, (env.do_scale n y).length = y.length)
    (hX : X_trn.val.length = X_trn.rows * (M * local_dimension))
    (hssp : sub_sample_points ≤ X_trn.rows) (hT : 1 ≤ threads)
    (hsize : M * 16 * local_dimension ≤ olc0.length) :
    ∃ olc, train_codebooks env X_trn M (M * local_dimension) local_dimension X_trn.rows
      sub_sample_points seed max_iter threads olc0 = some olc ∧ olc.length = olc0.length := by
  unfold train_codebooks
  obtain ⟨st, hst, hP⟩ := foldlM_range_total
    (fun (st : List R × List R) m =>
      let indices := env.random_shuffle m (List.range X_trn.rows)
      match copy_slices X_trn (M * local_dimension) local_dimension m indices
          sub_sample_points st.2 with
      | none => none
      | some xslice =>
        let Xsub : drm_t R := ⟨sub_sample_points, local_dimension, xslice⟩
        let assignments := env.run_clustering Xsub seed max_iter threads
        match compute_centroids env Xsub local_dimension 16 assignments threads.toNat with
        | none => none
        | some centroids =>
          (write_block st.1 (m * 16 * local_dimension) centroids).map
            (fun original_local_codebooks => (original_local_codebooks, xslice)))
    (fun _ (st : List R × List R) =>
      st.1.length = olc0.length ∧ st.2.length = sub_sample_points * local_dimension) M
    (fun m st hm hst => by
      have hperm := hshuffle m (List.range X_trn.rows)
      obtain ⟨xslice, hcopy, hxlen⟩ := copy_slices_total X_trn M local_dimension m
        (env.random_shuffle m (List.range X_trn.rows)) sub_sample_points st.2 hX hm
        (by rw [hperm.length_eq, List.length_range]; exact hssp)
        (fun x hx => List.mem_range.1 (hperm.subset hx)) hst.2
      obtain ⟨centroids, hcen, hclen⟩ := compute_centroids_total env
        ⟨sub_sample_points, local_dimension, xslice⟩ local_dimension 16
        (env.run_clustering ⟨sub_sample_points, local_dimension, xslice⟩ seed max_iter threads)
        threads.toNat haxpy hscale (by omega) (hcluster _ _ _ _) (fun i hi => by
          have h3 : (i + 1) * local_dimension ≤ sub_sample_points * local_dimension :=
            Nat.mul_le_mul_right _ hi
          rw [Nat.add_mul, Nat.one_mul] at h3
          show i * local_dimension + local_dimension ≤ xslice.length
          rw [hxlen]
          exact h3)
      have h1 : (m + 1) * (16 * local_dimension) ≤ M * (16 * local_dimension) :=
        Nat.mul_le_mul_right _ hm
      rw [Nat.add_mul, Nat.one_mul, ← Nat.mul_assoc, ← Nat.mul_assoc] at h1
      obtain ⟨w, hw, hwlen⟩ := write_block_total st.1 centroids (m * 16 * local_dimension)
        (by rw [hclen, hst.1]; omega)
      exact ⟨(w, xslice), by simp only [hcopy, hcen, hw, Option.map_some'],
        hwlen.trans hst.1, hxlen⟩)
    (olc0, List.replicate (sub_sample_points * local_dimension) (0 : R))
    ⟨rfl, List.length_replicate _ _⟩
  exact ⟨st.1, congrArg (Option.map Prod.fst) hst, hP.1⟩

end ProductQuantizer4Bits

namespace ProductQuantizer4Bits

/-- C34. `train` reads `indices[i]` for every `i < sub_sample_points` from an index array of
`n_data` entries. When `sub_sample_points` is larger than the number of training rows (`M` an
`int` with `1 ≤ M` that divides `D`, a shuffle that keeps the number of indices), the first
sub-space already reads past the end of the index array: `train` ends in a read outside a
vector, not with a quantizer. When `sub_sample_points` is at most the number of rows (or 0, all
rows), with a shuffle that permutes the indices, an assignment for every row, helpers that
write `dsub` values and at least one thread, on a matrix that has `rows * D` values, every read
is inside its vector and `train` returns a quantizer. -/
theorem train_sample_bounds {R : Type} [Zero R] (env : Collaborators R) (target : Target)
    (pq : Quantizer R) (X_trn : drm_t R) (M : Int) (sub_sample_points : Nat) (seed : Int)
    (max_iter : Nat) (threads : Int) (hM1 : 1 ≤ M) (hM : M < 2 ^ 31)
    (hdiv : X_trn.cols % M.toNat = 0) :
    ((∀ m l, (env.random_shuffle m l).length = l.length) → X_trn.rows < sub_sample_points →
      ∃ pq1, train env target pq X_trn M sub_sample_points seed max_iter threads
        = .error (.out_of_bounds, pq1)) ∧
    ((∀ m l, (env.random_shuffle m l).Perm l) →
      (∀ (Xs : drm_t R) s i t, Xs.rows ≤ (env.run_clustering Xs s i t).length) →
      (∀ x y, x.length = y.length → (env.do_axpy x y).length = y.length) →
      (∀ n y, (env.do_scale n y).length = y.length) →
      X_trn.val.length = X_trn.rows * X_trn.cols → sub_sample_points ≤ X_trn.rows →
      1 ≤ threads →
      ∃ pq', train env target pq X_trn M sub_sample_points seed max_iter threads = .ok pq') := by
  have h64 : (M % 2 ^ 64).toNat = M.toNat := by
    rw [Int.emod_eq_of_lt (by omega) (by omega)]
  have h32 : (M % 2 ^ 32).toNat = M.toNat := by
    rw [Int.emod_eq_of_lt (by omega) (by omega)]
  have hMpos : 1 ≤ M.toNat := by omega
  constructor
  · intro hshuffle hover
    have hnone := train_codebooks_overrun env X_trn M.toNat X_trn.cols (X_trn.cols / M.toNat)
      X_trn.rows (if sub_sample_points = 0 then X_trn.rows else sub_sample_points) seed max_iter
      threads (resize pq.original_local_codebooks (M.toNat * 16 * X_trn.cols) 0) hshuffle hMpos
      (by rw [if_neg (by omega)]; exact hover)
    unfold train
    simp only [h64, h32]
    rw [if_neg (not_not.2 hdiv)]
    simp only [hnone]
    exact ⟨_, rfl⟩
  · intro hshuffle hcluster haxpy hscale hX hssp hT
    have hD : M.toNat * (X_trn.cols / M.toNat) = X_trn.cols :=
      Nat.mul_div_cancel' (Nat.dvd_of_mod_eq_zero hdiv)
    have hsz : M.toNat * 16 * (X_trn.cols / M.toNat) ≤ M.toNat * 16 * X_trn.cols :=
      Nat.mul_le_mul_left _ (Nat.div_le_self _ _)
    obtain ⟨olc, holc, hlen⟩ := train_codebooks_total env X_trn M.toNat (X_trn.cols / M.toNat)
      (if sub_sample_points = 0 then X_trn.rows else sub_sample_points) seed max_iter threads
      (resize pq.original_local_codebooks (M.toNat * 16 * X_trn.cols) 0) hshuffle hcluster
      haxpy hscale (by rw [hD]; exact hX) (by split_ifs <;> omega) hT
      (by rw [resize_length]; exact hsz)
    rw [hD] at holc
    rw [resize_length] at hlen
    have hpack : ∃ pq', pack_codebook_for_inference target
        ⟨M.toNat, X_trn.cols / M.toNat, resize pq.global_centroid X_trn.cols 0,
          pq.local_codebooks, olc⟩ = some pq' := by
      cases target with
      | default => exact ⟨_, rfl⟩
      | avx512f =>
        exact pack_codebook_for_inference_avx512f_total _ (by
          show M.toNat * 16 * (X_trn.cols / M.toNat) ≤ olc.length
          rw [hlen]; exact hsz)
    obtain ⟨pq', hpq'⟩ := hpack
    exact ⟨pq', train_past_guard env target pq X_trn M sub_sample_points seed max_iter threads
      hM1 hM hdiv olc pq' holc hpq'⟩

theorem train_sample_bounds_witness :
    example_matrix.rows < 4 ∧
    (∃ pq1, train example_collaborators .default ⟨0, 0, [], [], []⟩ example_matrix 2 4 0 10 1
      = .error (.out_of_bounds, pq1)) ∧
    (train example_collaborators .default ⟨0, 0, [], [], []⟩ example_matrix 2 3 0 10 1).isOk
      = true :=
  ⟨by decide,
    (train_sample_bounds example_collaborators .default ⟨0, 0, [], [], []⟩ example_matrix 2 4 0
      10 1 (by decide) (by decide) (by decide)).1 (fun _ _ => rfl) (by decide),
    by decide⟩

end ProductQuantizer4Bits
